import Mathlib

/-! Multi-attribute linear-hashed files

A shallow embedding of `src/Code/reln.c` (`addToRelation`) and
`src/Code/query.c` (`startQuery`, `getNextTuple`).

Conventions of the embedding.

* `Count`, `Offset`, `Nat` and `int` values are natural numbers; the widths
  of these types are fixed in `defs.h`, which is not part of the sources, and
  no arithmetic of the modelled functions is taken modulo a word size.
* `NO_PAGE` and the `-1` stored in `is_ovflow` are `none`.
* A file is the list of its pages.  A computation that aborts (a failed
  `assert`, a page that cannot be read, a division by zero, an array index
  outside the allocated block) or that exhausts its loop budget is `none`.
* `free` has no effect on the values held by a page buffer.
* Every `while` loop that follows page links takes a `fuel` budget.
* `page.c`, `tuple.c`, `bits.c`, `hash.c` are not part of the sources.  The
  byte hash `hash_any` and the size `B` of a page body are parameters; the
  other helpers are modelled from the specification.
-/

namespace MALH

/-! ## Nat, tuples, choice vector -/

/-- A tuple is its comma-separated string, without the final NUL. -/
abbrev Tuple := List Char

/-- The string terminator. -/
def NUL : Char := Char.ofNat 0

/-- The attribute separator of a tuple string. -/
def COMMA : Char := Char.ofNat 44

/-- The wildcard character of a query string. -/
def QMARK : Char := Char.ofNat 63

/-- Number of bits of a hash value and of entries of a choice vector
(`MAXBITS`, `MAXCHVEC` of `defs.h`; 32 in the specification). -/
def MAXBITS : Nat := 32

/-- Modelled from the spec: `getLower` of `bits.c` (section 4.1, `low_bits`):
the low `k` bits of `v`. -/
def getLower (v : Nat) (k : Nat) : Nat := v % 2 ^ k

/-- Modelled from the spec: `bitIsSet` of `bits.c` (section 4.1, `bit_is_set`):
the value, 0 or 1, of bit `i` of `v`. -/
def bitIsSet (v : Nat) (i : Nat) : Nat := v / 2 ^ i % 2

/-- One entry of the choice vector: combined-hash bit `i` is bit `bit` of the
hash of attribute `att`. -/
structure ChVecItem where
  att : Nat
  bit : Nat
deriving DecidableEq

/-- Modelled from the spec: `strlen`: the number of bytes before the first NUL.
Bytes past the end of the list are the zero tail of the page body. -/
def strlen : List Char → Nat
  | [] => 0
  | c :: cs => if c = NUL then 0 else strlen cs + 1

/-- The C string that starts at the head of a byte buffer. -/
def cstr (s : List Char) : Tuple := s.take (strlen s)

/-- The strings visited by the loop
`while (strlen(data) != 0) { ...; data = data + strlen(data) + 1; }`
that `reln.c` and `query.c` run over the body of a page. -/
def cstrings : Nat → List Char → List Tuple
  | 0, _ => []
  | n + 1, s =>
    if strlen s = 0 then [] else cstr s :: cstrings n (s.drop (strlen s + 1))

/-- Helper of `tupleVals`: split at commas, `cur` being the field read so far. -/
def splitFields : List Char → List Char → List (List Char)
  | [], cur => [cur]
  | c :: cs, cur =>
    if c = COMMA then cur :: splitFields cs [] else splitFields cs (cur ++ [c])

/-- Modelled from the spec: `tupleVals` of `tuple.c` (section 3 and the tuple
grammar of section 6): the attribute values of a comma-separated tuple. -/
def tupleVals (t : Tuple) : List (List Char) := splitFields t []

/-- Modelled from the spec: the page of `page.c` (section 3, "Page"): `data`
is the part of the body written so far, the rest of the body being zero, so
that the free offset is `data.length`; `ovflow` is the link to the next
overflow page. -/
structure Page where
  data : List Char
  ovflow : Option Nat
deriving DecidableEq

/-- The relation descriptor `struct RelnRep` of `reln.c` together with the
contents of its data file and its overflow file. -/
structure Reln where
  nattrs : Nat
  depth : Nat
  sp : Nat
  npages : Nat
  ntups : Nat
  cv : List ChVecItem
  data : List Page
  ovflow : List Page
deriving DecidableEq

section Model

variable (hash_any : List Char → Nat) (B : Nat)

/-- Entry `i` of the choice vector. -/
def chvecItem (cv : List ChVecItem) (i : Nat) : ChVecItem := cv.getD i ⟨0, 0⟩

/-- Modelled from the spec: `tupleHash` of `tuple.c` (section 3, combined
hash): bit `i` of the result is bit `cv[i].bit` of the hash of attribute
`cv[i].att`, for `i < MAXBITS`. -/
def tupleHash (r : Reln) (t : Tuple) : Nat :=
  (List.range MAXBITS).foldl
    (fun acc i =>
      acc + 2 ^ i *
        bitIsSet (hash_any ((tupleVals t).getD (chvecItem r.cv i).att []))
          (chvecItem r.cv i).bit)
    0

/-- The bucket-address function of section 4.3 of the specification, written
from the spec's words:
`p = low_bits(h, d); if p < sp: p = low_bits(h, d+1); return p`. -/
def bucket_of (h : Nat) (d sp : Nat) : Nat :=
  if getLower h d < sp then getLower h (d + 1) else getLower h d

/-! ## Pages (modelled from section 4.2 of the specification) -/

/-- Modelled from the spec: `newPage` of `page.c`: an empty page without an
overflow page. -/
def newPage : Page := ⟨[], none⟩

/-- A page of zero bytes, what a hole of a file reads as: no tuple and
overflow link 0. -/
def zeroPage : Page := ⟨[], some 0⟩

/-- Modelled from the spec: `getPage` of `page.c`: the whole page at index
`pid`; a page that is not in the file cannot be read. -/
def getPage (f : List Page) (pid : Nat) : Option Page := f[pid]?

/-- Modelled from the spec: `putPage` of `page.c`: write the whole page at
index `pid`; writing past the end of the file extends it. -/
def putPage (f : List Page) (pid : Nat) (p : Page) : List Page :=
  if pid < f.length then f.set pid p
  else f ++ List.replicate (pid - f.length) zeroPage ++ [p]

/-- Modelled from the spec: `addPage` of `page.c`: append an empty page and
return its index. -/
def addPage (f : List Page) : List Page × Nat := (f ++ [newPage], f.length)

/-- Modelled from the spec: `addToPage` of `page.c`: append `t` and its NUL at
the free offset when `free_offset + len + 1 ≤ body_size`; `none` is the
failure status, the page being unchanged. The free offset is the number of
bytes written so far. -/
def addToPage (p : Page) (t : Tuple) : Option Page :=
  if p.data.length + t.length + 1 ≤ B then
    some ⟨p.data ++ t ++ [NUL], p.ovflow⟩
  else none

/-- Modelled from the spec: `pageOvflow` of `page.c`. -/
def pageOvflow (p : Page) : Option Nat := p.ovflow

/-- Modelled from the spec: `pageSetOvflow` of `page.c`. -/
def pageSetOvflow (p : Page) (o : Option Nat) : Page := ⟨p.data, o⟩

/-- Modelled from the spec: `pageData` of `page.c`: the body of the page. -/
def pageData (p : Page) : List Char := p.data

/-- The tuples met by `while (strlen(data) != 0)` over the body of a page. -/
def pageTuples (p : Page) : List Tuple := cstrings p.data.length p.data

/-! ## `addToRelation` (`reln.c`, lines 124-492) -/

/-- How the `while (ovp != NO_PAGE)` scan of an overflow chain ends: `found`
when `addToPage` succeeded on page `ovp` (`ovpg` is the page with the tuple
added, `prev` the values of `prevp`, `prevpg` at that moment, `none` for
`NO_PAGE`, `NULL`), `exhausted` when the chain ended with every page full
(`prevp`, `prevpg` are the last page of the chain). -/
inductive ScanOut where
  | found (ovp : Nat) (ovpg : Page) (prev : Option (Nat × Page))
  | exhausted (prevp : Nat) (prevpg : Page)
deriving DecidableEq

/-- The loop `while (ovp != NO_PAGE) { ovpg = getPage(r->ovflow, ovp); ... }`
of lines 185-197, 242-255, 315-329, 377-390 and 463-475. -/
def scanChain (t : Tuple) (ovf : List Page) :
    Nat → Nat → Option (Nat × Page) → Option ScanOut
  | 0, _, _ => none
  | fuel + 1, ovp, prev =>
    match getPage ovf ovp with
    | none => none
    | some ovpg =>
      match addToPage B ovpg t with
      | some ovpg1 => some (ScanOut.found ovp ovpg1 prev)
      | none =>
        match pageOvflow ovpg with
        | none => some (ScanOut.exhausted ovp ovpg)
        | some nxt => scanChain t ovf fuel nxt (some (ovp, ovpg))

/-- "Add first overflow page in chain / make new ovflow page": `addPage` on
the overflow file, `getPage` of the new page and `addToPage` of the tuple.
The result is the overflow file after `addPage`, the new page ID and the new
page with the tuple added (`none` when `addToPage` fails, where the callers
`return NO_PAGE`). -/
def freshOvflow (t : Tuple) (ovf : List Page) :
    Option (List Page × Nat × Option Page) :=
  match getPage (addPage ovf).1 (addPage ovf).2 with
  | none => none
  | some newpg => some ((addPage ovf).1, (addPage ovf).2, addToPage B newpg t)

/-- Insertion of a tuple into bucket `p`: the code of lines 438-491, which is
repeated, with a `judge` flag in place of the `return`, at lines 291-349 and
354-411 of the split.  The result is the data file, the overflow file and
whether the tuple was stored (`false`: the code returns `NO_PAGE`). -/
def addToBucket (fuel : Nat) (data ovf : List Page) (p : Nat) (t : Tuple) :
    Option (List Page × List Page × Bool) :=
  match getPage data p with
  | none => none
  | some pg =>
    match addToPage B pg t with
    | some pg1 => some (putPage data p pg1, ovf, true)
    | none =>
      match pageOvflow pg with
      | none =>
        -- add first overflow page in chain
        match freshOvflow B t ovf with
        | none => none
        | some (ovf1, newp, none) =>
          some (putPage data p (pageSetOvflow pg (some newp)), ovf1, false)
        | some (ovf1, newp, some newpg1) =>
          some (putPage data p (pageSetOvflow pg (some newp)),
                putPage ovf1 newp newpg1, true)
      | some ovp0 =>
        -- scan overflow chain until we find space
        match scanChain B t ovf fuel ovp0 none with
        | none => none
        | some (ScanOut.found ovp ovpg1 _) => some (data, putPage ovf ovp ovpg1, true)
        | some (ScanOut.exhausted prevp prevpg) =>
          -- all overflow pages are full; add another to chain
          match freshOvflow B t ovf with
          | none => none
          | some (ovf1, _, none) => some (data, ovf1, false)
          | some (ovf1, newp, some newpg1) =>
            some (data,
                  putPage (putPage ovf1 newp newpg1) prevp
                    (pageSetOvflow prevpg (some newp)),
                  true)

/-- The state of the first redistribution loop (lines 155-273): the two files
and the page buffers `NewPage1`, `NewPage2`. -/
structure Loop1 where
  data : List Page
  ovflow : List Page
  np1 : Page
  np2 : Page
deriving DecidableEq

/-- The overflow path of the first redistribution loop (lines 170-211 and
224-269, the same text): it is taken when `addToPage` on the primary buffer
failed, tests and links `NewPage1` whichever buffer was full, and after a
successful scan falls through to `assert(prevpg != NULL)` and to the
allocation of one more page.  The result is the new loop state (`none` in the
second component: the code returns `NO_PAGE`). -/
def loop1Overflow (fuel : Nat) (s : Loop1) (p : Nat) (t : Tuple) :
    Option (Loop1 × Bool) :=
  match pageOvflow s.np1 with
  | none =>
    match freshOvflow B t s.ovflow with
    | none => none
    | some (ovf1, newp, none) =>
      some (⟨putPage s.data p (pageSetOvflow s.np1 (some newp)), ovf1,
             pageSetOvflow s.np1 (some newp), s.np2⟩, false)
    | some (ovf1, newp, some newpg1) =>
      some (⟨putPage s.data p (pageSetOvflow s.np1 (some newp)),
             putPage ovf1 newp newpg1,
             pageSetOvflow s.np1 (some newp), s.np2⟩, true)
  | some ovp0 =>
    match scanChain B t s.ovflow fuel ovp0 none with
    | none => none
    | some (ScanOut.found _ _ none) => none -- assert(prevpg != NULL) fails
    | some (ScanOut.found ovp ovpg1 (some (prevp, prevpg))) =>
      match freshOvflow B t (putPage s.ovflow ovp ovpg1) with
      | none => none
      | some (ovf1, _, none) => some (⟨s.data, ovf1, s.np1, s.np2⟩, false)
      | some (ovf1, newp, some newpg1) =>
        some (⟨s.data,
               putPage (putPage ovf1 newp newpg1) prevp
                 (pageSetOvflow prevpg (some newp)),
               s.np1, s.np2⟩, true)
    | some (ScanOut.exhausted prevp prevpg) =>
      match freshOvflow B t s.ovflow with
      | none => none
      | some (ovf1, _, none) => some (⟨s.data, ovf1, s.np1, s.np2⟩, false)
      | some (ovf1, newp, some newpg1) =>
        some (⟨s.data,
               putPage (putPage ovf1 newp newpg1) prevp
                 (pageSetOvflow prevpg (some newp)),
               s.np1, s.np2⟩, true)

/-- One iteration of the first redistribution loop (lines 157-272) for the
tuple `t` of the old primary page. -/
def loop1Step (fuel : Nat) (r : Reln) (s : Loop1) (t : Tuple) :
    Option (Loop1 × Bool) :=
  if getLower (tupleHash hash_any r t) (r.depth + 1) = r.sp then
    match addToPage B s.np1 t with
    | some pg1 =>
      match getPage (putPage s.data (getLower (tupleHash hash_any r t) (r.depth + 1)) pg1)
          (getLower (tupleHash hash_any r t) (r.depth + 1)) with
      | none => none
      | some q =>
        some (⟨putPage s.data (getLower (tupleHash hash_any r t) (r.depth + 1)) pg1,
               s.ovflow, q, s.np2⟩, true)
    | none => loop1Overflow B fuel s (getLower (tupleHash hash_any r t) (r.depth + 1)) t
  else
    match addToPage B s.np2 t with
    | some pg2 =>
      match getPage (putPage s.data (getLower (tupleHash hash_any r t) (r.depth + 1)) pg2)
          (getLower (tupleHash hash_any r t) (r.depth + 1)) with
      | none => none
      | some q =>
        some (⟨putPage s.data (getLower (tupleHash hash_any r t) (r.depth + 1)) pg2,
               s.ovflow, s.np1, q⟩, true)
    | none => loop1Overflow B fuel s (getLower (tupleHash hash_any r t) (r.depth + 1)) t

/-- The first redistribution loop (lines 155-273) over the tuples of the old
primary page. -/
def loop1 (fuel : Nat) (r : Reln) : List Tuple → Loop1 → Option (Loop1 × Bool)
  | [], s => some (s, true)
  | t :: ts, s =>
    match loop1Step hash_any B fuel r s t with
    | none => none
    | some (s1, false) => some (s1, false)
    | some (s1, true) => loop1 fuel r ts s1

/-- The inner loop of the second redistribution loop (lines 283-414) over the
tuples of one old overflow page: both branches of `if (p == r->sp)` read the
primary page `p` again and run the same insertion code. -/
def loop2Inner (fuel : Nat) (r : Reln) :
    List Tuple → List Page → List Page → Option (List Page × List Page × Bool)
  | [], data, ovf => some (data, ovf, true)
  | t :: ts, data, ovf =>
    match
      (if getLower (tupleHash hash_any r t) (r.depth + 1) = r.sp then
        addToBucket B fuel data ovf (getLower (tupleHash hash_any r t) (r.depth + 1)) t
      else
        addToBucket B fuel data ovf (getLower (tupleHash hash_any r t) (r.depth + 1)) t)
    with
    | none => none
    | some (data1, ovf1, false) => some (data1, ovf1, false)
    | some (data1, ovf1, true) => loop2Inner fuel r ts data1 ovf1

/-- The second redistribution loop `while (ovg != NO_PAGE)` (lines 275-416)
over the overflow chain of the old bucket: each page is read, replaced by an
empty page with the same link, and its tuples are inserted again. -/
def loop2 (fuel : Nat) (r : Reln) :
    Nat → Option Nat → List Page → List Page →
      Option (List Page × List Page × Bool)
  | _, none, data, ovf => some (data, ovf, true)
  | 0, some _, _, _ => none
  | n + 1, some ovg, data, ovf =>
    match getPage ovf ovg with
    | none => none
    | some ovg_pg =>
      match loop2Inner hash_any B fuel r (pageTuples ovg_pg) data
          (putPage ovf ovg (pageSetOvflow newPage (pageOvflow ovg_pg))) with
      | none => none
      | some (data1, ovf1, false) => some (data1, ovf1, false)
      | some (data1, ovf1, true) => loop2 fuel r n (pageOvflow ovg_pg) data1 ovf1

/-- The redistribution of the split (lines 136-416): the files after it and
whether it ran to its end (`false`: a `return NO_PAGE` was taken). -/
def redistribute (fuel : Nat) (r : Reln) : Option (List Page × List Page × Bool) :=
  match getPage r.data r.sp with
  | none => none
  | some pg =>
    match getPage (putPage r.data r.sp (pageSetOvflow newPage (pageOvflow pg))) r.sp with
    | none => none
    | some np1 =>
      match getPage
          (putPage (putPage r.data r.sp (pageSetOvflow newPage (pageOvflow pg)))
            (r.sp + 2 ^ r.depth) newPage) (r.sp + 2 ^ r.depth) with
      | none => none
      | some np2 =>
        match loop1 hash_any B fuel r (pageTuples pg)
            ⟨putPage (putPage r.data r.sp (pageSetOvflow newPage (pageOvflow pg)))
               (r.sp + 2 ^ r.depth) newPage, r.ovflow, np1, np2⟩ with
        | none => none
        | some (s, false) => some (s.data, s.ovflow, false)
        | some (s, true) => loop2 hash_any B fuel r fuel (pageOvflow pg) s.data s.ovflow

/-- The update of the linear-hash state that ends a split (lines 418-424). -/
def advance (r : Reln) (data ovf : List Page) : Reln :=
  if r.sp + 1 = 2 ^ r.depth then
    { r with npages := r.npages + 1, sp := 0, depth := r.depth + 1,
             data := data, ovflow := ovf }
  else
    { r with npages := r.npages + 1, sp := r.sp + 1, data := data, ovflow := ovf }

/-- The width in bits of the unsigned type `Count` of the counters of
`struct RelnRep` (its `typedef` is in `defs.h`): the counters are printed with
`%d` (line 511) and have the size of the 32-bit hash values, so the width is
taken as 32. -/
def COUNT_BITS : Nat := 32

/-- The capacity `1024 / (10 * nattrs)` of line 129: the product `10 *
r->nattrs` is computed in the unsigned type `Count` and wraps at
`2 ^ COUNT_BITS`. -/
def capacity (r : Reln) : Nat := 1024 / ((10 * r.nattrs) % 2 ^ COUNT_BITS)

/-- The split test `(r->ntups + 1) % capcity == 0` of line 132. -/
def splitDue (r : Reln) : Bool := (r.ntups + 1) % capacity r == 0

/-- The bucket computed at lines 429-435. -/
def targetPage (r : Reln) (t : Tuple) : Nat :=
  if r.depth = 0 then 1
  else if getLower (tupleHash hash_any r t) r.depth < r.sp then
    getLower (tupleHash hash_any r t) (r.depth + 1)
  else getLower (tupleHash hash_any r t) r.depth

/-- The insertion that ends `addToRelation` (lines 429-491), on the relation
left by the split if there was one. -/
def insertTuple (fuel : Nat) (r : Reln) (t : Tuple) : Option (Reln × Option Nat) :=
  match addToBucket B fuel r.data r.ovflow (targetPage hash_any r t) t with
  | none => none
  | some (data1, ovf1, false) => some ({ r with data := data1, ovflow := ovf1 }, none)
  | some (data1, ovf1, true) =>
    some ({ r with data := data1, ovflow := ovf1, ntups := r.ntups + 1 },
          some (targetPage hash_any r t))

/-- The function `addToRelation` of `reln.c`: the relation after the call and
the returned page ID (`none`: `NO_PAGE`).  A zero divisor at line 129 or 132
ends the program. -/
def addToRelation (fuel : Nat) (r : Reln) (t : Tuple) : Option (Reln × Option Nat) :=
  if (10 * r.nattrs) % 2 ^ COUNT_BITS = 0 ∨ capacity r = 0 then none
  else if splitDue r then
    match redistribute hash_any B fuel r with
    | none => none
    | some (data1, ovf1, false) => some ({ r with data := data1, ovflow := ovf1 }, none)
    | some (data1, ovf1, true) => insertTuple hash_any B fuel (advance r data1 ovf1) t
  else insertTuple hash_any B fuel r t

/-- The relation files written by `newRelation` (lines 30-51): `npages` empty
primary pages, an empty overflow file, `sp = 0`, `ntups = 0`. -/
def newRelation (nattrs npages d : Nat) (cv : List ChVecItem) : Reln :=
  { nattrs := nattrs, depth := d, sp := 0, npages := npages, ntups := 0, cv := cv,
    data := List.replicate npages newPage, ovflow := [] }

/-! ## `startQuery` and `getNextTuple` (`query.c`) -/

/-- The scan descriptor `struct QueryRep`; `pages` is the block of `npages`
integers allocated by `calloc`. -/
structure QueryRep where
  rel : Reln
  curpage : Nat
  is_ovflow : Option Nat
  curtup : Nat
  querystring : Tuple
  pages : List Nat
  page_num : Nat
deriving DecidableEq

/-- A write `a[i] = v` into an allocated block; `none` outside the block. -/
def arrSet (a : List Nat) (i v : Nat) : Option (List Nat) :=
  if i < a.length then some (a.set i v) else none

/-- A counted loop `for (k = k0; k < k0 + n; k++) s = f(k, s)`. -/
def forRange {σ : Type} (f : Nat → σ → Option σ) : Nat → Nat → σ → Option σ
  | 0, _, s => some s
  | n + 1, k, s =>
    match f k s with
    | none => none
    | some s1 => forRange f n (k + 1) s1

/-- The arrays `known` and `unknown` filled by the loop of lines 74-82: for
each choice-vector entry whose attribute is `?` in the query `unknown[i] = 1`,
otherwise `known[i]` is the chosen bit of the hash of the attribute value. -/
def knownBits (r : Reln) (q : Tuple) : List Nat :=
  (List.range MAXBITS).map (fun i =>
    if (tupleVals q).getD (chvecItem r.cv i).att [] = [QMARK] then 0
    else bitIsSet (hash_any ((tupleVals q).getD (chvecItem r.cv i).att []))
      (chvecItem r.cv i).bit)

/-- The array `unknown` of lines 74-82: `unknown[i] = 1` when the attribute of
choice-vector entry `i` is `?` in the query. -/
def unknownBits (r : Reln) (q : Tuple) : List Nat :=
  (List.range MAXBITS).map (fun i =>
    if (tupleVals q).getD (chvecItem r.cv i).att [] = [QMARK] then 1 else 0)

/-- One pass `j < depth` of the loop of lines 88-119 (lines 102-117): shift
every candidate left, set the low bit where the bit is known to be 1, and
double the list where the bit is unknown. -/
def baseStep (known unknown : List Nat) (depth j : Nat) (s : List Nat × Nat) :
    Option (List Nat × Nat) :=
  match forRange (fun k a => match a.get? k with
      | none => none
      | some x => arrSet a k (x <<< 1)) s.2 0 s.1 with
  | none => none
  | some a1 =>
    match known.get? (depth - j - 1), unknown.get? (depth - j - 1) with
    | some kn, some un =>
      match (if kn = 1 then
          forRange (fun k a => match a.get? k with
            | none => none
            | some x => arrSet a k (x ||| 1)) s.2 0 a1
        else some a1) with
      | none => none
      | some a2 =>
        if un = 1 then
          match forRange (fun k a => match a.get? k with
              | none => none
              | some x => arrSet a (s.2 + k) (x ||| 1)) s.2 0 a2 with
          | none => none
          | some a3 => some (a3, 2 * s.2)
        else some (a2, s.2)
    | _, _ => none

/-- The pass `j == depth` of the loop of lines 88-119 (lines 90-100):
`for (i = 0; i < page_record; i++)` with `page_record` growing in the body.
Every pass either stops, reads index `i` or leaves the block, so `npages + 1`
passes are a sufficient budget. -/
def lastStep (known unknown : List Nat) (depth sp : Nat) :
    Nat → Nat → List Nat → Nat → Option (List Nat × Nat)
  | 0, _, _, _ => none
  | fuel + 1, i, a, page_record =>
    if i < page_record then
      match a.get? i with
      | none => none
      | some x =>
        if x < sp then
          match known.get? depth, unknown.get? depth with
          | some kn, some un =>
            match (if kn = 1 then arrSet a i (x ||| (1 <<< depth)) else some a) with
            | none => none
            | some a1 =>
              if un = 1 then
                match a1.get? i with
                | none => none
                | some y =>
                  match arrSet a1 (page_record + 1) (y ||| (1 <<< depth)) with
                  | none => none
                  | some a2 =>
                    lastStep known unknown depth sp fuel (i + 1) a2 (page_record + 1)
              else lastStep known unknown depth sp fuel (i + 1) a1 page_record
          | _, _ => none
        else lastStep known unknown depth sp fuel (i + 1) a page_record
    else some (a, page_record)

/-- The candidate computation of `startQuery` (lines 73-119): the block
`pages2` and the count `page_record`. -/
def candidates (r : Reln) (q : Tuple) : Option (List Nat × Nat) :=
  match arrSet (List.replicate r.npages 0) 0 0 with
  | none => none
  | some a0 =>
    match forRange (baseStep (knownBits hash_any r q) (unknownBits r q) r.depth)
        r.depth 0 (a0, 1) with
    | none => none
    | some s =>
      lastStep (knownBits hash_any r q) (unknownBits r q) r.depth r.sp
        (r.npages + 1) 0 s.1 s.2

/-- The function `startQuery` of `query.c`. -/
def startQuery (r : Reln) (q : Tuple) : Option QueryRep :=
  match candidates hash_any r q with
  | none => none
  | some s => some ⟨r, 0, none, 0, q, s.1, s.2⟩

/-- The candidate list of a query: the entries `pages[0 .. page_num)`. -/
def candidateList (q : QueryRep) : List Nat := q.pages.take q.page_num

/-- Modelled from the spec: `tupleMatch` of `tuple.c` (section 4.4, step 3):
equal field count and, for every field of the pattern that is not `?`, the
same string. -/
def tupleMatch (t q : Tuple) : Bool :=
  decide ((tupleVals t).length = (tupleVals q).length) &&
    (List.zip (tupleVals q) (tupleVals t)).all
      (fun vw => decide (vw.1 = [QMARK]) || decide (vw.1 = vw.2))

/-- The loop `while (strlen(data) != 0)` of lines 168-186 and 203-220: the
first string from `data` on that matches the query, and the offset after it;
`none` when the end of the page is reached. -/
def scanData (qs : Tuple) : Nat → List Char → Nat → Option (Tuple × Nat)
  | 0, _, _ => none
  | n + 1, data, counter =>
    if strlen data = 0 then none
    else if tupleMatch (cstr data) qs then
      some (cstr data, counter + strlen data + 1)
    else scanData qs n (data.drop (strlen data + 1)) (counter + strlen data + 1)

/-- The loop `while (q->is_ovflow != -1)` of lines 197-229, for the candidate
index `i`. -/
def scanOvflow (i : Nat) : Nat → QueryRep → Nat → Option (QueryRep × Option Tuple)
  | 0, _, _ => none
  | fuel + 1, q, ov =>
    match getPage q.rel.ovflow ov with
    | none => none
    | some p =>
      match scanData q.querystring (p.data.length + 1) ((pageData p).drop q.curtup)
          q.curtup with
      | some (t, off) => some ({ q with is_ovflow := some ov, curtup := off }, some t)
      | none =>
        match pageOvflow p with
        | none => some ({ q with curtup := 0, is_ovflow := none, curpage := i + 1 }, none)
        | some nxt => scanOvflow i fuel { q with curtup := 0, is_ovflow := some nxt } nxt

/-- The loop `for (i = q->curpage; i < q->page_num; i++)` of lines 159-231;
`n` counts the passes that are left. -/
def scanFrom (fuel : Nat) : Nat → Nat → QueryRep → Option (QueryRep × Option Tuple)
  | 0, _, q => some (q, none)
  | n + 1, i, q =>
    match q.pages.get? i with
    | none => none
    | some pid =>
      match getPage q.rel.data pid with
      | none => none
      | some p =>
        match q.is_ovflow with
        | some ov =>
          match scanOvflow i fuel q ov with
          | none => none
          | some (q1, some t) => some (q1, some t)
          | some (q1, none) => scanFrom fuel n (i + 1) q1
        | none =>
          match scanData q.querystring (p.data.length + 1) ((pageData p).drop q.curtup)
              q.curtup with
          | some (t, off) => some ({ q with curpage := i, curtup := off }, some t)
          | none =>
            match pageOvflow p with
            | none => scanFrom fuel n (i + 1) { q with curtup := 0, curpage := i + 1 }
            | some ov =>
              match scanOvflow i fuel { q with curtup := 0, is_ovflow := some ov } ov with
              | none => none
              | some (q1, some t) => some (q1, some t)
              | some (q1, none) => scanFrom fuel n (i + 1) q1

/-- The function `getNextTuple` of `query.c`: the scan descriptor after the
call and the returned tuple (`none`: `NULL`). -/
def getNextTuple (fuel : Nat) (q : QueryRep) : Option (QueryRep × Option Tuple) :=
  scanFrom fuel (q.page_num - q.curpage) q.curpage q

/-- The tuples returned by at most `n` calls of `getNextTuple`, up to the
first `NULL`; `none` when a call aborts or `n` calls did not reach `NULL`. -/
def scanAll (fuel : Nat) : Nat → QueryRep → Option (List Tuple)
  | 0, _ => none
  | n + 1, q =>
    match getNextTuple fuel q with
    | none => none
    | some (_, none) => some []
    | some (q1, some t) =>
      match scanAll fuel n q1 with
      | none => none
      | some ts => some (t :: ts)

/-- Modelled from the spec: the command `select` (section 6), which is not
part of the sources: `startQuery` and then `getNextTuple` until `NULL`. -/
def select (fuel n : Nat) (r : Reln) (qs : Tuple) : Option (List Tuple) :=
  match startQuery hash_any r qs with
  | none => none
  | some q => scanAll fuel n q

/-- A sequence of successful `addToRelation` calls: the relation after
inserting the tuples in order, `none` as soon as a call aborts or returns
`NO_PAGE`. -/
def insertAll (fuel : Nat) : Reln → List Tuple → Option Reln
  | r, [] => some r
  | r, t :: ts =>
    match addToRelation hash_any B fuel r t with
    | some (r1, some _) => insertAll fuel r1 ts
    | _ => none

/-! ## Sample inputs

The byte hash is a parameter of the model; the concrete inputs below use the
toy hash `sampleHash`, which sends a value to the distance of its first byte
from `a`. -/

/-- A toy byte hash: `a...` is sent to 0, `b...` to 1, `c...` to 2, and so on. -/
def sampleHash : List Char → Nat := fun s => (s.headD (Char.ofNat 97)).toNat - 97

/-- The choice vector that takes bit `i` of the combined hash from bit `i` of
the hash of attribute 1. -/
def cvAttr1 : List ChVecItem := (List.range 32).map (fun i => ⟨1, i⟩)

/-- The choice vector that takes bit 0 of the combined hash from bit 0 of the
hash of attribute 0 and every other bit from bit 0 of the hash of attribute 1. -/
def cvMixed : List ChVecItem := ⟨0, 0⟩ :: List.replicate 31 ⟨1, 0⟩

/-- The tuple of `n + 2` one-byte attributes `c0,c1,a,...,a`. -/
def wideTuple (c0 c1 : Char) (n : Nat) : Tuple :=
  [c0, COMMA, c1] ++ (List.replicate n [COMMA, Char.ofNat 97]).flatten

/-- The query of `n + 1` attributes `c0,?,...,?`. -/
def wideQuery (c0 : Char) (n : Nat) : Tuple :=
  c0 :: (List.replicate n [COMMA, QMARK]).flatten

/-- The candidate set of section 4.4, step 2, written from the spec's words:
bucket `p` is a candidate of the query when `p < npages` and some combined hash
that agrees with every known bit of the query is addressed to `p` by
`bucket_of` at the relation's depth and split pointer. -/
def isCandidate (r : Reln) (q : Tuple) (p : Nat) : Prop :=
  p < r.npages ∧
  ∃ h : Nat,
    (∀ i, i < MAXBITS → (unknownBits r q).getD i 0 = 0 →
      bitIsSet h i = (knownBits hash_any r q).getD i 0) ∧
    bucket_of h r.depth r.sp = p

/-! ## Well-formed stores -/

/-- A tuple string: not empty and without a NUL byte. -/
def validTuple (t : Tuple) : Prop := t ≠ [] ∧ NUL ∉ t

/-- The bytes of a page body that holds the tuples `ts`, each with its NUL. -/
def encode (ts : List Tuple) : List Char := ts.flatMap (fun t => t ++ [NUL])

/-- The page invariant of section 4.2: the body is the concatenation of the
NUL-terminated tuples of the page and fits the body size. -/
def PageOK (p : Page) : Prop :=
  p.data.length ≤ B ∧ (∀ t ∈ pageTuples p, validTuple t) ∧ p.data = encode (pageTuples p)

/-- The overflow pages `ids`, in link order, form the whole chain that starts
at the link `o` and ends at `NO_PAGE`. -/
def IsChain (ovf : List Page) : Option Nat → List Nat → Prop
  | none, [] => True
  | some j, i :: rest =>
    i = j ∧ ∃ pg, getPage ovf j = some pg ∧ IsChain ovf pg.ovflow rest
  | none, _ :: _ => False
  | some _, [] => False

/-- Overflow page `k` is reached from the link `o` by following links. -/
inductive OnChain (ovf : List Page) : Option Nat → Nat → Prop where
  | head (j : Nat) : OnChain ovf (some j) j
  | next (j k : Nat) (pg : Page) :
      getPage ovf j = some pg → OnChain ovf pg.ovflow k → OnChain ovf (some j) k

/-- The tuples of the overflow pages `ids`, in order. -/
def chainTuples (ovf : List Page) (ids : List Nat) : List Tuple :=
  ids.flatMap (fun j => match getPage ovf j with
    | some pg => pageTuples pg
    | none => [])

/-- Tuple `t` is stored in bucket `b`: in primary page `b` or in a page of the
overflow chain of page `b`. -/
def Stored (r : Reln) (b : Nat) (t : Tuple) : Prop :=
  b < r.npages ∧ ∃ pg, getPage r.data b = some pg ∧
    (t ∈ pageTuples pg ∨
      ∃ j opg, OnChain r.ovflow pg.ovflow j ∧ getPage r.ovflow j = some opg ∧
        t ∈ pageTuples opg)

/-- The tuples of bucket `b`: those of its primary page, then those of the
overflow pages `ids` of its chain. -/
def bucketTuples (data ovf : List Page) (ids : List Nat) (b : Nat) : List Tuple :=
  (match getPage data b with
    | some pg => pageTuples pg
    | none => []) ++ chainTuples ovf ids

/-- The structure of the two files: `n` primary pages, well-formed pages, for
each bucket `b` the overflow chain `ch b`, chains without repetition and
disjoint from each other. -/
structure Store (data ovf : List Page) (ch : Nat → List Nat) (n : Nat) : Prop where
  data_len : data.length = n
  data_ok : ∀ b pg, getPage data b = some pg → PageOK B pg
  ovf_ok : ∀ j pg, getPage ovf j = some pg → PageOK B pg
  chain : ∀ b pg, getPage data b = some pg → IsChain ovf pg.ovflow (ch b)
  nodup : ∀ b, b < n → (ch b).Nodup
  disj : ∀ b c, b < n → c < n → b ≠ c → ∀ j ∈ ch b, j ∉ ch c

/-- The store invariant: the linear-hash state, a well-formed store, and every
tuple in the bucket that `bucket_of` gives for its combined hash. -/
structure Inv (r : Reln) (ch : Nat → List Nat) : Prop where
  npages_eq : r.npages = 2 ^ r.depth + r.sp
  sp_lt : r.sp < 2 ^ r.depth
  store : Store B r.data r.ovflow ch r.npages
  hash : ∀ b, b < r.npages → ∀ t ∈ bucketTuples r.data r.ovflow (ch b) b,
    bucket_of (tupleHash hash_any r t) r.depth r.sp = b

/-- The states reached from a newly created relation of `2^d` pages by
successful `addToRelation` calls with tuple strings. -/
inductive Reachable : Reln → Prop where
  | fresh (nattrs d : Nat) (cv : List ChVecItem) :
      Reachable (newRelation nattrs (2 ^ d) d cv)
  | step (fuel : Nat) (r r1 : Reln) (t : Tuple) (p : Nat) :
      Reachable r → validTuple t →
      addToRelation hash_any B fuel r t = some (r1, some p) → Reachable r1

/-- Overflow page `i` has no room for the tuple `t`. -/
def Full (t : Tuple) (ovf : List Page) (i : Nat) : Prop :=
  ∃ q, getPage ovf i = some q ∧ addToPage B q t = none

/-- The test `p == r->sp` of the redistribution, for the tuple `t`: its
combined hash has the split pointer as its low `depth + 1` bits. -/
def staysOld (r : Reln) (t : Tuple) : Bool :=
  decide (getLower (tupleHash hash_any r t) (r.depth + 1) = r.sp)

/-- The choice vector `a0:b0, a0:b1, ...` of scenario 1: bit `i` of the
combined hash is bit `i` of the hash of attribute 0. -/
def cvAttr0 : List ChVecItem := (List.range 32).map (fun i => ⟨0, i⟩)

/-- One pass `j < depth` of the loop of lines 88-119 as a function on the list
`pages2[0 .. page_record)`: every entry is shifted left, its low bit is set
when the bit is known to be 1, and when the bit is unknown the list is
followed by a copy of itself with the low bit set. -/
def stepList (kn un : Nat) (l : List Nat) : List Nat :=
  if un = 1 then
    (if kn = 1 then (l.map (· <<< 1)).map (· ||| 1) else l.map (· <<< 1)) ++
      (if kn = 1 then (l.map (· <<< 1)).map (· ||| 1) else l.map (· <<< 1)).map (· ||| 1)
  else (if kn = 1 then (l.map (· <<< 1)).map (· ||| 1) else l.map (· <<< 1))

/-- The list `pages2[0 .. page_record)` after the first `j` passes of the loop
of lines 88-119: pass `j` handles bit `depth - j - 1` of the choice vector. -/
def baseList (known unknown : List Nat) (depth : Nat) : Nat → List Nat
  | 0 => [0]
  | j + 1 =>
    stepList (known.getD (depth - j - 1) 0) (unknown.getD (depth - j - 1) 0)
      (baseList known unknown depth j)

/-- The update of one entry in the pass `j == depth` (lines 91-94): an entry
below the split pointer gets bit `depth` when that bit is known to be 1. -/
def markNew (kn depth sp x : Nat) : Nat :=
  if x < sp ∧ kn = 1 then x ||| (1 <<< depth) else x

/-- An empty two-attribute relation at depth `d` with split pointer `sp`
(`2^d + sp` empty primary pages) and the choice vector `cvMixed`. -/
def sampleReln (d sp : Nat) : Reln :=
  { nattrs := 2, depth := d, sp := sp, npages := 2 ^ d + sp, ntups := 0, cv := cvMixed,
    data := List.replicate (2 ^ d + sp) newPage, ovflow := [] }

/-- The value of the low `j` bits of `x` read in reverse order: bit 0 of `x`
becomes bit `j - 1`, bit `j - 1` becomes bit 0. -/
def revBits : Nat → Nat → Nat
  | 0, _ => 0
  | j + 1, x => (x % 2) * 2 ^ j + revBits j (x / 2)

/-- Tuple `t` is held by bucket `b`: it is one of the strings of primary page
`b` or of an overflow page reached from page `b` by following links. -/
def InBucket (r : Reln) (b : Nat) (t : Tuple) : Prop :=
  ∃ pg, getPage r.data b = some pg ∧
    (t ∈ pageTuples pg ∨
      ∃ j opg, OnChain r.ovflow pg.ovflow j ∧ getPage r.ovflow j = some opg ∧
        t ∈ pageTuples opg)

/-- Offset `off` of a page body is a place where the scan of `getNextTuple`
may resume: every string read from there on is one of the strings of the
page. -/
def StreamFrom (data : List Char) (off : Nat) : Prop :=
  ∀ n s, s ∈ cstrings n (data.drop off) → s ∈ cstrings data.length data

/-- The cursor of a scan is well placed: its offset is a place where the scan
of the current page may resume, and the overflow page it is in, if any, is on
the chain of the current candidate bucket. -/
def ScanOK (q : QueryRep) : Prop :=
  match q.is_ovflow with
  | none =>
    ∀ pid pg, q.pages.get? q.curpage = some pid → getPage q.rel.data pid = some pg →
      StreamFrom pg.data q.curtup
  | some ov =>
    (∃ pid pg, q.curpage < q.page_num ∧ q.pages.get? q.curpage = some pid ∧
      getPage q.rel.data pid = some pg ∧ OnChain q.rel.ovflow pg.ovflow ov) ∧
    ∀ op, getPage q.rel.ovflow ov = some op → StreamFrom op.data q.curtup

/-- The scan descriptors of a query: the one returned by `startQuery` and
those left by calls of `getNextTuple` that returned a tuple. -/
inductive ScanState (r : Reln) (qs : Tuple) : QueryRep → Prop where
  | start (q : QueryRep) : startQuery hash_any r qs = some q → ScanState r qs q
  | next (fuel : Nat) (q q1 : QueryRep) (t : Tuple) :
      ScanState r qs q → getNextTuple fuel q = some (q1, some t) → ScanState r qs q1

/-- The two-attribute relation of depth 1 (two primary pages) that holds the
single tuple `b,b`, in bucket 1: the state left by inserting `b,b` into the
new relation `newRelation 2 2 1 cvMixed` under the byte hash `sampleHash`. -/
def storedReln : Reln :=
  { nattrs := 2, depth := 1, sp := 0, npages := 2, ntups := 1, cv := cvMixed,
    data := [newPage, ⟨wideTuple (Char.ofNat 98) (Char.ofNat 98) 0 ++ [NUL], none⟩],
    ovflow := [] }

/-! ## The relation files (`newRelation`, `openRelation`, `closeRelation`)

The three files of a relation are kept in a directory that maps file names to
contents.  An `.info` file is a sequence of `Count`-sized words, a `.data` or
`.ovflow` file a sequence of pages; `Count` and `Offset` have the same width
(the code says so at lines 86 and 101), so that each of the five counters of
the descriptor is one word. -/

/-- Modelled from the spec: `MAXCHVEC` of `defs.h` (section 6): the number of
entries of a choice vector. -/
def MAXCHVEC : Nat := 32

/-- A directory: the `.info` files by name, and the page files by name. -/
structure Dir where
  words : List Char → Option (List Nat)
  pages : List Char → Option (List Page)

/-- The file name `sprintf(fname,"%s.info",name)`. -/
def infoName (name : List Char) : List Char := name ++ ".info".toList

/-- The file name `sprintf(fname,"%s.data",name)`. -/
def dataName (name : List Char) : List Char := name ++ ".data".toList

/-- The file name `sprintf(fname,"%s.ovflow",name)`. -/
def ovflowName (name : List Char) : List Char := name ++ ".ovflow".toList

/-- An open relation: the name its three files were opened under (standing
for the three `FILE` handles), the descriptor `struct RelnRep` together with
the contents of the open data and overflow files, the field `mode`, and the
contents of the open `.info` file. -/
structure OpenReln where
  name : List Char
  desc : Reln
  mode : Char
  info : List Nat

/-- The words written by the two `fwrite` calls of `closeRelation` (lines
105-108): the first five `Count`-sized fields of the descriptor in the order
of the `struct`, then the `MAXCHVEC` entries of the choice vector.  Modelled
from the spec: an entry is a pair of words `(att, bit)` (section 6). -/
def infoWords (r : Reln) : List Nat :=
  [r.nattrs, r.depth, r.sp, r.npages, r.ntups] ++
    ((List.range MAXCHVEC).map (chvecItem r.cv)).flatMap (fun c => [c.att, c.bit])

/-- The effect of `fseek(f, 0, SEEK_SET)` followed by writing the words `ws`:
the start of the file is overwritten. -/
def writeAtStart (ws file : List Nat) : List Nat := ws ++ file.drop ws.length

/-- The function `closeRelation` of `reln.c` (lines 98-115): in write mode the
counters and the choice vector are written at the start of the `.info` file,
and closing the files leaves their contents in the directory; in read mode
nothing is written. -/
def closeRelation (dir : Dir) (o : OpenReln) : Dir :=
  if o.mode = 'w' then
    { words := Function.update dir.words (infoName o.name)
        (some (writeAtStart (infoWords o.desc) o.info)),
      pages := Function.update
        (Function.update dir.pages (dataName o.name) (some o.desc.data))
        (ovflowName o.name) (some o.desc.ovflow) }
  else dir

/-- The C library function `fopen`, as far as the contents of the opened file
go: a mode `r...` opens an existing file, a mode `w...` creates the file or
empties it, a mode `a...` creates the file or keeps it; any other mode fails
(`NULL`, on which the callers `assert`). -/
def fopenMode {α : Type} (mode : List Char) (old : Option α) (empty : α) : Option α :=
  match mode.head? with
  | some 'r' => old
  | some 'w' => some empty
  | some 'a' => some (old.getD empty)
  | _ => none

/-- A stream of the C library can be read when its mode starts with `r` or
contains `+`; `fread` on any other stream returns 0. -/
def canRead (mode : List Char) : Bool := mode.head? == some 'r' || mode.contains '+'

/-- The `fread` of `n` choice-vector entries (line 89): `none` when the file
holds fewer (`assert(n == MAXCHVEC)`). -/
def readItems : Nat → List Nat → Option (List ChVecItem)
  | 0, _ => some []
  | n + 1, a :: b :: rest =>
    match readItems n rest with
    | none => none
    | some cv => some (⟨a, b⟩ :: cv)
  | _ + 1, _ => none

/-- The function `openRelation` of `reln.c` (lines 71-93): the three files
are opened in the given mode, the five counters and the choice vector are read
from the start of the `.info` file, and the field `mode` is `w` when the mode
string starts with `w` or has `+` as its second character.  A failed `fopen`
or a short read ends the program (`none`). -/
def openRelation (dir : Dir) (name mode : List Char) : Option OpenReln :=
  match fopenMode mode (dir.words (infoName name)) [],
      fopenMode mode (dir.pages (dataName name)) [],
      fopenMode mode (dir.pages (ovflowName name)) [] with
  | some info, some data, some ovflow =>
    if canRead mode then
      match info with
      | nattrs :: depth :: sp :: npages :: ntups :: rest =>
        match readItems MAXCHVEC rest with
        | none => none
        | some cv =>
          some ⟨name, ⟨nattrs, depth, sp, npages, ntups, cv, data, ovflow⟩,
            if mode.head? = some 'w' ∨ mode.get? 1 = some '+' then 'w' else 'r', info⟩
      | _ => none
    else none
  | _, _, _ => none

/-- The function `newRelation` of `reln.c` (lines 30-51) with its status and
its effect on the directory; `parseChVec` of `chvec.c` and the status `OK` of
`defs.h` are parameters.  When `parseChVec` does not return `OK` the function
returns `~OK` before any file is opened.  Otherwise the three files are
created empty (`fopen` in mode `w`), `npages` pages are added to the data
file, `closeRelation` writes the `.info` file, and the function returns 0. -/
def newRelationFiles (parseChVec : Reln → List Char → Int × List ChVecItem) (OK : Int)
    (dir : Dir) (name : List Char) (nattrs npages d : Nat) (cv : List Char) : Int × Dir :=
  if (parseChVec ⟨nattrs, d, 0, npages, 0, [], [], []⟩ cv).1 ≠ OK then (~~~OK, dir)
  else
    (0, closeRelation
      { words := Function.update dir.words (infoName name) (some []),
        pages := Function.update (Function.update dir.pages (dataName name) (some []))
          (ovflowName name) (some []) }
      ⟨name,
        ⟨nattrs, d, 0, npages, 0, (parseChVec ⟨nattrs, d, 0, npages, 0, [], [], []⟩ cv).2,
          (List.range npages).foldl (fun f _ => (addPage f).1) [], []⟩,
        'w', []⟩)

/-- A directory without files. -/
def emptyDir : Dir := ⟨fun _ => none, fun _ => none⟩

/-- A sample `parseChVec`: the empty specification is rejected with status
`-1`, every other one gives the choice vector `cvAttr0` with status 0. -/
def sampleParse : Reln → List Char → Int × List ChVecItem :=
  fun _ cv => if cv = [] then (-1, []) else (0, cvAttr0)

/-- The size of the body of a page as `query_store.c` computes it (lines
249-250): `PAGESIZE - (2*sizeof(Offset) + sizeof(Count))`; the page size and
the widths of `Offset` and `Count` (`defs.h`) are parameters. -/
def dataSize (PAGESIZE offsetSize countSize : Nat) : Nat :=
  PAGESIZE - (2 * offsetSize + countSize)

/-! ## The split triggers of the three variants of `addToRelation`

`reln.c`, `reln_store.c` and `reln_save.c` differ in the test that starts a
split.  The counters that the tests read and the calls update are modelled
for calls that store their tuple (every return path that stores the tuple
runs `r->ntups++`, and in `reln_save.c` also `r->insertionNumber++`). -/

/-- The counters read by the split tests: `ntups`, `npages`, and the field
`insertionNumber` that only `reln_save.c` has. -/
structure Trigger where
  ntups : Nat
  npages : Nat
  insertionNumber : Nat
deriving DecidableEq

/-- A storing call of `addToRelation` in `reln.c`: the test
`(r->ntups + 1) % capcity == 0` (line 132), `r->npages + 1` at the end of the
split (line 418), `r->ntups++` (lines 441, 454, 472, 488).  The second
component tells whether the call split. -/
def callReln (c : Nat) (s : Trigger) : Trigger × Bool :=
  if (s.ntups + 1) % c = 0 then
    ({ s with npages := s.npages + 1, ntups := s.ntups + 1 }, true)
  else ({ s with ntups := s.ntups + 1 }, false)

/-- A write to one of the two page files: `putPage` on the data file,
`putPage` on the overflow file, or `addPage` on the overflow file (which
writes an empty page at the end of the file and returns its ID). -/
inductive Write where
  | putData (pid : Nat) (pg : Page)
  | putOvflow (pid : Nat) (pg : Page)
  | addOvflow (pid : Nat)
deriving DecidableEq

/-- The effect of a write on the data file and the overflow file. -/
def applyWrite (f : List Page × List Page) : Write → List Page × List Page
  | Write.putData pid pg => (putPage f.1 pid pg, f.2)
  | Write.putOvflow pid pg => (f.1, putPage f.2 pid pg)
  | Write.addOvflow _ => (f.1, (addPage f.2).1)

/-- The effect of a sequence of writes, the first write first. -/
def replay (ws : List Write) (f : List Page × List Page) : List Page × List Page :=
  ws.foldl applyWrite f

/-- The insertion of lines 438-491 as the sequence of its writes, in the
order in which the code issues them before it returns, and whether the tuple
was stored (`false`: `return NO_PAGE`).  With no overflow page (lines
445-456): `addPage`, then `putPage` of the primary page with the new link,
then `putPage` of the new page with the tuple.  At the end of a full chain
(lines 476-489): `addPage`, then `putPage` of the new page with the tuple, then
`putPage` of the last chain page with the new link. -/
def addToBucketWrites (fuel : Nat) (data ovf : List Page) (p : Nat) (t : Tuple) :
    Option (List Write × Bool) :=
  match getPage data p with
  | none => none
  | some pg =>
    match addToPage B pg t with
    | some pg1 => some ([Write.putData p pg1], true)
    | none =>
      match pageOvflow pg with
      | none =>
        match freshOvflow B t ovf with
        | none => none
        | some (_, newp, none) =>
          some ([Write.addOvflow newp, Write.putData p (pageSetOvflow pg (some newp))], false)
        | some (_, newp, some newpg1) =>
          some ([Write.addOvflow newp, Write.putData p (pageSetOvflow pg (some newp)),
                 Write.putOvflow newp newpg1], true)
      | some ovp0 =>
        match scanChain B t ovf fuel ovp0 none with
        | none => none
        | some (ScanOut.found ovp ovpg1 _) => some ([Write.putOvflow ovp ovpg1], true)
        | some (ScanOut.exhausted prevp prevpg) =>
          match freshOvflow B t ovf with
          | none => none
          | some (_, newp, none) => some ([Write.addOvflow newp], false)
          | some (_, newp, some newpg1) =>
            some ([Write.addOvflow newp, Write.putOvflow newp newpg1,
                   Write.putOvflow prevp (pageSetOvflow prevpg (some newp))], true)

/-- The writes of the insertion that ends `addToRelation` (lines 429-491) on
the relation `r`, which is the relation left by the split when the call
split. -/
def insertWrites (fuel : Nat) (r : Reln) (t : Tuple) : Option (List Write × Bool) :=
  addToBucketWrites B fuel r.data r.ovflow (targetPage hash_any r t) t

/-- A two-attribute relation of depth 1 whose bucket 1 holds the tuple `b,b`
twice, once in primary page 1 and once in overflow page 0; with a page body of
4 bytes both pages are full. -/
def fullReln : Reln :=
  { nattrs := 2, depth := 1, sp := 0, npages := 2, ntups := 2, cv := cvMixed,
    data := [newPage, ⟨wideTuple (Char.ofNat 98) (Char.ofNat 98) 0 ++ [NUL], some 0⟩],
    ovflow := [⟨wideTuple (Char.ofNat 98) (Char.ofNat 98) 0 ++ [NUL], none⟩] }

/-- The first-fit rule of lines 438-491 for bucket `p`, whose primary page is
`pg` and whose overflow chain is `cs` in the files `data`, `ovf`; `data1`,
`ovf1` are the files after the insertion of `t`.  Either the primary page has
room and receives the tuple; or it is full and the first chain page with room
receives it; or every page is full and one page holding the tuple is appended
to the overflow file and linked from the last page of the bucket. -/
def FirstFit (data ovf data1 ovf1 : List Page) (p : Nat) (t : Tuple) (pg : Page)
    (cs : List Nat) : Prop :=
  (pg.data.length + t.length + 1 ≤ B ∧
    data1 = putPage data p ⟨pg.data ++ t ++ [NUL], pg.ovflow⟩ ∧ ovf1 = ovf) ∨
  (B < pg.data.length + t.length + 1 ∧
    ∃ pre j post q, cs = pre ++ j :: post ∧ (∀ i ∈ pre, Full B t ovf i) ∧
      getPage ovf j = some q ∧ q.data.length + t.length + 1 ≤ B ∧
      data1 = data ∧ ovf1 = putPage ovf j ⟨q.data ++ t ++ [NUL], q.ovflow⟩) ∨
  (B < pg.data.length + t.length + 1 ∧ (∀ i ∈ cs, Full B t ovf i) ∧
    ((cs = [] ∧ data1 = putPage data p ⟨pg.data, some ovf.length⟩ ∧
        ovf1 = ovf ++ [⟨t ++ [NUL], none⟩]) ∨
     (∃ pre last lastpg, cs = pre ++ [last] ∧ getPage ovf last = some lastpg ∧
        data1 = data ∧
        ovf1 = putPage (ovf ++ [⟨t ++ [NUL], none⟩]) last
          ⟨lastpg.data, some ovf.length⟩)))

/-- The states reached from a newly created relation of `2^d` pages by
`addToRelation` calls with tuple strings, whatever the calls return (a page ID
or `NO_PAGE`). -/
inductive Run : Reln → Prop where
  | fresh (nattrs d : Nat) (cv : List ChVecItem) :
      Run (newRelation nattrs (2 ^ d) d cv)
  | step (fuel : Nat) (r r1 : Reln) (t : Tuple) (res : Option Nat) :
      Run r → validTuple t →
      addToRelation hash_any B fuel r t = some (r1, res) → Run r1

/-- The strings that the loop `while (strlen(data) != 0)` reads from a buffer
of bytes, up to the first empty string. -/
def allStrings (d : List Char) : List Tuple := cstrings d.length d

/-- The result sequence of a scan, written from the spec's words (section 4.4,
ordering guarantee): for each bucket of the candidate list `cands`, in list
order, the tuples of its primary page followed by the tuples of the overflow
pages `ch b` of its chain, in chain order, each page in stored order,
restricted to the tuples that match the query. -/
def expectedScan (r : Reln) (qs : Tuple) (ch : Nat → List Nat) (cands : List Nat) :
    List Tuple :=
  cands.flatMap (fun b =>
    (bucketTuples r.data r.ovflow (ch b) b).filter (fun t => tupleMatch t qs))

/-- The results of `k` successive calls of `getNextTuple`, each on the scan
descriptor left by the call before it (`none` in the list: `NULL`). -/
def nextTuples (fuel : Nat) : Nat → QueryRep → Option (List (Option Tuple))
  | 0, _ => some []
  | k + 1, q =>
    match getNextTuple fuel q with
    | none => none
    | some (q1, res) =>
      match nextTuples fuel k q1 with
      | none => none
      | some rs => some (res :: rs)

/-- The matching tuples that the scan has still to return from the candidate
bucket `pid` in which its cursor is: the rest of the current page from the
offset `curtup` on, then the pages that follow it on the chain. -/
def PendingBucket (fuel : Nat) (q : QueryRep) (pid : Nat) (ts : List Tuple) : Prop :=
  ∃ pg, getPage q.rel.data pid = some pg ∧
    match q.is_ovflow with
    | none =>
      ∃ cs, IsChain q.rel.ovflow pg.ovflow cs ∧ cs.length ≤ fuel ∧
        ts = (allStrings (pg.data.drop q.curtup) ++ chainTuples q.rel.ovflow cs).filter
          (fun t => tupleMatch t q.querystring)
    | some ov =>
      ∃ op post, getPage q.rel.ovflow ov = some op ∧ IsChain q.rel.ovflow op.ovflow post ∧
        post.length < fuel ∧
        ts = (allStrings (op.data.drop q.curtup) ++ chainTuples q.rel.ovflow post).filter
          (fun t => tupleMatch t q.querystring)

/-- The matching tuples that the scan `q` of the candidate list `cands` has
still to return: those of the current bucket, then those of the candidates
after it. -/
def Pending (fuel : Nat) (r : Reln) (qs : Tuple) (ch : Nat → List Nat) (cands : List Nat)
    (q : QueryRep) (ts : List Tuple) : Prop :=
  q.rel = r ∧ q.querystring = qs ∧ q.page_num = cands.length ∧
  q.pages.take q.page_num = cands ∧ q.curpage ≤ q.page_num ∧
  (q.curpage = q.page_num → ts = []) ∧
  (q.curpage < q.page_num →
    ∃ pid ts1, cands.get? q.curpage = some pid ∧ PendingBucket fuel q pid ts1 ∧
      ts = ts1 ++ expectedScan r qs ch (cands.drop (q.curpage + 1)))

/-- Five tuples of 17 one-byte attributes: their attribute 1 is `a`, `b`, `c`,
`b`, `c`, so that with the choice vector `cvAttr1` and the hash `sampleHash`
their combined hashes are 0, 1, 2, 1, 2. -/
def chainedTuples : List Tuple :=
  [wideTuple (Char.ofNat 97) (Char.ofNat 97) 15, wideTuple (Char.ofNat 98) (Char.ofNat 98) 15,
   wideTuple (Char.ofNat 99) (Char.ofNat 99) 15, wideTuple (Char.ofNat 100) (Char.ofNat 98) 15,
   wideTuple (Char.ofNat 101) (Char.ofNat 99) 15]

/-- A relation of 17 attributes (capacity 6) at depth 1 whose two buckets both
have an overflow chain; with a page body of 40 bytes a page holds one of the
34-byte tuples.  Bucket 0 holds `a,a,...` on primary page 0 and `c,c,...`,
`e,c,...` on the overflow pages 0 and 2 of its chain; bucket 1 holds `b,b,...`
on primary page 1 and `d,b,...` on overflow page 1.  It is the state that the
insertion of `chainedTuples` into a new relation leaves, and the next call of
`addToRelation` splits bucket 0. -/
def chainedReln : Reln :=
  { nattrs := 17, depth := 1, sp := 0, npages := 2, ntups := 5, cv := cvAttr1,
    data := [⟨wideTuple (Char.ofNat 97) (Char.ofNat 97) 15 ++ [NUL], some 0⟩,
             ⟨wideTuple (Char.ofNat 98) (Char.ofNat 98) 15 ++ [NUL], some 1⟩],
    ovflow := [⟨wideTuple (Char.ofNat 99) (Char.ofNat 99) 15 ++ [NUL], some 2⟩,
               ⟨wideTuple (Char.ofNat 100) (Char.ofNat 98) 15 ++ [NUL], none⟩,
               ⟨wideTuple (Char.ofNat 101) (Char.ofNat 99) 15 ++ [NUL], none⟩] }

end Model

/-! # Properties -/

section Properties

variable (hash_any : List Char → Nat) (B : Nat)

/-! ## The linear-hash state across a call -/

theorem insertTuple_meta {fuel : Nat} {r r1 : Reln} {t : Tuple} {res : Option Nat}
    (h : insertTuple hash_any B fuel r t = some (r1, res)) :
    r1.nattrs = r.nattrs ∧ r1.cv = r.cv ∧ r1.depth = r.depth ∧ r1.sp = r.sp ∧
      r1.npages = r.npages ∧
      ((res = none ∧ r1.ntups = r.ntups) ∨
        (res = some (targetPage hash_any r t) ∧ r1.ntups = r.ntups + 1)) := by
  unfold insertTuple at h
  split at h
  · simp at h
  · simp only [Option.some.injEq, Prod.mk.injEq] at h
    obtain ⟨rfl, rfl⟩ := h
    simp
  · simp only [Option.some.injEq, Prod.mk.injEq] at h
    obtain ⟨rfl, rfl⟩ := h
    simp

/-- The three ways in which a call of `addToRelation` returns. -/
theorem addToRelation_cases {fuel : Nat} {r r1 : Reln} {t : Tuple} {res : Option Nat}
    (h : addToRelation hash_any B fuel r t = some (r1, res)) :
    capacity r ≠ 0 ∧
    ((splitDue r = false ∧ insertTuple hash_any B fuel r t = some (r1, res)) ∨
     (splitDue r = true ∧ ∃ d o, redistribute hash_any B fuel r = some (d, o, false) ∧
        res = none ∧ r1 = { r with data := d, ovflow := o }) ∨
     (splitDue r = true ∧ ∃ d o, redistribute hash_any B fuel r = some (d, o, true) ∧
        insertTuple hash_any B fuel (advance r d o) t = some (r1, res))) := by
  unfold addToRelation at h
  split at h
  · simp at h
  · rename_i hc
    push_neg at hc
    refine ⟨hc.2, ?_⟩
    split at h
    · rename_i hs
      split at h
      · simp at h
      · rename_i d o hr
        simp only [Option.some.injEq, Prod.mk.injEq] at h
        exact Or.inr (Or.inl ⟨hs, d, o, hr, h.2.symm, h.1.symm⟩)
      · rename_i d o hr
        exact Or.inr (Or.inr ⟨hs, d, o, hr, h⟩)
    · rename_i hs
      exact Or.inl ⟨by simpa using hs, h⟩

theorem advance_meta (r : Reln) (d o : List Page) :
    (advance r d o).nattrs = r.nattrs ∧ (advance r d o).cv = r.cv ∧
    (advance r d o).ntups = r.ntups ∧ (advance r d o).npages = r.npages + 1 ∧
    (r.sp + 1 = 2 ^ r.depth → (advance r d o).sp = 0 ∧ (advance r d o).depth = r.depth + 1) ∧
    (r.sp + 1 ≠ 2 ^ r.depth → (advance r d o).sp = r.sp + 1 ∧ (advance r d o).depth = r.depth) := by
  unfold advance
  split <;> simp_all

theorem splitDue_iff (r : Reln) : splitDue r = true ↔ (r.ntups + 1) % capacity r = 0 := by
  unfold splitDue; simp

/-- C3: a call of `addToRelation` that returns keeps `npages = 2^depth + sp`
and `sp < 2^depth`, hence `2^depth ≤ npages < 2 * 2^depth`, whether or not it
splits. -/
theorem addToRelation_preserves_meta_invariant (fuel : Nat) (r r1 : Reln) (t : Tuple)
    (res : Option Nat) (hn : r.npages = 2 ^ r.depth + r.sp) (hsp : r.sp < 2 ^ r.depth)
    (h : addToRelation hash_any B fuel r t = some (r1, res)) :
    r1.npages = 2 ^ r1.depth + r1.sp ∧ r1.sp < 2 ^ r1.depth ∧
      2 ^ r1.depth ≤ r1.npages ∧ r1.npages < 2 * 2 ^ r1.depth := by
  have key : r1.npages = 2 ^ r1.depth + r1.sp ∧ r1.sp < 2 ^ r1.depth := by
    obtain ⟨_, h1 | h1 | h1⟩ := addToRelation_cases hash_any B h
    · obtain ⟨_, _, hd, hs, hp, _⟩ := insertTuple_meta hash_any B h1.2
      rw [hd, hs, hp]; exact ⟨hn, hsp⟩
    · obtain ⟨_, d, o, _, _, rfl⟩ := h1
      exact ⟨hn, hsp⟩
    · obtain ⟨_, d, o, _, hi⟩ := h1
      obtain ⟨_, _, hd, hs, hp, _⟩ := insertTuple_meta hash_any B hi
      obtain ⟨_, _, _, hp2, ha, hb⟩ := advance_meta r d o
      rw [hd, hs, hp, hp2]
      by_cases hc : r.sp + 1 = 2 ^ r.depth
      · obtain ⟨h1, h2⟩ := ha hc
        rw [h1, h2, hn, pow_succ]
        constructor
        · omega
        · positivity
      · obtain ⟨h1, h2⟩ := hb hc
        rw [h1, h2, hn]
        omega
  refine ⟨key.1, key.2, ?_, ?_⟩ <;> omega

/-- Reading off a property of the value of an evaluated computation. -/
theorem eval_some {α : Type} (o : Option α) (P : α → Bool) (h : o.map P = some true) :
    ∃ a, o = some a ∧ P a = true := by
  cases o with
  | none => simp at h
  | some a => exact ⟨a, rfl, by simpa using h⟩

theorem tupleHash_congr {r r1 : Reln} (h : r1.cv = r.cv) (t : Tuple) :
    tupleHash hash_any r1 t = tupleHash hash_any r t := by
  unfold tupleHash; rw [h]

theorem targetPage_eq_bucket_of (r : Reln) (t : Tuple) (hd : 1 ≤ r.depth) :
    targetPage hash_any r t = bucket_of (tupleHash hash_any r t) r.depth r.sp := by
  unfold targetPage bucket_of
  rw [if_neg (by omega)]

/-- C6 (amended): when `addToRelation` returns a page ID and the depth of the
relation is at least 1 when it returns, the ID is `bucket_of(C, d, sp)` for the
combined hash `C` of the tuple and the depth and split pointer that the
relation has when the call returns, that is after the split if the call
performed one. -/
theorem addToRelation_returns_bucket_of_final_state (fuel : Nat) (r r1 : Reln) (t : Tuple)
    (p : Nat) (h : addToRelation hash_any B fuel r t = some (r1, some p))
    (hd : 1 ≤ r1.depth) :
    p = bucket_of (tupleHash hash_any r t) r1.depth r1.sp := by
  obtain ⟨_, h1 | h1 | h1⟩ := addToRelation_cases hash_any B h
  · obtain ⟨_, _, hdep, hs, _, hres⟩ := insertTuple_meta hash_any B h1.2
    rcases hres with ⟨hcon, _⟩ | ⟨hp, _⟩
    · cases hcon
    · rw [Option.some.injEq] at hp
      rw [hp, targetPage_eq_bucket_of hash_any r t (by omega), hdep, hs]
  · obtain ⟨_, d, o, _, hcon, _⟩ := h1
    cases hcon
  · obtain ⟨_, d, o, _, hi⟩ := h1
    obtain ⟨_, _, hdep, hs, _, hres⟩ := insertTuple_meta hash_any B hi
    rcases hres with ⟨hcon, _⟩ | ⟨hp, _⟩
    · cases hcon
    · rw [Option.some.injEq] at hp
      rw [hp, targetPage_eq_bucket_of hash_any _ t (by omega), hdep, hs,
        tupleHash_congr hash_any (advance_meta r d o).2.1]

theorem addToRelation_returns_bucket_of_final_state_witness :
    ∃ r1 p, addToRelation sampleHash 1012 4 (newRelation 52 2 1 cvAttr1)
        (wideTuple (Char.ofNat 97) (Char.ofNat 99) 50) = some (r1, some p) ∧
      1 ≤ r1.depth ∧
      p = bucket_of (tupleHash sampleHash (newRelation 52 2 1 cvAttr1)
        (wideTuple (Char.ofNat 97) (Char.ofNat 99) 50)) r1.depth r1.sp := by
  obtain ⟨⟨r1, res⟩, h, hP⟩ := eval_some
    (addToRelation sampleHash 1012 4 (newRelation 52 2 1 cvAttr1)
      (wideTuple (Char.ofNat 97) (Char.ofNat 99) 50))
    (fun x => decide (1 ≤ x.1.depth) && x.2.isSome) (by decide)
  simp only [Bool.and_eq_true, decide_eq_true_eq] at hP
  obtain ⟨p, rfl⟩ := Option.isSome_iff_exists.mp hP.2
  exact ⟨r1, p, h, hP.1,
    addToRelation_returns_bucket_of_final_state sampleHash 1012 4 _ r1 _ p h hP.1⟩

/-- C6 (as stated) fails: a fresh relation of depth 1 with 52 attributes has
capacity 1, so the first call splits bucket 0 before it inserts; the tuple
with combined hash 2 is stored in page 2, while `bucket_of` for the depth 1 and
split pointer 0 that the relation had when the call was made is 0. -/
theorem addToRelation_returns_bucket_of_call_state_counterexample :
    (wideTuple (Char.ofNat 97) (Char.ofNat 99) 50).length + 1 ≤ 1012 ∧
    (addToRelation sampleHash 1012 4 (newRelation 52 2 1 cvAttr1)
        (wideTuple (Char.ofNat 97) (Char.ofNat 99) 50)).map Prod.snd = some (some 2) ∧
    bucket_of (tupleHash sampleHash (newRelation 52 2 1 cvAttr1)
        (wideTuple (Char.ofNat 97) (Char.ofNat 99) 50))
      (newRelation 52 2 1 cvAttr1).depth (newRelation 52 2 1 cvAttr1).sp = 0 := by
  decide

/-- C8: a call of `addToRelation` whose split test holds and whose
redistribution runs to its end adds 1 to `npages`; if `sp + 1 < 2^d` the split
pointer becomes `sp + 1` and the depth stays `d`, and if `sp + 1 = 2^d` the
split pointer becomes 0 and the depth `d + 1`.  From `d = 0`, `sp = 0`,
`npages = 1` this gives `npages = 2`, `sp = 0`, depth 1. -/
theorem split_advances_linear_hash_state (fuel : Nat) (r r1 : Reln) (t : Tuple)
    (res : Option Nat) (d o : List Page) (hs : splitDue r = true)
    (hr : redistribute hash_any B fuel r = some (d, o, true))
    (h : addToRelation hash_any B fuel r t = some (r1, res)) :
    r1.npages = r.npages + 1 ∧
    (r.sp + 1 < 2 ^ r.depth → r1.sp = r.sp + 1 ∧ r1.depth = r.depth) ∧
    (r.sp + 1 = 2 ^ r.depth → r1.sp = 0 ∧ r1.depth = r.depth + 1) ∧
    (r.depth = 0 → r.sp = 0 → r.npages = 1 →
      r1.npages = 2 ∧ r1.sp = 0 ∧ r1.depth = 1) := by
  obtain ⟨_, h1 | h1 | h1⟩ := addToRelation_cases hash_any B h
  · rw [hs] at h1; exact absurd h1.1 (by simp)
  · obtain ⟨_, d1, o1, hr1, _⟩ := h1
    rw [hr] at hr1; simp at hr1
  · obtain ⟨_, d1, o1, hr1, hi⟩ := h1
    obtain ⟨_, _, hdep, hsp, hnp, _⟩ := insertTuple_meta hash_any B hi
    obtain ⟨_, _, _, hp2, ha, hb⟩ := advance_meta r d1 o1
    refine ⟨by rw [hnp, hp2], ?_, ?_, ?_⟩
    · intro hlt
      obtain ⟨e1, e2⟩ := hb (by omega)
      exact ⟨by rw [hsp, e1], by rw [hdep, e2]⟩
    · intro heq
      obtain ⟨e1, e2⟩ := ha heq
      exact ⟨by rw [hsp, e1], by rw [hdep, e2]⟩
    · intro h0 hs0 hn1
      obtain ⟨e1, e2⟩ := ha (by rw [h0, hs0]; rfl)
      exact ⟨by rw [hnp, hp2, hn1], by rw [hsp, e1], by rw [hdep, e2, h0]⟩

theorem split_advances_linear_hash_state_witness :
    ∃ r1 res d o, splitDue (newRelation 52 1 0 cvAttr1) = true ∧
      redistribute sampleHash 1012 4 (newRelation 52 1 0 cvAttr1) = some (d, o, true) ∧
      addToRelation sampleHash 1012 4 (newRelation 52 1 0 cvAttr1)
        (wideTuple (Char.ofNat 97) (Char.ofNat 98) 50) = some (r1, res) ∧
      r1.npages = 2 ∧ r1.sp = 0 ∧ r1.depth = 1 := by
  obtain ⟨⟨r1, res⟩, h, -⟩ := eval_some
    (addToRelation sampleHash 1012 4 (newRelation 52 1 0 cvAttr1)
      (wideTuple (Char.ofNat 97) (Char.ofNat 98) 50)) (fun _ => true) (by decide)
  obtain ⟨⟨d, o, b⟩, hr, hb⟩ := eval_some
    (redistribute sampleHash 1012 4 (newRelation 52 1 0 cvAttr1)) (fun x => x.2.2) (by decide)
  simp only at hb
  subst hb
  exact ⟨r1, res, d, o, by decide, hr, h,
    (split_advances_linear_hash_state sampleHash 1012 4 _ r1 _ res d o (by decide) hr h).2.2.2
      rfl rfl rfl⟩

theorem addToRelation_preserves_meta_invariant_witness :
    ∃ r1 res, addToRelation sampleHash 1012 4 (newRelation 52 2 1 cvAttr1)
        (wideTuple (Char.ofNat 97) (Char.ofNat 99) 50) = some (r1, res) ∧
      r1.npages = 2 ^ r1.depth + r1.sp ∧ r1.sp < 2 ^ r1.depth ∧
      2 ^ r1.depth ≤ r1.npages ∧ r1.npages < 2 * 2 ^ r1.depth := by
  obtain ⟨⟨r1, res⟩, h, -⟩ := eval_some
    (addToRelation sampleHash 1012 4 (newRelation 52 2 1 cvAttr1)
      (wideTuple (Char.ofNat 97) (Char.ofNat 99) 50)) (fun _ => true) (by decide)
  exact ⟨r1, res, h, addToRelation_preserves_meta_invariant sampleHash 1012 4 _ r1 _ res
    (by decide) (by decide) h⟩

/-! ## The candidate list of `startQuery` at sample inputs -/

/-- C9: at depth 2 with split pointer 2 (6 pages), for a query whose attribute 0
hashes to an odd value (bit 0 known to be 1) and whose other attribute is `?`,
the candidate list is 1, 3, 0, 5: it holds bucket 0, which is not in the
candidate set of the specification. -/
theorem startQuery_lists_bucket_outside_candidate_set :
    (startQuery sampleHash
        { nattrs := 2, depth := 2, sp := 2, npages := 6, ntups := 0, cv := cvMixed,
          data := List.replicate 6 newPage, ovflow := [] }
        (wideQuery (Char.ofNat 98) 1)).map candidateList = some [1, 3, 0, 5] ∧
    ¬ isCandidate sampleHash
        { nattrs := 2, depth := 2, sp := 2, npages := 6, ntups := 0, cv := cvMixed,
          data := List.replicate 6 newPage, ovflow := [] }
        (wideQuery (Char.ofNat 98) 1) 0 := by
  refine ⟨by decide, ?_⟩
  rintro ⟨_, h, hk, hb⟩
  have h0 := hk 0 (by decide) (by decide)
  have h1 : (knownBits sampleHash
        { nattrs := 2, depth := 2, sp := 2, npages := 6, ntups := 0, cv := cvMixed,
          data := List.replicate 6 newPage, ovflow := [] }
        (wideQuery (Char.ofNat 98) 1)).getD 0 0 = 1 := by decide
  rw [h1] at h0
  simp only [bitIsSet, pow_zero, Nat.div_one] at h0
  simp only [bucket_of, getLower] at hb
  split at hb <;> omega

/-- C10: at depth 2 with split pointer 1 (5 pages), for a query whose attribute
0 hashes to an even value (bit 0 known to be 0) and whose other attribute is
`?`, the candidate list is 0, 2, 0, 4: bucket 0 is listed twice. -/
theorem startQuery_lists_bucket_twice :
    (startQuery sampleHash
        { nattrs := 2, depth := 2, sp := 1, npages := 5, ntups := 0, cv := cvMixed,
          data := List.replicate 5 newPage, ovflow := [] }
        (wideQuery (Char.ofNat 97) 1)).map candidateList = some [0, 2, 0, 4] := by
  decide

/-! ## Files -/

theorem getPage_putPage_same (f : List Page) (i : Nat) (p : Page) :
    getPage (putPage f i p) i = some p := by
  unfold getPage putPage
  split
  · rename_i h
    exact List.getElem?_set_self h
  · rename_i h
    rw [List.getElem?_append_right (by simp only [List.length_append, List.length_replicate]; omega)]
    have e : i - (f ++ List.replicate (i - f.length) zeroPage).length = 0 := by
      simp only [List.length_append, List.length_replicate]; omega
    rw [e]
    rfl

theorem getPage_putPage_ne (f : List Page) (i j : Nat) (p : Page) (hj : j ≠ i)
    (hlt : j < f.length ∨ i ≤ f.length) :
    getPage (putPage f i p) j = getPage f j := by
  unfold getPage putPage
  split
  · exact List.getElem?_set_ne (Ne.symm hj)
  · rename_i h
    by_cases h1 : j < f.length
    · rw [List.getElem?_append_left
        (by simp only [List.length_append, List.length_replicate]; omega),
        List.getElem?_append_left h1]
    · have hi : i = f.length := by omega
      subst hi
      rw [List.getElem?_eq_none (by
        simp only [List.length_append, List.length_replicate, List.length_singleton]; omega),
        List.getElem?_eq_none (by omega)]

theorem length_putPage_lt (f : List Page) (i : Nat) (p : Page) (h : i < f.length) :
    (putPage f i p).length = f.length := by
  unfold putPage
  rw [if_pos h, List.length_set]

theorem putPage_length_self (f : List Page) (p : Page) : putPage f f.length p = f ++ [p] := by
  unfold putPage
  simp

theorem getPage_lt {f : List Page} {i : Nat} {p : Page} (h : getPage f i = some p) :
    i < f.length := by
  unfold getPage at h
  by_contra hcon
  rw [List.getElem?_eq_none (by omega)] at h
  cases h

theorem getPage_append_left (f g : List Page) (i : Nat) (h : i < f.length) :
    getPage (f ++ g) i = getPage f i := by
  unfold getPage
  exact List.getElem?_append_left h

theorem getPage_isSome {f : List Page} {i : Nat} (h : i < f.length) :
    ∃ p, getPage f i = some p := by
  unfold getPage
  exact ⟨f[i], List.getElem?_eq_getElem h⟩

theorem getPage_append_length (f : List Page) (p : Page) :
    getPage (f ++ [p]) f.length = some p := by
  unfold getPage
  simp

/-! ## Strings and pages -/

theorem strlen_append_nul (t rest : List Char) (h : NUL ∉ t) :
    strlen (t ++ NUL :: rest) = t.length := by
  induction t with
  | nil => simp [strlen]
  | cons c cs ih =>
    have hc : c ≠ NUL := fun e => h (by simp [e])
    have hcs : NUL ∉ cs := fun e => h (by simp [e])
    simp [strlen, hc, ih hcs]

theorem cstr_append_nul (t rest : List Char) (h : NUL ∉ t) :
    cstr (t ++ NUL :: rest) = t := by
  unfold cstr
  rw [strlen_append_nul t rest h]
  simp

theorem drop_append_nul (t rest : List Char) (h : NUL ∉ t) :
    (t ++ NUL :: rest).drop (strlen (t ++ NUL :: rest) + 1) = rest := by
  rw [strlen_append_nul t rest h]
  have : t ++ NUL :: rest = (t ++ [NUL]) ++ rest := by simp
  rw [this, List.drop_append_of_le_length (by simp)]
  simp

theorem encode_cons (t : Tuple) (ts : List Tuple) :
    encode (t :: ts) = t ++ NUL :: encode ts := by
  simp [encode]

theorem encode_append (ts us : List Tuple) : encode (ts ++ us) = encode ts ++ encode us := by
  simp [encode]

theorem encode_nil : encode [] = [] := rfl

theorem cstrings_encode (ts : List Tuple) (hv : ∀ t ∈ ts, validTuple t) :
    ∀ n, ts.length ≤ n → cstrings n (encode ts) = ts := by
  induction ts with
  | nil =>
    intro n _
    cases n <;> simp [cstrings, encode, strlen]
  | cons t ts ih =>
    intro n hn
    cases n with
    | zero => simp at hn
    | succ n =>
      have hvt := hv t (by simp)
      rw [encode_cons, cstrings, strlen_append_nul t _ hvt.2]
      have hlen : t.length ≠ 0 := by
        intro e; exact hvt.1 (List.length_eq_zero.mp e)
      rw [if_neg hlen, cstr_append_nul t _ hvt.2]
      have hd := drop_append_nul t (encode ts) hvt.2
      rw [strlen_append_nul t _ hvt.2] at hd
      rw [hd, ih (fun u hu => hv u (by simp [hu])) n (by simpa using hn)]

theorem length_le_encode (ts : List Tuple) : ts.length ≤ (encode ts).length := by
  induction ts with
  | nil => simp
  | cons t ts ih =>
    rw [encode_cons]
    simp only [List.length_cons, List.length_append]
    omega

theorem pageTuples_encode (ts : List Tuple) (o : Option Nat) (hv : ∀ t ∈ ts, validTuple t) :
    pageTuples ⟨encode ts, o⟩ = ts := by
  unfold pageTuples
  exact cstrings_encode ts hv _ (length_le_encode ts)

theorem pageOK_encode (ts : List Tuple) (o : Option Nat) (hv : ∀ t ∈ ts, validTuple t)
    (hB : (encode ts).length ≤ B) : PageOK B ⟨encode ts, o⟩ := by
  refine ⟨hB, ?_, ?_⟩
  · rw [pageTuples_encode ts o hv]; exact hv
  · rw [pageTuples_encode ts o hv]

theorem pageTuples_newPage : pageTuples newPage = [] := rfl

theorem pageOK_empty (o : Option Nat) : PageOK B ⟨[], o⟩ := by
  have := pageOK_encode B [] o (by simp) (by simp [encode])
  simpa [encode] using this

theorem pageTuples_empty (o : Option Nat) : pageTuples ⟨[], o⟩ = [] := rfl

/-- The effect of a successful `addToPage` on a well-formed page. -/
theorem addToPage_spec {p p1 : Page} {t : Tuple} (hp : PageOK B p) (ht : validTuple t)
    (h : addToPage B p t = some p1) :
    p1 = ⟨encode (pageTuples p ++ [t]), p.ovflow⟩ ∧ PageOK B p1 ∧
      pageTuples p1 = pageTuples p ++ [t] ∧ p1.ovflow = p.ovflow ∧
      p.data.length + t.length + 1 ≤ B ∧ p1.data.length = p.data.length + t.length + 1 := by
  unfold addToPage at h
  split at h
  · rename_i hfit
    simp only [Option.some.injEq] at h
    have hv : ∀ u ∈ pageTuples p ++ [t], validTuple u := by
      intro u hu
      rcases List.mem_append.mp hu with h1 | h1
      · exact hp.2.1 u h1
      · simp at h1; subst h1; exact ht
    have e : p1 = ⟨encode (pageTuples p ++ [t]), p.ovflow⟩ := by
      rw [← h, encode_append, ← hp.2.2]
      simp [encode]
    have hl : p1.data.length = p.data.length + t.length + 1 := by
      rw [← h]; simp; omega
    refine ⟨e, ?_, ?_, ?_, hfit, hl⟩
    · rw [e]
      refine pageOK_encode B _ _ hv ?_
      have : (encode (pageTuples p ++ [t])) = p1.data := by rw [e]
      rw [this, hl]; exact hfit
    · rw [e]; exact pageTuples_encode _ _ hv
    · rw [e]
  · cases h

theorem addToPage_none_iff (p : Page) (t : Tuple) :
    addToPage B p t = none ↔ B < p.data.length + t.length + 1 := by
  unfold addToPage
  split <;> simp <;> omega

theorem addToPage_some_of_fit (p : Page) (t : Tuple) (h : p.data.length + t.length + 1 ≤ B) :
    ∃ p1, addToPage B p t = some p1 := by
  unfold addToPage
  rw [if_pos h]
  exact ⟨_, rfl⟩

/-- The bytes used by the tuples `ts` in a page body. -/
theorem encode_length (ts : List Tuple) :
    (encode ts).length = (ts.map (fun t => t.length + 1)).sum := by
  induction ts with
  | nil => rfl
  | cons t ts ih =>
    rw [encode_cons]
    simp only [List.length_append, List.length_cons, List.map_cons, List.sum_cons, ih]
    omega

/-! ## Overflow chains -/

theorem isChain_nil_iff (ovf : List Page) (o : Option Nat) : IsChain ovf o [] ↔ o = none := by
  cases o <;> simp [IsChain]

theorem isChain_cons_iff (ovf : List Page) (o : Option Nat) (i : Nat) (rest : List Nat) :
    IsChain ovf o (i :: rest) ↔
      o = some i ∧ ∃ pg, getPage ovf i = some pg ∧ IsChain ovf pg.ovflow rest := by
  cases o with
  | none => simp [IsChain]
  | some j =>
    simp only [IsChain, Option.some.injEq]
    constructor
    · rintro ⟨rfl, h⟩; exact ⟨rfl, h⟩
    · rintro ⟨rfl, h⟩; exact ⟨rfl, h⟩

/-- A chain stays a chain when its pages keep their links. -/
theorem isChain_of_links {ovf ovf1 : List Page} (ids : List Nat) :
    ∀ o, (∀ j ∈ ids, ∀ pg, getPage ovf j = some pg →
        ∃ pg1, getPage ovf1 j = some pg1 ∧ pg1.ovflow = pg.ovflow) →
      IsChain ovf o ids → IsChain ovf1 o ids := by
  induction ids with
  | nil => intro o _ h; rw [isChain_nil_iff] at h ⊢; exact h
  | cons i rest ih =>
    intro o hl h
    rw [isChain_cons_iff] at h ⊢
    obtain ⟨ho, pg, hg, hc⟩ := h
    obtain ⟨pg1, hg1, he⟩ := hl i (by simp) pg hg
    refine ⟨ho, pg1, hg1, ?_⟩
    rw [he]
    exact ih _ (fun j hj => hl j (by simp [hj])) hc

theorem isChain_congr {ovf ovf1 : List Page} (ids : List Nat) (o : Option Nat)
    (he : ∀ j ∈ ids, getPage ovf1 j = getPage ovf j) (h : IsChain ovf o ids) :
    IsChain ovf1 o ids :=
  isChain_of_links ids o (fun j hj pg hg => ⟨pg, by rw [he j hj]; exact hg, rfl⟩) h

theorem isChain_getPage {ovf : List Page} (ids : List Nat) :
    ∀ o, IsChain ovf o ids → ∀ j ∈ ids, ∃ pg, getPage ovf j = some pg := by
  induction ids with
  | nil => intro o _ j hj; simp at hj
  | cons i rest ih =>
    intro o h j hj
    rw [isChain_cons_iff] at h
    obtain ⟨_, pg, hg, hc⟩ := h
    rcases List.mem_cons.mp hj with rfl | hj
    · exact ⟨pg, hg⟩
    · exact ih _ hc j hj

theorem isChain_lt {ovf : List Page} {ids : List Nat} {o : Option Nat}
    (h : IsChain ovf o ids) (j : Nat) (hj : j ∈ ids) : j < ovf.length := by
  obtain ⟨pg, hg⟩ := isChain_getPage ids o h j hj
  exact getPage_lt hg

/-- The last page of a chain has no overflow page. -/
theorem isChain_last {ovf : List Page} (pre : List Nat) (last : Nat) :
    ∀ o, IsChain ovf o (pre ++ [last]) →
      ∃ pg, getPage ovf last = some pg ∧ pg.ovflow = none := by
  induction pre with
  | nil =>
    intro o h
    rw [List.nil_append, isChain_cons_iff] at h
    obtain ⟨_, pg, hg, hc⟩ := h
    rw [isChain_nil_iff] at hc
    exact ⟨pg, hg, hc⟩
  | cons i pre ih =>
    intro o h
    rw [List.cons_append, isChain_cons_iff] at h
    obtain ⟨_, pg, _, hc⟩ := h
    exact ih _ hc

/-- Linking a new last page to a chain. -/
theorem isChain_extend {ovf ovf2 : List Page} (pre : List Nat) (last n : Nat)
    (lastpg npg : Page) (hl2 : getPage ovf2 last = some ⟨lastpg.data, some n⟩)
    (hn : getPage ovf2 n = some npg) (hno : npg.ovflow = none) :
    ∀ o, IsChain ovf o (pre ++ [last]) → (∀ i ∈ pre, getPage ovf2 i = getPage ovf i) →
      IsChain ovf2 o (pre ++ [last, n]) := by
  induction pre with
  | nil =>
    intro o h _
    rw [List.nil_append, isChain_cons_iff] at h
    rw [List.nil_append, isChain_cons_iff]
    refine ⟨h.1, _, hl2, ?_⟩
    rw [isChain_cons_iff]
    refine ⟨rfl, npg, hn, ?_⟩
    rw [isChain_nil_iff]
    exact hno
  | cons i pre ih =>
    intro o h hpre
    rw [List.cons_append, isChain_cons_iff] at h
    rw [List.cons_append, isChain_cons_iff]
    obtain ⟨ho, pg, hg, hc⟩ := h
    refine ⟨ho, pg, ?_, ih _ hc (fun k hk => hpre k (by simp [hk]))⟩
    rw [hpre i (by simp)]
    exact hg

theorem onChain_mem {ovf : List Page} {o : Option Nat} {k : Nat} (h : OnChain ovf o k) :
    ∀ ids, IsChain ovf o ids → k ∈ ids := by
  induction h with
  | head j =>
    intro ids hc
    cases ids with
    | nil => simp [IsChain] at hc
    | cons i rest =>
      rw [isChain_cons_iff] at hc
      simp only [Option.some.injEq] at hc
      simp [hc.1]
  | next j k pg hg _ ih =>
    intro ids hc
    cases ids with
    | nil => simp [IsChain] at hc
    | cons i rest =>
      rw [isChain_cons_iff] at hc
      obtain ⟨ho, pg1, hg1, hc1⟩ := hc
      simp only [Option.some.injEq] at ho
      subst ho
      rw [hg] at hg1
      simp only [Option.some.injEq] at hg1
      subst hg1
      exact List.mem_cons_of_mem _ (ih rest hc1)

theorem chainTuples_nil (ovf : List Page) : chainTuples ovf [] = [] := rfl

theorem chainTuples_cons (ovf : List Page) (j : Nat) (ids : List Nat) :
    chainTuples ovf (j :: ids) =
      (match getPage ovf j with
        | some pg => pageTuples pg
        | none => []) ++ chainTuples ovf ids := by
  simp [chainTuples]

theorem chainTuples_append (ovf : List Page) (ids jds : List Nat) :
    chainTuples ovf (ids ++ jds) = chainTuples ovf ids ++ chainTuples ovf jds := by
  simp [chainTuples]

theorem chainTuples_congr {ovf ovf1 : List Page} (ids : List Nat)
    (he : ∀ j ∈ ids, getPage ovf1 j = getPage ovf j) :
    chainTuples ovf1 ids = chainTuples ovf ids := by
  induction ids with
  | nil => rfl
  | cons i rest ih =>
    rw [chainTuples_cons, chainTuples_cons, he i (by simp),
      ih (fun j hj => he j (by simp [hj]))]

theorem mem_chainTuples {ovf : List Page} {ids : List Nat} {t : Tuple} :
    t ∈ chainTuples ovf ids ↔ ∃ j ∈ ids, ∃ pg, getPage ovf j = some pg ∧ t ∈ pageTuples pg := by
  unfold chainTuples
  rw [List.mem_flatMap]
  constructor
  · rintro ⟨j, hj, ht⟩
    cases hg : getPage ovf j with
    | none => rw [hg] at ht; simp at ht
    | some pg => rw [hg] at ht; exact ⟨j, hj, pg, hg, ht⟩
  · rintro ⟨j, hj, pg, hg, ht⟩
    exact ⟨j, hj, by rw [hg]; exact ht⟩

theorem putPage_length_self_append (f : List Page) (p q : Page) :
    putPage (f ++ [p]) f.length q = f ++ [q] := by
  unfold putPage
  rw [if_pos (by simp)]
  simp
/-! ## Insertion into a bucket -/

/-- The scan of a chain stops at the first page with room, or at the last page
when every page is full. -/
theorem scanChain_spec (t : Tuple) (ovf : List Page) :
    ∀ (fuel ovp : Nat) (prev : Option (Nat × Page)) (cs : List Nat) (out : ScanOut),
      IsChain ovf (some ovp) cs → scanChain B t ovf fuel ovp prev = some out →
      (∃ pre j post q q1 prev1, cs = pre ++ j :: post ∧ (∀ i ∈ pre, Full B t ovf i) ∧
          getPage ovf j = some q ∧ addToPage B q t = some q1 ∧
          out = ScanOut.found j q1 prev1) ∨
      (∃ pre last lastpg, cs = pre ++ [last] ∧ (∀ i ∈ cs, Full B t ovf i) ∧
          getPage ovf last = some lastpg ∧ lastpg.ovflow = none ∧
          out = ScanOut.exhausted last lastpg) := by
  intro fuel
  induction fuel with
  | zero => intro ovp prev cs out _ h; simp [scanChain] at h
  | succ fuel ih =>
    intro ovp prev cs out hc h
    cases cs with
    | nil => simp [IsChain] at hc
    | cons i rest =>
      rw [isChain_cons_iff] at hc
      obtain ⟨ho, pg, hg, hrest⟩ := hc
      simp only [Option.some.injEq] at ho
      subst ho
      rw [scanChain, hg] at h
      simp only at h
      cases ha : addToPage B pg t with
      | some q1 =>
        rw [ha] at h
        simp only [Option.some.injEq] at h
        exact Or.inl ⟨[], ovp, rest, pg, q1, prev, rfl, by simp, hg, ha, h.symm⟩
      | none =>
        rw [ha] at h
        simp only [pageOvflow] at h
        cases hn : pg.ovflow with
        | none =>
          rw [hn] at h hrest
          simp only [Option.some.injEq] at h
          cases rest with
          | nil =>
            refine Or.inr ⟨[], ovp, pg, rfl, ?_, hg, hn, h.symm⟩
            intro k hk
            simp at hk
            subst hk
            exact ⟨pg, hg, ha⟩
          | cons _ _ => simp [IsChain] at hrest
        | some nxt =>
          rw [hn] at h hrest
          simp only at h
          rcases ih nxt _ rest out hrest h with
            ⟨pre, j, post, q, q1, prev1, e, hf, hgj, haj, ho⟩ |
            ⟨pre, last, lastpg, e, hf, hgl, hln, ho⟩
          · refine Or.inl ⟨ovp :: pre, j, post, q, q1, prev1, by rw [e]; rfl, ?_, hgj, haj, ho⟩
            intro k hk
            rcases List.mem_cons.mp hk with rfl | hk
            · exact ⟨pg, hg, ha⟩
            · exact hf k hk
          · refine Or.inr ⟨ovp :: pre, last, lastpg, by rw [e]; rfl, ?_, hgl, hln, ho⟩
            intro k hk
            rcases List.mem_cons.mp hk with rfl | hk
            · exact ⟨pg, hg, ha⟩
            · exact hf k hk

theorem freshOvflow_eq (t : Tuple) (ovf : List Page) :
    freshOvflow B t ovf = some (ovf ++ [newPage], ovf.length, addToPage B newPage t) := by
  unfold freshOvflow addPage
  simp only [getPage_append_length]

/-- The three ways in which `addToBucket` stores a tuple: in the primary
page, in the first overflow page with room, or in a new page linked to the end
of the chain. -/
theorem addToBucket_spec {fuel : Nat} {data ovf data1 ovf1 : List Page} {p : Nat}
    {t : Tuple} {ok : Bool} {pg : Page} {cs : List Nat}
    (hg : getPage data p = some pg) (hc : IsChain ovf pg.ovflow cs)
    (h : addToBucket B fuel data ovf p t = some (data1, ovf1, ok)) :
    (∃ pg1, addToPage B pg t = some pg1 ∧ data1 = putPage data p pg1 ∧ ovf1 = ovf ∧
        ok = true) ∨
    (addToPage B pg t = none ∧
      ∃ pre j post q q1, cs = pre ++ j :: post ∧ (∀ i ∈ pre, Full B t ovf i) ∧
        getPage ovf j = some q ∧ addToPage B q t = some q1 ∧
        data1 = data ∧ ovf1 = putPage ovf j q1 ∧ ok = true) ∨
    (addToPage B pg t = none ∧ (∀ i ∈ cs, Full B t ovf i) ∧
      ((addToPage B newPage t = none ∧ ok = false) ∨
       (ok = true ∧ cs = [] ∧
          data1 = putPage data p ⟨pg.data, some ovf.length⟩ ∧
          ovf1 = ovf ++ [⟨t ++ [NUL], none⟩]) ∨
       (ok = true ∧ ∃ pre last lastpg, cs = pre ++ [last] ∧
          getPage ovf last = some lastpg ∧ lastpg.ovflow = none ∧ data1 = data ∧
          ovf1 = putPage (ovf ++ [⟨t ++ [NUL], none⟩]) last ⟨lastpg.data, some ovf.length⟩))) := by
  unfold addToBucket at h
  rw [hg] at h
  simp only at h
  cases ha : addToPage B pg t with
  | some pg1 =>
    rw [ha] at h
    simp only [Option.some.injEq, Prod.mk.injEq] at h
    exact Or.inl ⟨pg1, rfl, h.1.symm, h.2.1.symm, h.2.2.symm⟩
  | none =>
    rw [ha] at h
    simp only [pageOvflow] at h
    right
    cases ho : pg.ovflow with
    | none =>
      rw [ho] at h hc
      have hcs : cs = [] := by
        cases cs with
        | nil => rfl
        | cons _ _ => simp [IsChain] at hc
      right
      refine ⟨rfl, by rw [hcs]; simp, ?_⟩
      simp only [freshOvflow_eq] at h
      cases hn : addToPage B newPage t with
      | none =>
        rw [hn] at h
        simp only [Option.some.injEq, Prod.mk.injEq] at h
        exact Or.inl ⟨rfl, h.2.2.symm⟩
      | some n1 =>
        rw [hn] at h
        simp only [Option.some.injEq, Prod.mk.injEq] at h
        refine Or.inr (Or.inl ⟨h.2.2.symm, hcs, ?_, ?_⟩)
        · rw [← h.1]; rfl
        · rw [← h.2.1, putPage_length_self_append]
          unfold addToPage newPage at hn
          split at hn
          · simp only [Option.some.injEq] at hn
            rw [← hn]; simp
          · cases hn
    | some ovp0 =>
      rw [ho] at h hc
      simp only at h
      cases hs : scanChain B t ovf fuel ovp0 none with
      | none => rw [hs] at h; simp at h
      | some out =>
        rw [hs] at h
        rcases scanChain_spec B t ovf fuel ovp0 none cs out hc hs with
          ⟨pre, j, post, q, q1, prev1, e, hf, hgj, haj, hout⟩ |
          ⟨pre, last, lastpg, e, hf, hgl, hln, hout⟩
        · subst hout
          simp only [Option.some.injEq, Prod.mk.injEq] at h
          exact Or.inl ⟨rfl, pre, j, post, q, q1, e, hf, hgj, haj, h.1.symm, h.2.1.symm,
            h.2.2.symm⟩
        · subst hout
          simp only [freshOvflow_eq] at h
          right
          refine ⟨rfl, hf, ?_⟩
          cases hn : addToPage B newPage t with
          | none =>
            rw [hn] at h
            simp only [Option.some.injEq, Prod.mk.injEq] at h
            exact Or.inl ⟨rfl, h.2.2.symm⟩
          | some n1 =>
            rw [hn] at h
            simp only [Option.some.injEq, Prod.mk.injEq] at h
            refine Or.inr (Or.inr ⟨h.2.2.symm, pre, last, lastpg, e, hgl, hln, h.1.symm, ?_⟩)
            rw [← h.2.1, putPage_length_self_append]
            unfold addToPage newPage at hn
            split at hn
            · simp only [Option.some.injEq] at hn
              rw [← hn]; simp [pageSetOvflow]
            · cases hn

/-! ## Changes to a well-formed store -/

theorem chainTuples_put_not_mem (ovf : List Page) (j : Nat) (q1 : Page) (ids : List Nat)
    (hj : j ≤ ovf.length) (h : j ∉ ids) :
    chainTuples (putPage ovf j q1) ids = chainTuples ovf ids :=
  chainTuples_congr ids (fun i hi =>
    getPage_putPage_ne ovf j i q1 (fun e => h (e ▸ hi)) (Or.inr hj))

theorem chainTuples_put_mem (ovf : List Page) (j : Nat) (q q1 : Page) (t : Tuple)
    (hg : getPage ovf j = some q) (hq : pageTuples q1 = pageTuples q ++ [t]) :
    ∀ ids : List Nat, ids.Nodup → j ∈ ids →
      (chainTuples (putPage ovf j q1) ids).Perm (t :: chainTuples ovf ids) := by
  have hjl : j ≤ ovf.length := Nat.le_of_lt (getPage_lt hg)
  intro ids
  induction ids with
  | nil => intro _ h; simp at h
  | cons i rest ih =>
    intro hn hj
    rw [chainTuples_cons, chainTuples_cons]
    have hn2 := List.nodup_cons.mp hn
    by_cases e : i = j
    · subst e
      rw [getPage_putPage_same, hg, chainTuples_put_not_mem ovf i q1 rest hjl hn2.1]
      simp only [hq]
      rw [List.append_assoc]
      exact (@List.perm_middle _ t (pageTuples q) (chainTuples ovf rest)).trans (by simp)
    · have hj2 : j ∈ rest := by
        rcases List.mem_cons.mp hj with h1 | h1
        · exact absurd h1.symm e
        · exact h1
      rw [getPage_putPage_ne ovf j i q1 e (Or.inr hjl)]
      exact ((ih hn2.2 hj2).append_left _).trans List.perm_middle

theorem store_put_primary {data ovf : List Page} {ch : Nat → List Nat} {n p : Nat}
    {pg pg1 : Page} (hs : Store B data ovf ch n) (hg : getPage data p = some pg)
    (hok : PageOK B pg1) (ho : pg1.ovflow = pg.ovflow) :
    Store B (putPage data p pg1) ovf ch n := by
  have hp : p < data.length := getPage_lt hg
  refine ⟨by rw [length_putPage_lt data p pg1 hp]; exact hs.data_len, ?_, hs.ovf_ok, ?_,
    hs.nodup, hs.disj⟩
  · intro b pgb hb
    by_cases e : b = p
    · subst e
      rw [getPage_putPage_same] at hb
      simp only [Option.some.injEq] at hb
      rw [← hb]; exact hok
    · rw [getPage_putPage_ne data p b pg1 e (Or.inr (Nat.le_of_lt hp))] at hb
      exact hs.data_ok b pgb hb
  · intro b pgb hb
    by_cases e : b = p
    · subst e
      rw [getPage_putPage_same] at hb
      simp only [Option.some.injEq] at hb
      rw [← hb, ho]; exact hs.chain b pg hg
    · rw [getPage_putPage_ne data p b pg1 e (Or.inr (Nat.le_of_lt hp))] at hb
      exact hs.chain b pgb hb

theorem store_put_chain {data ovf : List Page} {ch : Nat → List Nat} {n j : Nat}
    {q q1 : Page} (hs : Store B data ovf ch n) (hg : getPage ovf j = some q)
    (hok : PageOK B q1) (ho : q1.ovflow = q.ovflow) :
    Store B data (putPage ovf j q1) ch n := by
  have hj : j < ovf.length := getPage_lt hg
  refine ⟨hs.data_len, hs.data_ok, ?_, ?_, hs.nodup, hs.disj⟩
  · intro i pgi hi
    by_cases e : i = j
    · subst e
      rw [getPage_putPage_same] at hi
      simp only [Option.some.injEq] at hi
      rw [← hi]; exact hok
    · rw [getPage_putPage_ne ovf j i q1 e (Or.inr (Nat.le_of_lt hj))] at hi
      exact hs.ovf_ok i pgi hi
  · intro b pgb hb
    refine isChain_of_links (ch b) _ ?_ (hs.chain b pgb hb)
    intro i _ pgi hgi
    by_cases e : i = j
    · subst e
      rw [hg] at hgi
      simp only [Option.some.injEq] at hgi
      exact ⟨q1, getPage_putPage_same ovf i q1, by rw [ho, hgi]⟩
    · exact ⟨pgi, by rw [getPage_putPage_ne ovf j i q1 e (Or.inr (Nat.le_of_lt hj))]; exact hgi,
        rfl⟩

theorem store_chain_lt {data ovf : List Page} {ch : Nat → List Nat} {n b : Nat}
    (hs : Store B data ovf ch n) (hb : b < n) (j : Nat) (hj : j ∈ ch b) : j < ovf.length := by
  obtain ⟨pg, hg⟩ := getPage_isSome (f := data) (i := b) (by rw [hs.data_len]; exact hb)
  exact isChain_lt (hs.chain b pg hg) j hj

theorem pageTuples_data (p q : Page) (h : p.data = q.data) : pageTuples p = pageTuples q := by
  unfold pageTuples; rw [h]

theorem pageOK_data {p q : Page} (h : p.data = q.data) (hq : PageOK B q) : PageOK B p := by
  unfold PageOK at *
  rw [pageTuples_data p q h, h]
  exact hq

theorem chainTuples_of_data {ovf ovf1 : List Page} (ids : List Nat)
    (he : ∀ j ∈ ids, ∀ pg, getPage ovf j = some pg →
      ∃ pg1, getPage ovf1 j = some pg1 ∧ pg1.data = pg.data)
    (hx : ∀ j ∈ ids, ∃ pg, getPage ovf j = some pg) :
    chainTuples ovf1 ids = chainTuples ovf ids := by
  induction ids with
  | nil => rfl
  | cons i rest ih =>
    rw [chainTuples_cons, chainTuples_cons,
      ih (fun j hj => he j (by simp [hj])) (fun j hj => hx j (by simp [hj]))]
    obtain ⟨pg, hg⟩ := hx i (by simp)
    obtain ⟨pg1, hg1, hd⟩ := he i (by simp) pg hg
    rw [hg, hg1]
    simp only [pageTuples_data pg1 pg hd]

theorem pageTuples_single (t : Tuple) (o : Option Nat) (ht : validTuple t) :
    pageTuples ⟨t ++ [NUL], o⟩ = [t] := by
  have := pageTuples_encode [t] o (by simpa using ht)
  simpa [encode] using this

theorem pageOK_single (t : Tuple) (o : Option Nat) (ht : validTuple t) (hfit : t.length + 1 ≤ B) :
    PageOK B ⟨t ++ [NUL], o⟩ := by
  have := pageOK_encode B [t] o (by simpa using ht) (by simpa [encode] using hfit)
  simpa [encode] using this

/-- Linking the first overflow page to a bucket without one. -/
theorem store_extend_empty {data ovf : List Page} {ch : Nat → List Nat} {n p : Nat}
    {pg npg : Page} (hs : Store B data ovf ch n) (hp : p < n) (hg : getPage data p = some pg)
    (hch : ch p = []) (hnok : PageOK B npg) (hno : npg.ovflow = none) :
    Store B (putPage data p ⟨pg.data, some ovf.length⟩) (ovf ++ [npg])
      (Function.update ch p [ovf.length]) n := by
  have hpl : p < data.length := getPage_lt hg
  refine ⟨by rw [length_putPage_lt data p _ hpl]; exact hs.data_len, ?_, ?_, ?_, ?_, ?_⟩
  · intro b pgb hb
    by_cases e : b = p
    · subst e
      rw [getPage_putPage_same] at hb
      simp only [Option.some.injEq] at hb
      rw [← hb]
      exact pageOK_data B rfl (hs.data_ok b pg hg)
    · rw [getPage_putPage_ne data p b _ e (Or.inr (Nat.le_of_lt hpl))] at hb
      exact hs.data_ok b pgb hb
  · intro j pgj hj
    by_cases e : j < ovf.length
    · rw [getPage_append_left ovf _ j e] at hj
      exact hs.ovf_ok j pgj hj
    · have hlt := getPage_lt hj
      simp only [List.length_append, List.length_singleton] at hlt
      have e2 : j = ovf.length := by omega
      subst e2
      rw [getPage_append_length] at hj
      simp only [Option.some.injEq] at hj
      rw [← hj]; exact hnok
  · intro b pgb hb
    by_cases e : b = p
    · subst e
      rw [getPage_putPage_same] at hb
      simp only [Option.some.injEq] at hb
      rw [← hb, Function.update_same, isChain_cons_iff]
      refine ⟨rfl, npg, getPage_append_length ovf npg, ?_⟩
      rw [hno, isChain_nil_iff]
    · rw [getPage_putPage_ne data p b _ e (Or.inr (Nat.le_of_lt hpl))] at hb
      rw [Function.update_noteq e]
      refine isChain_congr (ch b) _ ?_ (hs.chain b pgb hb)
      intro j hj
      exact getPage_append_left ovf _ j (isChain_lt (hs.chain b pgb hb) j hj)
  · intro b hb
    by_cases e : b = p
    · subst e; rw [Function.update_same]; simp
    · rw [Function.update_noteq e]; exact hs.nodup b hb
  · intro b c hb hc hbc j hj
    by_cases e : b = p
    · subst e
      rw [Function.update_same] at hj
      simp only [List.mem_singleton] at hj
      rw [Function.update_noteq (Ne.symm hbc)]
      intro hcon
      have := store_chain_lt B hs hc j hcon
      omega
    · rw [Function.update_noteq e] at hj
      by_cases e2 : c = p
      · subst e2
        rw [Function.update_same]
        simp only [List.mem_singleton]
        have := store_chain_lt B hs hb j hj
        omega
      · rw [Function.update_noteq e2]
        exact hs.disj b c hb hc hbc j hj

/-- Linking a new overflow page to the last page of a chain. -/
theorem store_extend_last {data ovf : List Page} {ch : Nat → List Nat} {n p last : Nat}
    {pre : List Nat} {lastpg npg : Page} (hs : Store B data ovf ch n) (hp : p < n)
    (hch : ch p = pre ++ [last]) (hgl : getPage ovf last = some lastpg)
    (hnok : PageOK B npg) (hno : npg.ovflow = none) :
    Store B data (putPage (ovf ++ [npg]) last ⟨lastpg.data, some ovf.length⟩)
      (Function.update ch p (ch p ++ [ovf.length])) n := by
  have hll : last < ovf.length := getPage_lt hgl
  have hll2 : last ≤ (ovf ++ [npg]).length := by
    simp only [List.length_append, List.length_singleton]; omega
  have hget : ∀ j, j ≠ last → j < ovf.length →
      getPage (putPage (ovf ++ [npg]) last ⟨lastpg.data, some ovf.length⟩) j = getPage ovf j := by
    intro j hj hlt
    rw [getPage_putPage_ne _ last j _ hj (Or.inr hll2), getPage_append_left ovf _ j hlt]
  have hgetL : getPage (putPage (ovf ++ [npg]) last ⟨lastpg.data, some ovf.length⟩) ovf.length
      = some npg := by
    rw [getPage_putPage_ne _ last _ _ (by omega) (Or.inr hll2), getPage_append_length]
  have hlast_mem : last ∈ ch p := by rw [hch]; simp
  obtain ⟨pgp, hgp⟩ := getPage_isSome (f := data) (i := p) (by rw [hs.data_len]; exact hp)
  refine ⟨hs.data_len, hs.data_ok, ?_, ?_, ?_, ?_⟩
  · intro j pgj hj
    by_cases e : j = last
    · subst e
      rw [getPage_putPage_same] at hj
      simp only [Option.some.injEq] at hj
      rw [← hj]
      exact pageOK_data B rfl (hs.ovf_ok j lastpg hgl)
    · by_cases e1 : j < ovf.length
      · rw [hget j e e1] at hj
        exact hs.ovf_ok j pgj hj
      · have hlt := getPage_lt hj
        have hlen : (putPage (ovf ++ [npg]) last ⟨lastpg.data, some ovf.length⟩).length
            = ovf.length + 1 := by
          rw [length_putPage_lt _ _ _ (by
            simp only [List.length_append, List.length_singleton]; omega)]
          simp
        have e2 : j = ovf.length := by omega
        subst e2
        rw [hgetL] at hj
        simp only [Option.some.injEq] at hj
        rw [← hj]; exact hnok
  · intro b pgb hb
    by_cases e : b = p
    · subst e
      rw [Function.update_same, hch, List.append_assoc]
      have hc := hs.chain b pgb hb
      rw [hch] at hc
      refine isChain_extend pre last ovf.length lastpg npg (getPage_putPage_same _ _ _) hgetL hno
        _ hc ?_
      intro i hi
      have hn := hs.nodup b hp
      rw [hch] at hn
      have hne : i ≠ last := by
        intro e
        subst e
        have := (List.nodup_append.mp hn).2.2
        exact this hi (by simp)
      exact hget i hne (store_chain_lt B hs hp i (by rw [hch]; simp [hi]))
    · rw [Function.update_noteq e]
      have hbn : b < n := by rw [← hs.data_len]; exact getPage_lt hb
      refine isChain_congr (ch b) _ ?_ (hs.chain b pgb hb)
      intro j hj
      have hne : j ≠ last := by
        intro e2
        subst e2
        exact hs.disj b p hbn hp e j hj hlast_mem
      exact hget j hne (store_chain_lt B hs hbn j hj)
  · intro b hb
    by_cases e : b = p
    · subst e
      rw [Function.update_same]
      refine List.nodup_append.mpr ⟨hs.nodup b hb, by simp, ?_⟩
      intro j hj hj2
      simp only [List.mem_singleton] at hj2
      have := store_chain_lt B hs hb j hj
      omega
    · rw [Function.update_noteq e]; exact hs.nodup b hb
  · intro b c hb hc hbc j hj
    by_cases e : b = p
    · subst e
      rw [Function.update_same] at hj
      rw [Function.update_noteq (Ne.symm hbc)]
      rcases List.mem_append.mp hj with h1 | h1
      · exact hs.disj b c hb hc hbc j h1
      · simp only [List.mem_singleton] at h1
        intro hcon
        have := store_chain_lt B hs hc j hcon
        omega
    · rw [Function.update_noteq e] at hj
      by_cases e2 : c = p
      · subst e2
        rw [Function.update_same]
        intro hcon
        rcases List.mem_append.mp hcon with h1 | h1
        · exact hs.disj b c hb hc hbc j hj h1
        · simp only [List.mem_singleton] at h1
          have := store_chain_lt B hs hb j hj
          omega
      · rw [Function.update_noteq e2]
        exact hs.disj b c hb hc hbc j hj

theorem mem_before_of_append_eq {α : Type} {a b c d : List α} {x y : α}
    (h : a ++ x :: b = c ++ y :: d) (hx : x ∉ c) : y = x ∨ y ∈ a := by
  rcases List.append_eq_append_iff.mp h with ⟨a1, e1, e2⟩ | ⟨c1, e1, e2⟩
  · cases a1 with
    | nil =>
      simp only [List.nil_append, List.cons.injEq] at e2
      exact Or.inl e2.1.symm
    | cons z a2 =>
      simp only [List.cons_append, List.cons.injEq] at e2
      exact absurd (by rw [e1, e2.1]; simp) hx
  · cases c1 with
    | nil =>
      simp only [List.nil_append, List.cons.injEq] at e2
      exact Or.inl e2.1
    | cons z c2 =>
      simp only [List.cons_append, List.cons.injEq] at e2
      exact Or.inr (by rw [e1, e2.1]; simp)

theorem bucketTuples_eq (data ovf : List Page) (ids : List Nat) (b : Nat) (pg : Page)
    (h : getPage data b = some pg) :
    bucketTuples data ovf ids b = pageTuples pg ++ chainTuples ovf ids := by
  unfold bucketTuples; rw [h]

/-- Storing a tuple in a bucket of a well-formed store: the store stays
well-formed, the bucket gains the tuple, every other page keeps its contents. -/
theorem addToBucket_store {fuel : Nat} {data ovf data1 ovf1 : List Page}
    {ch : Nat → List Nat} {n p : Nat} {t : Tuple} {ok : Bool}
    (hs : Store B data ovf ch n) (hp : p < n) (ht : validTuple t) (hfit : t.length + 1 ≤ B)
    (h : addToBucket B fuel data ovf p t = some (data1, ovf1, ok)) :
    ok = true ∧ ∃ ids, (ids = ch p ∨ ids = ch p ++ [ovf.length]) ∧
      Store B data1 ovf1 (Function.update ch p ids) n ∧
      (bucketTuples data1 ovf1 ids p).Perm (t :: bucketTuples data ovf (ch p) p) ∧
      (∀ b, b ≠ p → getPage data1 b = getPage data b) ∧
      (∀ j, j < ovf.length → j ∉ ch p → getPage ovf1 j = getPage ovf j) ∧
      ovf.length ≤ ovf1.length := by
  obtain ⟨pg, hg⟩ := getPage_isSome (f := data) (i := p) (by rw [hs.data_len]; exact hp)
  have hpl : p < data.length := getPage_lt hg
  have hpok := hs.data_ok p pg hg
  rcases addToBucket_spec B hg (hs.chain p pg hg) h with
    ⟨pg1, ha, hd, ho, hk⟩ |
    ⟨_, pre, j, post, q, q1, hcs, _, hgj, haj, hd, ho, hk⟩ |
    ⟨_, _, ⟨hn, _⟩ | ⟨hk, hcs, hd, ho⟩ | ⟨hk, pre, last, lastpg, hcs, hgl, _, hd, ho⟩⟩
  · obtain ⟨_, hok1, htup, hov, _, _⟩ := addToPage_spec B hpok ht ha
    refine ⟨hk, ch p, Or.inl rfl, ?_, ?_, ?_, ?_, ?_⟩
    · rw [Function.update_eq_self, hd, ho]
      exact store_put_primary B hs hg hok1 hov
    · rw [hd, ho, bucketTuples_eq _ _ _ _ pg1 (getPage_putPage_same data p pg1),
        bucketTuples_eq _ _ _ _ pg hg, htup, List.append_assoc]
      exact List.perm_middle.trans (by simp)
    · intro b hb
      rw [hd]; exact getPage_putPage_ne data p b pg1 hb (Or.inr (Nat.le_of_lt hpl))
    · intro j _ _; rw [ho]
    · rw [ho]
  · obtain ⟨_, hok1, htup, hov, _, _⟩ := addToPage_spec B (hs.ovf_ok j q hgj) ht haj
    have hjm : j ∈ ch p := by rw [hcs]; simp
    have hjl : j < ovf.length := getPage_lt hgj
    refine ⟨hk, ch p, Or.inl rfl, ?_, ?_, ?_, ?_, ?_⟩
    · rw [Function.update_eq_self, hd, ho]
      exact store_put_chain B hs hgj hok1 hov
    · rw [hd, ho, bucketTuples_eq _ _ _ _ pg hg, bucketTuples_eq _ _ _ _ pg hg]
      exact ((chainTuples_put_mem ovf j q q1 t hgj htup (ch p) (hs.nodup p hp) hjm).append_left
        _).trans List.perm_middle
    · intro b _; rw [hd]
    · intro i _ hi
      rw [ho]
      exact getPage_putPage_ne ovf j i q1 (fun e => hi (e ▸ hjm)) (Or.inr (Nat.le_of_lt hjl))
    · rw [ho, length_putPage_lt ovf j q1 hjl]
  · exfalso
    rw [addToPage_none_iff] at hn
    simp only [newPage, List.length_nil] at hn
    omega
  · refine ⟨hk, ch p ++ [ovf.length], Or.inr rfl, ?_, ?_, ?_, ?_, ?_⟩
    · rw [hd, ho, hcs]
      exact store_extend_empty B hs hp hg hcs (pageOK_single B t none ht hfit) rfl
    · rw [hd, ho, bucketTuples_eq _ _ _ _ _ (getPage_putPage_same data p _),
        bucketTuples_eq _ _ _ _ pg hg, hcs]
      simp only [List.nil_append, chainTuples_cons, chainTuples_nil, getPage_append_length,
        List.append_nil, pageTuples_single t none ht]
      rw [pageTuples_data ⟨pg.data, some ovf.length⟩ pg rfl]
      exact List.perm_append_comm
    · intro b hb
      rw [hd]; exact getPage_putPage_ne data p b _ hb (Or.inr (Nat.le_of_lt hpl))
    · intro j hj _
      rw [ho]; exact getPage_append_left ovf _ j hj
    · rw [ho]; simp
  · have hll : last < ovf.length := getPage_lt hgl
    have hll2 : last ≤ (ovf ++ [(⟨t ++ [NUL], none⟩ : Page)]).length := by
      simp only [List.length_append, List.length_singleton]; omega
    have hlm : last ∈ ch p := by rw [hcs]; simp
    refine ⟨hk, ch p ++ [ovf.length], Or.inr rfl, ?_, ?_, ?_, ?_, ?_⟩
    · rw [hd, ho]
      exact store_extend_last B hs hp hcs hgl (pageOK_single B t none ht hfit) rfl
    · rw [hd, ho, bucketTuples_eq _ _ _ _ pg hg, bucketTuples_eq _ _ _ _ pg hg,
        chainTuples_append]
      have e1 : chainTuples (putPage (ovf ++ [(⟨t ++ [NUL], none⟩ : Page)]) last
          ⟨lastpg.data, some ovf.length⟩) (ch p) = chainTuples ovf (ch p) := by
        refine chainTuples_of_data (ch p) ?_ (isChain_getPage (ch p) _ (hs.chain p pg hg))
        intro j hj pgj hgj
        by_cases e : j = last
        · subst e
          rw [hgl] at hgj
          simp only [Option.some.injEq] at hgj
          exact ⟨_, getPage_putPage_same _ _ _, by rw [← hgj]⟩
        · refine ⟨pgj, ?_, rfl⟩
          rw [getPage_putPage_ne _ last j _ e (Or.inr hll2),
            getPage_append_left ovf _ j (store_chain_lt B hs hp j hj)]
          exact hgj
      have e2 : chainTuples (putPage (ovf ++ [(⟨t ++ [NUL], none⟩ : Page)]) last
          ⟨lastpg.data, some ovf.length⟩) [ovf.length] = [t] := by
        rw [chainTuples_cons, chainTuples_nil,
          getPage_putPage_ne _ last _ _ (by omega) (Or.inr hll2), getPage_append_length]
        simp only [List.append_nil, pageTuples_single t none ht]
      rw [e1, e2, ← List.append_assoc]
      exact List.perm_append_comm
    · intro b _; rw [hd]
    · intro j hj hjn
      rw [ho, getPage_putPage_ne _ last j _ (fun e => hjn (e ▸ hlm)) (Or.inr hll2),
        getPage_append_left ovf _ j hj]
    · rw [ho, length_putPage_lt _ _ _ (by
        simp only [List.length_append, List.length_singleton]; omega)]
      simp

/-- Storing a tuple in a bucket one of whose overflow pages, `o`, has room:
the tuple goes to the primary page, to a page before `o` or to `o`; no page
is allocated and no link changes. -/
theorem addToBucket_store_room {fuel : Nat} {data ovf data1 ovf1 : List Page}
    {ch : Nat → List Nat} {n p o : Nat} {t : Tuple} {ok : Bool} {done todo : List Nat}
    {q : Page} (hs : Store B data ovf ch n) (hp : p < n) (ht : validTuple t)
    (hch : ch p = done ++ o :: todo) (hgo : getPage ovf o = some q)
    (hroom : q.data.length + t.length + 1 ≤ B)
    (h : addToBucket B fuel data ovf p t = some (data1, ovf1, ok)) :
    ok = true ∧ Store B data1 ovf1 ch n ∧ ovf1.length = ovf.length ∧
      (bucketTuples data1 ovf1 (done ++ [o]) p).Perm
        (t :: bucketTuples data ovf (done ++ [o]) p) ∧
      (∀ b, b ≠ p → getPage data1 b = getPage data b) ∧
      (∀ j, j ∉ done → j ≠ o → getPage ovf1 j = getPage ovf j) ∧
      (∃ q1, getPage ovf1 o = some q1 ∧ q1.data.length ≤ q.data.length + t.length + 1) := by
  obtain ⟨pg, hg⟩ := getPage_isSome (f := data) (i := p) (by rw [hs.data_len]; exact hp)
  have hpl : p < data.length := getPage_lt hg
  have hpok := hs.data_ok p pg hg
  have hnotfull : ¬ Full B t ovf o := by
    rintro ⟨q2, hq2, hf⟩
    rw [hgo] at hq2
    simp only [Option.some.injEq] at hq2
    subst hq2
    rw [addToPage_none_iff] at hf
    omega
  have hnd : (done ++ [o]).Nodup := by
    have := hs.nodup p hp
    rw [hch] at this
    have e : done ++ o :: todo = (done ++ [o]) ++ todo := by simp
    rw [e] at this
    exact (List.nodup_append.mp this).1
  rcases addToBucket_spec B hg (hs.chain p pg hg) h with
    ⟨pg1, ha, hd, ho, hk⟩ |
    ⟨_, pre, j, post, q0, q1, hcs, hfull, hgj, haj, hd, ho, hk⟩ |
    ⟨_, hfull, _⟩
  · obtain ⟨_, hok1, htup, hov, _, _⟩ := addToPage_spec B hpok ht ha
    refine ⟨hk, ?_, by rw [ho], ?_, ?_, ?_, ?_⟩
    · rw [hd, ho]
      exact store_put_primary B hs hg hok1 hov
    · rw [hd, ho, bucketTuples_eq _ _ _ _ pg1 (getPage_putPage_same data p pg1),
        bucketTuples_eq _ _ _ _ pg hg, htup, List.append_assoc]
      exact List.perm_middle.trans (by simp)
    · intro b hb
      rw [hd]; exact getPage_putPage_ne data p b pg1 hb (Or.inr (Nat.le_of_lt hpl))
    · intro j _ _; rw [ho]
    · exact ⟨q, by rw [ho]; exact hgo, by omega⟩
  · obtain ⟨_, hok1, htup, hov, _, hlen⟩ := addToPage_spec B (hs.ovf_ok j q0 hgj) ht haj
    have hjl : j < ovf.length := getPage_lt hgj
    have hopre : o ∉ pre := fun hcon => hnotfull (hfull o hcon)
    have hjpos : j = o ∨ j ∈ done := by
      rw [hch] at hcs
      exact mem_before_of_append_eq hcs hopre
    have hjm : j ∈ done ++ [o] := by
      rcases hjpos with e | e
      · simp [e]
      · simp [e]
    refine ⟨hk, ?_, by rw [ho, length_putPage_lt ovf j q1 hjl], ?_, ?_, ?_, ?_⟩
    · rw [hd, ho]
      exact store_put_chain B hs hgj hok1 hov
    · rw [hd, ho, bucketTuples_eq _ _ _ _ pg hg, bucketTuples_eq _ _ _ _ pg hg]
      exact ((chainTuples_put_mem ovf j q0 q1 t hgj htup (done ++ [o]) hnd hjm).append_left
        _).trans List.perm_middle
    · intro b _; rw [hd]
    · intro i hi1 hi2
      rw [ho]
      refine getPage_putPage_ne ovf j i q1 ?_ (Or.inr (Nat.le_of_lt hjl))
      intro e
      subst e
      rcases hjpos with e | e
      · exact hi2 e
      · exact hi1 e
    · by_cases e : j = o
      · subst e
        rw [hgo] at hgj
        simp only [Option.some.injEq] at hgj
        subst hgj
        exact ⟨q1, by rw [ho]; exact getPage_putPage_same ovf j q1, by omega⟩
      · refine ⟨q, ?_, by omega⟩
        rw [ho, getPage_putPage_ne ovf j o q1 (Ne.symm e) (Or.inr (Nat.le_of_lt hjl))]
        exact hgo
  · exact absurd (hfull o (by rw [hch]; simp)) hnotfull

/-! ## The redistribution of a split -/

theorem addToPage_encode (A : List Tuple) (o : Option Nat) (t : Tuple)
    (hfit : (encode (A ++ [t])).length ≤ B) :
    addToPage B ⟨encode A, o⟩ t = some ⟨encode (A ++ [t]), o⟩ := by
  unfold addToPage
  have e : encode (A ++ [t]) = encode A ++ t ++ [NUL] := by
    rw [encode_append]; simp [encode]
  rw [e] at hfit
  simp only [List.length_append, List.length_singleton] at hfit
  rw [if_pos (by simpa using hfit), e]

theorem encode_length_append_le (A ts us : List Tuple) (hs : us.Sublist ts) :
    (encode (A ++ us)).length ≤ (encode (A ++ ts)).length := by
  rw [encode_append, encode_append, List.length_append, List.length_append]
  simp only [encode_length]
  have := (hs.map (fun t : Tuple => t.length + 1)).sum_le_sum (by intro x _; omega)
  omega

/-- The first redistribution loop never leaves the two primary pages: every
tuple of the old primary page fits the emptied page it is sent to. -/
theorem loop1_spec (fuel : Nat) (r : Reln) (newp : Nat) (o1 o2 : Option Nat)
    (hne : newp ≠ r.sp) :
    ∀ (ts : List Tuple) (s : Loop1) (A C : List Tuple),
      (∀ t ∈ ts, getLower (tupleHash hash_any r t) (r.depth + 1) = r.sp ∨
        getLower (tupleHash hash_any r t) (r.depth + 1) = newp) →
      getPage s.data r.sp = some s.np1 → getPage s.data newp = some s.np2 →
      s.np1 = ⟨encode A, o1⟩ → s.np2 = ⟨encode C, o2⟩ →
      (encode (A ++ ts.filter (staysOld hash_any r))).length ≤ B →
      (encode (C ++ ts.filter (fun t => !staysOld hash_any r t))).length ≤ B →
      ∃ s1, loop1 hash_any B fuel r ts s = some (s1, true) ∧ s1.ovflow = s.ovflow ∧
        s1.data.length = s.data.length ∧
        getPage s1.data r.sp = some ⟨encode (A ++ ts.filter (staysOld hash_any r)), o1⟩ ∧
        getPage s1.data newp =
          some ⟨encode (C ++ ts.filter (fun t => !staysOld hash_any r t)), o2⟩ ∧
        (∀ b, b ≠ r.sp → b ≠ newp → getPage s1.data b = getPage s.data b) := by
  intro ts
  induction ts with
  | nil =>
    intro s A C _ h1 h2 e1 e2 _ _
    refine ⟨s, rfl, rfl, rfl, ?_, ?_, fun _ _ _ => rfl⟩
    · simp only [List.filter_nil, List.append_nil]; rw [h1, e1]
    · simp only [List.filter_nil, List.append_nil]; rw [h2, e2]
  | cons t ts ih =>
    intro s A C hcls h1 h2 e1 e2 hA hC
    have hsp : r.sp < s.data.length := getPage_lt h1
    have hnp : newp < s.data.length := getPage_lt h2
    by_cases hold : getLower (tupleHash hash_any r t) (r.depth + 1) = r.sp
    · have hso : staysOld hash_any r t = true := by simp [staysOld, hold]
      simp only [List.filter_cons, hso, if_true, Bool.not_true, Bool.false_eq_true,
        if_false] at hA hC ⊢
      have hfit : (encode (A ++ [t])).length ≤ B := by
        refine le_trans ?_ hA
        have := encode_length_append_le (A ++ [t]) (ts.filter (staysOld hash_any r)) []
          (List.nil_sublist _)
        simpa using this
      have hstep : loop1Step hash_any B fuel r s t =
          some (⟨putPage s.data r.sp ⟨encode (A ++ [t]), o1⟩, s.ovflow,
            ⟨encode (A ++ [t]), o1⟩, s.np2⟩, true) := by
        unfold loop1Step
        rw [if_pos hold, e1, addToPage_encode B A o1 t hfit]
        simp only [hold, getPage_putPage_same]
      rw [loop1, hstep]
      simp only
      obtain ⟨s1, hl, ho, hlen, hg1, hg2, hfr⟩ := ih
        ⟨putPage s.data r.sp ⟨encode (A ++ [t]), o1⟩, s.ovflow, ⟨encode (A ++ [t]), o1⟩, s.np2⟩
        (A ++ [t]) C (fun u hu => hcls u (by simp [hu]))
        (getPage_putPage_same _ _ _)
        (by
          show getPage (putPage s.data r.sp _) newp = some s.np2
          rw [getPage_putPage_ne s.data r.sp newp _ hne (Or.inl hnp)]; exact h2)
        rfl e2 (by simpa using hA) hC
      refine ⟨s1, hl, ho, ?_, ?_, hg2, ?_⟩
      · rw [hlen]; exact length_putPage_lt s.data r.sp _ hsp
      · rw [hg1]; simp
      · intro b hb1 hb2
        rw [hfr b hb1 hb2]
        exact getPage_putPage_ne s.data r.sp b _ hb1 (Or.inr (Nat.le_of_lt hsp))
    · have hnew : getLower (tupleHash hash_any r t) (r.depth + 1) = newp := by
        rcases hcls t (by simp) with h | h
        · exact absurd h hold
        · exact h
      have hso : staysOld hash_any r t = false := by simp [staysOld, hold]
      simp only [List.filter_cons, hso, Bool.false_eq_true, if_false, Bool.not_false,
        if_true] at hA hC ⊢
      have hfit : (encode (C ++ [t])).length ≤ B := by
        refine le_trans ?_ hC
        have := encode_length_append_le (C ++ [t])
          (ts.filter (fun t => !staysOld hash_any r t)) [] (List.nil_sublist _)
        simpa using this
      have hstep : loop1Step hash_any B fuel r s t =
          some (⟨putPage s.data newp ⟨encode (C ++ [t]), o2⟩, s.ovflow,
            s.np1, ⟨encode (C ++ [t]), o2⟩⟩, true) := by
        unfold loop1Step
        rw [if_neg hold, e2, addToPage_encode B C o2 t hfit]
        simp only [hnew, getPage_putPage_same]
      rw [loop1, hstep]
      simp only
      obtain ⟨s1, hl, ho, hlen, hg1, hg2, hfr⟩ := ih
        ⟨putPage s.data newp ⟨encode (C ++ [t]), o2⟩, s.ovflow, s.np1, ⟨encode (C ++ [t]), o2⟩⟩
        A (C ++ [t]) (fun u hu => hcls u (by simp [hu]))
        (by
          show getPage (putPage s.data newp _) r.sp = some s.np1
          rw [getPage_putPage_ne s.data newp r.sp _ (Ne.symm hne) (Or.inl hsp)]; exact h1)
        (getPage_putPage_same _ _ _)
        e1 rfl hA (by simpa using hC)
      refine ⟨s1, hl, ho, ?_, hg1, ?_, ?_⟩
      · rw [hlen]; exact length_putPage_lt s.data newp _ hnp
      · rw [hg2]; simp
      · intro b hb1 hb2
        rw [hfr b hb1 hb2]
        exact getPage_putPage_ne s.data newp b _ hb2 (Or.inr (Nat.le_of_lt hnp))

theorem bucketTuples_congr {data data1 ovf ovf1 : List Page} (ids : List Nat) (b : Nat)
    (hd : getPage data1 b = getPage data b) (ho : ∀ j ∈ ids, getPage ovf1 j = getPage ovf j) :
    bucketTuples data1 ovf1 ids b = bucketTuples data ovf ids b := by
  unfold bucketTuples
  rw [hd, chainTuples_congr ids ho]

/-- The re-insertion of the tuples `post` of the old overflow page `o`, which
has been emptied: the tuples that stay go to the primary page of the old
bucket or to an overflow page up to `o`, the others to the new bucket `n`. -/
theorem loop2Inner_spec (fuel : Nat) (r : Reln) (n : Nat) (done todo : List Nat) (o : Nat)
    (hne : n ≠ r.sp) (hspn : r.sp < n + 1) :
    ∀ (post : List Tuple) (data ovf data1 ovf1 : List Page) (ch : Nat → List Nat)
      (q : Page) (ok : Bool),
      Store B data ovf ch (n + 1) → ch r.sp = done ++ o :: todo →
      getPage ovf o = some q →
      q.data.length + (encode (post.filter (staysOld hash_any r))).length ≤ B →
      (∀ t ∈ post, validTuple t ∧ t.length + 1 ≤ B ∧
        (getLower (tupleHash hash_any r t) (r.depth + 1) = r.sp ∨
          getLower (tupleHash hash_any r t) (r.depth + 1) = n)) →
      loop2Inner hash_any B fuel r post data ovf = some (data1, ovf1, ok) →
      ok = true ∧ ∃ ch1, Store B data1 ovf1 ch1 (n + 1) ∧
        (∀ b, b ≠ n → ch1 b = ch b) ∧
        (bucketTuples data1 ovf1 (done ++ [o]) r.sp).Perm
          (post.filter (staysOld hash_any r) ++ bucketTuples data ovf (done ++ [o]) r.sp) ∧
        (bucketTuples data1 ovf1 (ch1 n) n).Perm
          (post.filter (fun t => !staysOld hash_any r t) ++ bucketTuples data ovf (ch n) n) ∧
        (∀ b, b ≠ r.sp → b ≠ n → getPage data1 b = getPage data b) ∧
        (∀ j, j < ovf.length → j ∉ done → j ≠ o → j ∉ ch n →
          getPage ovf1 j = getPage ovf j) ∧
        ovf.length ≤ ovf1.length ∧ (∀ j ∈ ch1 n, j ∈ ch n ∨ ovf.length ≤ j) ∧
        (ch1 n).length ≤ (ch n).length + post.length := by
  intro post
  induction post with
  | nil =>
    intro data ovf data1 ovf1 ch q ok hs _ _ _ _ h
    simp only [loop2Inner, Option.some.injEq, Prod.mk.injEq] at h
    obtain ⟨rfl, rfl, rfl⟩ := h
    exact ⟨rfl, ch, hs, fun _ _ => rfl, by simp, by simp, fun _ _ _ => rfl,
      fun _ _ _ _ _ => rfl, le_refl _, fun j hj => Or.inl hj, by simp⟩
  | cons t post ih =>
    intro data ovf data1 ovf1 ch q ok hs hch hgo hroom hcls h
    obtain ⟨htv, htfit, htcls⟩ := hcls t (by simp)
    have hcls2 : ∀ u ∈ post, validTuple u ∧ u.length + 1 ≤ B ∧
        (getLower (tupleHash hash_any r u) (r.depth + 1) = r.sp ∨
          getLower (tupleHash hash_any r u) (r.depth + 1) = n) :=
      fun u hu => hcls u (by simp [hu])
    have hnn : n < n + 1 := Nat.lt_succ_self n
    have hdisj : ∀ j ∈ ch n, j ∉ done ∧ j ≠ o := by
      intro j hj
      have := hs.disj n r.sp hnn hspn hne j hj
      rw [hch] at this
      constructor
      · intro hcon; exact this (by simp [hcon])
      · intro hcon; exact this (by simp [hcon])
    rw [loop2Inner] at h
    simp only [ite_self] at h
    cases hadd : addToBucket B fuel data ovf
        (getLower (tupleHash hash_any r t) (r.depth + 1)) t with
    | none => rw [hadd] at h; simp at h
    | some res =>
      obtain ⟨data2, ovf2, ok2⟩ := res
      rw [hadd] at h
      by_cases hold : getLower (tupleHash hash_any r t) (r.depth + 1) = r.sp
      · have hso : staysOld hash_any r t = true := by simp [staysOld, hold]
        rw [hold] at hadd
        simp only [List.filter_cons, hso, if_true, Bool.not_true, Bool.false_eq_true,
          if_false] at hroom ⊢
        have hroom1 : q.data.length + t.length + 1 ≤ B := by
          rw [encode_cons] at hroom
          simp only [List.length_append, List.length_cons] at hroom
          omega
        obtain ⟨hk, hs2, hlen2, hperm2, hfd2, hfo2, q1, hgq1, hq1len⟩ :=
          addToBucket_store_room B hs hspn htv hch hgo hroom1 hadd
        subst hk
        simp only at h
        have hroom2 : q1.data.length + (encode (post.filter (staysOld hash_any r))).length
            ≤ B := by
          rw [encode_cons] at hroom
          simp only [List.length_append, List.length_cons] at hroom
          omega
        obtain ⟨hk, ch1, hs1, hch1, hp1, hp2, hfd1, hfo1, hlen1, hfresh1, hcl1⟩ :=
          ih data2 ovf2 data1 ovf1 ch q1 ok hs2 hch hgq1 hroom2 hcls2 h
        refine ⟨hk, ch1, hs1, hch1, ?_, ?_, ?_, ?_, ?_, ?_,
          by rw [List.length_cons]; omega⟩
        · refine hp1.trans ?_
          refine (hperm2.append_left _).trans ?_
          exact List.perm_middle
        · refine hp2.trans ?_
          rw [bucketTuples_congr (ch n) n (hfd2 n hne)
            (fun j hj => hfo2 j (hdisj j hj).1 (hdisj j hj).2)]
        · intro b hb1 hb2
          rw [hfd1 b hb1 hb2, hfd2 b hb1]
        · intro j hj hj1 hj2 hj3
          rw [hfo1 j (by omega) hj1 hj2 hj3, hfo2 j hj1 hj2]
        · omega
        · intro j hj
          rcases hfresh1 j hj with h1 | h1
          · exact Or.inl h1
          · exact Or.inr (by omega)
      · have hnew : getLower (tupleHash hash_any r t) (r.depth + 1) = n := by
          rcases htcls with h1 | h1
          · exact absurd h1 hold
          · exact h1
        have hso : staysOld hash_any r t = false := by simp [staysOld, hold]
        rw [hnew] at hadd
        simp only [List.filter_cons, hso, Bool.false_eq_true, if_false, Bool.not_false,
          if_true] at hroom ⊢
        obtain ⟨hk, ids, hids, hs2, hperm2, hfd2, hfo2, hlen2⟩ :=
          addToBucket_store B hs hnn htv htfit hadd
        subst hk
        simp only at h
        have hch2 : Function.update ch n ids r.sp = done ++ o :: todo := by
          rw [Function.update_noteq (Ne.symm hne)]; exact hch
        have hol : o < ovf.length := getPage_lt hgo
        have hon : o ∉ ch n := fun hcon => (hdisj o hcon).2 rfl
        have hgo2 : getPage ovf2 o = some q := by rw [hfo2 o hol hon]; exact hgo
        obtain ⟨hk, ch1, hs1, hch1, hp1, hp2, hfd1, hfo1, hlen1, hfresh1, hcl1⟩ :=
          ih data2 ovf2 data1 ovf1 (Function.update ch n ids) q ok hs2 hch2 hgo2 hroom hcls2 h
        have hidlen : ids.length ≤ (ch n).length + 1 := by
          rcases hids with e | e
          · rw [e]; omega
          · rw [e, List.length_append, List.length_singleton]
        rw [Function.update_same] at hcl1
        have hidsub : ∀ j ∈ ids, j ∈ ch n ∨ j = ovf.length := by
          intro j hj
          rcases hids with e | e
          · rw [e] at hj; exact Or.inl hj
          · rw [e] at hj
            rcases List.mem_append.mp hj with h1 | h1
            · exact Or.inl h1
            · simp only [List.mem_singleton] at h1; exact Or.inr h1
        have hchsp : ∀ j ∈ done ++ [o], j < ovf.length ∧ j ∉ ch n := by
          intro j hj
          have hjm : j ∈ ch r.sp := by
            rw [hch]
            rcases List.mem_append.mp hj with h1 | h1
            · simp [h1]
            · simp only [List.mem_singleton] at h1; simp [h1]
          exact ⟨store_chain_lt B hs hspn j hjm,
            fun hcon => hs.disj n r.sp hnn hspn hne j hcon hjm⟩
        refine ⟨hk, ch1, hs1, ?_, ?_, ?_, ?_, ?_, ?_, ?_,
          by rw [List.length_cons]; omega⟩
        · intro b hb
          rw [hch1 b hb, Function.update_noteq hb]
        · refine hp1.trans ?_
          rw [bucketTuples_congr (done ++ [o]) r.sp (hfd2 r.sp (Ne.symm hne))
            (fun j hj => hfo2 j (hchsp j hj).1 (hchsp j hj).2)]
        · refine hp2.trans ?_
          rw [Function.update_same]
          refine (hperm2.append_left _).trans ?_
          exact List.perm_middle
        · intro b hb1 hb2
          rw [hfd1 b hb1 hb2, hfd2 b hb2]
        · intro j hj hj1 hj2 hj3
          have hj4 : j ∉ Function.update ch n ids n := by
            rw [Function.update_same]
            intro hcon
            rcases hidsub j hcon with h1 | h1
            · exact hj3 h1
            · omega
          rw [hfo1 j (by omega) hj1 hj2 hj4, hfo2 j hj hj3]
        · omega
        · intro j hj
          rcases hfresh1 j hj with h1 | h1
          · rw [Function.update_same] at h1
            rcases hidsub j h1 with h2 | h2
            · exact Or.inl h2
            · exact Or.inr (by omega)
          · exact Or.inr (by omega)

theorem length_succ_le_encode {ts : List Tuple} {t : Tuple} (h : t ∈ ts) :
    t.length + 1 ≤ (encode ts).length := by
  induction ts with
  | nil => simp at h
  | cons u us ih =>
    rw [encode_cons]
    simp only [List.length_append, List.length_cons]
    rcases List.mem_cons.mp h with e | e
    · subst e; omega
    · have := ih e; omega

theorem loop2_none (fuel : Nat) (r : Reln) (k : Nat) (data ovf : List Page) :
    loop2 hash_any B fuel r k none data ovf = some (data, ovf, true) := by
  cases k <;> rfl

/-- The second redistribution loop over the part `todo` of the old chain that
is still to be read: every page of it is emptied in place and its tuples are
divided between the old bucket and the new bucket `n`. -/
theorem loop2_spec (fuel : Nat) (r : Reln) (n : Nat) (hne : n ≠ r.sp) (hspn : r.sp < n + 1) :
    ∀ (todo : List Nat) (k : Nat) (ovg : Option Nat) (done : List Nat)
      (data ovf data1 ovf1 : List Page) (ch : Nat → List Nat) (ok : Bool),
      Store B data ovf ch (n + 1) → ch r.sp = done ++ todo → IsChain ovf ovg todo →
      (∀ j ∈ todo, ∀ pg, getPage ovf j = some pg → ∀ t ∈ pageTuples pg,
        getLower (tupleHash hash_any r t) (r.depth + 1) = r.sp ∨
          getLower (tupleHash hash_any r t) (r.depth + 1) = n) →
      loop2 hash_any B fuel r k ovg data ovf = some (data1, ovf1, ok) →
      ok = true ∧ ∃ ch1, Store B data1 ovf1 ch1 (n + 1) ∧
        (∀ b, b ≠ n → ch1 b = ch b) ∧
        (bucketTuples data1 ovf1 (done ++ todo) r.sp).Perm
          ((chainTuples ovf todo).filter (staysOld hash_any r) ++
            bucketTuples data ovf done r.sp) ∧
        (bucketTuples data1 ovf1 (ch1 n) n).Perm
          ((chainTuples ovf todo).filter (fun t => !staysOld hash_any r t) ++
            bucketTuples data ovf (ch n) n) ∧
        (∀ b, b ≠ r.sp → b ≠ n → getPage data1 b = getPage data b) ∧
        (∀ j, j < ovf.length → j ∉ done → j ∉ todo → j ∉ ch n →
          getPage ovf1 j = getPage ovf j) ∧
        ovf.length ≤ ovf1.length ∧ (∀ j ∈ ch1 n, j ∈ ch n ∨ ovf.length ≤ j) ∧
        (ch1 n).length ≤ (ch n).length + (chainTuples ovf todo).length := by
  intro todo
  induction todo with
  | nil =>
    intro k ovg done data ovf data1 ovf1 ch ok hs _ hlink _ h
    rw [isChain_nil_iff] at hlink
    subst hlink
    rw [loop2_none] at h
    simp only [Option.some.injEq, Prod.mk.injEq] at h
    obtain ⟨rfl, rfl, rfl⟩ := h
    exact ⟨rfl, ch, hs, fun _ _ => rfl, by simp [chainTuples_nil],
      by simp [chainTuples_nil], fun _ _ _ => rfl, fun _ _ _ _ _ => rfl, le_refl _,
      fun j hj => Or.inl hj, by simp⟩
  | cons o todo ih =>
    intro k ovg done data ovf data1 ovf1 ch ok hs hch hlink hcls h
    rw [isChain_cons_iff] at hlink
    obtain ⟨hovg, q0, hgo, hrest⟩ := hlink
    subst hovg
    have hnn : n < n + 1 := Nat.lt_succ_self n
    have hol : o < ovf.length := getPage_lt hgo
    have hq0 : PageOK B q0 := hs.ovf_ok o q0 hgo
    have hnd := hs.nodup r.sp hspn
    rw [hch] at hnd
    have hond : o ∉ done := fun hcon =>
      (List.nodup_append.mp hnd).2.2 hcon (by simp)
    have hotd : o ∉ todo := (List.nodup_cons.mp (List.nodup_append.mp hnd).2.1).1
    have hon : o ∉ ch n := fun hcon =>
      hs.disj n r.sp hnn hspn hne o hcon (by rw [hch]; simp)
    have htodo : ∀ j ∈ todo, j < ovf.length ∧ j ∉ done ∧ j ≠ o ∧ j ∉ ch n := by
      intro j hj
      have hjm : j ∈ ch r.sp := by rw [hch]; simp [hj]
      refine ⟨store_chain_lt B hs hspn j hjm, ?_, ?_, ?_⟩
      · intro hcon
        exact (List.nodup_append.mp hnd).2.2 hcon (by simp [hj])
      · intro hcon; subst hcon; exact hotd hj
      · intro hcon
        exact hs.disj n r.sp hnn hspn hne j hcon hjm
    cases k with
    | zero => simp [loop2] at h
    | succ k =>
      rw [loop2, hgo] at h
      simp only [pageSetOvflow, pageOvflow, newPage] at h
      cases hin : loop2Inner hash_any B fuel r (pageTuples q0) data
          (putPage ovf o ⟨[], q0.ovflow⟩) with
      | none => rw [hin] at h; simp at h
      | some res =>
        obtain ⟨data2, ovf2, ok2⟩ := res
        rw [hin] at h
        have hsR : Store B data (putPage ovf o ⟨[], q0.ovflow⟩) ch (n + 1) :=
          store_put_chain B hs hgo (pageOK_empty B _) rfl
        have hlenR : (putPage ovf o ⟨[], q0.ovflow⟩).length = ovf.length :=
          length_putPage_lt ovf o _ hol
        have hgetR : ∀ j, j ≠ o → getPage (putPage ovf o ⟨[], q0.ovflow⟩) j = getPage ovf j :=
          fun j hj => getPage_putPage_ne ovf o j _ hj (Or.inr (Nat.le_of_lt hol))
        have hroom : (⟨[], q0.ovflow⟩ : Page).data.length +
            (encode ((pageTuples q0).filter (staysOld hash_any r))).length ≤ B := by
          have h1 := encode_length_append_le [] (pageTuples q0)
            ((pageTuples q0).filter (staysOld hash_any r)) (List.filter_sublist _)
          simp only [List.nil_append] at h1
          have h2 := hq0.1
          rw [hq0.2.2] at h2
          simp only [List.length_nil, Nat.zero_add]
          omega
        have hclsT : ∀ t ∈ pageTuples q0, validTuple t ∧ t.length + 1 ≤ B ∧
            (getLower (tupleHash hash_any r t) (r.depth + 1) = r.sp ∨
              getLower (tupleHash hash_any r t) (r.depth + 1) = n) := by
          intro t ht
          refine ⟨hq0.2.1 t ht, ?_, hcls o (by simp) q0 hgo t ht⟩
          have h1 := length_succ_le_encode ht
          have h2 := hq0.1
          rw [hq0.2.2] at h2
          omega
        obtain ⟨hk2, ch2, hs2, hch2, hp1, hp2, hfd2, hfo2, hlen2, hfresh2, hcl2⟩ :=
          loop2Inner_spec hash_any B fuel r n done todo o hne hspn (pageTuples q0) data
            (putPage ovf o ⟨[], q0.ovflow⟩) data2 ovf2 ch ⟨[], q0.ovflow⟩ ok2 hsR hch
            (getPage_putPage_same ovf o _) hroom hclsT hin
        subst hk2
        simp only at h
        have hsame : ∀ j ∈ todo, getPage ovf2 j = getPage ovf j := by
          intro j hj
          obtain ⟨h1, h2, h3, h4⟩ := htodo j hj
          rw [hfo2 j (by rw [hlenR]; exact h1) h2 h3 h4, hgetR j h3]
        have hchx : ch2 r.sp = (done ++ [o]) ++ todo := by
          rw [hch2 r.sp (Ne.symm hne), hch]; simp
        obtain ⟨hk, ch1, hs1, hch1, hq1, hq2, hfd1, hfo1, hlen1, hfresh1, hcl1⟩ :=
          ih k q0.ovflow (done ++ [o]) data2 ovf2 data1 ovf1 ch2 ok hs2 hchx
            (isChain_congr todo _ hsame hrest)
            (fun j hj pg hg t ht => hcls j (by simp [hj]) pg (by rw [← hsame j hj]; exact hg) t ht)
            h
        have hRold : bucketTuples data (putPage ovf o ⟨[], q0.ovflow⟩) (done ++ [o]) r.sp =
            bucketTuples data ovf done r.sp := by
          unfold bucketTuples
          rw [chainTuples_append, chainTuples_put_not_mem ovf o _ done (Nat.le_of_lt hol) hond,
            chainTuples_cons, getPage_putPage_same, chainTuples_nil]
          simp [pageTuples_empty]
        have hRnew : bucketTuples data (putPage ovf o ⟨[], q0.ovflow⟩) (ch n) n =
            bucketTuples data ovf (ch n) n :=
          bucketTuples_congr (ch n) n rfl (fun j hj => hgetR j (fun e => hon (e ▸ hj)))
        have hct : chainTuples ovf (o :: todo) = pageTuples q0 ++ chainTuples ovf todo := by
          rw [chainTuples_cons, hgo]
        have hct2 : chainTuples ovf2 todo = chainTuples ovf todo := chainTuples_congr todo hsame
        refine ⟨hk, ch1, hs1, ?_, ?_, ?_, ?_, ?_, ?_, ?_, ?_⟩
        · intro b hb
          rw [hch1 b hb, hch2 b hb]
        · have e : done ++ o :: todo = (done ++ [o]) ++ todo := by simp
          rw [e, hct, List.filter_append]
          refine hq1.trans ?_
          rw [hct2]
          refine (hp1.append_left _).trans ?_
          rw [hRold, ← List.append_assoc]
          exact List.Perm.append_right _ List.perm_append_comm
        · rw [hct, List.filter_append]
          refine hq2.trans ?_
          rw [hct2]
          refine (hp2.append_left _).trans ?_
          rw [hRnew, ← List.append_assoc]
          exact List.Perm.append_right _ List.perm_append_comm
        · intro b hb1 hb2
          rw [hfd1 b hb1 hb2, hfd2 b hb1 hb2]
        · intro j hj hj1 hj2 hj3
          have hjo : j ≠ o := fun e => hj2 (by simp [e])
          have hjt : j ∉ todo := fun e => hj2 (by simp [e])
          have hj4 : j ∉ ch2 n := by
            intro hcon
            rcases hfresh2 j hcon with h1 | h1
            · exact hj3 h1
            · rw [hlenR] at h1; omega
          have hj5 : j ∉ done ++ [o] := by
            intro hcon
            rcases List.mem_append.mp hcon with h1 | h1
            · exact hj1 h1
            · simp only [List.mem_singleton] at h1; exact hjo h1
          rw [hfo1 j (by rw [hlenR] at hlen2; omega) hj5 hjt hj4,
            hfo2 j (by rw [hlenR]; exact hj) hj1 hjo hj3, hgetR j hjo]
        · rw [hlenR] at hlen2; omega
        · intro j hj
          rcases hfresh1 j hj with h1 | h1
          · rcases hfresh2 j h1 with h2 | h2
            · exact Or.inl h2
            · rw [hlenR] at h2; exact Or.inr h2
          · rw [hlenR] at hlen2; exact Or.inr (by omega)
        · rw [hct2] at hcl1
          rw [hct, List.length_append]
          omega

/-! ## Addresses -/

theorem mod_pow_succ_cases (h d : Nat) :
    h % 2 ^ (d + 1) = h % 2 ^ d ∨ h % 2 ^ (d + 1) = h % 2 ^ d + 2 ^ d := by
  rw [Nat.mod_pow_succ]
  rcases Nat.mod_two_eq_zero_or_one (h / 2 ^ d) with e | e <;> rw [e] <;> simp

theorem mod_pow_succ_mod (h d : Nat) : h % 2 ^ (d + 1) % 2 ^ d = h % 2 ^ d := by
  rw [pow_succ]
  exact Nat.mod_mul_right_mod h (2 ^ d) 2

/-- A tuple of the bucket at the split pointer is addressed, with one more
bit, to that bucket or to the new bucket `sp + 2^d`. -/
theorem split_address {h d sp : Nat} (hsp : sp < 2 ^ d) (hb : bucket_of h d sp = sp) :
    getLower h (d + 1) = sp ∨ getLower h (d + 1) = sp + 2 ^ d := by
  unfold bucket_of getLower at hb
  unfold getLower
  have hm := mod_pow_succ_mod h d
  have hlow : h % 2 ^ d = sp := by
    split at hb
    · rename_i hlt
      rw [hb, Nat.mod_eq_of_lt hsp] at hm
      omega
    · exact hb
  rcases mod_pow_succ_cases h d with e | e
  · left; rw [e, hlow]
  · right; rw [e, hlow]

theorem filter_valid {ts : List Tuple} (f : Tuple → Bool) (h : ∀ t ∈ ts, validTuple t) :
    ∀ t ∈ ts.filter f, validTuple t :=
  fun t ht => h t (List.mem_of_mem_filter ht)

theorem encode_filter_le (ts : List Tuple) (f : Tuple → Bool) :
    (encode (ts.filter f)).length ≤ (encode ts).length := by
  have := encode_length_append_le [] ts (ts.filter f) (List.filter_sublist _)
  simpa using this

/-- The start of the redistribution, from a state that satisfies the store
invariant: the two primary pages are emptied and the first loop divides the
tuples of the old primary page between them; the second loop then starts
from a well-formed store in which the new bucket has no overflow page. -/
theorem redistribute_setup (fuel : Nat) {r : Reln} {ch : Nat → List Nat}
    (hinv : Inv hash_any B r ch) :
    ∃ (pg : Page) (s1 : Loop1), getPage r.data r.sp = some pg ∧
      redistribute hash_any B fuel r =
        loop2 hash_any B fuel r fuel pg.ovflow s1.data r.ovflow ∧
      Store B s1.data r.ovflow (Function.update ch r.npages []) (r.npages + 1) ∧
      getPage s1.data r.sp =
        some ⟨encode ((pageTuples pg).filter (staysOld hash_any r)), pg.ovflow⟩ ∧
      getPage s1.data r.npages =
        some ⟨encode ((pageTuples pg).filter (fun t => !staysOld hash_any r t)), none⟩ ∧
      (∀ b, b ≠ r.sp → b ≠ r.npages → getPage s1.data b = getPage r.data b) ∧
      (∀ t ∈ bucketTuples r.data r.ovflow (ch r.sp) r.sp,
        getLower (tupleHash hash_any r t) (r.depth + 1) = r.sp ∨
          getLower (tupleHash hash_any r t) (r.depth + 1) = r.npages) := by
  have hs := hinv.store
  have hnp : r.sp + 2 ^ r.depth = r.npages := by rw [hinv.npages_eq]; omega
  have hpos : 0 < 2 ^ r.depth := Nat.pow_pos (by omega)
  have hspn : r.sp < r.npages := by omega
  have hne : r.npages ≠ r.sp := by omega
  obtain ⟨pg, hg⟩ := getPage_isSome (f := r.data) (i := r.sp) (by rw [hs.data_len]; exact hspn)
  have hpgok := hs.data_ok r.sp pg hg
  have hspl : r.sp < r.data.length := getPage_lt hg
  have hbt : bucketTuples r.data r.ovflow (ch r.sp) r.sp =
      pageTuples pg ++ chainTuples r.ovflow (ch r.sp) := bucketTuples_eq _ _ _ _ pg hg
  have hcls : ∀ t ∈ bucketTuples r.data r.ovflow (ch r.sp) r.sp,
      getLower (tupleHash hash_any r t) (r.depth + 1) = r.sp ∨
        getLower (tupleHash hash_any r t) (r.depth + 1) = r.npages := by
    intro t ht
    have := split_address hinv.sp_lt (hinv.hash r.sp hspn t ht)
    rw [hnp] at this
    exact this
  -- the two primary pages are emptied
  have hl : (putPage r.data r.sp ⟨[], pg.ovflow⟩).length = r.npages := by
    rw [length_putPage_lt r.data r.sp _ hspl, hs.data_len]
  have e1 : putPage (putPage r.data r.sp ⟨[], pg.ovflow⟩) r.npages ⟨[], none⟩ =
      putPage r.data r.sp ⟨[], pg.ovflow⟩ ++ [newPage] := by
    rw [← hl]; exact putPage_length_self _ _
  have hlenb : (putPage r.data r.sp ⟨[], pg.ovflow⟩ ++ [newPage]).length = r.npages + 1 := by
    rw [List.length_append, hl]; rfl
  have hgb_sp : getPage (putPage r.data r.sp ⟨[], pg.ovflow⟩ ++ [newPage]) r.sp =
      some ⟨[], pg.ovflow⟩ := by
    rw [getPage_append_left _ _ _ (by rw [hl]; exact hspn)]
    exact getPage_putPage_same _ _ _
  have hgb_n : getPage (putPage r.data r.sp ⟨[], pg.ovflow⟩ ++ [newPage]) r.npages =
      some newPage := by
    rw [← hl]; exact getPage_append_length _ _
  have hgb_other : ∀ b, b ≠ r.sp → b ≠ r.npages →
      getPage (putPage r.data r.sp ⟨[], pg.ovflow⟩ ++ [newPage]) b = getPage r.data b := by
    intro b hb1 hb2
    by_cases hlt : b < r.npages
    · rw [getPage_append_left _ _ _ (by rw [hl]; exact hlt)]
      exact getPage_putPage_ne r.data r.sp b _ hb1 (Or.inr (Nat.le_of_lt hspl))
    · unfold getPage
      rw [List.getElem?_eq_none (by rw [hlenb]; omega),
        List.getElem?_eq_none (by rw [hs.data_len]; omega)]
  have hvold := filter_valid (staysOld hash_any r) hpgok.2.1
  have hvnew := filter_valid (fun t => !staysOld hash_any r t) hpgok.2.1
  have hBold : (encode ((pageTuples pg).filter (staysOld hash_any r))).length ≤ B := by
    have := encode_filter_le (pageTuples pg) (staysOld hash_any r)
    have h2 := hpgok.1
    rw [hpgok.2.2] at h2
    omega
  have hBnew : (encode ((pageTuples pg).filter (fun t => !staysOld hash_any r t))).length
      ≤ B := by
    have := encode_filter_le (pageTuples pg) (fun t => !staysOld hash_any r t)
    have h2 := hpgok.1
    rw [hpgok.2.2] at h2
    omega
  -- first loop
  obtain ⟨s1, hl1, hov1, hlen1, hg1sp, hg1n, hfr1⟩ :=
    loop1_spec hash_any B fuel r r.npages pg.ovflow none hne (pageTuples pg)
      ⟨putPage r.data r.sp ⟨[], pg.ovflow⟩ ++ [newPage], r.ovflow, ⟨[], pg.ovflow⟩, ⟨[], none⟩⟩
      [] []
      (fun t ht => hcls t (by rw [hbt]; simp [ht]))
      hgb_sp hgb_n rfl rfl (by simpa using hBold) (by simpa using hBnew)
  simp only [List.nil_append] at hg1sp hg1n
  simp only at hov1 hlen1 hfr1
  have hget_other : ∀ b, b ≠ r.sp → b ≠ r.npages → getPage s1.data b = getPage r.data b :=
    fun b hb1 hb2 => by rw [hfr1 b hb1 hb2, hgb_other b hb1 hb2]
  have hred : redistribute hash_any B fuel r =
      loop2 hash_any B fuel r fuel pg.ovflow s1.data r.ovflow := by
    unfold redistribute
    rw [hg]
    simp only [pageSetOvflow, pageOvflow, newPage]
    rw [getPage_putPage_same]
    simp only [hnp]
    rw [e1, hgb_n]
    simp only [newPage]
    simp only [newPage] at hl1
    rw [hl1]
    simp only [hov1]
  refine ⟨pg, s1, hg, hred, ?_, hg1sp, hg1n, hget_other, hcls⟩
  -- the store after the first loop
  refine ⟨by rw [hlen1, hlenb], ?_, hs.ovf_ok, ?_, ?_, ?_⟩
  · intro b pgb hb
    by_cases e : b = r.sp
    · subst e
      rw [hg1sp] at hb
      simp only [Option.some.injEq] at hb
      rw [← hb]; exact pageOK_encode B _ _ hvold hBold
    · by_cases e2 : b = r.npages
      · subst e2
        rw [hg1n] at hb
        simp only [Option.some.injEq] at hb
        rw [← hb]; exact pageOK_encode B _ _ hvnew hBnew
      · rw [hget_other b e e2] at hb
        exact hs.data_ok b pgb hb
  · intro b pgb hb
    by_cases e : b = r.sp
    · subst e
      rw [hg1sp] at hb
      simp only [Option.some.injEq] at hb
      rw [← hb, Function.update_noteq (Ne.symm hne)]
      exact hs.chain _ pg hg
    · by_cases e2 : b = r.npages
      · subst e2
        rw [hg1n] at hb
        simp only [Option.some.injEq] at hb
        rw [← hb, Function.update_same, isChain_nil_iff]
      · rw [hget_other b e e2] at hb
        rw [Function.update_noteq e2]
        exact hs.chain b pgb hb
  · intro b hb
    by_cases e2 : b = r.npages
    · subst e2; rw [Function.update_same]; exact List.nodup_nil
    · rw [Function.update_noteq e2]; exact hs.nodup b (by omega)
  · intro b c hb hc hbc j hj
    by_cases e : b = r.npages
    · subst e; rw [Function.update_same] at hj; simp at hj
    · rw [Function.update_noteq e] at hj
      by_cases e2 : c = r.npages
      · subst e2; rw [Function.update_same]; simp
      · rw [Function.update_noteq e2]
        exact hs.disj b c (by omega) (by omega) hbc j hj

/-- The redistribution of a split, from a state that satisfies the store
invariant: it runs to its end; the old bucket keeps, on its primary page and
the pages of its old chain, the tuples whose low `d + 1` hash bits are the
split pointer; the new bucket holds the others; no other page changes. -/
theorem redistribute_spec {fuel : Nat} {r : Reln} {ch : Nat → List Nat}
    {data1 ovf1 : List Page} {ok : Bool} (hinv : Inv hash_any B r ch)
    (h : redistribute hash_any B fuel r = some (data1, ovf1, ok)) :
    ok = true ∧ ∃ ch1, Store B data1 ovf1 ch1 (r.npages + 1) ∧
      (∀ b, b ≠ r.npages → ch1 b = ch b) ∧
      (bucketTuples data1 ovf1 (ch r.sp) r.sp).Perm
        ((bucketTuples r.data r.ovflow (ch r.sp) r.sp).filter (staysOld hash_any r)) ∧
      (bucketTuples data1 ovf1 (ch1 r.npages) r.npages).Perm
        ((bucketTuples r.data r.ovflow (ch r.sp) r.sp).filter
          (fun t => !staysOld hash_any r t)) ∧
      (∀ b, b ≠ r.sp → b ≠ r.npages → getPage data1 b = getPage r.data b) ∧
      (∀ j, j < r.ovflow.length → j ∉ ch r.sp → getPage ovf1 j = getPage r.ovflow j) ∧
      r.ovflow.length ≤ ovf1.length ∧ (∀ j ∈ ch1 r.npages, r.ovflow.length ≤ j) := by
  have hs := hinv.store
  have hpos : 0 < 2 ^ r.depth := Nat.pow_pos (by omega)
  have hne : r.npages ≠ r.sp := by have := hinv.npages_eq; omega
  obtain ⟨pg, s1, hg, hred, hs0, hg1sp, hg1n, hget_other, hcls⟩ :=
    redistribute_setup hash_any B fuel hinv
  have hpgok := hs.data_ok r.sp pg hg
  have hbt : bucketTuples r.data r.ovflow (ch r.sp) r.sp =
      pageTuples pg ++ chainTuples r.ovflow (ch r.sp) := bucketTuples_eq _ _ _ _ pg hg
  have hvold := filter_valid (staysOld hash_any r) hpgok.2.1
  have hvnew := filter_valid (fun t => !staysOld hash_any r t) hpgok.2.1
  rw [hred] at h
  obtain ⟨hk, ch1, hs1, hch1, hp1, hp2, hfd, hfo, hlen, hfresh, _⟩ :=
    loop2_spec hash_any B fuel r r.npages hne (by have := hinv.npages_eq; omega)
      (ch r.sp) fuel pg.ovflow []
      s1.data r.ovflow data1 ovf1 (Function.update ch r.npages []) ok hs0
      (by rw [Function.update_noteq (Ne.symm hne)]; rfl)
      (hs.chain _ pg hg)
      (fun j hj pgj hgj t ht => hcls t (by
        rw [hbt]
        exact List.mem_append_right _ (mem_chainTuples.mpr ⟨j, hj, pgj, hgj, ht⟩)))
      h
  refine ⟨hk, ch1, hs1, ?_, ?_, ?_, ?_, ?_, hlen, ?_⟩
  · intro b hb
    rw [hch1 b hb, Function.update_noteq hb]
  · simp only [List.nil_append] at hp1
    refine hp1.trans ?_
    rw [hbt, List.filter_append, bucketTuples_eq _ _ _ _ _ hg1sp, chainTuples_nil,
      List.append_nil, pageTuples_encode _ _ hvold]
    exact List.perm_append_comm
  · refine hp2.trans ?_
    rw [hbt, List.filter_append, Function.update_same, bucketTuples_eq _ _ _ _ _ hg1n,
      chainTuples_nil, List.append_nil, pageTuples_encode _ _ hvnew]
    exact List.perm_append_comm
  · intro b hb1 hb2
    rw [hfd b hb1 hb2, hget_other b hb1 hb2]
  · intro j hj hjn
    exact hfo j hj (by simp) hjn (by rw [Function.update_same]; simp)
  · intro j hj
    rcases hfresh j hj with h1 | h1
    · rw [Function.update_same] at h1; simp at h1
    · exact h1

theorem bucket_of_lt (h d sp : Nat) : bucket_of h d sp < 2 ^ d + sp := by
  unfold bucket_of getLower
  have hpos : 0 < 2 ^ d := Nat.pow_pos (by omega)
  have h1 : h % 2 ^ d < 2 ^ d := Nat.mod_lt _ hpos
  split
  · rename_i hlt
    rcases mod_pow_succ_cases h d with e | e <;> rw [e] <;> omega
  · omega

theorem add_pow_mod (sp d : Nat) (hsp : sp < 2 ^ d) : (sp + 2 ^ d) % 2 ^ d = sp := by
  rw [Nat.add_mod_right, Nat.mod_eq_of_lt hsp]

/-- After a split the tuples kept by the old bucket are addressed to it. -/
theorem bucket_of_advance_old {h d sp : Nat} (hsp : sp < 2 ^ d)
    (hold : getLower h (d + 1) = sp) :
    (sp + 1 = 2 ^ d → bucket_of h (d + 1) 0 = sp) ∧
    (sp + 1 ≠ 2 ^ d → bucket_of h d (sp + 1) = sp) := by
  unfold getLower at hold
  have hm := mod_pow_succ_mod h d
  rw [hold, Nat.mod_eq_of_lt hsp] at hm
  constructor
  · intro _
    unfold bucket_of getLower
    rw [if_neg (by omega)]
    exact hold
  · intro _
    unfold bucket_of getLower
    rw [if_pos (by omega)]
    exact hold

/-- After a split the tuples moved to the new bucket are addressed to it. -/
theorem bucket_of_advance_new {h d sp : Nat} (hsp : sp < 2 ^ d)
    (hnew : getLower h (d + 1) = sp + 2 ^ d) :
    (sp + 1 = 2 ^ d → bucket_of h (d + 1) 0 = sp + 2 ^ d) ∧
    (sp + 1 ≠ 2 ^ d → bucket_of h d (sp + 1) = sp + 2 ^ d) := by
  unfold getLower at hnew
  have hm := mod_pow_succ_mod h d
  rw [hnew, add_pow_mod sp d hsp] at hm
  constructor
  · intro _
    unfold bucket_of getLower
    rw [if_neg (by omega)]
    exact hnew
  · intro _
    unfold bucket_of getLower
    rw [if_pos (by omega)]
    exact hnew

/-- After a split the tuples of every other bucket keep their address. -/
theorem bucket_of_advance_other {h d sp b : Nat} (hb : bucket_of h d sp = b) (hne : b ≠ sp) :
    (sp + 1 = 2 ^ d → bucket_of h (d + 1) 0 = b) ∧
    (sp + 1 ≠ 2 ^ d → bucket_of h d (sp + 1) = b) := by
  have hpos : 0 < 2 ^ d := Nat.pow_pos (by omega)
  have h1 : h % 2 ^ d < 2 ^ d := Nat.mod_lt _ hpos
  unfold bucket_of getLower at hb
  constructor
  · intro hfull
    unfold bucket_of getLower
    rw [if_neg (by omega)]
    split at hb
    · exact hb
    · omega
  · intro _
    unfold bucket_of getLower
    split at hb
    · rw [if_pos (by omega)]; exact hb
    · rw [if_neg (by omega)]; exact hb

theorem scanChain_found_fit (t : Tuple) (ovf : List Page) :
    ∀ (fuel ovp : Nat) (prev : Option (Nat × Page)) (j : Nat) (q1 : Page)
      (prev1 : Option (Nat × Page)),
      scanChain B t ovf fuel ovp prev = some (ScanOut.found j q1 prev1) →
      t.length + 1 ≤ B := by
  intro fuel
  induction fuel with
  | zero => intro ovp prev j q1 prev1 h; simp [scanChain] at h
  | succ fuel ih =>
    intro ovp prev j q1 prev1 h
    rw [scanChain] at h
    cases hg : getPage ovf ovp with
    | none => rw [hg] at h; simp at h
    | some pg =>
      rw [hg] at h
      simp only at h
      cases ha : addToPage B pg t with
      | some pg1 =>
        unfold addToPage at ha
        split at ha
        · omega
        · cases ha
      | none =>
        rw [ha] at h
        simp only [pageOvflow] at h
        cases hn : pg.ovflow with
        | none => rw [hn] at h; simp at h
        | some nxt =>
          rw [hn] at h
          exact ih nxt _ j q1 prev1 h

theorem addToPage_some_fit {p p1 : Page} {t : Tuple} (h : addToPage B p t = some p1) :
    t.length + 1 ≤ B := by
  unfold addToPage at h
  split at h
  · omega
  · cases h

/-- A tuple that `addToBucket` stores fits an empty page. -/
theorem addToBucket_true_fit {fuel : Nat} {data ovf data1 ovf1 : List Page} {p : Nat}
    {t : Tuple} (h : addToBucket B fuel data ovf p t = some (data1, ovf1, true)) :
    t.length + 1 ≤ B := by
  unfold addToBucket at h
  cases hg : getPage data p with
  | none => rw [hg] at h; simp at h
  | some pg =>
    rw [hg] at h
    simp only at h
    cases ha : addToPage B pg t with
    | some pg1 => exact addToPage_some_fit B ha
    | none =>
      rw [ha] at h
      simp only [pageOvflow, freshOvflow_eq] at h
      cases ho : pg.ovflow with
      | none =>
        rw [ho] at h
        simp only at h
        cases hn : addToPage B newPage t with
        | none => rw [hn] at h; simp at h
        | some n1 => exact addToPage_some_fit B hn
      | some ovp0 =>
        rw [ho] at h
        simp only at h
        cases hs : scanChain B t ovf fuel ovp0 none with
        | none => rw [hs] at h; simp at h
        | some out =>
          rw [hs] at h
          cases out with
          | found j q1 prev1 => exact scanChain_found_fit B t ovf fuel ovp0 none j q1 prev1 hs
          | exhausted prevp prevpg =>
            simp only at h
            cases hn : addToPage B newPage t with
            | none => rw [hn] at h; simp at h
            | some n1 => exact addToPage_some_fit B hn

/-! ## The store invariant along a run -/

theorem getPage_replicate (n b : Nat) (p : Page) (h : b < n) :
    getPage (List.replicate n p) b = some p := by
  unfold getPage
  rw [List.getElem?_replicate, if_pos h]

/-- A newly created relation satisfies the store invariant. -/
theorem inv_newRelation (nattrs d : Nat) (cv : List ChVecItem) :
    Inv hash_any B (newRelation nattrs (2 ^ d) d cv) (fun _ => []) := by
  have hget : ∀ b pg, getPage (List.replicate (2 ^ d) newPage) b = some pg → pg = newPage := by
    intro b pg hb
    have hlt := getPage_lt hb
    rw [List.length_replicate] at hlt
    rw [getPage_replicate _ _ _ hlt] at hb
    simp only [Option.some.injEq] at hb
    exact hb.symm
  refine ⟨by simp [newRelation], by simp [newRelation], ⟨?_, ?_, ?_, ?_, ?_, ?_⟩, ?_⟩
  · simp [newRelation]
  · intro b pg hb
    rw [hget b pg hb]
    exact pageOK_empty B none
  · intro j pg hj
    have := getPage_lt hj
    simp [newRelation] at this
  · intro b pg hb
    rw [hget b pg hb, isChain_nil_iff]
    rfl
  · intro b _; exact List.nodup_nil
  · intro b c _ _ _ j hj; simp at hj
  · intro b hb t ht
    simp only [newRelation] at hb ht
    rw [bucketTuples_eq _ _ _ _ newPage (getPage_replicate _ _ _ hb)] at ht
    simp [pageTuples_newPage, chainTuples_nil] at ht

/-- The insertion that ends `addToRelation` keeps the store invariant. -/
theorem insertTuple_inv {fuel : Nat} {r r1 : Reln} {t : Tuple} {p : Nat}
    {ch : Nat → List Nat} (hinv : Inv hash_any B r ch) (ht : validTuple t)
    (h : insertTuple hash_any B fuel r t = some (r1, some p)) :
    ∃ ch1, Inv hash_any B r1 ch1 := by
  have hs := hinv.store
  unfold insertTuple at h
  cases hadd : addToBucket B fuel r.data r.ovflow (targetPage hash_any r t) t with
  | none => rw [hadd] at h; simp at h
  | some res =>
    obtain ⟨data1, ovf1, ok⟩ := res
    rw [hadd] at h
    cases ok with
    | false => simp at h
    | true =>
      simp only [Option.some.injEq, Prod.mk.injEq] at h
      obtain ⟨hr1, hp⟩ := h
      have hd : 1 ≤ r.depth := by
        by_contra hcon
        have hd0 : r.depth = 0 := by omega
        have hsp := hinv.sp_lt
        have hnp := hinv.npages_eq
        rw [hd0] at hsp hnp
        simp only [pow_zero] at hsp hnp
        have htp : targetPage hash_any r t = 1 := by
          unfold targetPage; rw [if_pos hd0]
        rw [htp] at hadd
        unfold addToBucket at hadd
        have hnone : getPage r.data 1 = none := by
          unfold getPage
          exact List.getElem?_eq_none (by rw [hs.data_len]; omega)
        rw [hnone] at hadd
        simp at hadd
      have htb := targetPage_eq_bucket_of hash_any r t hd
      have hplt : targetPage hash_any r t < r.npages := by
        rw [htb, hinv.npages_eq]
        exact bucket_of_lt _ _ _
      have hfit := addToBucket_true_fit B hadd
      obtain ⟨_, ids, hids, hs1, hperm, hfd, hfo, _⟩ :=
        addToBucket_store B hs hplt ht hfit hadd
      refine ⟨Function.update ch (targetPage hash_any r t) ids, ?_⟩
      rw [← hr1]
      refine ⟨hinv.npages_eq, hinv.sp_lt, hs1, ?_⟩
      intro b hb u hu
      show bucket_of (tupleHash hash_any r u) r.depth r.sp = b
      simp only at hb hu
      by_cases e : b = targetPage hash_any r t
      · subst e
        rw [Function.update_same] at hu
        rcases List.mem_cons.mp (hperm.mem_iff.mp hu) with h1 | h1
        · rw [h1]; exact htb.symm
        · exact hinv.hash _ hb u h1
      · rw [Function.update_noteq e] at hu
        rw [bucketTuples_congr (ch b) b (hfd b e) (fun j hj =>
          hfo j (store_chain_lt B hs hb j hj)
            (fun hcon => hs.disj b _ hb hplt e j hj hcon))] at hu
        exact hinv.hash b hb u hu

/-- The state left by a completed split satisfies the store invariant. -/
theorem advance_inv {fuel : Nat} {r : Reln} {ch : Nat → List Nat} {data1 ovf1 : List Page}
    {ok : Bool} (hinv : Inv hash_any B r ch)
    (h : redistribute hash_any B fuel r = some (data1, ovf1, ok)) :
    ∃ ch1, Inv hash_any B (advance r data1 ovf1) ch1 := by
  have hs := hinv.store
  obtain ⟨_, ch1, hs1, hch1, hpold, hpnew, hfd, hfo, _, hfresh⟩ :=
    redistribute_spec hash_any B hinv h
  have hnp : r.sp + 2 ^ r.depth = r.npages := by rw [hinv.npages_eq]; omega
  have hsplt : r.sp < r.npages := by
    have : 0 < 2 ^ r.depth := Nat.pow_pos (by omega)
    omega
  have hne : r.sp ≠ r.npages := by omega
  -- the address of every stored tuple under the advanced state
  have haddr : ∀ b, b < r.npages + 1 → ∀ u ∈ bucketTuples data1 ovf1 (ch1 b) b,
      (r.sp + 1 = 2 ^ r.depth → bucket_of (tupleHash hash_any r u) (r.depth + 1) 0 = b) ∧
      (r.sp + 1 ≠ 2 ^ r.depth → bucket_of (tupleHash hash_any r u) r.depth (r.sp + 1) = b) := by
    intro b hb u hu
    by_cases e1 : b = r.sp
    · subst e1
      rw [hch1 _ hne] at hu
      have hu2 := List.mem_filter.mp (hpold.mem_iff.mp hu)
      have hold : getLower (tupleHash hash_any r u) (r.depth + 1) = r.sp := by
        simpa [staysOld] using hu2.2
      exact bucket_of_advance_old hinv.sp_lt hold
    · by_cases e2 : b = r.npages
      · subst e2
        have hu2 := List.mem_filter.mp (hpnew.mem_iff.mp hu)
        have hnold : getLower (tupleHash hash_any r u) (r.depth + 1) ≠ r.sp := by
          simpa [staysOld] using hu2.2
        have hnew : getLower (tupleHash hash_any r u) (r.depth + 1) = r.sp + 2 ^ r.depth := by
          rcases split_address hinv.sp_lt (hinv.hash r.sp hsplt u hu2.1) with h1 | h1
          · exact absurd h1 hnold
          · exact h1
        rw [← hnp]
        exact bucket_of_advance_new hinv.sp_lt hnew
      · have hb2 : b < r.npages := by omega
        rw [hch1 b e2, bucketTuples_congr (ch b) b (hfd b e1 e2) (fun j hj =>
          hfo j (store_chain_lt B hs hb2 j hj)
            (fun hcon => hs.disj b r.sp hb2 hsplt e1 j hj hcon))] at hu
        exact bucket_of_advance_other (hinv.hash b hb2 u hu) e1
  refine ⟨ch1, ?_⟩
  unfold advance
  split
  · rename_i hfull
    refine ⟨?_, ?_, hs1, ?_⟩
    · show r.npages + 1 = 2 ^ (r.depth + 1) + 0
      rw [pow_succ, hinv.npages_eq]; omega
    · show 0 < 2 ^ (r.depth + 1)
      exact Nat.pow_pos (by omega)
    · intro b hb u hu
      exact (haddr b hb u hu).1 hfull
  · rename_i hnfull
    refine ⟨?_, ?_, hs1, ?_⟩
    · show r.npages + 1 = 2 ^ r.depth + (r.sp + 1)
      rw [hinv.npages_eq]; omega
    · show r.sp + 1 < 2 ^ r.depth
      have := hinv.sp_lt
      omega
    · intro b hb u hu
      exact (haddr b hb u hu).2 hnfull

/-- A successful call of `addToRelation` keeps the store invariant. -/
theorem addToRelation_inv {fuel : Nat} {r r1 : Reln} {t : Tuple} {p : Nat}
    {ch : Nat → List Nat} (hinv : Inv hash_any B r ch) (ht : validTuple t)
    (h : addToRelation hash_any B fuel r t = some (r1, some p)) :
    ∃ ch1, Inv hash_any B r1 ch1 := by
  obtain ⟨_, h1 | h1 | h1⟩ := addToRelation_cases hash_any B h
  · exact insertTuple_inv hash_any B hinv ht h1.2
  · obtain ⟨_, d, o, _, hcon, _⟩ := h1
    cases hcon
  · obtain ⟨_, d, o, hr, hi⟩ := h1
    obtain ⟨ch1, hinv1⟩ := advance_inv hash_any B hinv hr
    exact insertTuple_inv hash_any B hinv1 ht hi

/-- Every reachable state satisfies the store invariant. -/
theorem inv_of_reachable {r : Reln} (h : Reachable hash_any B r) :
    ∃ ch, Inv hash_any B r ch := by
  induction h with
  | fresh nattrs d cv => exact ⟨_, inv_newRelation hash_any B nattrs d cv⟩
  | step fuel r r1 t p _ ht hadd ih =>
    obtain ⟨ch, hinv⟩ := ih
    exact addToRelation_inv hash_any B hinv ht hadd

theorem stored_mem_bucketTuples {r : Reln} {ch : Nat → List Nat} {b : Nat} {t : Tuple}
    (hinv : Inv hash_any B r ch) (h : Stored r b t) :
    t ∈ bucketTuples r.data r.ovflow (ch b) b := by
  obtain ⟨_, pg, hg, h1 | ⟨j, opg, hon, hgj, htj⟩⟩ := h
  · rw [bucketTuples_eq _ _ _ _ pg hg]
    exact List.mem_append_left _ h1
  · rw [bucketTuples_eq _ _ _ _ pg hg]
    refine List.mem_append_right _ (mem_chainTuples.mpr ⟨j, ?_, opg, hgj, htj⟩)
    exact onChain_mem hon _ (hinv.store.chain b pg hg)

/-- C2: in every state reached from a newly created relation of `2^d` pages
by successful `addToRelation` calls, every tuple stored in bucket `b`, on its
primary page or on a page of its overflow chain, has `bucket_of` of its
combined hash, at the relation's depth and split pointer, equal to `b`. -/
theorem reachable_tuple_in_bucket_of_hash (r : Reln) (b : Nat) (t : Tuple)
    (hr : Reachable hash_any B r) (hst : Stored r b t) :
    bucket_of (tupleHash hash_any r t) r.depth r.sp = b := by
  obtain ⟨ch, hinv⟩ := inv_of_reachable hash_any B hr
  exact hinv.hash b hst.1 t (stored_mem_bucketTuples hash_any B hinv hst)

set_option maxRecDepth 100000 in
theorem reachable_tuple_in_bucket_of_hash_witness :
    ∃ r1, Reachable sampleHash 1012 r1 ∧
      Stored r1 2 (wideTuple (Char.ofNat 97) (Char.ofNat 99) 50) ∧
      bucket_of (tupleHash sampleHash r1 (wideTuple (Char.ofNat 97) (Char.ofNat 99) 50))
        r1.depth r1.sp = 2 := by
  obtain ⟨⟨r1, res⟩, h, hP⟩ := eval_some
    (addToRelation sampleHash 1012 4 (newRelation 52 (2 ^ 1) 1 cvAttr1)
      (wideTuple (Char.ofNat 97) (Char.ofNat 99) 50))
    (fun x => x.2.isSome && decide (2 < x.1.npages) &&
      (match getPage x.1.data 2 with
        | some pg => decide (wideTuple (Char.ofNat 97) (Char.ofNat 99) 50 ∈ pageTuples pg)
        | none => false))
    (by decide)
  simp only [Bool.and_eq_true, decide_eq_true_eq] at hP
  obtain ⟨⟨hres, hnp⟩, hpg⟩ := hP
  obtain ⟨p, rfl⟩ := Option.isSome_iff_exists.mp hres
  have hreach : Reachable sampleHash 1012 r1 :=
    Reachable.step 4 _ r1 _ p (Reachable.fresh 52 1 cvAttr1)
      (by unfold validTuple; decide) h
  have hst : Stored r1 2 (wideTuple (Char.ofNat 97) (Char.ofNat 99) 50) := by
    cases hg : getPage r1.data 2 with
    | none => rw [hg] at hpg; simp at hpg
    | some pg =>
      rw [hg] at hpg
      simp only [decide_eq_true_eq] at hpg
      exact ⟨hnp, pg, hg, Or.inl hpg⟩
  exact ⟨r1, hreach, hst,
    reachable_tuple_in_bucket_of_hash sampleHash 1012 r1 2 _ hreach hst⟩

/-! ## Enough fuel: the redistribution returns -/

theorem scanChain_total (t : Tuple) (ovf : List Page) :
    ∀ (cs : List Nat) (fuel ovp : Nat) (prev : Option (Nat × Page)),
      IsChain ovf (some ovp) cs → cs.length ≤ fuel →
      ∃ out, scanChain B t ovf fuel ovp prev = some out := by
  intro cs
  induction cs with
  | nil => intro fuel ovp prev hc _; simp [IsChain] at hc
  | cons i rest ih =>
    intro fuel ovp prev hc hf
    rw [isChain_cons_iff] at hc
    obtain ⟨ho, pg, hg, hrest⟩ := hc
    simp only [Option.some.injEq] at ho
    subst ho
    cases fuel with
    | zero => simp at hf
    | succ fuel =>
      rw [scanChain, hg]
      simp only
      cases ha : addToPage B pg t with
      | some q1 => exact ⟨_, rfl⟩
      | none =>
        simp only [pageOvflow]
        cases hn : pg.ovflow with
        | none => exact ⟨_, rfl⟩
        | some nxt =>
          rw [hn] at hrest
          exact ih fuel nxt _ hrest (by simpa using hf)

theorem addToBucket_total {fuel : Nat} {data ovf : List Page} {p : Nat} (t : Tuple)
    {pg : Page} {cs : List Nat} (hg : getPage data p = some pg)
    (hc : IsChain ovf pg.ovflow cs) (hf : cs.length ≤ fuel) :
    ∃ res, addToBucket B fuel data ovf p t = some res := by
  unfold addToBucket
  rw [hg]
  simp only
  cases ha : addToPage B pg t with
  | some pg1 => exact ⟨_, rfl⟩
  | none =>
    simp only [pageOvflow, freshOvflow_eq]
    cases ho : pg.ovflow with
    | none =>
      simp only
      cases hn : addToPage B newPage t <;> exact ⟨_, rfl⟩
    | some ovp0 =>
      rw [ho] at hc
      obtain ⟨out, hs⟩ := scanChain_total B t ovf cs fuel ovp0 none hc hf
      simp only [hs]
      cases out with
      | found j q1 prev1 => exact ⟨_, rfl⟩
      | exhausted prevp prevpg =>
        simp only
        cases hn : addToPage B newPage t <;> exact ⟨_, rfl⟩

/-- With a budget that covers the chain of the old bucket and a page for every
tuple still to be moved, the inner loop of the second redistribution loop
returns. -/
theorem loop2Inner_total (fuel : Nat) (r : Reln) (n : Nat) (done todo : List Nat) (o : Nat)
    (hne : n ≠ r.sp) (hspn : r.sp < n + 1) :
    ∀ (post : List Tuple) (data ovf : List Page) (ch : Nat → List Nat) (q : Page),
      Store B data ovf ch (n + 1) → ch r.sp = done ++ o :: todo →
      getPage ovf o = some q →
      q.data.length + (encode (post.filter (staysOld hash_any r))).length ≤ B →
      (∀ t ∈ post, validTuple t ∧ t.length + 1 ≤ B ∧
        (getLower (tupleHash hash_any r t) (r.depth + 1) = r.sp ∨
          getLower (tupleHash hash_any r t) (r.depth + 1) = n)) →
      (ch r.sp).length ≤ fuel → (ch n).length + post.length ≤ fuel →
      ∃ res, loop2Inner hash_any B fuel r post data ovf = some res := by
  intro post
  induction post with
  | nil => intro data ovf ch q _ _ _ _ _ _ _; exact ⟨_, rfl⟩
  | cons t post ih =>
    intro data ovf ch q hs hch hgo hroom hcls hf1 hf2
    obtain ⟨htv, htfit, htcls⟩ := hcls t (by simp)
    have hcls2 : ∀ u ∈ post, validTuple u ∧ u.length + 1 ≤ B ∧
        (getLower (tupleHash hash_any r u) (r.depth + 1) = r.sp ∨
          getLower (tupleHash hash_any r u) (r.depth + 1) = n) :=
      fun u hu => hcls u (by simp [hu])
    have hnn : n < n + 1 := Nat.lt_succ_self n
    rw [List.length_cons] at hf2
    rw [loop2Inner]
    simp only [ite_self]
    by_cases hold : getLower (tupleHash hash_any r t) (r.depth + 1) = r.sp
    · have hso : staysOld hash_any r t = true := by simp [staysOld, hold]
      simp only [List.filter_cons, hso, if_true] at hroom
      rw [encode_cons] at hroom
      simp only [List.length_append, List.length_cons] at hroom
      obtain ⟨pgs, hgs⟩ := getPage_isSome (f := data) (i := r.sp)
        (by rw [hs.data_len]; exact hspn)
      obtain ⟨⟨data2, ovf2, ok2⟩, hadd⟩ :=
        addToBucket_total B t hgs (hs.chain r.sp pgs hgs) hf1
      rw [hold, hadd]
      obtain ⟨hk, hs2, _, _, _, _, q1, hgq1, hq1len⟩ :=
        addToBucket_store_room B hs hspn htv hch hgo (by omega) hadd
      subst hk
      simp only
      exact ih data2 ovf2 ch q1 hs2 hch hgq1 (by omega) hcls2 hf1 (by omega)
    · have hnew : getLower (tupleHash hash_any r t) (r.depth + 1) = n := by
        rcases htcls with h1 | h1
        · exact absurd h1 hold
        · exact h1
      have hso : staysOld hash_any r t = false := by simp [staysOld, hold]
      simp only [List.filter_cons, hso, Bool.false_eq_true, if_false] at hroom
      obtain ⟨pgn, hgn⟩ := getPage_isSome (f := data) (i := n)
        (by rw [hs.data_len]; exact hnn)
      have hfn : (ch n).length ≤ fuel := by omega
      obtain ⟨⟨data2, ovf2, ok2⟩, hadd⟩ :=
        addToBucket_total B t hgn (hs.chain n pgn hgn) hfn
      rw [hnew, hadd]
      obtain ⟨hk, ids, hids, hs2, _, _, hfo2, _⟩ :=
        addToBucket_store B hs hnn htv htfit hadd
      subst hk
      simp only
      have hon : o ∉ ch n := fun hcon =>
        hs.disj n r.sp hnn hspn hne o hcon (by rw [hch]; simp)
      have hgo2 : getPage ovf2 o = some q := by
        rw [hfo2 o (getPage_lt hgo) hon]; exact hgo
      have hidlen : ids.length ≤ (ch n).length + 1 := by
        rcases hids with e | e
        · rw [e]; omega
        · rw [e, List.length_append, List.length_singleton]
      refine ih data2 ovf2 (Function.update ch n ids) q hs2
        (by rw [Function.update_noteq (Ne.symm hne)]; exact hch) hgo2 hroom hcls2
        (by rw [Function.update_noteq (Ne.symm hne)]; exact hf1)
        (by rw [Function.update_same]; omega)

/-- With a budget that covers the chain of the old bucket and a page for every
tuple of that chain, the second redistribution loop returns. -/
theorem loop2_total (fuel : Nat) (r : Reln) (n : Nat) (hne : n ≠ r.sp) (hspn : r.sp < n + 1) :
    ∀ (todo : List Nat) (k : Nat) (ovg : Option Nat) (done : List Nat)
      (data ovf : List Page) (ch : Nat → List Nat),
      Store B data ovf ch (n + 1) → ch r.sp = done ++ todo → IsChain ovf ovg todo →
      (∀ j ∈ todo, ∀ pg, getPage ovf j = some pg → ∀ t ∈ pageTuples pg,
        getLower (tupleHash hash_any r t) (r.depth + 1) = r.sp ∨
          getLower (tupleHash hash_any r t) (r.depth + 1) = n) →
      todo.length ≤ k → (ch r.sp).length ≤ fuel →
      (ch n).length + (chainTuples ovf todo).length ≤ fuel →
      ∃ res, loop2 hash_any B fuel r k ovg data ovf = some res := by
  intro todo
  induction todo with
  | nil =>
    intro k ovg done data ovf ch _ _ hlink _ _ _ _
    rw [isChain_nil_iff] at hlink
    subst hlink
    exact ⟨_, loop2_none hash_any B fuel r k data ovf⟩
  | cons o todo ih =>
    intro k ovg done data ovf ch hs hch hlink hcls hk hf1 hf2
    rw [isChain_cons_iff] at hlink
    obtain ⟨hovg, q0, hgo, hrest⟩ := hlink
    subst hovg
    have hnn : n < n + 1 := Nat.lt_succ_self n
    have hol : o < ovf.length := getPage_lt hgo
    have hq0 : PageOK B q0 := hs.ovf_ok o q0 hgo
    have hnd := hs.nodup r.sp hspn
    rw [hch] at hnd
    have hotd : o ∉ todo := (List.nodup_cons.mp (List.nodup_append.mp hnd).2.1).1
    have htodo : ∀ j ∈ todo, j < ovf.length ∧ j ∉ done ∧ j ≠ o ∧ j ∉ ch n := by
      intro j hj
      have hjm : j ∈ ch r.sp := by rw [hch]; simp [hj]
      refine ⟨store_chain_lt B hs hspn j hjm, ?_, ?_, ?_⟩
      · intro hcon
        exact (List.nodup_append.mp hnd).2.2 hcon (by simp [hj])
      · intro hcon; subst hcon; exact hotd hj
      · intro hcon
        exact hs.disj n r.sp hnn hspn hne j hcon hjm
    have hct : chainTuples ovf (o :: todo) = pageTuples q0 ++ chainTuples ovf todo := by
      rw [chainTuples_cons, hgo]
    rw [hct, List.length_append] at hf2
    cases k with
    | zero => simp at hk
    | succ k =>
      rw [loop2, hgo]
      simp only [pageSetOvflow, pageOvflow, newPage]
      have hsR : Store B data (putPage ovf o ⟨[], q0.ovflow⟩) ch (n + 1) :=
        store_put_chain B hs hgo (pageOK_empty B _) rfl
      have hlenR : (putPage ovf o ⟨[], q0.ovflow⟩).length = ovf.length :=
        length_putPage_lt ovf o _ hol
      have hgetR : ∀ j, j ≠ o → getPage (putPage ovf o ⟨[], q0.ovflow⟩) j = getPage ovf j :=
        fun j hj => getPage_putPage_ne ovf o j _ hj (Or.inr (Nat.le_of_lt hol))
      have hroom : (⟨[], q0.ovflow⟩ : Page).data.length +
          (encode ((pageTuples q0).filter (staysOld hash_any r))).length ≤ B := by
        have h1 := encode_filter_le (pageTuples q0) (staysOld hash_any r)
        have h2 := hq0.1
        rw [hq0.2.2] at h2
        simp only [List.length_nil, Nat.zero_add]
        omega
      have hclsT : ∀ t ∈ pageTuples q0, validTuple t ∧ t.length + 1 ≤ B ∧
          (getLower (tupleHash hash_any r t) (r.depth + 1) = r.sp ∨
            getLower (tupleHash hash_any r t) (r.depth + 1) = n) := by
        intro t ht
        refine ⟨hq0.2.1 t ht, ?_, hcls o (by simp) q0 hgo t ht⟩
        have h1 := length_succ_le_encode ht
        have h2 := hq0.1
        rw [hq0.2.2] at h2
        omega
      obtain ⟨⟨data2, ovf2, ok2⟩, hin⟩ :=
        loop2Inner_total hash_any B fuel r n done todo o hne hspn (pageTuples q0) data
          (putPage ovf o ⟨[], q0.ovflow⟩) ch ⟨[], q0.ovflow⟩ hsR hch
          (getPage_putPage_same ovf o _) hroom hclsT hf1 (by omega)
      obtain ⟨hk2, ch2, hs2, hch2, _, _, _, hfo2, _, _, hcl2⟩ :=
        loop2Inner_spec hash_any B fuel r n done todo o hne hspn (pageTuples q0) data
          (putPage ovf o ⟨[], q0.ovflow⟩) data2 ovf2 ch ⟨[], q0.ovflow⟩ ok2 hsR hch
          (getPage_putPage_same ovf o _) hroom hclsT hin
      subst hk2
      rw [hin]
      simp only
      have hsame : ∀ j ∈ todo, getPage ovf2 j = getPage ovf j := by
        intro j hj
        obtain ⟨h1, h2, h3, h4⟩ := htodo j hj
        rw [hfo2 j (by rw [hlenR]; exact h1) h2 h3 h4, hgetR j h3]
      have hchx : ch2 r.sp = (done ++ [o]) ++ todo := by
        rw [hch2 r.sp (Ne.symm hne), hch]; simp
      refine ih k q0.ovflow (done ++ [o]) data2 ovf2 ch2 hs2 hchx
        (isChain_congr todo _ hsame hrest)
        (fun j hj pg hg t ht => hcls j (by simp [hj]) pg (by rw [← hsame j hj]; exact hg) t ht)
        (by simpa using hk) (by rw [hch2 r.sp (Ne.symm hne)]; exact hf1) ?_
      rw [chainTuples_congr todo hsame]
      omega

/-- With a budget of at least the number of overflow pages of the old bucket
and the number of tuples on them, the redistribution returns. -/
theorem redistribute_total (fuel : Nat) {r : Reln} {ch : Nat → List Nat}
    (hinv : Inv hash_any B r ch) (hf1 : (ch r.sp).length ≤ fuel)
    (hf2 : (chainTuples r.ovflow (ch r.sp)).length ≤ fuel) :
    ∃ res, redistribute hash_any B fuel r = some res := by
  have hs := hinv.store
  have hpos : 0 < 2 ^ r.depth := Nat.pow_pos (by omega)
  have hne : r.npages ≠ r.sp := by have := hinv.npages_eq; omega
  obtain ⟨pg, s1, hg, hred, hs0, _, _, _, hcls⟩ := redistribute_setup hash_any B fuel hinv
  have hbt : bucketTuples r.data r.ovflow (ch r.sp) r.sp =
      pageTuples pg ++ chainTuples r.ovflow (ch r.sp) := bucketTuples_eq _ _ _ _ pg hg
  rw [hred]
  refine loop2_total hash_any B fuel r r.npages hne (by have := hinv.npages_eq; omega)
    (ch r.sp) fuel pg.ovflow [] s1.data r.ovflow (Function.update ch r.npages []) hs0
    (by rw [Function.update_noteq (Ne.symm hne)]; rfl)
    (hs.chain _ pg hg)
    (fun j hj pgj hgj t ht => hcls t (by
      rw [hbt]
      exact List.mem_append_right _ (mem_chainTuples.mpr ⟨j, hj, pgj, hgj, ht⟩)))
    hf1 (by rw [Function.update_noteq (Ne.symm hne)]; exact hf1)
    (by rw [Function.update_same]; simpa using hf2)

/-- C5: from a state that satisfies the store invariant, the redistribution of
a split returns when its loop budget is at least the number of overflow pages
of the old bucket and the number of tuples on them; and whenever it returns
it has run to its end, bucket `oldp = sp` holds, as a multiset, exactly the
tuples of the old bucket whose low `d + 1` combined-hash bits are `oldp`,
bucket `newp = sp + 2^d` exactly those whose low `d + 1` bits are `newp`, and
the two together exactly the tuples of the old bucket. -/
theorem split_redistributes_old_bucket (r : Reln) (ch : Nat → List Nat)
    (hinv : Inv hash_any B r ch) :
    (∀ fuel, (ch r.sp).length ≤ fuel → (chainTuples r.ovflow (ch r.sp)).length ≤ fuel →
      ∃ data1 ovf1, redistribute hash_any B fuel r = some (data1, ovf1, true)) ∧
    ∀ fuel data1 ovf1 ok, redistribute hash_any B fuel r = some (data1, ovf1, ok) →
      ok = true ∧ ∃ chOld chNew pgOld pgNew,
        getPage data1 r.sp = some pgOld ∧ IsChain ovf1 pgOld.ovflow chOld ∧
        getPage data1 (r.sp + 2 ^ r.depth) = some pgNew ∧
        IsChain ovf1 pgNew.ovflow chNew ∧
        (bucketTuples data1 ovf1 chOld r.sp).Perm
          ((bucketTuples r.data r.ovflow (ch r.sp) r.sp).filter
            (fun t => decide (getLower (tupleHash hash_any r t) (r.depth + 1) = r.sp))) ∧
        (bucketTuples data1 ovf1 chNew (r.sp + 2 ^ r.depth)).Perm
          ((bucketTuples r.data r.ovflow (ch r.sp) r.sp).filter
            (fun t => decide
              (getLower (tupleHash hash_any r t) (r.depth + 1) = r.sp + 2 ^ r.depth))) ∧
        (bucketTuples data1 ovf1 chOld r.sp ++
            bucketTuples data1 ovf1 chNew (r.sp + 2 ^ r.depth)).Perm
          (bucketTuples r.data r.ovflow (ch r.sp) r.sp) := by
  constructor
  · intro fuel hf1 hf2
    obtain ⟨⟨data1, ovf1, ok⟩, h⟩ := redistribute_total hash_any B fuel hinv hf1 hf2
    have hk := (redistribute_spec hash_any B hinv h).1
    subst hk
    exact ⟨data1, ovf1, h⟩
  intro fuel data1 ovf1 ok h
  obtain ⟨hk, ch1, hs1, hch1, hpold, hpnew, _, _, _, _⟩ :=
    redistribute_spec hash_any B hinv h
  have hnp : r.sp + 2 ^ r.depth = r.npages := by rw [hinv.npages_eq]; omega
  have hsplt : r.sp < r.npages := by
    have : 0 < 2 ^ r.depth := Nat.pow_pos (by omega)
    omega
  have hne : r.sp ≠ r.npages := by omega
  obtain ⟨pgOld, hgOld⟩ := getPage_isSome (f := data1) (i := r.sp)
    (by rw [hs1.data_len]; omega)
  obtain ⟨pgNew, hgNew⟩ := getPage_isSome (f := data1) (i := r.npages)
    (by rw [hs1.data_len]; omega)
  have hcOld := hs1.chain r.sp pgOld hgOld
  rw [hch1 r.sp hne] at hcOld
  have hfnew : (bucketTuples r.data r.ovflow (ch r.sp) r.sp).filter
      (fun t => decide
        (getLower (tupleHash hash_any r t) (r.depth + 1) = r.sp + 2 ^ r.depth)) =
      (bucketTuples r.data r.ovflow (ch r.sp) r.sp).filter
        (fun t => !staysOld hash_any r t) := by
    refine List.filter_congr ?_
    intro u hu
    have hpos : 0 < 2 ^ r.depth := Nat.pow_pos (by omega)
    rcases split_address hinv.sp_lt (hinv.hash r.sp hsplt u hu) with h1 | h1
    · simp [staysOld, h1]
    · simp [staysOld, h1]
  refine ⟨hk, ch r.sp, ch1 r.npages, pgOld, pgNew, hgOld, hcOld, by rw [hnp]; exact hgNew,
    hs1.chain r.npages pgNew hgNew, hpold, ?_, ?_⟩
  · rw [hfnew, hnp]; exact hpnew
  · rw [hnp]
    exact (hpold.append hpnew).trans (List.filter_append_perm _ _)

theorem reachable_insertAll {fuel : Nat} (ts : List Tuple) :
    ∀ {r r1 : Reln}, Reachable hash_any B r → (∀ t ∈ ts, validTuple t) →
      insertAll hash_any B fuel r ts = some r1 → Reachable hash_any B r1 := by
  induction ts with
  | nil =>
    intro r r1 hr _ h
    simp only [insertAll, Option.some.injEq] at h
    rw [← h]; exact hr
  | cons t ts ih =>
    intro r r1 hr hv h
    simp only [insertAll] at h
    split at h
    · rename_i r2 p hadd
      exact ih (Reachable.step fuel r r2 t p hr (hv t (by simp)) hadd)
        (fun u hu => hv u (by simp [hu])) h
    · cases h

set_option maxRecDepth 100000 in
theorem split_redistributes_old_bucket_witness :
    ∃ r1 ch data1 ovf1, Inv sampleHash 1012 r1 ch ∧ splitDue r1 = true ∧
      redistribute sampleHash 1012 4 r1 = some (data1, ovf1, true) ∧
      bucketTuples r1.data r1.ovflow (ch r1.sp) r1.sp =
        [wideTuple (Char.ofNat 97) (Char.ofNat 99) 38] ∧
      ∃ chOld chNew pgOld pgNew,
        getPage data1 r1.sp = some pgOld ∧ IsChain ovf1 pgOld.ovflow chOld ∧
        getPage data1 (r1.sp + 2 ^ r1.depth) = some pgNew ∧
        IsChain ovf1 pgNew.ovflow chNew ∧
        (bucketTuples data1 ovf1 chOld r1.sp).Perm
          ((bucketTuples r1.data r1.ovflow (ch r1.sp) r1.sp).filter
            (fun t => decide (getLower (tupleHash sampleHash r1 t) (r1.depth + 1) = r1.sp))) ∧
        (bucketTuples data1 ovf1 chNew (r1.sp + 2 ^ r1.depth)).Perm
          ((bucketTuples r1.data r1.ovflow (ch r1.sp) r1.sp).filter
            (fun t => decide
              (getLower (tupleHash sampleHash r1 t) (r1.depth + 1) = r1.sp + 2 ^ r1.depth))) ∧
        (bucketTuples data1 ovf1 chOld r1.sp ++
            bucketTuples data1 ovf1 chNew (r1.sp + 2 ^ r1.depth)).Perm
          (bucketTuples r1.data r1.ovflow (ch r1.sp) r1.sp) := by
  obtain ⟨r1, h, hP⟩ := eval_some
    (insertAll sampleHash 1012 4 (newRelation 40 (2 ^ 1) 1 cvAttr1)
      [wideTuple (Char.ofNat 97) (Char.ofNat 99) 38])
    (fun x => splitDue x && decide (x.sp = 0) && decide (x.ovflow = []) &&
      decide ((x.data.map pageTuples).take 1 =
        [[wideTuple (Char.ofNat 97) (Char.ofNat 99) 38]]) &&
      (match redistribute sampleHash 1012 4 x with
        | some y => y.2.2
        | none => false))
    (by decide)
  simp only [Bool.and_eq_true, decide_eq_true_eq] at hP
  obtain ⟨⟨⟨⟨hsd, hsp⟩, hov⟩, hdata⟩, hred⟩ := hP
  have hreach : Reachable sampleHash 1012 r1 :=
    reachable_insertAll sampleHash 1012 _ (Reachable.fresh 40 1 cvAttr1)
      (by intro t ht; simp only [List.mem_singleton] at ht; subst ht; unfold validTuple; decide) h
  obtain ⟨ch, hinv⟩ := inv_of_reachable sampleHash 1012 hreach
  cases hr : redistribute sampleHash 1012 4 r1 with
  | none => rw [hr] at hred; simp at hred
  | some y =>
    obtain ⟨data1, ovf1, ok⟩ := y
    rw [hr] at hred
    simp only at hred
    subst hred
    have hbt : bucketTuples r1.data r1.ovflow (ch r1.sp) r1.sp =
        [wideTuple (Char.ofNat 97) (Char.ofNat 99) 38] := by
      have hlt : r1.sp < r1.npages := by
        have := hinv.npages_eq
        have : 0 < 2 ^ r1.depth := Nat.pow_pos (by omega)
        omega
      obtain ⟨pg, hg⟩ := getPage_isSome (f := r1.data) (i := r1.sp)
        (by rw [hinv.store.data_len]; exact hlt)
      have hc := hinv.store.chain r1.sp pg hg
      have hnil : ch r1.sp = [] := by
        cases hch : ch r1.sp with
        | nil => rfl
        | cons j rest =>
          have := isChain_lt hc j (by rw [hch]; simp)
          rw [hov] at this
          simp at this
      rw [bucketTuples_eq _ _ _ _ pg hg, hnil, chainTuples_nil, List.append_nil]
      rw [hsp] at hg
      unfold getPage at hg
      cases hd : r1.data with
      | nil => rw [hd] at hg; simp at hg
      | cons p0 rest =>
        rw [hd] at hg hdata
        simp only [List.getElem?_cons_zero, Option.some.injEq] at hg
        simp only [List.map_cons, List.take_succ_cons, List.take_zero, List.cons.injEq,
          and_true] at hdata
        rw [← hg]; exact hdata
    exact ⟨r1, ch, data1, ovf1, hinv, hsd, hr, hbt,
      ((split_redistributes_old_bucket sampleHash 1012 r1 ch hinv).2 4 data1 ovf1 true hr).2⟩

/-! ## Scans at sample inputs -/

set_option maxRecDepth 100000 in
/-- C1: in a new relation of depth 2 with 52 attributes (capacity 1) the first
insertion splits bucket 0 and stores the tuple `a,a,...,a` in bucket 0; the
query `a,?,...,?`, which the tuple matches, then returns the tuple twice,
because bucket 0 is twice in the candidate list.  In a new relation of depth 0
with one page the first insertion aborts, as it reads page 1. -/
theorem select_returns_inserted_tuple_twice :
    ((insertAll sampleHash 1012 4 (newRelation 52 4 2 cvMixed)
        [wideTuple (Char.ofNat 97) (Char.ofNat 97) 50]).bind
      (fun r1 => select sampleHash 4 4 r1 (wideQuery (Char.ofNat 97) 51)) =
      some [wideTuple (Char.ofNat 97) (Char.ofNat 97) 50,
            wideTuple (Char.ofNat 97) (Char.ofNat 97) 50]) ∧
    tupleMatch (wideTuple (Char.ofNat 97) (Char.ofNat 97) 50)
      (wideQuery (Char.ofNat 97) 51) = true ∧
    addToRelation sampleHash 1012 4 (newRelation 2 1 0 cvMixed)
      (wideTuple (Char.ofNat 120) (Char.ofNat 49) 0) = none := by
  decide

set_option maxRecDepth 100000 in
/-- C4: after the first insertion into a new relation of depth 1 with 52
attributes the state is depth 1, split pointer 1, 3 pages, and the tuple is
stored in bucket 2; for the all-wildcard query, which the tuple matches,
`startQuery` writes its candidate array outside the allocated block, so the
scan returns no tuple. -/
theorem select_all_wildcard_leaves_candidate_array :
    ∃ r1, insertAll sampleHash 1012 4 (newRelation 52 2 1 cvAttr1)
        [wideTuple (Char.ofNat 97) (Char.ofNat 99) 50] = some r1 ∧
      (r1.depth = 1 ∧ r1.sp = 1 ∧ r1.npages = 3) ∧
      Stored r1 2 (wideTuple (Char.ofNat 97) (Char.ofNat 99) 50) ∧
      tupleMatch (wideTuple (Char.ofNat 97) (Char.ofNat 99) 50) (wideQuery QMARK 51) = true ∧
      startQuery sampleHash r1 (wideQuery QMARK 51) = none ∧
      ∀ fuel n, select sampleHash fuel n r1 (wideQuery QMARK 51) = none := by
  obtain ⟨r1, h, hP⟩ := eval_some
    (insertAll sampleHash 1012 4 (newRelation 52 2 1 cvAttr1)
      [wideTuple (Char.ofNat 97) (Char.ofNat 99) 50])
    (fun x => decide (x.depth = 1 ∧ x.sp = 1 ∧ x.npages = 3) &&
      (match getPage x.data 2 with
        | some pg => decide (wideTuple (Char.ofNat 97) (Char.ofNat 99) 50 ∈ pageTuples pg)
        | none => false) &&
      decide (startQuery sampleHash x (wideQuery QMARK 51) = none))
    (by decide)
  simp only [Bool.and_eq_true, decide_eq_true_eq] at hP
  obtain ⟨⟨hmeta, hpg⟩, hsq⟩ := hP
  refine ⟨r1, h, hmeta, ?_, by decide, hsq, ?_⟩
  · cases hg : getPage r1.data 2 with
    | none => rw [hg] at hpg; simp at hpg
    | some pg =>
      rw [hg] at hpg
      simp only [decide_eq_true_eq] at hpg
      exact ⟨by rw [hmeta.2.2]; omega, pg, hg, Or.inl hpg⟩
  · intro fuel n
    unfold select
    rw [hsq]

/-! ## C16: the tuple counter -/

/-- C18 (the code departs from the claim): in the relation created with
`nattrs = 2`, `npages = 1`, `depth = 0` and every bit taken from attribute 0,
the first `addToRelation` call performs no split, computes the bucket `p = 1`
(line 431) and asks for page 1 of a data file that has the single page 0: the
call does not return a bucket, for every tuple, byte hash and body size. -/
theorem first_insert_at_depth_zero_reads_missing_page (fuel : Nat) (t : Tuple) :
    (newRelation 2 1 0 cvAttr0).data.length = 1 ∧
    splitDue (newRelation 2 1 0 cvAttr0) = false ∧
    targetPage hash_any (newRelation 2 1 0 cvAttr0) t = 1 ∧
    getPage (newRelation 2 1 0 cvAttr0).data 1 = none ∧
    addToRelation hash_any B fuel (newRelation 2 1 0 cvAttr0) t = none := by
  refine ⟨rfl, by decide, rfl, rfl, ?_⟩
  have hc : capacity (newRelation 2 1 0 cvAttr0) = 51 := by decide
  have hs : splitDue (newRelation 2 1 0 cvAttr0) = false := by decide
  have ht : targetPage hash_any (newRelation 2 1 0 cvAttr0) t = 1 := rfl
  have hb : addToBucket B fuel (newRelation 2 1 0 cvAttr0).data
      (newRelation 2 1 0 cvAttr0).ovflow 1 t = none := by
    unfold addToBucket
    rfl
  have hi : insertTuple hash_any B fuel (newRelation 2 1 0 cvAttr0) t = none := by
    unfold insertTuple
    rw [ht, hb]
  unfold addToRelation
  rw [hc, hs, hi]
  rfl

/-! ## The candidate array of `startQuery` -/

theorem arrSet_some {a a1 : List Nat} {i v : Nat} (h : arrSet a i v = some a1) :
    i < a.length ∧ a1 = a.set i v := by
  unfold arrSet at h
  split at h
  · exact ⟨by assumption, (Option.some.inj h).symm⟩
  · cases h

theorem arrSet_length {a a1 : List Nat} {i v : Nat} (h : arrSet a i v = some a1) :
    a1.length = a.length := by
  rw [(arrSet_some h).2, List.length_set]

theorem arrSet_forall {P : Nat → Prop} {a a1 : List Nat} {i v : Nat}
    (h : arrSet a i v = some a1) (ha : ∀ x ∈ a, P x) (hv : P v) : ∀ x ∈ a1, P x := by
  rw [(arrSet_some h).2]
  intro x hx
  rcases List.mem_or_eq_of_mem_set hx with hx | rfl
  · exact ha x hx
  · exact hv

theorem forRange_inv {σ : Type} (P : σ → Prop) (f : Nat → σ → Option σ)
    (hf : ∀ k s s1, P s → f k s = some s1 → P s1) :
    ∀ (n k : Nat) (s s1 : σ), P s → forRange f n k s = some s1 → P s1 := by
  intro n
  induction n with
  | zero =>
    intro k s s1 hs h
    simp only [forRange] at h
    cases h
    exact hs
  | succ n ih =>
    intro k s s1 hs h
    simp only [forRange] at h
    cases hfk : f k s with
    | none => rw [hfk] at h; cases h
    | some s2 =>
      rw [hfk] at h
      exact ih (k + 1) s2 s1 (hf k s s2 hs hfk) h

theorem get?_at_length (pre post : List Nat) (x : Nat) :
    (pre ++ x :: post).get? pre.length = some x := by
  rw [List.get?_eq_getElem?, List.getElem?_append_right (le_refl _)]
  simp

theorem arrSet_at_length (pre post : List Nat) (x v : Nat) :
    arrSet (pre ++ x :: post) pre.length v = some (pre ++ v :: post) := by
  unfold arrSet
  rw [if_pos (by simp)]
  simp

/-- The loops `for (k = 0; k < page_record; k++) pages2[k] = g(pages2[k])` of
lines 102-104 and 106-108 apply `g` to the first `page_record` entries. -/
theorem forRange_map (g : Nat → Nat) (post : List Nat) :
    ∀ (mid pre : List Nat),
      forRange (fun k a => match a.get? k with
        | none => none
        | some x => arrSet a k (g x)) mid.length pre.length (pre ++ mid ++ post)
        = some (pre ++ mid.map g ++ post) := by
  intro mid
  induction mid with
  | nil => intro pre; simp [forRange]
  | cons x mid ih =>
    intro pre
    have h1 : (pre ++ x :: mid ++ post).get? pre.length = some x := by
      rw [List.append_assoc]; exact get?_at_length pre _ x
    have h2 : arrSet (pre ++ x :: mid ++ post) pre.length (g x)
        = some ((pre ++ [g x]) ++ mid ++ post) := by
      rw [List.append_assoc]
      rw [show (x :: mid) ++ post = x :: (mid ++ post) from rfl, arrSet_at_length]
      simp
    simp only [List.length_cons, forRange, h1, h2]
    have := ih (pre ++ [g x])
    simp only [List.length_append, List.length_singleton] at this
    rw [this]
    simp

/-- The loop `for (k = 0; k < page_record; k++) pages2[page_record+k] =
g(pages2[k])` of lines 111-113 copies the image of the first `page_record`
entries into the next `page_record` entries. -/
theorem forRange_copy (g : Nat → Nat) (post : List Nat) (n : Nat) :
    ∀ (s2 s1 d1 d2 : List Nat), s1.length = d1.length → s2.length = d2.length →
      n = s1.length + s2.length →
      forRange (fun k a => match a.get? k with
        | none => none
        | some x => arrSet a (n + k) (g x)) s2.length s1.length
          (s1 ++ s2 ++ (d1 ++ d2 ++ post))
        = some (s1 ++ s2 ++ (d1 ++ s2.map g ++ post)) := by
  intro s2
  induction s2 with
  | nil =>
    intro s1 d1 d2 _ h2 _
    have : d2 = [] := List.length_eq_zero.mp h2.symm
    subst this
    simp [forRange]
  | cons x s2 ih =>
    intro s1 d1 d2 h1 h2 hn
    cases d2 with
    | nil => simp at h2
    | cons y d2 =>
      simp only [List.length_cons] at h2 hn
      have e1 : (s1 ++ x :: s2 ++ (d1 ++ y :: d2 ++ post)).get? s1.length = some x := by
        rw [List.append_assoc]; exact get?_at_length s1 _ x
      have e2 : arrSet (s1 ++ x :: s2 ++ (d1 ++ y :: d2 ++ post)) (n + s1.length) (g x)
          = some ((s1 ++ [x]) ++ s2 ++ ((d1 ++ [g x]) ++ d2 ++ post)) := by
        have e3 : s1 ++ x :: s2 ++ (d1 ++ y :: d2 ++ post)
            = (s1 ++ x :: s2 ++ d1) ++ y :: (d2 ++ post) := by simp
        have e4 : n + s1.length = (s1 ++ x :: s2 ++ d1).length := by
          simp only [List.length_append, List.length_cons]; omega
        rw [e3, e4, arrSet_at_length]
        simp
      simp only [List.length_cons, forRange, e1, e2]
      have := ih (s1 ++ [x]) (d1 ++ [g x]) d2 (by simp [h1]) (by simpa using h2)
        (by simp only [List.length_append, List.length_singleton]
            omega)
      simp only [List.length_append, List.length_singleton] at this
      rw [this]
      simp
theorem forRange_map_head (g : Nat → Nat) (l post : List Nat) :
    forRange (fun k a => match a.get? k with
      | none => none
      | some x => arrSet a k (g x)) l.length 0 (l ++ post) = some (l.map g ++ post) := by
  have := forRange_map g post l []
  simpa using this

theorem forRange_copy_head (g : Nat → Nat) (l d post : List Nat) (h : l.length = d.length) :
    forRange (fun k a => match a.get? k with
      | none => none
      | some x => arrSet a (l.length + k) (g x)) l.length 0 (l ++ (d ++ post))
      = some (l ++ (l.map g ++ post)) := by
  have := forRange_copy g post l.length l [] [] d rfl h (by simp)
  simpa using this

/-- One pass `j < depth` of `startQuery` on a block whose first `page_record`
entries are the list `l`. -/
theorem baseStep_spec {known unknown : List Nat} {depth j kn un : Nat}
    (hk : known.get? (depth - j - 1) = some kn)
    (hu : unknown.get? (depth - j - 1) = some un)
    (l rest : List Nat) (hroom : un = 1 → l.length ≤ rest.length) :
    baseStep known unknown depth j (l ++ rest, l.length)
      = some (stepList kn un l ++ rest.drop (if un = 1 then l.length else 0),
          (stepList kn un l).length) := by
  unfold baseStep
  simp only [forRange_map_head, hk, hu]
  have hlen : ∀ g : Nat → Nat, (l.map g).length = l.length := fun g => List.length_map _ _
  by_cases hkn : kn = 1
  · have e := forRange_map_head (· ||| 1) (l.map (· <<< 1)) rest
    rw [hlen] at e
    simp only [hkn, if_true, e]
    by_cases hun : un = 1
    · obtain ⟨d, post, rfl, hd⟩ : ∃ d post, rest = d ++ post ∧ d.length = l.length :=
        ⟨rest.take l.length, rest.drop l.length, (List.take_append_drop _ _).symm,
          by rw [List.length_take]; exact Nat.min_eq_left (hroom hun)⟩
      have e2 := forRange_copy_head (· ||| 1) ((l.map (· <<< 1)).map (· ||| 1)) d post
        (by simp [hd])
      simp only [List.length_map] at e2
      simp only [hun, if_true, e2, stepList, List.drop_left' hd, List.length_append,
        List.length_map, List.append_assoc, two_mul]
    · simp only [hun, if_false, stepList, hkn, if_true, List.drop_zero, List.length_map]
  · simp only [hkn, if_false]
    by_cases hun : un = 1
    · obtain ⟨d, post, rfl, hd⟩ : ∃ d post, rest = d ++ post ∧ d.length = l.length :=
        ⟨rest.take l.length, rest.drop l.length, (List.take_append_drop _ _).symm,
          by rw [List.length_take]; exact Nat.min_eq_left (hroom hun)⟩
      have e2 := forRange_copy_head (· ||| 1) (l.map (· <<< 1)) d post (by simp [hd])
      simp only [List.length_map] at e2
      simp only [hun, if_true, e2, stepList, hkn, if_false, List.drop_left' hd,
        List.length_append, List.length_map, List.append_assoc, two_mul]
    · simp only [hun, if_false, stepList, hkn, List.drop_zero, List.length_map]
theorem forRange_succ_last {σ : Type} (f : Nat → σ → Option σ) :
    ∀ (n k : Nat) (s : σ),
      forRange f (n + 1) k s =
        match forRange f n k s with
        | none => none
        | some s1 => f (k + n) s1 := by
  intro n
  induction n with
  | zero =>
    intro k s
    simp only [forRange, Nat.add_zero]
    cases f k s <;> rfl
  | succ n ih =>
    intro k s
    rw [forRange]
    cases hf : f k s with
    | none => simp [forRange, hf]
    | some s1 =>
      simp only []
      rw [ih (k + 1) s1]
      conv_rhs => rw [forRange, hf]
      simp only []
      rw [show k + 1 + n = k + (n + 1) by omega]

theorem stepList_length_le (kn un : Nat) (l : List Nat) :
    (stepList kn un l).length ≤ 2 * l.length ∧ l.length ≤ (stepList kn un l).length := by
  unfold stepList
  split <;> split <;> simp <;> omega

theorem baseList_length (known unknown : List Nat) (depth : Nat) :
    ∀ j, 1 ≤ (baseList known unknown depth j).length ∧
      (baseList known unknown depth j).length ≤ 2 ^ j := by
  intro j
  induction j with
  | zero => simp [baseList]
  | succ j ih =>
    rw [baseList]
    have h := stepList_length_le (known.getD (depth - j - 1) 0)
      (unknown.getD (depth - j - 1) 0) (baseList known unknown depth j)
    rw [pow_succ]
    omega

theorem get?_eq_getD {l : List Nat} {i : Nat} (h : i < l.length) :
    l.get? i = some (l.getD i 0) := by
  rw [List.get?_eq_getElem?, List.getD_eq_getElem?_getD, List.getElem?_eq_getElem h]
  rfl

/-- The passes `j < depth` of `startQuery`: after `j` passes the first
`page_record` entries of the block are `baseList j` and the rest is still
zero. -/
theorem base_passes {known unknown : List Nat} {depth N : Nat}
    (hkl : known.length = MAXBITS) (hul : unknown.length = MAXBITS)
    (hd : depth ≤ MAXBITS) (hN : 2 ^ depth ≤ N) :
    ∀ j, j ≤ depth →
      forRange (baseStep known unknown depth) j 0 (List.replicate N 0, 1)
        = some (baseList known unknown depth j ++
            List.replicate (N - (baseList known unknown depth j).length) 0,
          (baseList known unknown depth j).length) := by
  intro j
  induction j with
  | zero =>
    intro _
    have hN1 : 1 ≤ N := le_trans Nat.one_le_two_pow hN
    obtain ⟨m, rfl⟩ : ∃ m, N = m + 1 := ⟨N - 1, by omega⟩
    simp [forRange, baseList, List.replicate_succ]
  | succ j ih =>
    intro hj
    rw [forRange_succ_last, ih (by omega)]
    simp only [Nat.zero_add]
    have hl := baseList_length known unknown depth j
    have hpow : 2 ^ (j + 1) ≤ 2 ^ depth := Nat.pow_le_pow_right (by decide) hj
    rw [pow_succ] at hpow
    have hidx : depth - j - 1 < MAXBITS := by omega
    rw [baseStep_spec (get?_eq_getD (by rw [hkl]; exact hidx))
      (get?_eq_getD (by rw [hul]; exact hidx)) _ _
      (by intro _; rw [List.length_replicate]; omega)]
    rw [baseList]
    have hs := stepList_length_le (known.getD (depth - j - 1) 0)
      (unknown.getD (depth - j - 1) 0) (baseList known unknown depth j)
    congr 2
    rw [List.drop_replicate]
    congr 2
    unfold stepList at hs ⊢
    split
    · rename_i hun
      rw [if_pos hun] at hs
      split <;> simp <;> omega
    · rename_i hun
      rw [if_neg hun] at hs
      split <;> simp
/-- The pass `j == depth` of `startQuery` when no entry is appended (the split
pointer is 0, or bit `depth` is not unknown): the entries are updated in place
by `markNew` and their number stays. -/
theorem lastStep_known {known unknown : List Nat} {depth sp kn un : Nat}
    (h : sp = 0 ∨ (known.get? depth = some kn ∧ unknown.get? depth = some un ∧ un ≠ 1))
    (rest : List Nat) :
    ∀ (todo done : List Nat) (fuel : Nat), todo.length < fuel →
      lastStep known unknown depth sp fuel done.length (done ++ todo ++ rest)
          (done.length + todo.length)
        = some (done ++ todo.map (markNew kn depth sp) ++ rest,
            done.length + todo.length) := by
  intro todo
  induction todo with
  | nil =>
    intro done fuel hf
    obtain ⟨f, rfl⟩ : ∃ f, fuel = f + 1 := ⟨fuel - 1, by simp at hf; omega⟩
    simp [lastStep]
  | cons x todo ih =>
    intro done fuel hf
    obtain ⟨f, rfl⟩ : ∃ f, fuel = f + 1 := ⟨fuel - 1, by omega⟩
    simp only [List.length_cons] at hf
    have hlt : done.length < done.length + (x :: todo).length := by
      simp only [List.length_cons]; omega
    have hget : (done ++ x :: todo ++ rest).get? done.length = some x := by
      rw [List.append_assoc]; exact get?_at_length done _ x
    have hnext : ∀ v, lastStep known unknown depth sp f (done.length + 1)
        (done ++ v :: todo ++ rest) (done.length + (x :: todo).length)
        = some (done ++ v :: todo.map (markNew kn depth sp) ++ rest,
            done.length + (x :: todo).length) := by
      intro v
      have := ih (done ++ [v]) f (by omega)
      simp only [List.length_append, List.length_singleton, List.append_assoc,
        List.singleton_append] at this
      simp only [List.length_cons, List.append_assoc, List.cons_append]
      rw [show done.length + (todo.length + 1) = done.length + 1 + todo.length by omega]
      exact this
    rw [lastStep, if_pos hlt, hget]
    simp only []
    by_cases hx : x < sp
    · rw [if_pos hx]
      rcases h with h0 | ⟨hk, hu, hun⟩
      · omega
      · rw [hk, hu]
        simp only []
        by_cases hkn : kn = 1
        · have hset : arrSet (done ++ x :: todo ++ rest) done.length (x ||| 1 <<< depth)
              = some (done ++ (x ||| 1 <<< depth) :: todo ++ rest) := by
            rw [List.append_assoc]
            rw [show (x :: todo) ++ rest = x :: (todo ++ rest) from rfl, arrSet_at_length]
            simp
          rw [if_pos hkn, hset]
          simp only []
          rw [if_neg hun, hnext]
          simp [markNew, hx, hkn]
        · rw [if_neg hkn]
          simp only []
          rw [if_neg hun, hnext]
          simp [markNew, hkn]
    · rw [if_neg hx, hnext]
      simp [markNew, hx]
theorem knownBits_length (r : Reln) (q : Tuple) :
    (knownBits hash_any r q).length = MAXBITS := by
  simp [knownBits]

theorem unknownBits_length (r : Reln) (q : Tuple) : (unknownBits r q).length = MAXBITS := by
  simp [unknownBits]

/-- The candidate block of `startQuery` when the pass `j == depth` appends no
entry (split pointer 0, or bit `depth` not unknown). -/
theorem candidates_known (r : Reln) (q : Tuple) (hd : r.depth < MAXBITS)
    (hN : 2 ^ r.depth ≤ r.npages)
    (h : r.sp = 0 ∨ (unknownBits r q).getD r.depth 0 ≠ 1) :
    candidates hash_any r q
      = some ((baseList (knownBits hash_any r q) (unknownBits r q) r.depth r.depth).map
            (markNew ((knownBits hash_any r q).getD r.depth 0) r.depth r.sp) ++
          List.replicate (r.npages -
            (baseList (knownBits hash_any r q) (unknownBits r q) r.depth r.depth).length) 0,
        (baseList (knownBits hash_any r q) (unknownBits r q) r.depth r.depth).length) := by
  have hN1 : 1 ≤ r.npages := le_trans Nat.one_le_two_pow hN
  have hl := baseList_length (knownBits hash_any r q) (unknownBits r q) r.depth r.depth
  have h0 : arrSet (List.replicate r.npages 0) 0 0 = some (List.replicate r.npages 0) := by
    unfold arrSet
    rw [if_pos (by simpa using hN1)]
    congr 1
    obtain ⟨m, hm⟩ : ∃ m, r.npages = m + 1 := ⟨r.npages - 1, by omega⟩
    rw [hm]
    rfl
  unfold candidates
  rw [h0]
  simp only []
  rw [base_passes (knownBits_length hash_any r q) (unknownBits_length r q) (le_of_lt hd) hN
    r.depth (le_refl _)]
  simp only []
  have hk := @lastStep_known (knownBits hash_any r q) (unknownBits r q)
    r.depth r.sp ((knownBits hash_any r q).getD r.depth 0)
    ((unknownBits r q).getD r.depth 0)
    (h.imp id (fun hne => ⟨get?_eq_getD (by rw [knownBits_length]; exact hd),
      get?_eq_getD (by rw [unknownBits_length]; exact hd), hne⟩))
    (List.replicate (r.npages -
      (baseList (knownBits hash_any r q) (unknownBits r q) r.depth r.depth).length) 0)
    (baseList (knownBits hash_any r q) (unknownBits r q) r.depth r.depth) [] (r.npages + 1)
    (by omega)
  simp only [List.length_nil, Nat.zero_add, List.nil_append] at hk
  exact hk

/-! ## Bits of the combined hash -/

theorem shl_one (x : Nat) : x <<< 1 = 2 * x := by
  rw [Nat.shiftLeft_eq, pow_one, Nat.mul_comm]

theorem shl_or_one (x : Nat) : (x <<< 1) ||| 1 = 2 * x + 1 := by
  rw [shl_one]
  have := @Nat.mul_add_lt_is_or 1 1 (by decide) x
  rw [pow_one] at this
  exact this.symm

theorem or_two_pow {x d : Nat} (h : x < 2 ^ d) : x ||| (1 <<< d) = x + 2 ^ d := by
  rw [Nat.one_shiftLeft, Nat.or_comm]
  have := @Nat.mul_add_lt_is_or d x h 1
  rw [Nat.mul_one] at this
  rw [← this, Nat.add_comm]

theorem bitIsSet_le_one (v i : Nat) : bitIsSet v i ≤ 1 := by
  unfold bitIsSet
  omega

/-- A sum `b 0 + 2 * b 1 + ... + 2^(n-1) * b (n-1)` of bits is below `2^n`
and has `b i` as its bit `i`. -/
theorem foldl_bits (b : Nat → Nat) (hb : ∀ i, b i ≤ 1) :
    ∀ n, (List.range n).foldl (fun acc i => acc + 2 ^ i * b i) 0 < 2 ^ n ∧
      ∀ i, i < n →
        bitIsSet ((List.range n).foldl (fun acc i => acc + 2 ^ i * b i) 0) i = b i := by
  intro n
  induction n with
  | zero => simp
  | succ n ih =>
    obtain ⟨hlt, hbit⟩ := ih
    rw [List.range_succ, List.foldl_append]
    simp only [List.foldl_cons, List.foldl_nil]
    generalize (List.range n).foldl (fun acc i => acc + 2 ^ i * b i) 0 = s at hlt hbit ⊢
    have hbn := hb n
    constructor
    · rw [pow_succ]
      have : 2 ^ n * b n ≤ 2 ^ n * 1 := Nat.mul_le_mul_left _ hbn
      omega
    · intro i hi
      unfold bitIsSet at hbit ⊢
      rcases Nat.lt_succ_iff_lt_or_eq.mp hi with hlt1 | rfl
      · obtain ⟨k, rfl⟩ : ∃ k, n = i + (k + 1) := ⟨n - i - 1, by omega⟩
        rw [pow_add, Nat.mul_assoc, Nat.add_mul_div_left _ _ (Nat.pow_pos (by decide)),
          pow_succ, Nat.mul_comm (2 ^ k) 2, Nat.mul_assoc, Nat.add_mul_mod_self_left]
        exact hbit i hlt1
      · rw [Nat.add_mul_div_left _ _ (Nat.pow_pos (by decide)), Nat.div_eq_of_lt hlt,
          Nat.zero_add]
        omega

theorem tupleHash_bit (r : Reln) (t : Tuple) (i : Nat) (hi : i < MAXBITS) :
    bitIsSet (tupleHash hash_any r t) i =
      bitIsSet (hash_any ((tupleVals t).getD (chvecItem r.cv i).att []))
        (chvecItem r.cv i).bit := by
  unfold tupleHash
  exact (foldl_bits (fun i => bitIsSet (hash_any ((tupleVals t).getD (chvecItem r.cv i).att []))
    (chvecItem r.cv i).bit) (fun _ => bitIsSet_le_one _ _) MAXBITS).2 i hi

theorem knownBits_getD (r : Reln) (q : Tuple) (i : Nat) (hi : i < MAXBITS)
    (h : (tupleVals q).getD (chvecItem r.cv i).att [] ≠ [QMARK]) :
    (knownBits hash_any r q).getD i 0 = bitIsSet (tupleHash hash_any r q) i := by
  rw [tupleHash_bit hash_any r q i hi]
  unfold knownBits
  rw [List.getD_eq_getElem?_getD, List.getElem?_map, List.getElem?_range hi]
  simp only [Option.map_some', Option.getD_some, if_neg h]

theorem unknownBits_getD (r : Reln) (q : Tuple) (i : Nat) (hi : i < MAXBITS) :
    (unknownBits r q).getD i 0 =
      if (tupleVals q).getD (chvecItem r.cv i).att [] = [QMARK] then 1 else 0 := by
  unfold unknownBits
  rw [List.getD_eq_getElem?_getD, List.getElem?_map, List.getElem?_range hi]
  simp only [Option.map_some', Option.getD_some]
theorem bitIsSet_getLower {k d : Nat} (c : Nat) (h : k < d) :
    bitIsSet (getLower c d) k = bitIsSet c k := by
  unfold bitIsSet getLower
  obtain ⟨m, rfl⟩ : ∃ m, d = k + (m + 1) := ⟨d - k - 1, by omega⟩
  rw [pow_add, Nat.mod_mul_right_div_self]
  exact Nat.mod_mod_of_dvd _ (by rw [pow_succ]; exact Dvd.intro_left _ rfl)

theorem div_two_pow_step (a k : Nat) :
    2 * (a / 2 ^ (k + 1)) + bitIsSet a k = a / 2 ^ k := by
  unfold bitIsSet
  rw [pow_succ, ← Nat.div_div_eq_div_mul]
  exact Nat.div_add_mod _ 2

theorem stepList_known_single (kn un x : Nat) (hun : un ≠ 1) (hkn : kn ≤ 1) :
    stepList kn un [x] = [2 * x + kn] := by
  unfold stepList
  rw [if_neg hun]
  rcases Nat.le_one_iff_eq_zero_or_eq_one.mp hkn with rfl | rfl
  · simp [shl_one]
  · simp [shl_or_one]

/-- With every one of the low `depth` bits known, the passes `j < depth` keep
a single entry: after `j` passes it is the top `j` of the low `depth` bits of
the combined hash `c`. -/
theorem baseList_all_known {known unknown : List Nat} {d c : Nat}
    (hk : ∀ i, i < d → known.getD i 0 = bitIsSet c i)
    (hu : ∀ i, i < d → unknown.getD i 0 ≠ 1) :
    ∀ j, j ≤ d → baseList known unknown d j = [getLower c d / 2 ^ (d - j)] := by
  intro j
  induction j with
  | zero =>
    intro _
    rw [baseList, Nat.sub_zero, Nat.div_eq_of_lt]
    exact Nat.mod_lt _ (Nat.pow_pos (by decide))
  | succ j ih =>
    intro hj
    have e1 : d - j = (d - (j + 1)) + 1 := by omega
    have e2 : d - j - 1 = d - (j + 1) := by omega
    have hlt : d - (j + 1) < d := by omega
    rw [baseList, e2, ih (by omega), e1, stepList_known_single _ _ _ (hu _ hlt)
      (by rw [hk _ hlt]; exact bitIsSet_le_one _ _), hk _ hlt,
      ← bitIsSet_getLower c hlt, div_two_pow_step]

theorem markNew_eq_bucket_of (c d sp : Nat) :
    markNew (bitIsSet c d) d sp (getLower c d) = bucket_of c d sp := by
  unfold markNew bucket_of
  have hlt : getLower c d < 2 ^ d := Nat.mod_lt _ (Nat.pow_pos (by decide))
  have hsucc : getLower c (d + 1) = getLower c d + 2 ^ d * bitIsSet c d := by
    unfold getLower bitIsSet
    exact Nat.mod_pow_succ
  have hb := bitIsSet_le_one c d
  by_cases hx : getLower c d < sp
  · rw [if_pos hx, hsucc]
    rcases Nat.le_one_iff_eq_zero_or_eq_one.mp hb with h0 | h1
    · rw [h0, if_neg (by simp)]
      simp
    · rw [h1, if_pos ⟨hx, rfl⟩, or_two_pow hlt]
      simp
  · rw [if_neg hx, if_neg (fun h => hx h.1)]
/-! ## C12: a query without wildcards -/

/-- C12: for a relation with `npages = 2^depth + sp` and `depth < MAXBITS`, and a query in which no attribute used by the choice vector
is `?`, `startQuery` returns a candidate list of exactly one bucket, the
bucket `bucket_of(C, depth, sp)` of the combined hash `C` of the query's
values, which is one of the `npages` buckets. -/
theorem startQuery_all_known_single_bucket (r : Reln) (q : Tuple)
    (hn : r.npages = 2 ^ r.depth + r.sp) (hd : r.depth < MAXBITS)
    (hq : ∀ i, i < MAXBITS → (tupleVals q).getD (chvecItem r.cv i).att [] ≠ [QMARK]) :
    ∃ qr, startQuery hash_any r q = some qr ∧ qr.page_num = 1 ∧
      candidateList qr = [bucket_of (tupleHash hash_any r q) r.depth r.sp] ∧
      bucket_of (tupleHash hash_any r q) r.depth r.sp < r.npages := by
  have hun : ∀ i, i < MAXBITS → (unknownBits r q).getD i 0 ≠ 1 := by
    intro i hi
    rw [unknownBits_getD r q i hi, if_neg (hq i hi)]
    decide
  have hbase := @baseList_all_known (knownBits hash_any r q) (unknownBits r q) r.depth
    (tupleHash hash_any r q)
    (fun i hi => knownBits_getD hash_any r q i (by omega) (hq i (by omega)))
    (fun i hi => hun i (by omega)) r.depth (le_refl _)
  rw [Nat.sub_self, pow_zero, Nat.div_one] at hbase
  have hc := candidates_known hash_any r q hd (by omega) (Or.inr (hun r.depth hd))
  rw [hbase, knownBits_getD hash_any r q r.depth hd (hq r.depth hd)] at hc
  simp only [List.map_cons, List.map_nil, markNew_eq_bucket_of, List.length_singleton] at hc
  refine ⟨⟨r, 0, none, 0, q,
    [bucket_of (tupleHash hash_any r q) r.depth r.sp] ++ List.replicate (r.npages - 1) 0, 1⟩,
    ?_, rfl, ?_, ?_⟩
  · unfold startQuery
    rw [hc]
  · simp [candidateList]
  · rw [hn]
    exact bucket_of_lt _ _ _

set_option maxRecDepth 100000 in
theorem startQuery_all_known_single_bucket_witness :
    ∃ qr, startQuery sampleHash (sampleReln 2 1)
        (wideTuple (Char.ofNat 98) (Char.ofNat 98) 0) = some qr ∧ qr.page_num = 1 ∧
      candidateList qr = [bucket_of (tupleHash sampleHash (sampleReln 2 1)
        (wideTuple (Char.ofNat 98) (Char.ofNat 98) 0)) 2 1] ∧
      bucket_of (tupleHash sampleHash (sampleReln 2 1)
        (wideTuple (Char.ofNat 98) (Char.ofNat 98) 0)) 2 1 < 5 ∧
      candidateList qr = [3] :=
  have h := startQuery_all_known_single_bucket sampleHash (sampleReln 2 1)
    (wideTuple (Char.ofNat 98) (Char.ofNat 98) 0) (by decide) (by decide) (by decide)
  h.imp (fun qr hq => ⟨hq.1, hq.2.1, hq.2.2.1, hq.2.2.2,
    hq.2.2.1.trans (by decide)⟩)

/-! ## The order of the candidate list -/

theorem revBits_lt : ∀ (j x : Nat), revBits j x < 2 ^ j := by
  intro j
  induction j with
  | zero => intro x; simp [revBits]
  | succ j ih =>
    intro x
    rw [revBits, pow_succ]
    have h1 := ih (x / 2)
    have h2 : x % 2 * 2 ^ j ≤ 1 * 2 ^ j := Nat.mul_le_mul_right _ (by omega)
    omega

theorem revBits_double (j x b : Nat) (hb : b ≤ 1) :
    revBits (j + 1) (2 * x + b) = b * 2 ^ j + revBits j x := by
  rw [revBits]
  have h1 : (2 * x + b) % 2 = b := by omega
  have h2 : (2 * x + b) / 2 = x := by omega
  rw [h1, h2]

theorem revBits_add_pow : ∀ (j x c : Nat), revBits j (x + 2 ^ j * c) = revBits j x := by
  intro j
  induction j with
  | zero => intro x c; simp [revBits]
  | succ j ih =>
    intro x c
    rw [revBits, revBits]
    have h1 : (x + 2 ^ (j + 1) * c) % 2 = x % 2 := by
      rw [pow_succ, Nat.mul_comm (2 ^ j) 2, Nat.mul_assoc, Nat.add_mul_mod_self_left]
    have h2 : (x + 2 ^ (j + 1) * c) / 2 = x / 2 + 2 ^ j * c := by
      rw [pow_succ, Nat.mul_comm (2 ^ j) 2, Nat.mul_assoc,
        Nat.add_mul_div_left _ _ (by decide : 0 < 2)]
    rw [h1, h2, ih]

theorem stepList_lt {kn un : Nat} {l : List Nat} {j : Nat} (hl : ∀ x ∈ l, x < 2 ^ j) :
    ∀ x ∈ stepList kn un l, x < 2 ^ (j + 1) := by
  have h0 : ∀ x ∈ l.map (· <<< 1), x < 2 ^ (j + 1) := by
    intro x hx
    obtain ⟨y, hy, rfl⟩ := List.mem_map.mp hx
    have := hl y hy
    simp only [shl_one, pow_succ]
    omega
  have h1 : ∀ m : List Nat, (∀ x ∈ m, x < 2 ^ (j + 1)) →
      ∀ x ∈ m.map (· ||| 1), x < 2 ^ (j + 1) := by
    intro m hm x hx
    obtain ⟨y, hy, rfl⟩ := List.mem_map.mp hx
    exact Nat.or_lt_two_pow (hm y hy) (Nat.one_lt_two_pow (by omega))
  intro x hx
  unfold stepList at hx
  split at hx
  · rcases List.mem_append.mp hx with hx | hx
    · split at hx
      · exact h1 _ h0 x hx
      · exact h0 x hx
    · split at hx
      · exact h1 _ (h1 _ h0) x hx
      · exact h1 _ h0 x hx
  · split at hx
    · exact h1 _ h0 x hx
    · exact h0 x hx

theorem baseList_lt (known unknown : List Nat) (depth : Nat) :
    ∀ j, ∀ x ∈ baseList known unknown depth j, x < 2 ^ j := by
  intro j
  induction j with
  | zero => intro x hx; simp [baseList] at hx; omega
  | succ j ih =>
    rw [baseList]
    exact stepList_lt ih
theorem pairwise_map_double {j b : Nat} {l : List Nat} (hb : b ≤ 1)
    (hp : l.Pairwise (fun x y => revBits j x < revBits j y)) :
    (l.map (fun x => 2 * x + b)).Pairwise (fun x y => revBits (j + 1) x < revBits (j + 1) y) := by
  rw [List.pairwise_map]
  refine hp.imp ?_
  intro x y hxy
  rw [revBits_double _ _ _ hb, revBits_double _ _ _ hb]
  omega

theorem stepList_pairwise {kn un j : Nat} {l : List Nat} (hex : un = 1 → kn ≠ 1)
    (hp : l.Pairwise (fun x y => revBits j x < revBits j y)) :
    (stepList kn un l).Pairwise (fun x y => revBits (j + 1) x < revBits (j + 1) y) := by
  have e0 : l.map (· <<< 1) = l.map (fun x => 2 * x + 0) := by
    apply List.map_congr_left
    intro x _
    simp [shl_one]
  have e1 : (l.map (· <<< 1)).map (· ||| 1) = l.map (fun x => 2 * x + 1) := by
    rw [List.map_map]
    apply List.map_congr_left
    intro x _
    simp [shl_or_one]
  unfold stepList
  by_cases hun : un = 1
  · rw [if_pos hun, if_neg (hex hun), e1, e0]
    rw [List.pairwise_append]
    refine ⟨pairwise_map_double (by omega) hp, pairwise_map_double (by omega) hp, ?_⟩
    intro x hx y hy
    obtain ⟨x0, _, rfl⟩ := List.mem_map.mp hx
    obtain ⟨y0, _, rfl⟩ := List.mem_map.mp hy
    rw [revBits_double _ _ _ (by omega), revBits_double _ _ _ (by omega)]
    have := revBits_lt j x0
    omega
  · rw [if_neg hun]
    by_cases hkn : kn = 1
    · rw [if_pos hkn, e1]
      exact pairwise_map_double (by omega) hp
    · rw [if_neg hkn, e0]
      exact pairwise_map_double (by omega) hp

theorem baseList_pairwise {known unknown : List Nat} {depth : Nat}
    (hex : ∀ i, i < depth → unknown.getD i 0 = 1 → known.getD i 0 ≠ 1) :
    ∀ j, j ≤ depth → (baseList known unknown depth j).Pairwise
      (fun x y => revBits j x < revBits j y) := by
  intro j
  induction j with
  | zero => intro _; simp [baseList]
  | succ j ih =>
    intro hj
    rw [baseList]
    exact stepList_pairwise (hex _ (by omega)) (ih (by omega))

theorem revBits_markNew {kn d sp x : Nat} (hx : x < 2 ^ d) :
    revBits d (markNew kn d sp x) = revBits d x := by
  unfold markNew
  split
  · rw [or_two_pow hx]
    have := revBits_add_pow d x 1
    rw [Nat.mul_one] at this
    exact this
  · rfl

theorem known_zero_of_unknown (r : Reln) (q : Tuple) (i : Nat) (hi : i < MAXBITS)
    (h : (unknownBits r q).getD i 0 = 1) : (knownBits hash_any r q).getD i 0 ≠ 1 := by
  rw [unknownBits_getD r q i hi] at h
  have hq : (tupleVals q).getD (chvecItem r.cv i).att [] = [QMARK] := by
    by_contra hne
    rw [if_neg hne] at h
    cases h
  unfold knownBits
  rw [List.getD_eq_getElem?_getD, List.getElem?_map, List.getElem?_range hi]
  simp only [Option.map_some', Option.getD_some, if_pos hq]
  decide
/-! ## C11: the order in which the candidate buckets are visited -/

set_option maxRecDepth 100000 in
/-- C11, as stated, fails: at depth 2 with split pointer 0 the all-wildcard
query `?,?` gets the candidate list 0, 2, 1, 3, which is not increasing
(`pages[1] = 2 > pages[2] = 1`). -/
theorem candidate_list_not_ascending_counterexample :
    ∃ qr, startQuery sampleHash (sampleReln 2 0) (wideQuery QMARK 1) = some qr ∧
      candidateList qr = [0, 2, 1, 3] ∧
      ¬ (∀ i, i + 1 < qr.page_num → qr.pages.getD i 0 < qr.pages.getD (i + 1) 0) := by
  refine ⟨⟨sampleReln 2 0, 0, none, 0, wideQuery QMARK 1, [0, 2, 1, 3], 4⟩, by decide,
    by decide, ?_⟩
  intro h
  exact absurd (h 1 (by decide)) (by decide)

/-- C11, amended: for a relation with `npages = 2^depth + sp` and
`depth < MAXBITS` and a query for which the split pointer is 0 or bit `depth`
of the choice vector is known, `startQuery` returns a candidate list that is
strictly increasing in the bit reversal of the low `depth` bits of its bucket
IDs: the address bits are enumerated from the most significant one down, so
the list is ordered by reversed bits, not by bucket ID. -/
theorem candidate_list_ascending_in_reversed_bits (r : Reln) (q : Tuple)
    (hn : r.npages = 2 ^ r.depth + r.sp) (hd : r.depth < MAXBITS)
    (h : r.sp = 0 ∨ (tupleVals q).getD (chvecItem r.cv r.depth).att [] ≠ [QMARK]) :
    ∃ qr, startQuery hash_any r q = some qr ∧ qr.page_num ≤ qr.pages.length ∧
      ∀ i j, i < j → j < qr.page_num →
        revBits r.depth (qr.pages.getD i 0) < revBits r.depth (qr.pages.getD j 0) := by
  have hun : r.sp = 0 ∨ (unknownBits r q).getD r.depth 0 ≠ 1 := by
    refine h.imp id (fun hne => ?_)
    rw [unknownBits_getD r q _ hd, if_neg hne]
    decide
  have hc := candidates_known hash_any r q hd (by omega) hun
  have hl := baseList_length (knownBits hash_any r q) (unknownBits r q) r.depth r.depth
  have hp := @baseList_pairwise (knownBits hash_any r q) (unknownBits r q) r.depth
    (fun i hi hu => known_zero_of_unknown hash_any r q i (by omega) hu) r.depth (le_refl _)
  have hlt := baseList_lt (knownBits hash_any r q) (unknownBits r q) r.depth r.depth
  generalize baseList (knownBits hash_any r q) (unknownBits r q) r.depth r.depth = l
    at hc hl hp hlt
  refine ⟨⟨r, 0, none, 0, q, _, _⟩, by unfold startQuery; rw [hc], ?_, ?_⟩
  · simp only [List.length_append, List.length_map, List.length_replicate]
    omega
  · intro i j hij hj
    simp only at hj
    have hi : i < l.length := by omega
    rw [List.pairwise_iff_getElem] at hp
    have hij2 := hp i j hi hj hij
    simp only [List.getD_eq_getElem?_getD]
    rw [List.getElem?_append_left (by simpa using hi),
      List.getElem?_append_left (by simpa using hj)]
    simp only [List.getElem?_map, List.getElem?_eq_getElem hi, List.getElem?_eq_getElem hj,
      Option.map_some', Option.getD_some]
    rw [revBits_markNew (hlt _ (List.getElem_mem _)), revBits_markNew (hlt _ (List.getElem_mem _))]
    exact hij2

set_option maxRecDepth 100000 in
theorem candidate_list_ascending_in_reversed_bits_witness :
    ∃ qr, startQuery sampleHash (sampleReln 2 0) (wideQuery QMARK 1) = some qr ∧
      qr.page_num ≤ qr.pages.length ∧
      ∀ i j, i < j → j < qr.page_num →
        revBits 2 (qr.pages.getD i 0) < revBits 2 (qr.pages.getD j 0) :=
  candidate_list_ascending_in_reversed_bits sampleHash (sampleReln 2 0) (wideQuery QMARK 1)
    (by decide) (by decide) (Or.inl rfl)

/-! ## C13: the candidates are existing buckets -/

/-- The pass `j == depth` of `startQuery` keeps the size of the block, keeps
every entry below `2^depth + sp` and leaves `page_record` within the block. -/
theorem lastStep_bound {known unknown : List Nat} {depth sp : Nat} (hsp : sp ≤ 2 ^ depth) :
    ∀ (fuel i : Nat) (a : List Nat) (pr : Nat) (a1 : List Nat) (n1 : Nat),
      (∀ x ∈ a, x < 2 ^ depth + sp) → pr ≤ a.length →
      lastStep known unknown depth sp fuel i a pr = some (a1, n1) →
      a1.length = a.length ∧ (∀ x ∈ a1, x < 2 ^ depth + sp) ∧ n1 ≤ a1.length := by
  intro fuel
  induction fuel with
  | zero =>
    intro i a pr a1 n1 _ _ h
    simp [lastStep] at h
  | succ fuel ih =>
    intro i a pr a1 n1 ha hpr h
    rw [lastStep] at h
    split at h
    · cases hx : a.get? i with
      | none => rw [hx] at h; cases h
      | some x =>
        rw [hx] at h
        simp only [] at h
        split at h
        · rename_i hlt
          have hnew : x ||| 1 <<< depth < 2 ^ depth + sp := by
            rw [or_two_pow (by omega)]
            omega
          cases hk : known.get? depth with
          | none => rw [hk] at h; simp at h
          | some kn =>
            cases hu : unknown.get? depth with
            | none => rw [hk, hu] at h; simp at h
            | some un =>
              rw [hk, hu] at h
              simp only [] at h
              cases hs1 : (if kn = 1 then arrSet a i (x ||| 1 <<< depth) else some a) with
              | none => rw [hs1] at h; cases h
              | some a2 =>
                rw [hs1] at h
                simp only [] at h
                have ha2 : a2.length = a.length ∧ ∀ y ∈ a2, y < 2 ^ depth + sp := by
                  split at hs1
                  · exact ⟨arrSet_length hs1, arrSet_forall hs1 ha hnew⟩
                  · cases hs1
                    exact ⟨rfl, ha⟩
                split at h
                · cases hy : a2.get? i with
                  | none => rw [hy] at h; cases h
                  | some y =>
                    rw [hy] at h
                    simp only [] at h
                    cases hs2 : arrSet a2 (pr + 1) (y ||| 1 <<< depth) with
                    | none => rw [hs2] at h; cases h
                    | some a3 =>
                      rw [hs2] at h
                      simp only [] at h
                      have hy2 : y ||| 1 <<< depth < 2 ^ depth + sp := by
                        have hya : y = x ∨ y = x ||| 1 <<< depth := by
                          split at hs1
                          · rw [(arrSet_some hs1).2, List.get?_eq_getElem?,
                              List.getElem?_set_self (arrSet_some hs1).1] at hy
                            exact Or.inr (Option.some.inj hy).symm
                          · cases hs1
                            rw [hx] at hy
                            exact Or.inl (Option.some.inj hy).symm
                        rcases hya with rfl | rfl
                        · exact hnew
                        · rw [Nat.or_assoc, Nat.or_self]
                          exact hnew
                      have h3 := ih (i + 1) a3 (pr + 1) a1 n1
                        (arrSet_forall hs2 ha2.2 hy2)
                        (by rw [arrSet_length hs2]; exact le_of_lt (arrSet_some hs2).1) h
                      rw [arrSet_length hs2, ha2.1] at h3
                      exact h3
                · have h3 := ih (i + 1) a2 pr a1 n1 ha2.2 (by rw [ha2.1]; exact hpr) h
                  rw [ha2.1] at h3
                  exact h3
        · exact ih (i + 1) a pr a1 n1 ha hpr h
    · cases h
      exact ⟨rfl, ha, hpr⟩
theorem candidates_bound (r : Reln) (q : Tuple) (hn : r.npages = 2 ^ r.depth + r.sp)
    (hsp : r.sp < 2 ^ r.depth) (hd : r.depth < MAXBITS) {a : List Nat} {n : Nat}
    (h : candidates hash_any r q = some (a, n)) :
    a.length = r.npages ∧ n ≤ r.npages ∧ ∀ x ∈ a, x < r.npages := by
  have hN1 : 1 ≤ r.npages := by
    have := @Nat.one_le_two_pow r.depth
    omega
  have h0 : arrSet (List.replicate r.npages 0) 0 0 = some (List.replicate r.npages 0) := by
    unfold arrSet
    rw [if_pos (by simpa using hN1)]
    congr 1
    obtain ⟨m, hm⟩ : ∃ m, r.npages = m + 1 := ⟨r.npages - 1, by omega⟩
    rw [hm]
    rfl
  unfold candidates at h
  rw [h0] at h
  simp only [] at h
  rw [base_passes (knownBits_length hash_any r q) (unknownBits_length r q) (le_of_lt hd)
    (by omega) r.depth (le_refl _)] at h
  simp only [] at h
  have hl := baseList_length (knownBits hash_any r q) (unknownBits r q) r.depth r.depth
  have hlt := baseList_lt (knownBits hash_any r q) (unknownBits r q) r.depth r.depth
  have hb := lastStep_bound (le_of_lt hsp) _ _ _ _ _ _ (by
      intro x hx
      rcases List.mem_append.mp hx with hx | hx
      · exact Nat.lt_add_right _ (hlt x hx)
      · rw [(List.mem_replicate.mp hx).2]
        exact Nat.lt_of_lt_of_le (Nat.pow_pos (by decide)) (Nat.le_add_right _ _))
    (by simp) h
  simp only [List.length_append, List.length_replicate] at hb
  refine ⟨by omega, by omega, ?_⟩
  rw [hn]
  exact hb.2.1

/-- C13: for a relation with `npages = 2^depth + sp`, `sp < 2^depth` and
`depth < MAXBITS`, whenever `startQuery` returns, the candidate block has
`npages` entries, `page_num` is at most `npages`, and every `pages[i]` with
`i < page_num` is below `npages`, so that the page `getNextTuple` asks for
exists in a data file of `npages` pages; and `startQuery` does return when the
split pointer is 0 or bit `depth` of the choice vector is known. -/
theorem startQuery_candidates_below_npages (r : Reln) (q : Tuple)
    (hn : r.npages = 2 ^ r.depth + r.sp) (hsp : r.sp < 2 ^ r.depth)
    (hd : r.depth < MAXBITS) :
    (∀ qr, startQuery hash_any r q = some qr →
      qr.pages.length = r.npages ∧ qr.page_num ≤ r.npages ∧
      ∀ i, i < qr.page_num → ∃ p, qr.pages.get? i = some p ∧ p < r.npages ∧
        (r.data.length = r.npages → ∃ pg, getPage r.data p = some pg)) ∧
    ((r.sp = 0 ∨ (tupleVals q).getD (chvecItem r.cv r.depth).att [] ≠ [QMARK]) →
      ∃ qr, startQuery hash_any r q = some qr) := by
  constructor
  · intro qr hq
    unfold startQuery at hq
    cases hc : candidates hash_any r q with
    | none => rw [hc] at hq; cases hq
    | some s =>
      obtain ⟨a, n⟩ := s
      rw [hc] at hq
      cases hq
      obtain ⟨hlen, hle, hall⟩ := candidates_bound hash_any r q hn hsp hd hc
      refine ⟨hlen, hle, ?_⟩
      intro i hi
      have hi2 : i < a.length := by simp only at hi; omega
      refine ⟨a[i], by rw [List.get?_eq_getElem?]; exact List.getElem?_eq_getElem hi2,
        hall _ (List.getElem_mem _), ?_⟩
      intro hdl
      have : a[i] < r.data.length := by rw [hdl]; exact hall _ (List.getElem_mem _)
      exact ⟨r.data[a[i]], by unfold getPage; exact List.getElem?_eq_getElem this⟩
  · intro h
    have hun : r.sp = 0 ∨ (unknownBits r q).getD r.depth 0 ≠ 1 := by
      refine h.imp id (fun hne => ?_)
      rw [unknownBits_getD r q _ hd, if_neg hne]
      decide
    have hc := candidates_known hash_any r q hd (by omega) hun
    exact ⟨_, by unfold startQuery; rw [hc]⟩

set_option maxRecDepth 100000 in
theorem startQuery_candidates_below_npages_witness :
    ∃ qr, startQuery sampleHash (sampleReln 2 2) (wideQuery (Char.ofNat 98) 1) = some qr ∧
      candidateList qr = [1, 3, 0, 5] ∧
      qr.pages.length = 6 ∧ qr.page_num ≤ 6 ∧
      ∀ i, i < qr.page_num → ∃ p, qr.pages.get? i = some p ∧ p < 6 ∧
        ((sampleReln 2 2).data.length = 6 → ∃ pg, getPage (sampleReln 2 2).data p = some pg) := by
  obtain ⟨qr, h, hp⟩ := eval_some
    (startQuery sampleHash (sampleReln 2 2) (wideQuery (Char.ofNat 98) 1))
    (fun qr => decide (candidateList qr = [1, 3, 0, 5])) (by decide)
  exact ⟨qr, h, of_decide_eq_true hp,
    (startQuery_candidates_below_npages sampleHash (sampleReln 2 2)
      (wideQuery (Char.ofNat 98) 1) (by decide) (by decide) (by decide)).1 qr h⟩

/-! ## The scan of `getNextTuple` -/

theorem cstrings_mem_succ : ∀ (n : Nat) (d : List Char) (s : Tuple),
    s ∈ cstrings n d → s ∈ cstrings (n + 1) d := by
  intro n
  induction n with
  | zero => intro d s h; simp [cstrings] at h
  | succ n ih =>
    intro d s h
    rw [cstrings] at h ⊢
    split
    · rename_i h0
      rw [if_pos h0] at h
      exact h
    · rename_i h0
      rw [if_neg h0] at h
      rcases List.mem_cons.mp h with h | h
      · exact List.mem_cons.mpr (Or.inl h)
      · exact List.mem_cons.mpr (Or.inr (ih _ s h))

theorem cstrings_mem_le {n m : Nat} (h : n ≤ m) (d : List Char) (s : Tuple)
    (hs : s ∈ cstrings n d) : s ∈ cstrings m d := by
  induction h with
  | refl => exact hs
  | step _ ih => exact cstrings_mem_succ _ d s ih

theorem strlen_le_length : ∀ d : List Char, strlen d ≤ d.length := by
  intro d
  induction d with
  | nil => simp [strlen]
  | cons c cs ih =>
    rw [strlen]
    split
    · omega
    · simp only [List.length_cons]; omega

theorem cstrings_fuel : ∀ (n : Nat) (d : List Char), d.length ≤ n →
    cstrings (n + 1) d = cstrings n d := by
  intro n
  induction n with
  | zero =>
    intro d h
    have : d = [] := List.length_eq_zero.mp (by omega)
    subst this
    simp [cstrings, strlen]
  | succ n ih =>
    intro d h
    conv_lhs => rw [cstrings]
    conv_rhs => rw [cstrings]
    by_cases h0 : strlen d = 0
    · rw [if_pos h0, if_pos h0]
    · have hd : 0 < d.length := by
        have := strlen_le_length d
        omega
      rw [if_neg h0, if_neg h0, ih]
      rw [List.length_drop]
      omega

theorem cstrings_mem_length (n : Nat) (d : List Char) (s : Tuple) (hs : s ∈ cstrings n d) :
    s ∈ cstrings d.length d := by
  rcases Nat.le_total n d.length with h | h
  · exact cstrings_mem_le h d s hs
  · have : ∀ k, cstrings (d.length + k) d = cstrings d.length d := by
      intro k
      induction k with
      | zero => rfl
      | succ k ih => rw [← Nat.add_assoc, cstrings_fuel _ _ (by omega), ih]
    obtain ⟨k, rfl⟩ : ∃ k, n = d.length + k := ⟨n - d.length, by omega⟩
    rw [this] at hs
    exact hs

theorem streamFrom_zero (d : List Char) : StreamFrom d 0 := by
  intro n s hs
  rw [List.drop_zero] at hs
  exact cstrings_mem_length n d s hs

/-- The loop over the strings of a page: a returned string passes
`tupleMatch`, is one of the strings read from the start offset on, and the
new offset is again a place from which only such strings are read. -/
theorem scanData_spec (qs : Tuple) :
    ∀ (n : Nat) (d : List Char) (c : Nat) (t : Tuple) (off : Nat),
      scanData qs n d c = some (t, off) →
      tupleMatch t qs = true ∧ t ∈ cstrings n d ∧
        ∃ k, off = c + k ∧ ∀ m s, s ∈ cstrings m (d.drop k) → s ∈ cstrings (m + n) d := by
  intro n
  induction n with
  | zero => intro d c t off h; simp [scanData] at h
  | succ n ih =>
    intro d c t off h
    rw [scanData] at h
    split at h
    · cases h
    · rename_i h0
      split at h
      · rename_i hm
        cases h
        refine ⟨hm, ?_, strlen d + 1, by omega, ?_⟩
        · rw [cstrings, if_neg h0]
          exact List.mem_cons_self _ _
        · intro m s hs
          apply cstrings_mem_le (show m + 1 ≤ m + (n + 1) by omega)
          rw [cstrings, if_neg h0]
          exact List.mem_cons_of_mem _ hs
      · obtain ⟨hm, hmem, k, hk, hsuf⟩ := ih _ _ _ _ h
        refine ⟨hm, ?_, strlen d + 1 + k, by omega, ?_⟩
        · rw [cstrings, if_neg h0]
          exact List.mem_cons_of_mem _ hmem
        · intro m s hs
          rw [← List.drop_drop] at hs
          have := hsuf m s hs
          rw [show m + (n + 1) = (m + n) + 1 by omega, cstrings, if_neg h0]
          exact List.mem_cons_of_mem _ this
theorem onChain_snoc {ovf : List Page} {o : Option Nat} {j nxt : Nat} {pg : Page}
    (h : OnChain ovf o j) (hg : getPage ovf j = some pg) (hn : pg.ovflow = some nxt) :
    OnChain ovf o nxt := by
  induction h with
  | head j =>
    refine OnChain.next j nxt pg hg ?_
    rw [hn]
    exact OnChain.head nxt
  | next j k p hp _ ih => exact OnChain.next j _ p hp (ih hg)

theorem streamFrom_advance {d : List Char} {c k n : Nat} (h : StreamFrom d c)
    (hsuf : ∀ m s, s ∈ cstrings m ((d.drop c).drop k) → s ∈ cstrings (m + n) (d.drop c)) :
    StreamFrom d (c + k) := by
  intro m s hs
  have e : d.drop (c + k) = (d.drop c).drop k := by
    rw [List.drop_drop]
  rw [e] at hs
  exact h _ s (hsuf m s hs)

/-- The walk along an overflow chain (lines 197-229): a returned tuple passes
`tupleMatch` and is a string of an overflow page of the chain, and the cursor
is left well placed in that page; without a match the cursor moves to the next
candidate. -/
theorem scanOvflow_sound (i : Nat) :
    ∀ (fuel : Nat) (q : QueryRep) (ov : Nat) (q1 : QueryRep) (res : Option Tuple)
      (start : Option Nat),
      scanOvflow i fuel q ov = some (q1, res) →
      OnChain q.rel.ovflow start ov →
      (∀ op, getPage q.rel.ovflow ov = some op → StreamFrom op.data q.curtup) →
      q1.rel = q.rel ∧ q1.pages = q.pages ∧ q1.page_num = q.page_num ∧
      q1.querystring = q.querystring ∧
      (∀ t, res = some t → tupleMatch t q.querystring = true ∧ q1.curpage = q.curpage ∧
        ∃ j opg, q1.is_ovflow = some j ∧ OnChain q.rel.ovflow start j ∧
          getPage q.rel.ovflow j = some opg ∧ t ∈ pageTuples opg ∧
          StreamFrom opg.data q1.curtup) ∧
      (res = none → q1.is_ovflow = none ∧ q1.curtup = 0 ∧ q1.curpage = i + 1) := by
  intro fuel
  induction fuel with
  | zero => intro q ov q1 res start h; simp [scanOvflow] at h
  | succ fuel ih =>
    intro q ov q1 res start h hch hst
    rw [scanOvflow] at h
    cases hg : getPage q.rel.ovflow ov with
    | none => rw [hg] at h; cases h
    | some p =>
      rw [hg] at h
      simp only [] at h
      cases hs : scanData q.querystring (p.data.length + 1) ((pageData p).drop q.curtup)
          q.curtup with
      | some found =>
        obtain ⟨t, off⟩ := found
        rw [hs] at h
        simp only [Option.some.injEq, Prod.mk.injEq] at h
        obtain ⟨rfl, rfl⟩ := h
        obtain ⟨hm, hmem, k, rfl, hsuf⟩ := scanData_spec _ _ _ _ _ _ hs
        refine ⟨rfl, rfl, rfl, rfl, ?_, fun hn => by cases hn⟩
        intro t1 ht1
        cases ht1
        exact ⟨hm, rfl, ov, p, rfl, hch, hg, hst p hg _ _ hmem,
          streamFrom_advance (hst p hg) hsuf⟩
      | none =>
        rw [hs] at h
        simp only [] at h
        cases ho : pageOvflow p with
        | none =>
          rw [ho] at h
          simp only [Option.some.injEq, Prod.mk.injEq] at h
          obtain ⟨rfl, rfl⟩ := h
          refine ⟨rfl, rfl, rfl, rfl, ?_, fun _ => ⟨rfl, rfl, rfl⟩⟩
          intro t ht
          cases ht
        | some nxt =>
          rw [ho] at h
          simp only [] at h
          have := ih _ nxt q1 res start h (onChain_snoc hch hg ho)
            (fun op _ => streamFrom_zero op.data)
          exact this
theorem scanOK_none {q : QueryRep} (h : q.is_ovflow = none) :
    ScanOK q ↔ ∀ pid pg, q.pages.get? q.curpage = some pid →
      getPage q.rel.data pid = some pg → StreamFrom pg.data q.curtup := by
  unfold ScanOK
  rw [h]

theorem scanOK_some {q : QueryRep} {ov : Nat} (h : q.is_ovflow = some ov) :
    ScanOK q ↔ (∃ pid pg, q.curpage < q.page_num ∧ q.pages.get? q.curpage = some pid ∧
        getPage q.rel.data pid = some pg ∧ OnChain q.rel.ovflow pg.ovflow ov) ∧
      ∀ op, getPage q.rel.ovflow ov = some op → StreamFrom op.data q.curtup := by
  unfold ScanOK
  rw [h]

theorem scanOK_fresh {q : QueryRep} (h : q.is_ovflow = none) (hc : q.curtup = 0) :
    ScanOK q := by
  rw [scanOK_none h, hc]
  intro _ pg _ _
  exact streamFrom_zero pg.data

/-- What a walk along the chain of candidate `i` gives to the scan: either a
matching tuple of the bucket with a well-placed cursor, or a fresh cursor at
the next candidate. -/
theorem scanOvflow_step {i fuel : Nat} {q q1 : QueryRep} {ov pid : Nat} {p : Page}
    {res : Option Tuple} (h : scanOvflow i fuel q ov = some (q1, res))
    (hi : q.curpage = i) (hlt : i < q.page_num) (hpid : q.pages.get? i = some pid)
    (hp : getPage q.rel.data pid = some p) (hch : OnChain q.rel.ovflow p.ovflow ov)
    (hst : ∀ op, getPage q.rel.ovflow ov = some op → StreamFrom op.data q.curtup) :
    q1.rel = q.rel ∧ q1.pages = q.pages ∧ q1.page_num = q.page_num ∧
    q1.querystring = q.querystring ∧ ScanOK q1 ∧
    (∀ t, res = some t → tupleMatch t q.querystring = true ∧ InBucket q.rel pid t) ∧
    (res = none → q1.curpage = i + 1) := by
  obtain ⟨h1, h2, h3, h4, hsome, hnone⟩ := scanOvflow_sound i fuel q ov q1 res p.ovflow h hch hst
  refine ⟨h1, h2, h3, h4, ?_, ?_, fun hn => (hnone hn).2.2⟩
  · cases res with
    | none =>
      obtain ⟨ho, hc, _⟩ := hnone rfl
      exact scanOK_fresh ho hc
    | some t =>
      obtain ⟨_, hcur, j, opg, hj, hon, hg, _, hs⟩ := hsome t rfl
      rw [scanOK_some hj, h1, h2, h3, hcur, hi]
      refine ⟨⟨pid, p, hlt, hpid, hp, hon⟩, ?_⟩
      intro op hop
      rw [hg] at hop
      cases hop
      exact hs
  · intro t ht
    obtain ⟨hm, _, j, opg, _, hon, hg, hmem, _⟩ := hsome t ht
    exact ⟨hm, p, hp, Or.inr ⟨j, opg, hon, hg, hmem⟩⟩
/-- The loop of `getNextTuple` over the candidates from index `i` on: a
returned tuple passes `tupleMatch` and is held by a bucket of the candidate
list, and the cursor is left well placed. -/
theorem scanFrom_sound (fuel : Nat) :
    ∀ (n i : Nat) (q q1 : QueryRep) (t : Tuple), q.curpage = i → i + n ≤ q.page_num →
      ScanOK q → scanFrom fuel n i q = some (q1, some t) →
      tupleMatch t q.querystring = true ∧
      (∃ k b, k < q.page_num ∧ q.pages.get? k = some b ∧ InBucket q.rel b t) ∧
      ScanOK q1 ∧ q1.rel = q.rel ∧ q1.pages = q.pages ∧ q1.page_num = q.page_num ∧
      q1.querystring = q.querystring := by
  intro n
  induction n with
  | zero => intro i q q1 t _ _ _ h; simp [scanFrom] at h
  | succ n ih =>
    intro i q q1 t hi hn hok h
    have hlt : i < q.page_num := by omega
    rw [scanFrom] at h
    cases hpid : q.pages.get? i with
    | none => rw [hpid] at h; cases h
    | some pid =>
      rw [hpid] at h
      simp only [] at h
      cases hp : getPage q.rel.data pid with
      | none => rw [hp] at h; cases h
      | some p =>
        rw [hp] at h
        simp only [] at h
        -- the continuation after a chain without a match
        have hrest : ∀ q2 : QueryRep, q2.rel = q.rel → q2.pages = q.pages →
            q2.page_num = q.page_num → q2.querystring = q.querystring → ScanOK q2 →
            q2.curpage = i + 1 → scanFrom fuel n (i + 1) q2 = some (q1, some t) →
            tupleMatch t q.querystring = true ∧
            (∃ k b, k < q.page_num ∧ q.pages.get? k = some b ∧ InBucket q.rel b t) ∧
            ScanOK q1 ∧ q1.rel = q.rel ∧ q1.pages = q.pages ∧ q1.page_num = q.page_num ∧
            q1.querystring = q.querystring := by
          intro q2 e1 e2 e3 e4 hok2 hc2 h2
          have := ih (i + 1) q2 q1 t hc2 (by rw [e3]; omega) hok2 h2
          rw [e1, e2, e3, e4] at this
          exact this
        -- a walk along the chain of candidate `i`
        have hchain : ∀ (q0 : QueryRep) (ov : Nat), q0.rel = q.rel → q0.pages = q.pages →
            q0.page_num = q.page_num → q0.querystring = q.querystring → q0.curpage = i →
            OnChain q.rel.ovflow p.ovflow ov →
            (∀ op, getPage q.rel.ovflow ov = some op → StreamFrom op.data q0.curtup) →
            (match scanOvflow i fuel q0 ov with
              | none => none
              | some (q1, some t) => some (q1, some t)
              | some (q1, none) => scanFrom fuel n (i + 1) q1) = some (q1, some t) →
            tupleMatch t q.querystring = true ∧
            (∃ k b, k < q.page_num ∧ q.pages.get? k = some b ∧ InBucket q.rel b t) ∧
            ScanOK q1 ∧ q1.rel = q.rel ∧ q1.pages = q.pages ∧ q1.page_num = q.page_num ∧
            q1.querystring = q.querystring := by
          intro q0 ov e1 e2 e3 e4 hc0 hon hst h0
          cases hso : scanOvflow i fuel q0 ov with
          | none => rw [hso] at h0; cases h0
          | some out =>
            obtain ⟨q2, res⟩ := out
            obtain ⟨f1, f2, f3, f4, hok2, hsome, hnone⟩ := scanOvflow_step hso hc0
              (by rw [e3]; exact hlt) (by rw [e2]; exact hpid) (by rw [e1]; exact hp)
              (by rw [e1]; exact hon) (by rw [e1]; exact hst)
            rw [hso] at h0
            cases res with
            | some t2 =>
              simp only [Option.some.injEq, Prod.mk.injEq] at h0
              obtain ⟨rfl, rfl⟩ := h0
              obtain ⟨hm, hb⟩ := hsome t2 rfl
              rw [e4] at hm
              rw [e1] at hb
              exact ⟨hm, ⟨i, pid, hlt, hpid, hb⟩, hok2, f1.trans e1, f2.trans e2,
                f3.trans e3, f4.trans e4⟩
            | none =>
              simp only [] at h0
              exact hrest q2 (f1.trans e1) (f2.trans e2) (f3.trans e3) (f4.trans e4) hok2
                (hnone rfl) h0
        cases hov : q.is_ovflow with
        | some ov =>
          rw [hov] at h
          simp only [] at h
          obtain ⟨⟨pid1, p1, _, hpid1, hp1, hon⟩, hst⟩ := (scanOK_some hov).mp hok
          rw [hi, hpid] at hpid1
          cases hpid1
          rw [hp] at hp1
          cases hp1
          exact hchain q ov rfl rfl rfl rfl hi hon hst h
        | none =>
          rw [hov] at h
          simp only [] at h
          have hst : StreamFrom p.data q.curtup :=
            (scanOK_none hov).mp hok pid p (by rw [hi]; exact hpid) hp
          cases hs : scanData q.querystring (p.data.length + 1) ((pageData p).drop q.curtup)
              q.curtup with
          | some found =>
            obtain ⟨t1, off⟩ := found
            rw [hs] at h
            simp only [Option.some.injEq, Prod.mk.injEq] at h
            obtain ⟨rfl, rfl⟩ := h
            obtain ⟨hm, hmem, k, rfl, hsuf⟩ := scanData_spec _ _ _ _ _ _ hs
            refine ⟨hm, ⟨i, pid, hlt, hpid, p, hp, Or.inl (hst _ _ hmem)⟩, ?_, rfl, rfl, rfl,
              rfl⟩
            refine (scanOK_none rfl).mpr ?_
            intro pid1 p1 hpid1 hp1
            simp only [] at hpid1 hp1
            rw [hpid] at hpid1
            cases hpid1
            rw [hp] at hp1
            cases hp1
            exact streamFrom_advance hst hsuf
          | none =>
            rw [hs] at h
            simp only [] at h
            cases ho : pageOvflow p with
            | none =>
              rw [ho] at h
              simp only [] at h
              exact hrest ⟨q.rel, i + 1, none, 0, q.querystring, q.pages, q.page_num⟩ rfl rfl rfl
                rfl (scanOK_fresh rfl rfl) rfl h
            | some ov =>
              rw [ho] at h
              simp only [] at h
              refine hchain { q with curtup := 0, is_ovflow := some ov } ov rfl rfl rfl rfl hi ?_
                (fun op _ => streamFrom_zero op.data) h
              have : p.ovflow = some ov := ho
              rw [this]
              exact OnChain.head ov
theorem scanState_inv {r : Reln} {qs : Tuple} {q : QueryRep}
    (h : ScanState hash_any r qs q) :
    ScanOK q ∧ q.rel = r ∧ q.querystring = qs ∧
      ∃ q0, startQuery hash_any r qs = some q0 ∧ q.pages = q0.pages ∧
        q.page_num = q0.page_num := by
  induction h with
  | start q hq =>
    have hq0 := hq
    unfold startQuery at hq
    cases hc : candidates hash_any r qs with
    | none => rw [hc] at hq; cases hq
    | some s =>
      rw [hc] at hq
      cases hq
      exact ⟨scanOK_fresh rfl rfl, rfl, rfl, _, hq0, rfl, rfl⟩
  | next fuel q q1 t _ hg ih =>
    obtain ⟨hok, hr, hqs, q0, hq0, hp, hn⟩ := ih
    unfold getNextTuple at hg
    have hle : q.curpage + (q.page_num - q.curpage) ≤ q.page_num := by
      rcases Nat.lt_or_ge q.page_num q.curpage with hlt | hge
      · rw [Nat.sub_eq_zero_of_le (le_of_lt hlt)] at hg
        simp [scanFrom] at hg
      · omega
    obtain ⟨_, _, hok1, e1, e2, e3, e4⟩ := scanFrom_sound fuel _ _ q q1 t rfl hle hok hg
    exact ⟨hok1, e1.trans hr, e4.trans hqs, q0, hq0, e2.trans hp, e3.trans hn⟩

/-! ## C14: the tuples returned by a scan -/

/-- C14: in every scan of a query `qs` over a relation `r` (the descriptor
returned by `startQuery`, then advanced by calls of `getNextTuple`), a tuple
returned by `getNextTuple` passes `tupleMatch` against the query and is one of
the strings of the primary page, or of an overflow page on the chain, of a
bucket of the candidate list; a stored string that fails the match is never
returned. -/
theorem getNextTuple_returns_matching_stored_tuple {r : Reln} {qs : Tuple}
    {q q1 : QueryRep} {t : Tuple} (fuel : Nat) (hs : ScanState hash_any r qs q)
    (h : getNextTuple fuel q = some (q1, some t)) :
    tupleMatch t qs = true ∧
    ∃ q0 b, startQuery hash_any r qs = some q0 ∧ b ∈ candidateList q0 ∧ InBucket r b t := by
  obtain ⟨hok, hr, hqs, q0, hq0, hp, hn⟩ := scanState_inv hash_any hs
  unfold getNextTuple at h
  have hle : q.curpage + (q.page_num - q.curpage) ≤ q.page_num := by
    rcases Nat.lt_or_ge q.page_num q.curpage with hlt | hge
    · rw [Nat.sub_eq_zero_of_le (le_of_lt hlt)] at h
      simp [scanFrom] at h
    · omega
  obtain ⟨hm, ⟨k, b, hk, hb, hin⟩, _⟩ := scanFrom_sound fuel _ _ q q1 t rfl hle hok h
  rw [hqs] at hm
  rw [hr] at hin
  refine ⟨hm, q0, b, hq0, ?_, hin⟩
  unfold candidateList
  rw [← hp, ← hn]
  rw [List.get?_eq_getElem?] at hb
  have hb2 : (q.pages.take q.page_num)[k]? = some b := by
    rw [List.getElem?_take_of_lt hk]
    exact hb
  exact List.getElem?_mem hb2

set_option maxRecDepth 100000 in
theorem getNextTuple_returns_matching_stored_tuple_witness :
    ∃ q0 q1, startQuery sampleHash storedReln (wideQuery (Char.ofNat 98) 1) = some q0 ∧
      getNextTuple 4 q0 = some (q1, some (wideTuple (Char.ofNat 98) (Char.ofNat 98) 0)) ∧
      tupleMatch (wideTuple (Char.ofNat 98) (Char.ofNat 98) 0)
        (wideQuery (Char.ofNat 98) 1) = true ∧
      ∃ q2 b, startQuery sampleHash storedReln (wideQuery (Char.ofNat 98) 1) = some q2 ∧
        b ∈ candidateList q2 ∧
        InBucket storedReln b (wideTuple (Char.ofNat 98) (Char.ofNat 98) 0) := by
  have h0 : startQuery sampleHash storedReln (wideQuery (Char.ofNat 98) 1)
      = some ⟨storedReln, 0, none, 0, wideQuery (Char.ofNat 98) 1, [1, 0], 1⟩ := by decide
  have h1 : getNextTuple 4 ⟨storedReln, 0, none, 0, wideQuery (Char.ofNat 98) 1, [1, 0], 1⟩
      = some (⟨storedReln, 0, none, 4, wideQuery (Char.ofNat 98) 1, [1, 0], 1⟩,
          some (wideTuple (Char.ofNat 98) (Char.ofNat 98) 0)) := by decide
  exact ⟨_, _, h0, h1,
    getNextTuple_returns_matching_stored_tuple sampleHash 4 (ScanState.start _ h0) h1⟩

/-! ## C17: the returned bucket holds the tuple -/

theorem onChain_of_mem {ovf : List Page} {j : Nat} :
    ∀ (ids : List Nat) (o : Option Nat), IsChain ovf o ids → j ∈ ids → OnChain ovf o j := by
  intro ids
  induction ids with
  | nil => intro o _ hj; cases hj
  | cons i rest ih =>
    intro o hc hj
    cases o with
    | none => exact absurd hc (by simp [IsChain])
    | some k =>
      obtain ⟨rfl, pg, hg, hrest⟩ := hc
      rcases List.mem_cons.mp hj with rfl | hj
      · exact OnChain.head _
      · exact OnChain.next _ j pg hg (ih _ hrest hj)

/-- The insertion that ends `addToRelation`, on a well-formed store: the
returned page ID is a primary page and the bucket holds the tuple. -/
theorem insertTuple_stored {fuel : Nat} {r r1 : Reln} {t : Tuple} {p : Nat}
    {ch : Nat → List Nat} (hinv : Inv hash_any B r ch) (ht : validTuple t)
    (h : insertTuple hash_any B fuel r t = some (r1, some p)) :
    Stored r1 p t := by
  have hs := hinv.store
  obtain ⟨_, _, _, _, hnp, hcase⟩ := insertTuple_meta hash_any B h
  have hp : p = targetPage hash_any r t := by
    rcases hcase with ⟨e, _⟩ | ⟨e, _⟩
    · cases e
    · exact Option.some.inj e
  unfold insertTuple at h
  cases hadd : addToBucket B fuel r.data r.ovflow (targetPage hash_any r t) t with
  | none => rw [hadd] at h; simp at h
  | some res =>
    obtain ⟨data1, ovf1, ok⟩ := res
    rw [hadd] at h
    cases ok with
    | false => simp at h
    | true =>
      simp only [Option.some.injEq, Prod.mk.injEq] at h
      obtain ⟨hr1, _⟩ := h
      have hplt : targetPage hash_any r t < r.npages := by
        by_contra hcon
        unfold addToBucket at hadd
        have hnone : getPage r.data (targetPage hash_any r t) = none := by
          unfold getPage
          exact List.getElem?_eq_none (by rw [hs.data_len]; omega)
        rw [hnone] at hadd
        simp at hadd
      have hfit := addToBucket_true_fit B hadd
      obtain ⟨_, ids, _, hs1, hperm, _, _, _⟩ := addToBucket_store B hs hplt ht hfit hadd
      have hmem : t ∈ bucketTuples data1 ovf1 ids (targetPage hash_any r t) :=
        hperm.mem_iff.mpr (List.mem_cons_self _ _)
      obtain ⟨pg, hg⟩ := getPage_isSome (f := data1) (i := targetPage hash_any r t)
        (by rw [hs1.data_len]; exact hplt)
      have hc := hs1.chain _ pg hg
      rw [Function.update_same] at hc
      unfold bucketTuples at hmem
      rw [hg] at hmem
      rw [hp, ← hr1]
      refine ⟨hplt, pg, hg, ?_⟩
      rcases List.mem_append.mp hmem with h1 | h1
      · exact Or.inl h1
      · obtain ⟨j, hj, opg, hgo, hto⟩ := mem_chainTuples.mp h1
        exact Or.inr ⟨j, opg, onChain_of_mem ids _ hc hj, hgo, hto⟩

/-- C17: on a store that satisfies the linear-hash invariants (`npages =
2^depth + sp`, `sp < 2^depth`, a data file of `npages` well-formed pages with
their chains), when `addToRelation` returns a page ID `p` for a tuple string,
`p` is below `npages` after the call, the data file has `npages` pages, and
the tuple is stored in bucket `p`: in primary page `p` or in an overflow page
on the chain that starts at page `p`. -/
theorem addToRelation_returns_bucket_holding_tuple {fuel : Nat} {r r1 : Reln} {t : Tuple}
    {p : Nat} {ch : Nat → List Nat} (hinv : Inv hash_any B r ch) (ht : validTuple t)
    (h : addToRelation hash_any B fuel r t = some (r1, some p)) :
    p < r1.npages ∧ r1.data.length = r1.npages ∧ Stored r1 p t := by
  obtain ⟨ch1, hinv1⟩ := addToRelation_inv hash_any B hinv ht h
  have hst : Stored r1 p t := by
    obtain ⟨_, h1 | h1 | h1⟩ := addToRelation_cases hash_any B h
    · exact insertTuple_stored hash_any B hinv ht h1.2
    · obtain ⟨_, d, o, _, hcon, _⟩ := h1
      cases hcon
    · obtain ⟨_, d, o, hr, hi⟩ := h1
      obtain ⟨ch2, hinv2⟩ := advance_inv hash_any B hinv hr
      exact insertTuple_stored hash_any B hinv2 ht hi
  exact ⟨hst.1, hinv1.store.data_len, hst⟩

set_option maxRecDepth 100000 in
theorem addToRelation_returns_bucket_holding_tuple_witness :
    ∃ r1 p, addToRelation sampleHash 1012 4 (newRelation 52 (2 ^ 1) 1 cvAttr1)
        (wideTuple (Char.ofNat 97) (Char.ofNat 99) 50) = some (r1, some p) ∧
      p < r1.npages ∧ r1.data.length = r1.npages ∧
      Stored r1 p (wideTuple (Char.ofNat 97) (Char.ofNat 99) 50) := by
  obtain ⟨⟨r1, res⟩, h, hP⟩ := eval_some
    (addToRelation sampleHash 1012 4 (newRelation 52 (2 ^ 1) 1 cvAttr1)
      (wideTuple (Char.ofNat 97) (Char.ofNat 99) 50))
    (fun x => x.2.isSome) (by decide)
  obtain ⟨p, rfl⟩ := Option.isSome_iff_exists.mp hP
  exact ⟨r1, p, h, addToRelation_returns_bucket_holding_tuple sampleHash 1012
    (inv_newRelation sampleHash 1012 52 1 cvAttr1) (by unfold validTuple; decide) h⟩

/-! ## C19: closing and reopening a relation -/

theorem readItems_flatMap (rest : List Nat) :
    ∀ l : List ChVecItem,
      readItems l.length (l.flatMap (fun c => [c.att, c.bit]) ++ rest) = some l := by
  intro l
  induction l with
  | nil => simp [readItems]
  | cons c l ih =>
    show readItems (l.length + 1)
      (c.att :: c.bit :: (l.flatMap (fun c => [c.att, c.bit]) ++ rest)) = some (c :: l)
    rw [readItems, ih]

theorem dataName_ne_ovflowName (name : List Char) : dataName name ≠ ovflowName name := by
  unfold dataName ovflowName
  intro h
  exact absurd (List.append_cancel_left h) (by decide)

theorem chvecItem_map_range (cv : List ChVecItem) (i : Nat) (hi : i < MAXCHVEC) :
    chvecItem ((List.range MAXCHVEC).map (chvecItem cv)) i = chvecItem cv i := by
  conv_lhs => unfold chvecItem
  rw [List.getD_eq_getElem?_getD, List.getElem?_map, List.getElem?_range hi]
  rfl

theorem fopenMode_read {α : Type} {m : List Char} (hm : m.head? = some 'r') (old : Option α)
    (empty : α) : fopenMode m old empty = old := by
  unfold fopenMode
  rw [hm]
  rfl

/-- Closing a relation open in write mode and opening it again in a mode
`r...`: the `.info` file and the descriptor read back from it. -/
theorem close_open_write (dir : Dir) (o : OpenReln) (m : List Char)
    (hw : o.mode = 'w') (hm : m.head? = some 'r') :
    (closeRelation dir o).words (infoName o.name)
        = some (infoWords o.desc ++ o.info.drop (infoWords o.desc).length) ∧
    (closeRelation dir o).pages (dataName o.name) = some o.desc.data ∧
    (closeRelation dir o).pages (ovflowName o.name) = some o.desc.ovflow ∧
    ∃ o1, openRelation (closeRelation dir o) o.name m = some o1 ∧
      o1.desc.nattrs = o.desc.nattrs ∧ o1.desc.depth = o.desc.depth ∧
      o1.desc.sp = o.desc.sp ∧ o1.desc.npages = o.desc.npages ∧
      o1.desc.ntups = o.desc.ntups ∧ o1.desc.cv.length = MAXCHVEC ∧
      (∀ i, i < MAXCHVEC → chvecItem o1.desc.cv i = chvecItem o.desc.cv i) ∧
      o1.desc.data = o.desc.data ∧ o1.desc.ovflow = o.desc.ovflow := by
  have hwords : (closeRelation dir o).words (infoName o.name)
      = some (infoWords o.desc ++ o.info.drop (infoWords o.desc).length) := by
    unfold closeRelation
    rw [if_pos hw]
    simp only [Function.update_same]
    rfl
  have hdata : (closeRelation dir o).pages (dataName o.name) = some o.desc.data := by
    unfold closeRelation
    rw [if_pos hw]
    simp only
    rw [Function.update_noteq (dataName_ne_ovflowName o.name), Function.update_same]
  have hovf : (closeRelation dir o).pages (ovflowName o.name) = some o.desc.ovflow := by
    unfold closeRelation
    rw [if_pos hw]
    simp only [Function.update_same]
  have hread : canRead m = true := by
    unfold canRead
    rw [hm]
    rfl
  have hitems := readItems_flatMap (o.info.drop (infoWords o.desc).length)
    ((List.range MAXCHVEC).map (chvecItem o.desc.cv))
  rw [List.length_map, List.length_range] at hitems
  refine ⟨hwords, hdata, hovf, ?_⟩
  unfold openRelation
  rw [fopenMode_read hm, fopenMode_read hm, fopenMode_read hm, hwords, hdata, hovf]
  simp only [hread, if_true, infoWords, List.cons_append, List.nil_append, hitems]
  refine ⟨_, rfl, rfl, rfl, rfl, rfl, rfl, ?_, ?_, rfl, rfl⟩
  · rfl
  · intro i hi
    exact chvecItem_map_range o.desc.cv i hi

/-- C19: for a relation open in write mode, `closeRelation` leaves an `.info`
file that starts with the five counters `nattrs, depth, sp, npages, ntups`
followed by the `MAXCHVEC` choice-vector entries, and `openRelation` of the same
name in a mode `r...` returns a descriptor with the same five counters, the
same choice-vector entries and the same data and overflow files; for a
relation open in read mode `closeRelation` leaves the directory, and with it
the `.info` file, as it was. -/
theorem close_then_open_restores_descriptor (dir : Dir) (o : OpenReln) (m : List Char) :
    (o.mode = 'w' → m.head? = some 'r' →
      (closeRelation dir o).words (infoName o.name)
          = some (infoWords o.desc ++ o.info.drop (infoWords o.desc).length) ∧
      ∃ o1, openRelation (closeRelation dir o) o.name m = some o1 ∧
        o1.desc.nattrs = o.desc.nattrs ∧ o1.desc.depth = o.desc.depth ∧
        o1.desc.sp = o.desc.sp ∧ o1.desc.npages = o.desc.npages ∧
        o1.desc.ntups = o.desc.ntups ∧ o1.desc.cv.length = MAXCHVEC ∧
        (∀ i, i < MAXCHVEC → chvecItem o1.desc.cv i = chvecItem o.desc.cv i) ∧
        o1.desc.data = o.desc.data ∧ o1.desc.ovflow = o.desc.ovflow) ∧
    (o.mode ≠ 'w' → closeRelation dir o = dir) := by
  constructor
  · intro hw hm
    obtain ⟨h1, _, _, h2⟩ := close_open_write dir o m hw hm
    exact ⟨h1, h2⟩
  · intro hr
    unfold closeRelation
    rw [if_neg hr]

theorem close_then_open_restores_descriptor_witness :
    ((closeRelation emptyDir ⟨['R'], storedReln, 'w', []⟩).words (infoName ['R'])
        = some (infoWords storedReln ++ ([] : List Nat).drop (infoWords storedReln).length) ∧
      ∃ o1, openRelation (closeRelation emptyDir ⟨['R'], storedReln, 'w', []⟩) ['R'] ['r', '+']
          = some o1 ∧
        o1.desc.nattrs = 2 ∧ o1.desc.depth = 1 ∧ o1.desc.sp = 0 ∧ o1.desc.npages = 2 ∧
        o1.desc.ntups = 1 ∧ o1.desc.cv.length = MAXCHVEC ∧
        (∀ i, i < MAXCHVEC → chvecItem o1.desc.cv i = chvecItem cvMixed i) ∧
        o1.desc.data = storedReln.data ∧ o1.desc.ovflow = []) ∧
    closeRelation emptyDir ⟨['R'], storedReln, 'r', []⟩ = emptyDir :=
  ⟨(close_then_open_restores_descriptor emptyDir ⟨['R'], storedReln, 'w', []⟩
      ['r', '+']).1 rfl rfl,
    (close_then_open_restores_descriptor emptyDir ⟨['R'], storedReln, 'r', []⟩ ['r']).2
      (by decide)⟩
/-! ## C20: creating a relation -/

theorem foldl_addPage (n : Nat) :
    ∀ init : List Page,
      (List.range n).foldl (fun f _ => (addPage f).1) init
        = init ++ List.replicate n newPage := by
  induction n with
  | zero => intro init; simp
  | succ n ih =>
    intro init
    rw [List.range_succ, List.foldl_append, ih]
    simp only [List.foldl_cons, List.foldl_nil, addPage, List.append_assoc]
    rw [List.replicate_succ']

theorem complement_ne (x : Int) : ~~~x ≠ x := by
  cases x <;> simp [Complement.complement, Int.not]

/-- C20: when `parseChVec` does not return `OK`, `newRelation` returns `~OK`,
which is not `OK`, and leaves the directory as it was: none of the three files
is created.  When `parseChVec` returns `OK`, `newRelation` returns 0 and
leaves the three files of the new relation: an `.info` file with the counters
`nattrs, depth, 0, npages, 0` and the parsed choice vector, a data file of
exactly `npages` empty pages and an empty overflow file, from which
`openRelation` reads back `sp = 0`, `ntups = 0` and the given `nattrs`,
`depth` and `npages`. -/
theorem newRelation_status_and_files (parseChVec : Reln → List Char → Int × List ChVecItem)
    (OK : Int) (dir : Dir) (name : List Char) (nattrs npages d : Nat) (cv : List Char) :
    ((parseChVec ⟨nattrs, d, 0, npages, 0, [], [], []⟩ cv).1 ≠ OK →
      (newRelationFiles parseChVec OK dir name nattrs npages d cv).1 = ~~~OK ∧
      (newRelationFiles parseChVec OK dir name nattrs npages d cv).1 ≠ OK ∧
      (newRelationFiles parseChVec OK dir name nattrs npages d cv).2 = dir) ∧
    ((parseChVec ⟨nattrs, d, 0, npages, 0, [], [], []⟩ cv).1 = OK →
      (newRelationFiles parseChVec OK dir name nattrs npages d cv).1 = 0 ∧
      (newRelationFiles parseChVec OK dir name nattrs npages d cv).2.words (infoName name)
        = some (infoWords (newRelation nattrs npages d
            (parseChVec ⟨nattrs, d, 0, npages, 0, [], [], []⟩ cv).2)) ∧
      (newRelationFiles parseChVec OK dir name nattrs npages d cv).2.pages (dataName name)
        = some (List.replicate npages newPage) ∧
      (newRelationFiles parseChVec OK dir name nattrs npages d cv).2.pages (ovflowName name)
        = some [] ∧
      ∃ o1, openRelation (newRelationFiles parseChVec OK dir name nattrs npages d cv).2
          name ['r'] = some o1 ∧
        o1.desc.nattrs = nattrs ∧ o1.desc.depth = d ∧ o1.desc.sp = 0 ∧
        o1.desc.npages = npages ∧ o1.desc.ntups = 0 ∧
        o1.desc.data = List.replicate npages newPage ∧ o1.desc.ovflow = []) := by
  constructor
  · intro h
    unfold newRelationFiles
    rw [if_pos h]
    exact ⟨rfl, complement_ne OK, rfl⟩
  · intro h
    unfold newRelationFiles
    rw [if_neg (not_not.mpr h)]
    have hf := foldl_addPage npages []
    rw [List.nil_append] at hf
    rw [hf]
    obtain ⟨h1, h2, h3, o1, ho, e1, e2, e3, e4, e5, _, _, e8, e9⟩ := close_open_write
      { words := Function.update dir.words (infoName name) (some []),
        pages := Function.update (Function.update dir.pages (dataName name) (some []))
          (ovflowName name) (some []) }
      ⟨name, ⟨nattrs, d, 0, npages, 0,
        (parseChVec ⟨nattrs, d, 0, npages, 0, [], [], []⟩ cv).2,
        List.replicate npages newPage, []⟩, 'w', []⟩ ['r'] rfl rfl
    refine ⟨rfl, ?_, h2, h3, o1, ho, e1, e2, e3, e4, e5, e8, e9⟩
    rw [h1]
    simp [infoWords, newRelation]

theorem newRelation_status_and_files_witness :
    ((newRelationFiles sampleParse 0 emptyDir ['R'] 2 1 0 []).1 = ~~~(0 : Int) ∧
      (newRelationFiles sampleParse 0 emptyDir ['R'] 2 1 0 []).1 ≠ 0 ∧
      (newRelationFiles sampleParse 0 emptyDir ['R'] 2 1 0 []).2 = emptyDir) ∧
    ((newRelationFiles sampleParse 0 emptyDir ['R'] 2 1 0 ['x']).1 = 0 ∧
      (newRelationFiles sampleParse 0 emptyDir ['R'] 2 1 0 ['x']).2.words (infoName ['R'])
        = some (infoWords (newRelation 2 1 0
            (sampleParse ⟨2, 0, 0, 1, 0, [], [], []⟩ ['x']).2)) ∧
      (newRelationFiles sampleParse 0 emptyDir ['R'] 2 1 0 ['x']).2.pages (dataName ['R'])
        = some (List.replicate 1 newPage) ∧
      (newRelationFiles sampleParse 0 emptyDir ['R'] 2 1 0 ['x']).2.pages (ovflowName ['R'])
        = some [] ∧
      ∃ o1, openRelation (newRelationFiles sampleParse 0 emptyDir ['R'] 2 1 0 ['x']).2
          ['R'] ['r'] = some o1 ∧
        o1.desc.nattrs = 2 ∧ o1.desc.depth = 0 ∧ o1.desc.sp = 0 ∧
        o1.desc.npages = 1 ∧ o1.desc.ntups = 0 ∧
        o1.desc.data = List.replicate 1 newPage ∧ o1.desc.ovflow = []) :=
  ⟨(newRelation_status_and_files sampleParse 0 emptyDir ['R'] 2 1 0 []).1 (by decide),
    (newRelation_status_and_files sampleParse 0 emptyDir ['R'] 2 1 0 ['x']).2 (by decide)⟩

/-! ## A larger loop budget gives the same result -/

theorem scanChain_mono (t : Tuple) (ovf : List Page) (k : Nat) :
    ∀ (fuel ovp : Nat) (prev : Option (Nat × Page)) (out : ScanOut),
      scanChain B t ovf fuel ovp prev = some out →
      scanChain B t ovf (fuel + k) ovp prev = some out := by
  intro fuel
  induction fuel with
  | zero => intro ovp prev out h; simp [scanChain] at h
  | succ fuel ih =>
    intro ovp prev out h
    rw [show fuel + 1 + k = (fuel + k) + 1 by omega]
    rw [scanChain] at h ⊢
    cases hg : getPage ovf ovp with
    | none => rw [hg] at h; simp at h
    | some ovpg =>
      rw [hg] at h
      simp only [] at h ⊢
      cases ha : addToPage B ovpg t with
      | some pg1 => rw [ha] at h; exact h
      | none =>
        rw [ha] at h
        simp only [] at h ⊢
        cases ho : pageOvflow ovpg with
        | none => rw [ho] at h; exact h
        | some nxt =>
          rw [ho] at h
          exact ih _ _ _ h

theorem addToBucket_mono {fuel : Nat} {data ovf : List Page} {p : Nat} {t : Tuple}
    {x : List Page × List Page × Bool} (k : Nat)
    (h : addToBucket B fuel data ovf p t = some x) :
    addToBucket B (fuel + k) data ovf p t = some x := by
  unfold addToBucket at h ⊢
  cases hg : getPage data p with
  | none => rw [hg] at h; simp at h
  | some pg =>
    rw [hg] at h
    simp only [] at h ⊢
    cases ha : addToPage B pg t with
    | some pg1 => rw [ha] at h; exact h
    | none =>
      rw [ha] at h
      simp only [] at h ⊢
      cases ho : pageOvflow pg with
      | none => rw [ho] at h; exact h
      | some ovp0 =>
        rw [ho] at h
        simp only [] at h ⊢
        cases hsc : scanChain B t ovf fuel ovp0 none with
        | none => rw [hsc] at h; simp at h
        | some out =>
          rw [scanChain_mono B t ovf k _ _ _ _ hsc]
          rw [hsc] at h
          exact h

theorem loop1Overflow_mono {fuel : Nat} {s : Loop1} {p : Nat} {t : Tuple}
    {x : Loop1 × Bool} (k : Nat) (h : loop1Overflow B fuel s p t = some x) :
    loop1Overflow B (fuel + k) s p t = some x := by
  unfold loop1Overflow at h ⊢
  cases ho : pageOvflow s.np1 with
  | none => rw [ho] at h; exact h
  | some ovp0 =>
    rw [ho] at h
    simp only [] at h ⊢
    cases hsc : scanChain B t s.ovflow fuel ovp0 none with
    | none => rw [hsc] at h; simp at h
    | some out =>
      rw [scanChain_mono B t s.ovflow k _ _ _ _ hsc]
      rw [hsc] at h
      exact h

theorem loop1Step_mono {fuel : Nat} {r : Reln} {s : Loop1} {t : Tuple}
    {x : Loop1 × Bool} (k : Nat) (h : loop1Step hash_any B fuel r s t = some x) :
    loop1Step hash_any B (fuel + k) r s t = some x := by
  unfold loop1Step at h ⊢
  split
  · rename_i hc
    rw [if_pos hc] at h
    cases ha : addToPage B s.np1 t with
    | some pg1 => rw [ha] at h; exact h
    | none =>
      rw [ha] at h
      exact loop1Overflow_mono B k h
  · rename_i hc
    rw [if_neg hc] at h
    cases ha : addToPage B s.np2 t with
    | some pg2 => rw [ha] at h; exact h
    | none =>
      rw [ha] at h
      exact loop1Overflow_mono B k h

theorem loop1_mono {fuel : Nat} {r : Reln} (k : Nat) :
    ∀ (ts : List Tuple) (s : Loop1) (x : Loop1 × Bool),
      loop1 hash_any B fuel r ts s = some x → loop1 hash_any B (fuel + k) r ts s = some x := by
  intro ts
  induction ts with
  | nil => intro s x h; exact h
  | cons t ts ih =>
    intro s x h
    rw [loop1] at h ⊢
    cases hs : loop1Step hash_any B fuel r s t with
    | none => rw [hs] at h; simp at h
    | some y =>
      rw [loop1Step_mono hash_any B k hs]
      rw [hs] at h
      obtain ⟨s1, ok⟩ := y
      cases ok with
      | false => exact h
      | true => exact ih _ _ h
theorem loop2Inner_mono {fuel : Nat} {r : Reln} (k : Nat) :
    ∀ (ts : List Tuple) (data ovf : List Page) (x : List Page × List Page × Bool),
      loop2Inner hash_any B fuel r ts data ovf = some x →
      loop2Inner hash_any B (fuel + k) r ts data ovf = some x := by
  intro ts
  induction ts with
  | nil => intro data ovf x h; exact h
  | cons t ts ih =>
    intro data ovf x h
    rw [loop2Inner] at h ⊢
    simp only [ite_self] at h ⊢
    cases ha : addToBucket B fuel data ovf
        (getLower (tupleHash hash_any r t) (r.depth + 1)) t with
    | none => rw [ha] at h; simp at h
    | some y =>
      rw [addToBucket_mono B k ha]
      rw [ha] at h
      obtain ⟨d1, o1, ok⟩ := y
      cases ok with
      | false => exact h
      | true => exact ih _ _ _ h

theorem loop2_mono {fuel : Nat} {r : Reln} (k m : Nat) :
    ∀ (n : Nat) (o : Option Nat) (data ovf : List Page)
      (x : List Page × List Page × Bool),
      loop2 hash_any B fuel r n o data ovf = some x →
      loop2 hash_any B (fuel + k) r (n + m) o data ovf = some x := by
  intro n
  induction n with
  | zero =>
    intro o data ovf x h
    cases o with
    | none =>
      rw [loop2] at h
      cases hm : 0 + m with
      | zero => rw [loop2]; exact h
      | succ j => rw [loop2]; exact h
    | some ovg => simp [loop2] at h
  | succ n ih =>
    intro o data ovf x h
    rw [show n + 1 + m = (n + m) + 1 by omega]
    cases o with
    | none =>
      rw [loop2] at h ⊢
      exact h
    | some ovg =>
      rw [loop2] at h ⊢
      cases hg : getPage ovf ovg with
      | none => rw [hg] at h; simp at h
      | some pg =>
        rw [hg] at h
        simp only [] at h ⊢
        cases hi : loop2Inner hash_any B fuel r (pageTuples pg) data
            (putPage ovf ovg (pageSetOvflow newPage (pageOvflow pg))) with
        | none => rw [hi] at h; simp at h
        | some y =>
          rw [loop2Inner_mono hash_any B k _ _ _ _ hi]
          rw [hi] at h
          obtain ⟨d1, o1, ok⟩ := y
          cases ok with
          | false => exact h
          | true => exact ih _ _ _ _ h

theorem redistribute_mono {fuel : Nat} {r : Reln} {x : List Page × List Page × Bool}
    (k : Nat) (h : redistribute hash_any B fuel r = some x) :
    redistribute hash_any B (fuel + k) r = some x := by
  unfold redistribute at h ⊢
  cases hg : getPage r.data r.sp with
  | none => rw [hg] at h; simp at h
  | some pg =>
    rw [hg] at h
    simp only [] at h ⊢
    cases hg1 : getPage (putPage r.data r.sp (pageSetOvflow newPage (pageOvflow pg))) r.sp with
    | none => rw [hg1] at h; simp at h
    | some np1 =>
      rw [hg1] at h
      simp only [] at h ⊢
      cases hg2 : getPage
          (putPage (putPage r.data r.sp (pageSetOvflow newPage (pageOvflow pg)))
            (r.sp + 2 ^ r.depth) newPage) (r.sp + 2 ^ r.depth) with
      | none => rw [hg2] at h; simp at h
      | some np2 =>
        rw [hg2] at h
        simp only [] at h ⊢
        cases hl : loop1 hash_any B fuel r (pageTuples pg)
            ⟨putPage (putPage r.data r.sp (pageSetOvflow newPage (pageOvflow pg)))
               (r.sp + 2 ^ r.depth) newPage, r.ovflow, np1, np2⟩ with
        | none => rw [hl] at h; simp at h
        | some y =>
          rw [loop1_mono hash_any B k _ _ _ hl]
          rw [hl] at h
          obtain ⟨s, ok⟩ := y
          cases ok with
          | false => exact h
          | true => exact loop2_mono hash_any B k k _ _ _ _ _ h

theorem insertTuple_mono {fuel : Nat} {r : Reln} {t : Tuple} {x : Reln × Option Nat}
    (k : Nat) (h : insertTuple hash_any B fuel r t = some x) :
    insertTuple hash_any B (fuel + k) r t = some x := by
  unfold insertTuple at h ⊢
  cases ha : addToBucket B fuel r.data r.ovflow (targetPage hash_any r t) t with
  | none => rw [ha] at h; simp at h
  | some y =>
    rw [addToBucket_mono B k ha]
    rw [ha] at h
    exact h

theorem addToRelation_mono {fuel : Nat} {r : Reln} {t : Tuple} {x : Reln × Option Nat}
    (k : Nat) (h : addToRelation hash_any B fuel r t = some x) :
    addToRelation hash_any B (fuel + k) r t = some x := by
  unfold addToRelation at h ⊢
  split
  · rename_i hc
    rw [if_pos hc] at h
    cases h
  · rename_i hc
    rw [if_neg hc] at h
    split
    · rename_i hs
      rw [if_pos hs] at h
      cases hr : redistribute hash_any B fuel r with
      | none => rw [hr] at h; simp at h
      | some y =>
        rw [redistribute_mono hash_any B k hr]
        rw [hr] at h
        obtain ⟨d1, o1, ok⟩ := y
        cases ok with
        | false => exact h
        | true => exact insertTuple_mono hash_any B k h
    · rename_i hs
      rw [if_neg hs] at h
      exact insertTuple_mono hash_any B k h
/-! ## C15: when `addToRelation` returns `NO_PAGE` -/

/-- The insertion that ends `addToRelation`, at depth 1 or more on a
well-formed store: with a loop budget of the length of the bucket's chain it
returns, and it returns `NO_PAGE` exactly when the tuple does not fit in an
empty page. -/
theorem insertTuple_total {r : Reln} {ch : Nat → List Nat} (hinv : Inv hash_any B r ch)
    (hd : 1 ≤ r.depth) (t : Tuple) (fuel : Nat)
    (hf : (ch (targetPage hash_any r t)).length ≤ fuel) :
    ∃ r1 res, insertTuple hash_any B fuel r t = some (r1, res) ∧
      (res = none ↔ B < t.length + 1) := by
  have hplt : targetPage hash_any r t < r.npages := by
    rw [targetPage_eq_bucket_of hash_any r t hd, hinv.npages_eq]
    exact bucket_of_lt _ _ _
  obtain ⟨pg, hg⟩ := getPage_isSome (f := r.data) (i := targetPage hash_any r t)
    (by rw [hinv.store.data_len]; exact hplt)
  have hc := hinv.store.chain _ pg hg
  obtain ⟨⟨d1, o1, ok⟩, hadd⟩ := addToBucket_total B t hg hc hf
  unfold insertTuple
  rw [hadd]
  cases ok with
  | true =>
    refine ⟨_, _, rfl, ?_⟩
    have := addToBucket_true_fit B hadd
    constructor
    · intro h; cases h
    · intro h; omega
  | false =>
    refine ⟨_, _, rfl, fun _ => ?_, fun _ => rfl⟩
    rcases addToBucket_spec B hg hc hadd with ⟨_, _, _, _, h⟩ | ⟨_, _, _, _, _, _, _, _, _, _,
      _, _, h⟩ | ⟨_, _, h⟩
    · cases h
    · cases h
    · rcases h with ⟨hn, _⟩ | ⟨h, _⟩ | ⟨h, _⟩
      · have := (addToPage_none_iff B newPage t).mp hn
        simpa [newPage] using this
      · cases h
      · cases h

theorem addToRelation_eq_insert {r : Reln} (hcap : capacity r ≠ 0) (hs : splitDue r = false)
    (fuel : Nat) (t : Tuple) :
    addToRelation hash_any B fuel r t = insertTuple hash_any B fuel r t := by
  have hn : (10 * r.nattrs) % 2 ^ COUNT_BITS ≠ 0 := by
    intro h0
    apply hcap
    unfold capacity
    rw [h0, Nat.div_zero]
  unfold addToRelation
  rw [if_neg (by rintro (h | h); exact hn h; exact hcap h), hs]
  rfl

theorem addToRelation_eq_split {r : Reln} (hcap : capacity r ≠ 0) (hs : splitDue r = true)
    {fuel : Nat} {d1 o1 : List Page} (hr : redistribute hash_any B fuel r = some (d1, o1, true))
    (t : Tuple) :
    addToRelation hash_any B fuel r t
      = insertTuple hash_any B fuel (advance r d1 o1) t := by
  have hn : (10 * r.nattrs) % 2 ^ COUNT_BITS ≠ 0 := by
    intro h0
    apply hcap
    unfold capacity
    rw [h0, Nat.div_zero]
  unfold addToRelation
  rw [if_neg (by rintro (h | h); exact hn h; exact hcap h), hs, hr]
  rfl

/-- On a well-formed store with a capacity of at least 1 and a depth of at
least 1, `addToRelation` returns for every large enough loop budget, with the
same result, and the result is `NO_PAGE` exactly when the tuple does not fit
in an empty page. -/
theorem addToRelation_total {r : Reln} {ch : Nat → List Nat} (hinv : Inv hash_any B r ch)
    (hcap : capacity r ≠ 0) (hd : 1 ≤ r.depth) (t : Tuple) :
    ∃ fuel0 r1 res,
      (∀ fuel, fuel0 ≤ fuel → addToRelation hash_any B fuel r t = some (r1, res)) ∧
      (res = none ↔ B < t.length + 1) := by
  cases hs : splitDue r with
  | false =>
    obtain ⟨r1, res, hi, hres⟩ := insertTuple_total hash_any B hinv hd t _ (le_refl _)
    refine ⟨(ch (targetPage hash_any r t)).length, r1, res, ?_, hres⟩
    intro fuel hf
    rw [addToRelation_eq_insert hash_any B hcap hs]
    obtain ⟨k, rfl⟩ : ∃ k, fuel = (ch (targetPage hash_any r t)).length + k :=
      ⟨fuel - (ch (targetPage hash_any r t)).length, by omega⟩
    exact insertTuple_mono hash_any B k hi
  | true =>
    obtain ⟨⟨d1, o1, ok⟩, hr⟩ := redistribute_total hash_any B
      (max (ch r.sp).length (chainTuples r.ovflow (ch r.sp)).length) hinv
      (le_max_left _ _) (le_max_right _ _)
    obtain ⟨hok, _⟩ := redistribute_spec hash_any B hinv hr
    subst hok
    obtain ⟨ch1, hinv1⟩ := advance_inv hash_any B hinv hr
    have hd1 : 1 ≤ (advance r d1 o1).depth := by
      obtain ⟨_, _, _, _, h1, h2⟩ := advance_meta r d1 o1
      by_cases e : r.sp + 1 = 2 ^ r.depth
      · rw [(h1 e).2]; omega
      · rw [(h2 e).2]; exact hd
    obtain ⟨r1, res, hi, hres⟩ := insertTuple_total hash_any B hinv1 hd1 t _ (le_refl _)
    refine ⟨max (max (ch r.sp).length (chainTuples r.ovflow (ch r.sp)).length)
      (ch1 (targetPage hash_any (advance r d1 o1) t)).length, r1, res, ?_, hres⟩
    intro fuel hf
    obtain ⟨k1, hk1⟩ : ∃ k, fuel =
        max (ch r.sp).length (chainTuples r.ovflow (ch r.sp)).length + k :=
      ⟨fuel - max (ch r.sp).length (chainTuples r.ovflow (ch r.sp)).length, by omega⟩
    obtain ⟨k2, hk2⟩ : ∃ k, fuel =
        (ch1 (targetPage hash_any (advance r d1 o1) t)).length + k :=
      ⟨fuel - (ch1 (targetPage hash_any (advance r d1 o1) t)).length, by omega⟩
    have hr2 := redistribute_mono hash_any B k1 hr
    rw [← hk1] at hr2
    rw [addToRelation_eq_split hash_any B hcap hs hr2]
    have hi2 := insertTuple_mono hash_any B k2 hi
    rw [← hk2] at hi2
    exact hi2
theorem insert_at_depth_zero_none (fuel : Nat) (t : Tuple) :
    addToRelation hash_any B fuel (newRelation 2 (2 ^ 0) 0 cvAttr0) t = none := by
  have hc : capacity (newRelation 2 (2 ^ 0) 0 cvAttr0) ≠ 0 := by decide
  have hs : splitDue (newRelation 2 (2 ^ 0) 0 cvAttr0) = false := by decide
  rw [addToRelation_eq_insert hash_any B hc hs]
  have ht : targetPage hash_any (newRelation 2 (2 ^ 0) 0 cvAttr0) t = 1 := rfl
  have hb : addToBucket B fuel (newRelation 2 (2 ^ 0) 0 cvAttr0).data
      (newRelation 2 (2 ^ 0) 0 cvAttr0).ovflow 1 t = none := by
    unfold addToBucket
    rfl
  unfold insertTuple
  rw [ht, hb]

/-- C15 (the code departs from the claim): the relation created with
`nattrs = 2`, one page and depth 0 satisfies the linear-hash invariants, and
the tuple `x,1` fits in an empty page of 1012 bytes, yet `addToRelation`
neither inserts it nor returns `NO_PAGE`: at depth 0 it computes `p = 1` (line
431) and the read of the missing page 1 ends the call. -/
theorem addToRelation_fitting_tuple_not_inserted_at_depth_zero (fuel : Nat) :
    Inv sampleHash 1012 (newRelation 2 (2 ^ 0) 0 cvAttr0) (fun _ => []) ∧
    (wideTuple 'x' '1' 0).length + 1 ≤ 1012 ∧
    targetPage sampleHash (newRelation 2 (2 ^ 0) 0 cvAttr0) (wideTuple 'x' '1' 0) = 1 ∧
    getPage (newRelation 2 (2 ^ 0) 0 cvAttr0).data 1 = none ∧
    addToRelation sampleHash 1012 fuel (newRelation 2 (2 ^ 0) 0 cvAttr0)
      (wideTuple 'x' '1' 0) = none :=
  ⟨inv_newRelation sampleHash 1012 2 0 cvAttr0, by decide, rfl, rfl,
    insert_at_depth_zero_none sampleHash 1012 fuel _⟩

/-! ## C30: what `addToRelation` leaves unchanged -/

/-- Where the product `10 * nattrs` does not wrap, the capacity is the
quotient of the literal 1024 by the product. -/
theorem capacity_of_no_wrap (r : Reln) (h : 10 * r.nattrs < 2 ^ COUNT_BITS) :
    capacity r = 1024 / (10 * r.nattrs) := by
  unfold capacity
  rw [Nat.mod_eq_of_lt h]

/-- C28, as stated, fails: with pages of 1024 bytes and 4-byte counters the
body of a page has 1012 bytes, and for two attributes the capacity used by
`addToRelation` is 51 while `floor(1012 / (10 * 2))` is 50.  It also fails
where the product of line 129 wraps: for 429496730 attributes the product
`10 * nattrs` is 4 in the 32-bit `Count` and the capacity is 256, while both
`floor(1012 / (10 * nattrs))` and `floor(1024 / (10 * nattrs))` are 0. -/
theorem capacity_differs_from_body_quotient_counterexample :
    dataSize 1024 4 4 = 1012 ∧ capacity (newRelation 2 1 0 cvAttr0) = 51 ∧
    dataSize 1024 4 4 / (10 * (newRelation 2 1 0 cvAttr0).nattrs) = 50 ∧
    capacity (newRelation 2 1 0 cvAttr0) ≠
      dataSize 1024 4 4 / (10 * (newRelation 2 1 0 cvAttr0).nattrs) ∧
    (10 * (newRelation 429496730 1 0 cvAttr0).nattrs) % 2 ^ COUNT_BITS = 4 ∧
    capacity (newRelation 429496730 1 0 cvAttr0) = 256 ∧
    dataSize 1024 4 4 / (10 * (newRelation 429496730 1 0 cvAttr0).nattrs) = 0 ∧
    1024 / (10 * (newRelation 429496730 1 0 cvAttr0).nattrs) = 0 := by
  decide

/-- C28, amended: for a relation whose product `10 * nattrs` does not wrap in
the 32-bit `Count`, the capacity that `addToRelation` uses is
`floor(1024 / (10 * nattrs))`, with the literal 1024 whatever the size of a
page body; it agrees with `floor(B / (10 * nattrs))` for every such number of
attributes exactly when the body size `B` is between 1020 and 1029. -/
theorem capacity_is_literal_quotient (r : Reln) (hr : 10 * r.nattrs < 2 ^ COUNT_BITS) :
    capacity r = 1024 / (10 * r.nattrs) ∧
    ((∀ x : Reln, 1 ≤ x.nattrs → 10 * x.nattrs < 2 ^ COUNT_BITS →
        capacity x = B / (10 * x.nattrs)) ↔
      (1020 ≤ B ∧ B ≤ 1029)) := by
  refine ⟨capacity_of_no_wrap r hr, ?_, ?_⟩
  · intro h
    have h1 := h (newRelation 1 1 0 []) (le_refl _) (by decide)
    rw [capacity_of_no_wrap _ (by decide)] at h1
    simp only [newRelation] at h1
    omega
  · rintro ⟨h1, h2⟩ x hx hw
    rw [capacity_of_no_wrap x hw]
    generalize x.nattrs = n at hx
    rcases Nat.lt_or_ge n 103 with hn | hn
    · interval_cases n <;> omega
    · rw [Nat.div_eq_of_lt (by omega), Nat.div_eq_of_lt (by omega)]

theorem capacity_is_literal_quotient_witness :
    10 * (newRelation 2 1 0 cvAttr0).nattrs < 2 ^ COUNT_BITS ∧
    capacity (newRelation 2 1 0 cvAttr0) = 1024 / (10 * (newRelation 2 1 0 cvAttr0).nattrs) ∧
    ((∀ x : Reln, 1 ≤ x.nattrs → 10 * x.nattrs < 2 ^ COUNT_BITS →
        capacity x = dataSize 1024 4 4 / (10 * x.nattrs)) ↔
      (1020 ≤ dataSize 1024 4 4 ∧ dataSize 1024 4 4 ≤ 1029)) :=
  ⟨by decide, capacity_is_literal_quotient (dataSize 1024 4 4) _ (by decide)⟩

/-! ## C27: the split triggers of the three variants -/

/-- A call of the modelled `addToRelation` of `reln.c` that stores its tuple
updates `ntups` and `npages` as `callReln` does, with the capacity
`1024 / (10 * nattrs)`. -/
theorem addToRelation_callReln {fuel : Nat} {r r1 : Reln} {t : Tuple} {p : Nat} (i : Nat)
    (h : addToRelation hash_any B fuel r t = some (r1, some p)) :
    callReln (capacity r) ⟨r.ntups, r.npages, i⟩ = (⟨r1.ntups, r1.npages, i⟩, splitDue r) := by
  obtain ⟨_, hc⟩ := addToRelation_cases hash_any B h
  rcases hc with ⟨hs, hi⟩ | ⟨hs, d, o, _, hres, _⟩ | ⟨hs, d, o, _, hi⟩
  · obtain ⟨_, _, _, _, hn, hcase⟩ := insertTuple_meta hash_any B hi
    have hnt : r1.ntups = r.ntups + 1 := by
      rcases hcase with ⟨e, _⟩ | ⟨_, e⟩
      · cases e
      · exact e
    have hne : ¬ (r.ntups + 1) % capacity r = 0 := by
      intro h0
      rw [(splitDue_iff r).mpr h0] at hs
      cases hs
    unfold callReln
    simp only
    rw [if_neg hne, hs, hnt, hn]
  · cases hres
  · obtain ⟨_, _, _, _, hn, hcase⟩ := insertTuple_meta hash_any B hi
    obtain ⟨_, _, a3, a4, _, _⟩ := advance_meta r d o
    have hnt : r1.ntups = r.ntups + 1 := by
      rcases hcase with ⟨e, _⟩ | ⟨_, e⟩
      · cases e
      · rw [e, a3]
    unfold callReln
    simp only
    rw [if_pos ((splitDue_iff r).mp hs), hs, hnt, hn, a4]

/-- The sequence of writes of the insertion gives the files that the model of
lines 438-491 computes. -/
theorem addToBucketWrites_refines (fuel : Nat) (data ovf : List Page) (p : Nat) (t : Tuple) :
    addToBucket B fuel data ovf p t =
      match addToBucketWrites B fuel data ovf p t with
      | none => none
      | some (ws, ok) => some ((replay ws (data, ovf)).1, (replay ws (data, ovf)).2, ok) := by
  unfold addToBucket addToBucketWrites
  cases getPage data p with
  | none => rfl
  | some pg =>
    simp only []
    cases addToPage B pg t with
    | some pg1 => rfl
    | none =>
      simp only []
      cases pageOvflow pg with
      | none =>
        simp only [freshOvflow_eq]
        cases addToPage B newPage t <;> rfl
      | some ovp0 =>
        simp only []
        cases scanChain B t ovf fuel ovp0 none with
        | none => rfl
        | some out =>
          cases out with
          | found ovp ovpg1 prev => rfl
          | exhausted prevp prevpg =>
            simp only [freshOvflow_eq]
            cases addToPage B newPage t <;> rfl

/-- The insertion that ends `addToRelation` stores what its writes store. -/
theorem insertWrites_refines (fuel : Nat) (r : Reln) (t : Tuple) :
    insertTuple hash_any B fuel r t =
      match insertWrites hash_any B fuel r t with
      | none => none
      | some (ws, false) =>
        some ({ r with data := (replay ws (r.data, r.ovflow)).1,
                       ovflow := (replay ws (r.data, r.ovflow)).2 }, none)
      | some (ws, true) =>
        some ({ r with data := (replay ws (r.data, r.ovflow)).1,
                       ovflow := (replay ws (r.data, r.ovflow)).2,
                       ntups := r.ntups + 1 }, some (targetPage hash_any r t)) := by
  unfold insertTuple insertWrites
  rw [addToBucketWrites_refines]
  cases addToBucketWrites B fuel r.data r.ovflow (targetPage hash_any r t) t with
  | none => rfl
  | some x =>
    obtain ⟨ws, ok⟩ := x
    cases ok <;> rfl
theorem scanChain_exhausted (t : Tuple) (ovf : List Page) :
    ∀ (fuel ovp : Nat) (prev : Option (Nat × Page)) (prevp : Nat) (prevpg : Page),
      scanChain B t ovf fuel ovp prev = some (ScanOut.exhausted prevp prevpg) →
      getPage ovf prevp = some prevpg ∧ prevpg.ovflow = none := by
  intro fuel
  induction fuel with
  | zero => intro ovp prev prevp prevpg h; simp [scanChain] at h
  | succ fuel ih =>
    intro ovp prev prevp prevpg h
    rw [scanChain] at h
    cases hg : getPage ovf ovp with
    | none => rw [hg] at h; simp at h
    | some ovpg =>
      rw [hg] at h
      simp only [] at h
      cases ha : addToPage B ovpg t with
      | some pg1 => rw [ha] at h; simp at h
      | none =>
        rw [ha] at h
        simp only [] at h
        cases ho : pageOvflow ovpg with
        | none =>
          rw [ho] at h
          simp only [Option.some.injEq, ScanOut.exhausted.injEq] at h
          obtain ⟨rfl, rfl⟩ := h
          exact ⟨hg, ho⟩
        | some nxt =>
          rw [ho] at h
          exact ih _ _ _ _ h

/-- C29, as stated, fails: in the relation `fullReln` with a page body of 4
bytes, the call that inserts `b,b` returns bucket 1 after extending the chain
of bucket 1 by the new overflow page 1, and its writes are, in this order:
`addPage`, `putPage` of the new page 1 holding the tuple, `putPage` of the
chain page 0 carrying the link to page 1.  The page with the link is written
after the page with the tuple. -/
theorem chain_link_written_after_tuple_counterexample :
    (∃ r1, addToRelation sampleHash 4 4 fullReln
      (wideTuple (Char.ofNat 98) (Char.ofNat 98) 0) = some (r1, some 1)) ∧
    insertWrites sampleHash 4 4 fullReln (wideTuple (Char.ofNat 98) (Char.ofNat 98) 0)
      = some ([Write.addOvflow 1,
          Write.putOvflow 1 ⟨wideTuple (Char.ofNat 98) (Char.ofNat 98) 0 ++ [NUL], none⟩,
          Write.putOvflow 0 ⟨wideTuple (Char.ofNat 98) (Char.ofNat 98) 0 ++ [NUL], some 1⟩],
        true) := by
  constructor
  · obtain ⟨⟨r1, res⟩, h, hp⟩ := eval_some
      (addToRelation sampleHash 4 4 fullReln (wideTuple (Char.ofNat 98) (Char.ofNat 98) 0))
      (fun x => decide (x.2 = some 1)) (by decide)
    have : res = some 1 := of_decide_eq_true hp
    subst this
    exact ⟨r1, h⟩
  · decide

/-- C29, amended: in a call whose insertion stores the tuple in a newly
allocated overflow page `L` (the page that `addPage` appends to the overflow
file), the writes of the insertion are all issued before the call returns and
are, in this order: when the primary page had no overflow page, `addPage`, the
`putPage` of the primary page carrying the link to `L`, the `putPage` of page
`L` holding the tuple; when an existing chain is extended, `addPage`, the
`putPage` of page `L` holding the tuple, the `putPage` of the last chain page
carrying the link to `L`. -/
theorem insertion_write_order {fuel : Nat} {r : Reln} {t : Tuple} {ws : List Write}
    (h : insertWrites hash_any B fuel r t = some (ws, true))
    (hnew : ∃ n, Write.addOvflow n ∈ ws) :
    ∃ pg newpg, getPage r.data (targetPage hash_any r t) = some pg ∧
      addToPage B pg t = none ∧
      addToPage B newPage t = some newpg ∧ newpg.data = t ++ [NUL] ∧
      ((pg.ovflow = none ∧
          ws = [Write.addOvflow r.ovflow.length,
            Write.putData (targetPage hash_any r t)
              (pageSetOvflow pg (some r.ovflow.length)),
            Write.putOvflow r.ovflow.length newpg]) ∨
       (∃ first prevp prevpg, pg.ovflow = some first ∧
          getPage r.ovflow prevp = some prevpg ∧ prevpg.ovflow = none ∧
          ws = [Write.addOvflow r.ovflow.length,
            Write.putOvflow r.ovflow.length newpg,
            Write.putOvflow prevp (pageSetOvflow prevpg (some r.ovflow.length))])) := by
  have hdata : ∀ newpg, addToPage B newPage t = some newpg → newpg.data = t ++ [NUL] := by
    intro newpg hn
    unfold addToPage newPage at hn
    split at hn
    · cases hn
      simp
    · cases hn
  unfold insertWrites addToBucketWrites at h
  cases hg : getPage r.data (targetPage hash_any r t) with
  | none => rw [hg] at h; simp at h
  | some pg =>
    rw [hg] at h
    simp only [] at h
    cases ha : addToPage B pg t with
    | some pg1 =>
      rw [ha] at h
      simp only [Option.some.injEq, Prod.mk.injEq, and_true] at h
      obtain ⟨n, hn⟩ := hnew
      rw [← h] at hn
      simp at hn
    | none =>
      rw [ha] at h
      simp only [] at h
      cases ho : pageOvflow pg with
      | none =>
        rw [ho] at h
        simp only [freshOvflow_eq] at h
        cases hn : addToPage B newPage t with
        | none => rw [hn] at h; simp at h
        | some newpg =>
          rw [hn] at h
          simp only [Option.some.injEq, Prod.mk.injEq, and_true] at h
          exact ⟨pg, newpg, rfl, ha, rfl, hdata newpg hn, Or.inl ⟨ho, h.symm⟩⟩
      | some ovp0 =>
        rw [ho] at h
        simp only [] at h
        cases hs : scanChain B t r.ovflow fuel ovp0 none with
        | none => rw [hs] at h; simp at h
        | some out =>
          rw [hs] at h
          cases out with
          | found ovp ovpg1 prev =>
            simp only [Option.some.injEq, Prod.mk.injEq, and_true] at h
            obtain ⟨n, hn⟩ := hnew
            rw [← h] at hn
            simp at hn
          | exhausted prevp prevpg =>
            simp only [freshOvflow_eq] at h
            obtain ⟨hgp, hpo⟩ := scanChain_exhausted B t r.ovflow fuel ovp0 none prevp prevpg hs
            cases hn : addToPage B newPage t with
            | none => rw [hn] at h; simp at h
            | some newpg =>
              rw [hn] at h
              simp only [Option.some.injEq, Prod.mk.injEq, and_true] at h
              exact ⟨pg, newpg, rfl, ha, rfl, hdata newpg hn,
                Or.inr ⟨ovp0, prevp, prevpg, ho, hgp, hpo, h.symm⟩⟩

theorem insertion_write_order_witness :
    ∃ pg newpg, getPage fullReln.data (targetPage sampleHash fullReln
          (wideTuple (Char.ofNat 98) (Char.ofNat 98) 0)) = some pg ∧
      addToPage 4 pg (wideTuple (Char.ofNat 98) (Char.ofNat 98) 0) = none ∧
      addToPage 4 newPage (wideTuple (Char.ofNat 98) (Char.ofNat 98) 0) = some newpg ∧
      newpg.data = wideTuple (Char.ofNat 98) (Char.ofNat 98) 0 ++ [NUL] ∧
      ((pg.ovflow = none ∧
          [Write.addOvflow 1,
            Write.putOvflow 1 ⟨wideTuple (Char.ofNat 98) (Char.ofNat 98) 0 ++ [NUL], none⟩,
            Write.putOvflow 0 ⟨wideTuple (Char.ofNat 98) (Char.ofNat 98) 0 ++ [NUL], some 1⟩]
          = [Write.addOvflow fullReln.ovflow.length,
            Write.putData (targetPage sampleHash fullReln
                (wideTuple (Char.ofNat 98) (Char.ofNat 98) 0))
              (pageSetOvflow pg (some fullReln.ovflow.length)),
            Write.putOvflow fullReln.ovflow.length newpg]) ∨
       (∃ first prevp prevpg, pg.ovflow = some first ∧
          getPage fullReln.ovflow prevp = some prevpg ∧ prevpg.ovflow = none ∧
          [Write.addOvflow 1,
            Write.putOvflow 1 ⟨wideTuple (Char.ofNat 98) (Char.ofNat 98) 0 ++ [NUL], none⟩,
            Write.putOvflow 0 ⟨wideTuple (Char.ofNat 98) (Char.ofNat 98) 0 ++ [NUL], some 1⟩]
          = [Write.addOvflow fullReln.ovflow.length,
            Write.putOvflow fullReln.ovflow.length newpg,
            Write.putOvflow prevp (pageSetOvflow prevpg (some fullReln.ovflow.length))])) :=
  insertion_write_order sampleHash 4
    (show insertWrites sampleHash 4 4 fullReln (wideTuple (Char.ofNat 98) (Char.ofNat 98) 0)
      = some ([Write.addOvflow 1,
          Write.putOvflow 1 ⟨wideTuple (Char.ofNat 98) (Char.ofNat 98) 0 ++ [NUL], none⟩,
          Write.putOvflow 0 ⟨wideTuple (Char.ofNat 98) (Char.ofNat 98) 0 ++ [NUL], some 1⟩],
        true) by decide)
    ⟨1, by decide⟩

/-! ## Where the insertion stores the tuple -/

theorem addToPage_eq_some {p p1 : Page} {t : Tuple} (h : addToPage B p t = some p1) :
    p.data.length + t.length + 1 ≤ B ∧ p1 = ⟨p.data ++ t ++ [NUL], p.ovflow⟩ := by
  unfold addToPage at h
  split at h
  · rename_i hle
    simp only [Option.some.injEq] at h
    exact ⟨hle, h.symm⟩
  · cases h

theorem addToPage_eq_none {p : Page} {t : Tuple} (h : addToPage B p t = none) :
    B < p.data.length + t.length + 1 := by
  unfold addToPage at h
  split at h
  · cases h
  · omega

theorem scanChain_found (t : Tuple) (ovf : List Page) :
    ∀ (fuel ovp : Nat) (prev : Option (Nat × Page)) (j : Nat) (q1 : Page)
      (prev1 : Option (Nat × Page)),
      scanChain B t ovf fuel ovp prev = some (ScanOut.found j q1 prev1) →
      ∃ q, getPage ovf j = some q ∧ addToPage B q t = some q1 := by
  intro fuel
  induction fuel with
  | zero => intro ovp prev j q1 prev1 h; simp [scanChain] at h
  | succ fuel ih =>
    intro ovp prev j q1 prev1 h
    rw [scanChain] at h
    cases hg : getPage ovf ovp with
    | none => rw [hg] at h; simp at h
    | some pg =>
      rw [hg] at h
      simp only at h
      cases ha : addToPage B pg t with
      | some pg1 =>
        rw [ha] at h
        simp only [Option.some.injEq, ScanOut.found.injEq] at h
        obtain ⟨rfl, rfl, _⟩ := h
        exact ⟨pg, hg, ha⟩
      | none =>
        rw [ha] at h
        simp only [pageOvflow] at h
        cases hn : pg.ovflow with
        | none => rw [hn] at h; simp at h
        | some nxt =>
          rw [hn] at h
          exact ih nxt _ j q1 prev1 h

/-- What an insertion into bucket `p` leaves alone: every other primary page
is the same page; and either the overflow file is the same, or primary page
`p` keeps its bytes and so does every overflow page but one. -/
theorem addToBucket_untouched {fuel : Nat} {data ovf data1 ovf1 : List Page} {p : Nat}
    {t : Tuple} {ok : Bool} (h : addToBucket B fuel data ovf p t = some (data1, ovf1, ok)) :
    data1.length = data.length ∧
    (∀ b, b ≠ p → getPage data1 b = getPage data b) ∧
    (ovf1 = ovf ∨
      ((∃ pg pg1, getPage data p = some pg ∧ getPage data1 p = some pg1 ∧
          pg1.data = pg.data) ∧
        ∃ j, ∀ i, i ≠ j → ∀ q, getPage ovf i = some q →
          ∃ q1, getPage ovf1 i = some q1 ∧ q1.data = q.data)) := by
  unfold addToBucket at h
  cases hg : getPage data p with
  | none => rw [hg] at h; simp at h
  | some pg =>
    have hp := getPage_lt hg
    have hother : ∀ (x : Page) (b : Nat), b ≠ p →
        getPage (putPage data p x) b = getPage data b :=
      fun x b hb => getPage_putPage_ne data p b x hb (Or.inr (by omega))
    have hfresh : ∀ (n : Page) (i : Nat) (q : Page), getPage ovf i = some q →
        getPage (ovf ++ [n]) i = some q := by
      intro n i q hq
      rw [getPage_append_left _ _ _ (getPage_lt hq)]
      exact hq
    rw [hg] at h
    simp only at h
    cases ha : addToPage B pg t with
    | some pg1 =>
      rw [ha] at h
      simp only [Option.some.injEq, Prod.mk.injEq] at h
      obtain ⟨rfl, rfl, _⟩ := h
      exact ⟨length_putPage_lt _ _ _ hp, hother pg1, Or.inl rfl⟩
    | none =>
      rw [ha] at h
      simp only [pageOvflow, freshOvflow_eq] at h
      cases ho : pg.ovflow with
      | none =>
        rw [ho] at h
        simp only at h
        have hkeep : ∃ pg0 pg1, some pg = some pg0 ∧
            getPage (putPage data p (pageSetOvflow pg (some ovf.length))) p = some pg1 ∧
            pg1.data = pg0.data :=
          ⟨pg, _, rfl, getPage_putPage_same _ _ _, rfl⟩
        cases hn : addToPage B newPage t with
        | none =>
          rw [hn] at h
          simp only [Option.some.injEq, Prod.mk.injEq] at h
          obtain ⟨rfl, rfl, _⟩ := h
          refine ⟨length_putPage_lt _ _ _ hp, hother _, Or.inr ⟨hkeep, ovf.length, ?_⟩⟩
          intro i _ q hq
          exact ⟨q, hfresh _ i q hq, rfl⟩
        | some n1 =>
          rw [hn] at h
          simp only [Option.some.injEq, Prod.mk.injEq] at h
          obtain ⟨rfl, rfl, _⟩ := h
          refine ⟨length_putPage_lt _ _ _ hp, hother _, Or.inr ⟨hkeep, ovf.length, ?_⟩⟩
          intro i hi q hq
          refine ⟨q, ?_, rfl⟩
          rw [getPage_putPage_ne _ _ _ _ hi (Or.inr (by simp))]
          exact hfresh _ i q hq
      | some ovp0 =>
        rw [ho] at h
        simp only at h
        cases hs : scanChain B t ovf fuel ovp0 none with
        | none => rw [hs] at h; simp at h
        | some out =>
          rw [hs] at h
          cases out with
          | found j q1 prev1 =>
            simp only [Option.some.injEq, Prod.mk.injEq] at h
            obtain ⟨rfl, rfl, _⟩ := h
            obtain ⟨q, hq, _⟩ := scanChain_found B t ovf fuel ovp0 none j q1 prev1 hs
            refine ⟨rfl, fun _ _ => rfl, Or.inr ⟨⟨pg, pg, rfl, hg, rfl⟩, j, ?_⟩⟩
            intro i hi q0 hq0
            refine ⟨q0, ?_, rfl⟩
            rw [getPage_putPage_ne _ _ _ _ hi (Or.inl (getPage_lt hq0))]
            exact hq0
          | exhausted prevp prevpg =>
            simp only at h
            obtain ⟨hgp, _⟩ := scanChain_exhausted B t ovf fuel ovp0 none prevp prevpg hs
            have hpl := getPage_lt hgp
            cases hn : addToPage B newPage t with
            | none =>
              rw [hn] at h
              simp only [Option.some.injEq, Prod.mk.injEq] at h
              obtain ⟨rfl, rfl, _⟩ := h
              refine ⟨rfl, fun _ _ => rfl, Or.inr ⟨⟨pg, pg, rfl, hg, rfl⟩, ovf.length, ?_⟩⟩
              intro i _ q hq
              exact ⟨q, hfresh _ i q hq, rfl⟩
            | some n1 =>
              rw [hn] at h
              simp only [Option.some.injEq, Prod.mk.injEq] at h
              obtain ⟨rfl, rfl, _⟩ := h
              refine ⟨rfl, fun _ _ => rfl, Or.inr ⟨⟨pg, pg, rfl, hg, rfl⟩, ovf.length, ?_⟩⟩
              intro i hi q hq
              have hil := getPage_lt hq
              by_cases hip : i = prevp
              · subst hip
                refine ⟨_, getPage_putPage_same _ _ _, ?_⟩
                rw [hgp] at hq
                cases hq
                rfl
              · refine ⟨q, ?_, rfl⟩
                rw [getPage_putPage_ne _ _ _ _ hip
                  (Or.inl (by rw [length_putPage_lt _ _ _ (by simp)]; simp; omega))]
                rw [getPage_putPage_ne _ _ _ _ hi (Or.inr (by simp))]
                exact hfresh _ i q hq
theorem insertTuple_addToBucket {fuel : Nat} {r r1 : Reln} {t : Tuple} {p : Nat}
    (h : insertTuple hash_any B fuel r t = some (r1, some p)) :
    p = targetPage hash_any r t ∧
      addToBucket B fuel r.data r.ovflow p t = some (r1.data, r1.ovflow, true) := by
  unfold insertTuple at h
  cases hadd : addToBucket B fuel r.data r.ovflow (targetPage hash_any r t) t with
  | none => rw [hadd] at h; simp at h
  | some x =>
    obtain ⟨data1, ovf1, ok⟩ := x
    rw [hadd] at h
    cases ok with
    | false => simp at h
    | true =>
      simp only [Option.some.injEq, Prod.mk.injEq] at h
      obtain ⟨rfl, rfl⟩ := h
      exact ⟨rfl, hadd⟩

theorem addToBucket_firstFit {fuel : Nat} {data ovf data1 ovf1 : List Page} {p : Nat}
    {t : Tuple} {pg : Page} {cs : List Nat}
    (hg : getPage data p = some pg) (hc : IsChain ovf pg.ovflow cs)
    (h : addToBucket B fuel data ovf p t = some (data1, ovf1, true)) :
    FirstFit B data ovf data1 ovf1 p t pg cs := by
  rcases addToBucket_spec B hg hc h with h1 | h1 | h1
  · obtain ⟨pg1, ha, hd, ho, _⟩ := h1
    obtain ⟨hle, rfl⟩ := addToPage_eq_some B ha
    exact Or.inl ⟨hle, hd, ho⟩
  · obtain ⟨ha, pre, j, post, q, q1, hcs, hfull, hq, hq1, hd, ho, _⟩ := h1
    obtain ⟨hle, rfl⟩ := addToPage_eq_some B hq1
    exact Or.inr (Or.inl ⟨addToPage_eq_none B ha, pre, j, post, q, hcs, hfull, hq, hle, hd, ho⟩)
  · obtain ⟨ha, hfull, h2 | h2 | h2⟩ := h1
    · exact absurd h2.2 (by decide)
    · exact Or.inr (Or.inr ⟨addToPage_eq_none B ha, hfull, Or.inl ⟨h2.2.1, h2.2.2.1, h2.2.2.2⟩⟩)
    · obtain ⟨_, pre, last, lastpg, hcs, hl, _, hd, ho⟩ := h2
      exact Or.inr (Or.inr ⟨addToPage_eq_none B ha, hfull,
        Or.inr ⟨pre, last, lastpg, hcs, hl, hd, ho⟩⟩)

/-- C24: a call of `addToRelation` that returns bucket `p` stores the tuple by
first fit in bucket `p` of the files `data0`, `ovf0` on which its insertion
runs (the files of the call state when there is no split, the files left by
the redistribution otherwise).  With `pg` the primary page `p` and `cs` the
chain of overflow pages linked from it (which exists on every store that
satisfies the invariants): the tuple and its NUL are appended to `pg` when it
has room; otherwise to the first page of `cs` with room, every page before it
being full; otherwise, every page being full, exactly one page holding the
tuple is appended to the overflow file and the last page of the bucket (`pg`
when `cs` is empty, the last page of `cs` otherwise) is linked to it.  Nothing
else changes: the data file keeps its length, every other primary page is the
same page, and either the overflow file is the same or primary page `p` keeps
its bytes and so does every overflow page but one.  In a call without a split
`data0`, `ovf0` are the files before the call. -/
theorem addToRelation_stores_by_first_fit {fuel : Nat} {r r1 : Reln} {t : Tuple} {p : Nat}
    (h : addToRelation hash_any B fuel r t = some (r1, some p)) :
    ∃ data0 ovf0 pg,
      ((splitDue r = false ∧ data0 = r.data ∧ ovf0 = r.ovflow) ∨
       (splitDue r = true ∧ redistribute hash_any B fuel r = some (data0, ovf0, true))) ∧
      getPage data0 p = some pg ∧
      (∀ ch, Inv hash_any B r ch → ∃ cs, IsChain ovf0 pg.ovflow cs) ∧
      (∀ cs, IsChain ovf0 pg.ovflow cs →
        FirstFit B data0 ovf0 r1.data r1.ovflow p t pg cs) ∧
      r1.data.length = data0.length ∧
      (∀ b, b ≠ p → getPage r1.data b = getPage data0 b) ∧
      (r1.ovflow = ovf0 ∨
        ((∃ pg1, getPage r1.data p = some pg1 ∧ pg1.data = pg.data) ∧
          ∃ j, ∀ i, i ≠ j → ∀ q, getPage ovf0 i = some q →
            ∃ q1, getPage r1.ovflow i = some q1 ∧ q1.data = q.data)) := by
  have key : ∀ (r0 : Reln), insertTuple hash_any B fuel r0 t = some (r1, some p) →
      ∃ pg, getPage r0.data p = some pg ∧
        (∀ cs, IsChain r0.ovflow pg.ovflow cs →
          FirstFit B r0.data r0.ovflow r1.data r1.ovflow p t pg cs) ∧
        r1.data.length = r0.data.length ∧
        (∀ b, b ≠ p → getPage r1.data b = getPage r0.data b) ∧
        (r1.ovflow = r0.ovflow ∨
          ((∃ pg1, getPage r1.data p = some pg1 ∧ pg1.data = pg.data) ∧
            ∃ j, ∀ i, i ≠ j → ∀ q, getPage r0.ovflow i = some q →
              ∃ q1, getPage r1.ovflow i = some q1 ∧ q1.data = q.data)) := by
    intro r0 hi
    obtain ⟨_, hadd⟩ := insertTuple_addToBucket hash_any B hi
    obtain ⟨hlen, hoth, hov⟩ := addToBucket_untouched B hadd
    cases hg : getPage r0.data p with
    | none =>
      unfold addToBucket at hadd
      rw [hg] at hadd
      simp at hadd
    | some pg =>
      refine ⟨pg, rfl, fun cs hc => addToBucket_firstFit B hg hc hadd, hlen, hoth, ?_⟩
      rcases hov with h1 | ⟨⟨pg0, pg1, h0, h1, h2⟩, h3⟩
      · exact Or.inl h1
      · rw [hg] at h0
        cases h0
        exact Or.inr ⟨⟨pg1, h1, h2⟩, h3⟩
  obtain ⟨_, h1 | h1 | h1⟩ := addToRelation_cases hash_any B h
  · obtain ⟨pg, hg, hff, hrest⟩ := key r h1.2
    exact ⟨r.data, r.ovflow, pg, Or.inl ⟨h1.1, rfl, rfl⟩, hg,
      fun ch hinv => ⟨ch p, hinv.store.chain p pg hg⟩, hff, hrest⟩
  · obtain ⟨_, d, o, _, hcon, _⟩ := h1
    cases hcon
  · obtain ⟨hs, d, o, hr, hi⟩ := h1
    obtain ⟨pg, hg, hff, hrest⟩ := key (advance r d o) hi
    have hd : (advance r d o).data = d := by unfold advance; split <;> rfl
    have ho : (advance r d o).ovflow = o := by unfold advance; split <;> rfl
    rw [hd] at hg hrest
    rw [ho] at hff hrest
    rw [hd] at hff
    refine ⟨d, o, pg, Or.inr ⟨hs, hr⟩, hg, ?_, hff, hrest⟩
    intro ch hinv
    obtain ⟨ch1, hinv1⟩ := advance_inv hash_any B hinv hr
    have hc := hinv1.store.chain p pg (by rw [hd]; exact hg)
    rw [ho] at hc
    exact ⟨ch1 p, hc⟩

set_option maxRecDepth 100000 in
theorem addToRelation_stores_by_first_fit_witness :
    ∃ r1 data0 ovf0 pg,
      addToRelation sampleHash 4 4 fullReln
        (wideTuple (Char.ofNat 98) (Char.ofNat 98) 0) = some (r1, some 1) ∧
      ((splitDue fullReln = false ∧ data0 = fullReln.data ∧ ovf0 = fullReln.ovflow) ∨
       (splitDue fullReln = true ∧
          redistribute sampleHash 4 4 fullReln = some (data0, ovf0, true))) ∧
      getPage data0 1 = some pg ∧
      (∀ ch, Inv sampleHash 4 fullReln ch → ∃ cs, IsChain ovf0 pg.ovflow cs) ∧
      (∀ cs, IsChain ovf0 pg.ovflow cs →
        FirstFit 4 data0 ovf0 r1.data r1.ovflow 1
          (wideTuple (Char.ofNat 98) (Char.ofNat 98) 0) pg cs) ∧
      r1.data.length = data0.length ∧
      (∀ b, b ≠ 1 → getPage r1.data b = getPage data0 b) ∧
      (r1.ovflow = ovf0 ∨
        ((∃ pg1, getPage r1.data 1 = some pg1 ∧ pg1.data = pg.data) ∧
          ∃ j, ∀ i, i ≠ j → ∀ q, getPage ovf0 i = some q →
            ∃ q1, getPage r1.ovflow i = some q1 ∧ q1.data = q.data)) := by
  obtain ⟨⟨r1, res⟩, h, hp⟩ := eval_some
    (addToRelation sampleHash 4 4 fullReln (wideTuple (Char.ofNat 98) (Char.ofNat 98) 0))
    (fun x => decide (x.2 = some 1)) (by decide)
  have hres : res = some 1 := of_decide_eq_true hp
  subst hres
  obtain ⟨data0, ovf0, pg, hrest⟩ :=
    addToRelation_stores_by_first_fit sampleHash 4 h
  exact ⟨r1, data0, ovf0, pg, h, hrest⟩

/-! ## The number of primary pages -/

/-- An overflow page appended without a link to it leaves the store as it is. -/
theorem store_append_page {data ovf : List Page} {ch : Nat → List Nat} {n : Nat}
    {npg : Page} (hs : Store B data ovf ch n) (hnok : PageOK B npg) :
    Store B data (ovf ++ [npg]) ch n := by
  refine ⟨hs.data_len, hs.data_ok, ?_, ?_, hs.nodup, hs.disj⟩
  · intro j pg hj
    by_cases hlt : j < ovf.length
    · rw [getPage_append_left _ _ _ hlt] at hj
      exact hs.ovf_ok j pg hj
    · have hjl := getPage_lt hj
      simp only [List.length_append, List.length_singleton] at hjl
      have e : j = ovf.length := by omega
      subst e
      rw [getPage_append_length] at hj
      cases hj
      exact hnok
  · intro b pg hb
    have hbn : b < n := by rw [← hs.data_len]; exact getPage_lt hb
    exact isChain_congr (ch b) pg.ovflow
      (fun j hj => getPage_append_left _ _ _ (store_chain_lt B hs hbn j hj))
      (hs.chain b pg hb)

/-- An insertion that ends with `return NO_PAGE` (the tuple does not fit an
empty page) leaves a well-formed store with the same tuples: it has appended
an empty overflow page, linked from the primary page when the bucket had no
overflow page and not linked otherwise. -/
theorem addToBucket_store_fail {fuel : Nat} {data ovf data1 ovf1 : List Page}
    {ch : Nat → List Nat} {n p : Nat} {t : Tuple}
    (hs : Store B data ovf ch n) (hp : p < n)
    (h : addToBucket B fuel data ovf p t = some (data1, ovf1, false)) :
    ∃ ids, Store B data1 ovf1 (Function.update ch p ids) n ∧
      bucketTuples data1 ovf1 ids p = bucketTuples data ovf (ch p) p ∧
      (∀ b, b ≠ p → getPage data1 b = getPage data b) ∧
      (∀ j, j < ovf.length → getPage ovf1 j = getPage ovf j) := by
  have hnok : PageOK B newPage := pageOK_empty B none
  unfold addToBucket at h
  cases hg : getPage data p with
  | none => rw [hg] at h; simp at h
  | some pg =>
    have hpl := getPage_lt hg
    have hc := hs.chain p pg hg
    rw [hg] at h
    simp only at h
    cases ha : addToPage B pg t with
    | some pg1 => rw [ha] at h; simp at h
    | none =>
      rw [ha] at h
      simp only [pageOvflow, freshOvflow_eq] at h
      cases ho : pg.ovflow with
      | none =>
        rw [ho] at h
        simp only at h
        rw [ho] at hc
        have hch : ch p = [] := by
          cases hcp : ch p with
          | nil => rfl
          | cons i rest => rw [hcp] at hc; simp [IsChain] at hc
        cases hn : addToPage B newPage t with
        | some n1 => rw [hn] at h; simp at h
        | none =>
          rw [hn] at h
          simp only [Option.some.injEq, Prod.mk.injEq, and_true] at h
          obtain ⟨rfl, rfl⟩ := h
          refine ⟨[ovf.length], store_extend_empty B hs hp hg hch hnok rfl, ?_, ?_, ?_⟩
          · rw [bucketTuples_eq _ _ _ _ _ (getPage_putPage_same data p _),
              bucketTuples_eq _ _ _ _ pg hg, hch, chainTuples_cons, chainTuples_nil,
              getPage_append_length]
            simp only [chainTuples_nil, pageTuples_newPage, List.append_nil]
            rfl
          · intro b hb
            exact getPage_putPage_ne data p b _ hb (Or.inr (by omega))
          · intro j hj
            exact getPage_append_left _ _ _ hj
      | some ovp0 =>
        rw [ho] at h
        simp only at h
        cases hsc : scanChain B t ovf fuel ovp0 none with
        | none => rw [hsc] at h; simp at h
        | some out =>
          rw [hsc] at h
          cases out with
          | found j q1 prev1 => simp at h
          | exhausted prevp prevpg =>
            simp only at h
            cases hn : addToPage B newPage t with
            | some n1 => rw [hn] at h; simp at h
            | none =>
              rw [hn] at h
              simp only [Option.some.injEq, Prod.mk.injEq, and_true] at h
              obtain ⟨rfl, rfl⟩ := h
              refine ⟨ch p, ?_, ?_, fun _ _ => rfl, ?_⟩
              · rw [Function.update_eq_self]
                exact store_append_page B hs hnok
              · exact bucketTuples_congr (ch p) p rfl
                  (fun j hj => getPage_append_left _ _ _ (store_chain_lt B hs hp j hj))
              · intro j hj
                exact getPage_append_left _ _ _ hj

/-- An insertion that returns `NO_PAGE` keeps the store invariant. -/
theorem insertTuple_inv_fail {fuel : Nat} {r r1 : Reln} {t : Tuple}
    {ch : Nat → List Nat} (hinv : Inv hash_any B r ch)
    (h : insertTuple hash_any B fuel r t = some (r1, none)) :
    ∃ ch1, Inv hash_any B r1 ch1 := by
  have hs := hinv.store
  unfold insertTuple at h
  cases hadd : addToBucket B fuel r.data r.ovflow (targetPage hash_any r t) t with
  | none => rw [hadd] at h; simp at h
  | some res =>
    obtain ⟨data1, ovf1, ok⟩ := res
    rw [hadd] at h
    cases ok with
    | true => simp at h
    | false =>
      simp only [Option.some.injEq, Prod.mk.injEq, and_true] at h
      have hplt : targetPage hash_any r t < r.npages := by
        by_contra hcon
        have hnone : getPage r.data (targetPage hash_any r t) = none := by
          unfold getPage
          exact List.getElem?_eq_none (by rw [hs.data_len]; omega)
        unfold addToBucket at hadd
        rw [hnone] at hadd
        simp at hadd
      obtain ⟨ids, hs1, hbt, hfd, hfo⟩ := addToBucket_store_fail B hs hplt hadd
      refine ⟨Function.update ch (targetPage hash_any r t) ids, ?_⟩
      rw [← h]
      refine ⟨hinv.npages_eq, hinv.sp_lt, hs1, ?_⟩
      intro b hb u hu
      show bucket_of (tupleHash hash_any r u) r.depth r.sp = b
      simp only at hb hu
      by_cases e : b = targetPage hash_any r t
      · subst e
        rw [Function.update_same, hbt] at hu
        exact hinv.hash _ hb u hu
      · rw [Function.update_noteq e] at hu
        rw [bucketTuples_congr (ch b) b (hfd b e) (fun j hj =>
          hfo j (store_chain_lt B hs hb j hj))] at hu
        exact hinv.hash b hb u hu

/-- Every returning call of `addToRelation` with a tuple string keeps the
store invariant, whatever it returns. -/
theorem addToRelation_inv_any {fuel : Nat} {r r1 : Reln} {t : Tuple} {res : Option Nat}
    {ch : Nat → List Nat} (hinv : Inv hash_any B r ch) (ht : validTuple t)
    (h : addToRelation hash_any B fuel r t = some (r1, res)) :
    ∃ ch1, Inv hash_any B r1 ch1 := by
  have key : ∀ (r0 : Reln) (ch0 : Nat → List Nat), Inv hash_any B r0 ch0 →
      insertTuple hash_any B fuel r0 t = some (r1, res) → ∃ ch1, Inv hash_any B r1 ch1 := by
    intro r0 ch0 hinv0 hi
    cases res with
    | none => exact insertTuple_inv_fail hash_any B hinv0 hi
    | some p => exact insertTuple_inv hash_any B hinv0 ht hi
  obtain ⟨_, h1 | h1 | h1⟩ := addToRelation_cases hash_any B h
  · exact key r ch hinv h1.2
  · obtain ⟨_, d, o, hr, _, _⟩ := h1
    exact absurd (redistribute_spec hash_any B hinv hr).1 (by decide)
  · obtain ⟨_, d, o, hr, hi⟩ := h1
    obtain ⟨ch1, hinv1⟩ := advance_inv hash_any B hinv hr
    exact key _ ch1 hinv1 hi

theorem inv_of_run {r : Reln} (h : Run hash_any B r) : ∃ ch, Inv hash_any B r ch := by
  induction h with
  | fresh nattrs d cv => exact ⟨_, inv_newRelation hash_any B nattrs d cv⟩
  | step fuel r r1 t res _ ht hadd ih =>
    obtain ⟨ch, hinv⟩ := ih
    exact addToRelation_inv_any hash_any B hinv ht hadd
theorem insertTuple_data_length {fuel : Nat} {r r1 : Reln} {t : Tuple} {res : Option Nat}
    (h : insertTuple hash_any B fuel r t = some (r1, res)) :
    r1.data.length = r.data.length := by
  unfold insertTuple at h
  cases hadd : addToBucket B fuel r.data r.ovflow (targetPage hash_any r t) t with
  | none => rw [hadd] at h; simp at h
  | some x =>
    obtain ⟨data1, ovf1, ok⟩ := x
    rw [hadd] at h
    have hlen := (addToBucket_untouched B hadd).1
    cases ok with
    | false =>
      simp only [Option.some.injEq, Prod.mk.injEq] at h
      rw [← h.1]
      exact hlen
    | true =>
      simp only [Option.some.injEq, Prod.mk.injEq] at h
      rw [← h.1]
      exact hlen

/-- A returning call on a store that satisfies the invariants: the data file
has `npages` pages after it; a split adds one page, at index `sp + 2^depth`,
the length of the file before the call; without a split the file keeps its
length. -/
theorem addToRelation_data_length {fuel : Nat} {r r1 : Reln} {t : Tuple}
    {res : Option Nat} {ch : Nat → List Nat} (hinv : Inv hash_any B r ch)
    (h : addToRelation hash_any B fuel r t = some (r1, res)) :
    r1.data.length = r1.npages ∧
    (splitDue r = true →
      r.sp + 2 ^ r.depth = r.data.length ∧ r1.data.length = r.data.length + 1 ∧
      r1.npages = r.npages + 1 ∧ getPage r.data (r.sp + 2 ^ r.depth) = none ∧
      ∃ pg, getPage r1.data (r.sp + 2 ^ r.depth) = some pg) ∧
    (splitDue r = false → r1.data.length = r.data.length ∧ r1.npages = r.npages) := by
  have hlen := hinv.store.data_len
  have hnp : r.sp + 2 ^ r.depth = r.npages := by rw [hinv.npages_eq]; omega
  obtain ⟨_, h1 | h1 | h1⟩ := addToRelation_cases hash_any B h
  · obtain ⟨hs, hi⟩ := h1
    have hl := insertTuple_data_length hash_any B hi
    obtain ⟨_, _, _, _, hn, _⟩ := insertTuple_meta hash_any B hi
    refine ⟨by rw [hl, hn]; exact hlen, ?_, fun _ => ⟨hl, hn⟩⟩
    intro hcon
    rw [hs] at hcon
    cases hcon
  · obtain ⟨_, d, o, hr, _, _⟩ := h1
    exact absurd (redistribute_spec hash_any B hinv hr).1 (by decide)
  · obtain ⟨hs, d, o, hr, hi⟩ := h1
    obtain ⟨_, ch1, hs1, _⟩ := redistribute_spec hash_any B hinv hr
    have hl := insertTuple_data_length hash_any B hi
    obtain ⟨_, _, _, _, hn, _⟩ := insertTuple_meta hash_any B hi
    have hd : (advance r d o).data = d := by unfold advance; split <;> rfl
    have ha := (advance_meta r d o).2.2.2.1
    rw [hd, hs1.data_len] at hl
    rw [ha] at hn
    refine ⟨by rw [hl, hn], ?_, ?_⟩
    · intro _
      refine ⟨by rw [hnp, hlen], by rw [hl, hlen], hn, ?_, ?_⟩
      · unfold getPage
        exact List.getElem?_eq_none (by rw [hnp, hlen])
      · exact getPage_isSome (by rw [hl, hnp]; omega)
    · intro hcon
      rw [hs] at hcon
      cases hcon

/-- C26: in every state reached from a relation created by `newRelation` with
`2^depth` pages by `addToRelation` calls with tuple strings, whatever the
calls returned, the data file holds exactly `npages` primary pages; and after
every further call that returns it still does: a call that splits extends the
data file by exactly one page, at index `newp = sp + 2^depth`, which is the
number of pages that the file had before the call (no page was there), and
`npages` grows by one; a call without a split leaves the number of primary
pages and `npages` unchanged. -/
theorem data_file_holds_npages_pages {r : Reln} (hrun : Run hash_any B r) :
    r.data.length = r.npages ∧
    ∀ (fuel : Nat) (t : Tuple) (r1 : Reln) (res : Option Nat),
      addToRelation hash_any B fuel r t = some (r1, res) →
      r1.data.length = r1.npages ∧
      (splitDue r = true →
        r.sp + 2 ^ r.depth = r.data.length ∧ r1.data.length = r.data.length + 1 ∧
        r1.npages = r.npages + 1 ∧ getPage r.data (r.sp + 2 ^ r.depth) = none ∧
        ∃ pg, getPage r1.data (r.sp + 2 ^ r.depth) = some pg) ∧
      (splitDue r = false → r1.data.length = r.data.length ∧ r1.npages = r.npages) := by
  obtain ⟨ch, hinv⟩ := inv_of_run hash_any B hrun
  exact ⟨hinv.store.data_len, fun fuel t r1 res h =>
    addToRelation_data_length hash_any B hinv h⟩

set_option maxRecDepth 100000 in
theorem data_file_holds_npages_pages_witness :
    ∃ r p, addToRelation sampleHash 1012 4 (newRelation 52 (2 ^ 1) 1 cvAttr1)
        (wideTuple (Char.ofNat 97) (Char.ofNat 99) 50) = some (r, some p) ∧
      splitDue (newRelation 52 (2 ^ 1) 1 cvAttr1) = true ∧
      r.data.length = r.npages ∧
      ∀ (fuel : Nat) (t : Tuple) (r1 : Reln) (res : Option Nat),
        addToRelation sampleHash 1012 fuel r t = some (r1, res) →
        r1.data.length = r1.npages ∧
        (splitDue r = true →
          r.sp + 2 ^ r.depth = r.data.length ∧ r1.data.length = r.data.length + 1 ∧
          r1.npages = r.npages + 1 ∧ getPage r.data (r.sp + 2 ^ r.depth) = none ∧
          ∃ pg, getPage r1.data (r.sp + 2 ^ r.depth) = some pg) ∧
        (splitDue r = false → r1.data.length = r.data.length ∧ r1.npages = r.npages) := by
  obtain ⟨⟨r1, res⟩, h, hP⟩ := eval_some
    (addToRelation sampleHash 1012 4 (newRelation 52 (2 ^ 1) 1 cvAttr1)
      (wideTuple (Char.ofNat 97) (Char.ofNat 99) 50))
    (fun x => x.2.isSome) (by decide)
  obtain ⟨p, rfl⟩ := Option.isSome_iff_exists.mp hP
  exact ⟨r1, p, h, by decide, data_file_holds_npages_pages sampleHash 1012
    (Run.step 4 _ r1 _ (some p) (Run.fresh 52 1 cvAttr1) (by unfold validTuple; decide) h)⟩

/-! ## The overflow pages that a split allocates -/

theorem isChain_unique {ovf : List Page} :
    ∀ (l1 l2 : List Nat) (o : Option Nat), IsChain ovf o l1 → IsChain ovf o l2 → l1 = l2 := by
  intro l1
  induction l1 with
  | nil =>
    intro l2 o h1 h2
    rw [isChain_nil_iff] at h1
    subst h1
    cases l2 with
    | nil => rfl
    | cons i rest => simp [IsChain] at h2
  | cons i rest ih =>
    intro l2 o h1 h2
    rw [isChain_cons_iff] at h1
    obtain ⟨ho, pg, hg, hrest⟩ := h1
    subst ho
    cases l2 with
    | nil => simp [IsChain] at h2
    | cons k rest2 =>
      rw [isChain_cons_iff] at h2
      obtain ⟨hk, pg2, hg2, hrest2⟩ := h2
      simp only [Option.some.injEq] at hk
      subst hk
      rw [hg] at hg2
      cases hg2
      rw [ih rest2 pg.ovflow hrest hrest2]

/-- The chain of a bucket is determined by the two files. -/
theorem store_chain_unique {data ovf : List Page} {ch ch1 : Nat → List Nat} {n b : Nat}
    (hs : Store B data ovf ch n) (hs1 : Store B data ovf ch1 n) (hb : b < n) :
    ch1 b = ch b := by
  obtain ⟨pg, hg⟩ := getPage_isSome (f := data) (i := b) (by rw [hs.data_len]; exact hb)
  exact isChain_unique _ _ _ (hs1.chain b pg hg) (hs.chain b pg hg)

/-- An insertion that stores the tuple allocates at most one overflow page,
and a page that it allocates is on the chain of the bucket afterwards. -/
theorem addToBucket_alloc {fuel : Nat} {data ovf data1 ovf1 : List Page}
    {ch : Nat → List Nat} {n p : Nat} {t : Tuple} {ok : Bool}
    (hs : Store B data ovf ch n) (hp : p < n) (ht : validTuple t) (hfit : t.length + 1 ≤ B)
    (h : addToBucket B fuel data ovf p t = some (data1, ovf1, ok)) :
    ∀ ch1, Store B data1 ovf1 ch1 n →
      (∀ j ∈ ch p, j ∈ ch1 p) ∧ (∀ j, ovf.length ≤ j → j < ovf1.length → j ∈ ch1 p) := by
  intro ch1 hs1
  obtain ⟨pg, hg⟩ := getPage_isSome (f := data) (i := p) (by rw [hs.data_len]; exact hp)
  obtain ⟨_, ids, hids, hs2, _, _, _, _⟩ := addToBucket_store B hs hp ht hfit h
  have e : ch1 p = ids := by
    rw [store_chain_unique B hs2 hs1 hp, Function.update_same]
  rw [e]
  rcases addToBucket_spec B hg (hs.chain p pg hg) h with
    ⟨pg1, _, _, ho, _⟩ | ⟨_, pre, j, post, q, q1, _, _, hgj, _, _, ho, _⟩ |
    ⟨_, _, ⟨hn, _⟩ | ⟨_, hcs, hd, ho⟩ | ⟨_, pre, last, lastpg, hcs, hgl, _, hd, ho⟩⟩
  · constructor
    · intro j hj
      rcases hids with e1 | e1 <;> rw [e1] <;> simp [hj]
    · intro j h1 h2
      rw [ho] at h2
      omega
  · constructor
    · intro j hj
      rcases hids with e1 | e1 <;> rw [e1] <;> simp [hj]
    · intro i h1 h2
      rw [ho, length_putPage_lt _ _ _ (getPage_lt hgj)] at h2
      omega
  · unfold addToPage newPage at hn
    rw [if_pos (by simp only [List.length_nil]; omega)] at hn
    cases hn
  · have hs3 := store_extend_empty B hs hp hg hcs (pageOK_single B t none ht hfit) rfl
    rw [← hd, ← ho] at hs3
    have e3 : ids = [ovf.length] := by
      have := store_chain_unique B hs3 hs2 hp
      rw [Function.update_same, Function.update_same] at this
      exact this
    rw [e3, hcs]
    constructor
    · intro j hj; cases hj
    · intro j h1 h2
      rw [ho] at h2
      simp only [List.length_append, List.length_singleton] at h2
      simp only [List.mem_singleton]
      omega
  · have hs3 := @store_extend_last B data ovf ch n p last pre lastpg ⟨t ++ [NUL], none⟩
      hs hp hcs hgl (pageOK_single B t none ht hfit) rfl
    rw [← hd, ← ho] at hs3
    have e3 : ids = ch p ++ [ovf.length] := by
      have := store_chain_unique B hs3 hs2 hp
      rw [Function.update_same, Function.update_same] at this
      exact this
    rw [e3]
    constructor
    · intro j hj; simp [hj]
    · intro j h1 h2
      rw [ho, length_putPage_lt _ _ _ (by
        simp only [List.length_append, List.length_singleton]
        have := getPage_lt hgl
        omega)] at h2
      simp only [List.length_append, List.length_singleton] at h2
      have : j = ovf.length := by omega
      simp [this]
/-- The overflow pages allocated while the tuples of one old overflow page are
inserted again are all on the chain of the new bucket `n`, which keeps the
pages that it had. -/
theorem loop2Inner_alloc (fuel : Nat) (r : Reln) (n : Nat) (done todo : List Nat) (o : Nat)
    (hne : n ≠ r.sp) (hspn : r.sp < n + 1) :
    ∀ (post : List Tuple) (data ovf data1 ovf1 : List Page) (ch : Nat → List Nat)
      (q : Page) (ok : Bool),
      Store B data ovf ch (n + 1) → ch r.sp = done ++ o :: todo →
      getPage ovf o = some q →
      q.data.length + (encode (post.filter (staysOld hash_any r))).length ≤ B →
      (∀ t ∈ post, validTuple t ∧ t.length + 1 ≤ B ∧
        (getLower (tupleHash hash_any r t) (r.depth + 1) = r.sp ∨
          getLower (tupleHash hash_any r t) (r.depth + 1) = n)) →
      loop2Inner hash_any B fuel r post data ovf = some (data1, ovf1, ok) →
      ∀ ch1, Store B data1 ovf1 ch1 (n + 1) →
        (∀ j ∈ ch n, j ∈ ch1 n) ∧
        (∀ j, ovf.length ≤ j → j < ovf1.length → j ∈ ch1 n) := by
  intro post
  induction post with
  | nil =>
    intro data ovf data1 ovf1 ch q ok hs _ _ _ _ h ch1 hs1
    simp only [loop2Inner, Option.some.injEq, Prod.mk.injEq] at h
    obtain ⟨rfl, rfl, rfl⟩ := h
    rw [store_chain_unique B hs hs1 (Nat.lt_succ_self n)]
    exact ⟨fun j hj => hj, fun j h1 h2 => absurd h2 (by omega)⟩
  | cons t post ih =>
    intro data ovf data1 ovf1 ch q ok hs hch hgo hroom hcls h ch1 hs1
    obtain ⟨htv, htfit, htcls⟩ := hcls t (by simp)
    have hcls2 : ∀ u ∈ post, validTuple u ∧ u.length + 1 ≤ B ∧
        (getLower (tupleHash hash_any r u) (r.depth + 1) = r.sp ∨
          getLower (tupleHash hash_any r u) (r.depth + 1) = n) :=
      fun u hu => hcls u (by simp [hu])
    have hnn : n < n + 1 := Nat.lt_succ_self n
    rw [loop2Inner] at h
    simp only [ite_self] at h
    cases hadd : addToBucket B fuel data ovf
        (getLower (tupleHash hash_any r t) (r.depth + 1)) t with
    | none => rw [hadd] at h; simp at h
    | some res =>
      obtain ⟨data2, ovf2, ok2⟩ := res
      rw [hadd] at h
      by_cases hold : getLower (tupleHash hash_any r t) (r.depth + 1) = r.sp
      · have hso : staysOld hash_any r t = true := by simp [staysOld, hold]
        rw [hold] at hadd
        simp only [List.filter_cons, hso, if_true] at hroom
        have hroom1 : q.data.length + t.length + 1 ≤ B := by
          rw [encode_cons] at hroom
          simp only [List.length_append, List.length_cons] at hroom
          omega
        obtain ⟨hk, hs2, hlen2, _, _, _, q1, hgq1, hq1len⟩ :=
          addToBucket_store_room B hs hspn htv hch hgo hroom1 hadd
        subst hk
        simp only at h
        have hroom2 : q1.data.length + (encode (post.filter (staysOld hash_any r))).length
            ≤ B := by
          rw [encode_cons] at hroom
          simp only [List.length_append, List.length_cons] at hroom
          omega
        have := ih data2 ovf2 data1 ovf1 ch q1 ok hs2 hch hgq1 hroom2 hcls2 h ch1 hs1
        rw [hlen2] at this
        exact this
      · have hnew : getLower (tupleHash hash_any r t) (r.depth + 1) = n := by
          rcases htcls with h1 | h1
          · exact absurd h1 hold
          · exact h1
        have hso : staysOld hash_any r t = false := by simp [staysOld, hold]
        rw [hnew] at hadd
        simp only [List.filter_cons, hso, Bool.false_eq_true, if_false] at hroom
        obtain ⟨hk, ids, hids, hs2, _, _, hfo2, hlen2⟩ :=
          addToBucket_store B hs hnn htv htfit hadd
        subst hk
        simp only at h
        obtain ⟨ha1, ha2⟩ := addToBucket_alloc B hs hnn htv htfit hadd _ hs2
        rw [Function.update_same] at ha1 ha2
        have hch2 : Function.update ch n ids r.sp = done ++ o :: todo := by
          rw [Function.update_noteq (Ne.symm hne)]; exact hch
        have hol : o < ovf.length := getPage_lt hgo
        have hon : o ∉ ch n := fun hcon =>
          hs.disj n r.sp hnn hspn hne o hcon (by rw [hch]; simp)
        have hgo2 : getPage ovf2 o = some q := by rw [hfo2 o hol hon]; exact hgo
        obtain ⟨hb1, hb2⟩ :=
          ih data2 ovf2 data1 ovf1 (Function.update ch n ids) q ok hs2 hch2 hgo2 hroom hcls2 h
            ch1 hs1
        rw [Function.update_same] at hb1
        constructor
        · intro j hj
          exact hb1 j (ha1 j hj)
        · intro j h1 h2
          by_cases hj : j < ovf2.length
          · exact hb1 j (ha2 j h1 hj)
          · exact hb2 j (by omega) h2

/-- The overflow pages allocated by the second redistribution loop are all on
the chain of the new bucket `n`, which keeps the pages that it had. -/
theorem loop2_alloc (fuel : Nat) (r : Reln) (n : Nat) (hne : n ≠ r.sp) (hspn : r.sp < n + 1) :
    ∀ (todo : List Nat) (k : Nat) (ovg : Option Nat) (done : List Nat)
      (data ovf data1 ovf1 : List Page) (ch : Nat → List Nat) (ok : Bool),
      Store B data ovf ch (n + 1) → ch r.sp = done ++ todo → IsChain ovf ovg todo →
      (∀ j ∈ todo, ∀ pg, getPage ovf j = some pg → ∀ t ∈ pageTuples pg,
        getLower (tupleHash hash_any r t) (r.depth + 1) = r.sp ∨
          getLower (tupleHash hash_any r t) (r.depth + 1) = n) →
      loop2 hash_any B fuel r k ovg data ovf = some (data1, ovf1, ok) →
      ∀ ch1, Store B data1 ovf1 ch1 (n + 1) →
        (∀ j ∈ ch n, j ∈ ch1 n) ∧
        (∀ j, ovf.length ≤ j → j < ovf1.length → j ∈ ch1 n) := by
  intro todo
  induction todo with
  | nil =>
    intro k ovg done data ovf data1 ovf1 ch ok hs _ hlink _ h ch1 hs1
    rw [isChain_nil_iff] at hlink
    subst hlink
    rw [loop2_none] at h
    simp only [Option.some.injEq, Prod.mk.injEq] at h
    obtain ⟨rfl, rfl, rfl⟩ := h
    rw [store_chain_unique B hs hs1 (Nat.lt_succ_self n)]
    exact ⟨fun j hj => hj, fun j h1 h2 => absurd h2 (by omega)⟩
  | cons o todo ih =>
    intro k ovg done data ovf data1 ovf1 ch ok hs hch hlink hcls h ch1 hs1
    rw [isChain_cons_iff] at hlink
    obtain ⟨hovg, q0, hgo, hrest⟩ := hlink
    subst hovg
    have hnn : n < n + 1 := Nat.lt_succ_self n
    have hol : o < ovf.length := getPage_lt hgo
    have hq0 : PageOK B q0 := hs.ovf_ok o q0 hgo
    have hnd := hs.nodup r.sp hspn
    rw [hch] at hnd
    have hond : o ∉ done := fun hcon =>
      (List.nodup_append.mp hnd).2.2 hcon (by simp)
    have hotd : o ∉ todo := (List.nodup_cons.mp (List.nodup_append.mp hnd).2.1).1
    have htodo : ∀ j ∈ todo, j < ovf.length ∧ j ∉ done ∧ j ≠ o ∧ j ∉ ch n := by
      intro j hj
      have hjm : j ∈ ch r.sp := by rw [hch]; simp [hj]
      refine ⟨store_chain_lt B hs hspn j hjm, ?_, ?_, ?_⟩
      · intro hcon
        exact (List.nodup_append.mp hnd).2.2 hcon (by simp [hj])
      · intro hcon; subst hcon; exact hotd hj
      · intro hcon
        exact hs.disj n r.sp hnn hspn hne j hcon hjm
    cases k with
    | zero => simp [loop2] at h
    | succ k =>
      rw [loop2, hgo] at h
      simp only [pageSetOvflow, pageOvflow, newPage] at h
      cases hin : loop2Inner hash_any B fuel r (pageTuples q0) data
          (putPage ovf o ⟨[], q0.ovflow⟩) with
      | none => rw [hin] at h; simp at h
      | some res =>
        obtain ⟨data2, ovf2, ok2⟩ := res
        rw [hin] at h
        have hsR : Store B data (putPage ovf o ⟨[], q0.ovflow⟩) ch (n + 1) :=
          store_put_chain B hs hgo (pageOK_empty B _) rfl
        have hlenR : (putPage ovf o ⟨[], q0.ovflow⟩).length = ovf.length :=
          length_putPage_lt ovf o _ hol
        have hgetR : ∀ j, j ≠ o → getPage (putPage ovf o ⟨[], q0.ovflow⟩) j = getPage ovf j :=
          fun j hj => getPage_putPage_ne ovf o j _ hj (Or.inr (Nat.le_of_lt hol))
        have hroom : (⟨[], q0.ovflow⟩ : Page).data.length +
            (encode ((pageTuples q0).filter (staysOld hash_any r))).length ≤ B := by
          have h1 := encode_length_append_le [] (pageTuples q0)
            ((pageTuples q0).filter (staysOld hash_any r)) (List.filter_sublist _)
          simp only [List.nil_append] at h1
          have h2 := hq0.1
          rw [hq0.2.2] at h2
          simp only [List.length_nil, Nat.zero_add]
          omega
        have hclsT : ∀ t ∈ pageTuples q0, validTuple t ∧ t.length + 1 ≤ B ∧
            (getLower (tupleHash hash_any r t) (r.depth + 1) = r.sp ∨
              getLower (tupleHash hash_any r t) (r.depth + 1) = n) := by
          intro t ht
          refine ⟨hq0.2.1 t ht, ?_, hcls o (by simp) q0 hgo t ht⟩
          have h1 := length_succ_le_encode ht
          have h2 := hq0.1
          rw [hq0.2.2] at h2
          omega
        obtain ⟨hk2, ch2, hs2, hch2, _, _, _, hfo2, hlen2, _, _⟩ :=
          loop2Inner_spec hash_any B fuel r n done todo o hne hspn (pageTuples q0) data
            (putPage ovf o ⟨[], q0.ovflow⟩) data2 ovf2 ch ⟨[], q0.ovflow⟩ ok2 hsR hch
            (getPage_putPage_same ovf o _) hroom hclsT hin
        obtain ⟨ha1, ha2⟩ :=
          loop2Inner_alloc hash_any B fuel r n done todo o hne hspn (pageTuples q0) data
            (putPage ovf o ⟨[], q0.ovflow⟩) data2 ovf2 ch ⟨[], q0.ovflow⟩ ok2 hsR hch
            (getPage_putPage_same ovf o _) hroom hclsT hin ch2 hs2
        subst hk2
        simp only at h
        have hsame : ∀ j ∈ todo, getPage ovf2 j = getPage ovf j := by
          intro j hj
          obtain ⟨h1, h2, h3, h4⟩ := htodo j hj
          rw [hfo2 j (by rw [hlenR]; exact h1) h2 h3 h4, hgetR j h3]
        have hchx : ch2 r.sp = (done ++ [o]) ++ todo := by
          rw [hch2 r.sp (Ne.symm hne), hch]; simp
        obtain ⟨hb1, hb2⟩ :=
          ih k q0.ovflow (done ++ [o]) data2 ovf2 data1 ovf1 ch2 ok hs2 hchx
            (isChain_congr todo _ hsame hrest)
            (fun j hj pg hg t ht => hcls j (by simp [hj]) pg (by rw [← hsame j hj]; exact hg) t ht)
            h ch1 hs1
        rw [hlenR] at ha2
        constructor
        · intro j hj
          exact hb1 j (ha1 j hj)
        · intro j h1 h2
          by_cases hj : j < ovf2.length
          · exact hb1 j (ha2 j h1 hj)
          · exact hb2 j (by omega) h2
/-- Every overflow page that the redistribution of a split allocates is on the
chain of the new bucket. -/
theorem redistribute_alloc {fuel : Nat} {r : Reln} {ch : Nat → List Nat}
    {data1 ovf1 : List Page} {ok : Bool} (hinv : Inv hash_any B r ch)
    (h : redistribute hash_any B fuel r = some (data1, ovf1, ok)) :
    ∀ ch1, Store B data1 ovf1 ch1 (r.npages + 1) →
      ∀ j, r.ovflow.length ≤ j → j < ovf1.length → j ∈ ch1 r.npages := by
  intro ch1 hs1
  have hs := hinv.store
  have hpos : 0 < 2 ^ r.depth := Nat.pow_pos (by omega)
  have hne : r.npages ≠ r.sp := by have := hinv.npages_eq; omega
  obtain ⟨pg, s1, hg, hred, hs0, _, _, _, hcls⟩ := redistribute_setup hash_any B fuel hinv
  have hbt : bucketTuples r.data r.ovflow (ch r.sp) r.sp =
      pageTuples pg ++ chainTuples r.ovflow (ch r.sp) := bucketTuples_eq _ _ _ _ pg hg
  rw [hred] at h
  exact (loop2_alloc hash_any B fuel r r.npages hne (by have := hinv.npages_eq; omega)
      (ch r.sp) fuel pg.ovflow []
      s1.data r.ovflow data1 ovf1 (Function.update ch r.npages []) ok hs0
      (by rw [Function.update_noteq (Ne.symm hne)]; rfl)
      (hs.chain _ pg hg)
      (fun j hj pgj hgj t ht => hcls t (by
        rw [hbt]
        exact List.mem_append_right _ (mem_chainTuples.mpr ⟨j, hj, pgj, hgj, ht⟩)))
      h ch1 hs1).2

set_option maxRecDepth 100000 in
/-- The relation `chainedReln` is the state left by the insertion of
`chainedTuples` into a new relation of 17 attributes and two pages. -/
theorem insertAll_chainedReln :
    insertAll sampleHash 40 8 (newRelation 17 (2 ^ 1) 1 cvAttr1) chainedTuples
      = some chainedReln := by
  decide

set_option maxRecDepth 100000 in
theorem reachable_chainedReln : Reachable sampleHash 40 chainedReln :=
  reachable_insertAll sampleHash 40 _ (Reachable.fresh 17 1 cvAttr1)
    (by
      show ∀ t ∈ chainedTuples, t ≠ [] ∧ NUL ∉ t
      decide)
    insertAll_chainedReln

/-- C25: in a call of `addToRelation` that splits, on a store that satisfies
the invariants, the split leaves the files `data1`, `ovf1` (on which the
insertion of the new tuple then runs) such that, with `oldp = sp`, `newp = sp +
2^depth`, `pg` the primary page of `oldp` before the split and `ch sp` its chain
of overflow pages: the primary page of `oldp` after the split has the
overflow link of `pg`, and holds only tuples of the old bucket that stay; the
chain of `oldp` after the split is the same sequence `ch sp` of pages, all of
them pages of the overflow file before the split; the tuples found on the
primary page of `oldp` and on these pages are, up to order, the tuples of the
old bucket that stay; the chain `cn` of `newp` consists of exactly the pages
that the split has appended to the overflow file (so every allocated page is
linked to `newp`, none to `oldp`, and `newp` started without a link), and
`newp` holds the tuples that move. -/
theorem split_reuses_old_chain {fuel : Nat} {r r1 : Reln} {t : Tuple} {res : Option Nat}
    {ch : Nat → List Nat} (hinv : Inv hash_any B r ch) (hsplit : splitDue r = true)
    (h : addToRelation hash_any B fuel r t = some (r1, res)) :
    ∃ data1 ovf1 pg pg1 pgn cn,
      redistribute hash_any B fuel r = some (data1, ovf1, true) ∧
      insertTuple hash_any B fuel (advance r data1 ovf1) t = some (r1, res) ∧
      getPage r.data r.sp = some pg ∧ IsChain r.ovflow pg.ovflow (ch r.sp) ∧
      getPage data1 r.sp = some pg1 ∧ pg1.ovflow = pg.ovflow ∧
      (∀ u ∈ pageTuples pg1, staysOld hash_any r u = true ∧
        u ∈ bucketTuples r.data r.ovflow (ch r.sp) r.sp) ∧
      IsChain ovf1 pg1.ovflow (ch r.sp) ∧
      (∀ j ∈ ch r.sp, j < r.ovflow.length) ∧
      (bucketTuples data1 ovf1 (ch r.sp) r.sp).Perm
        ((bucketTuples r.data r.ovflow (ch r.sp) r.sp).filter (staysOld hash_any r)) ∧
      getPage r.data (r.sp + 2 ^ r.depth) = none ∧
      getPage data1 (r.sp + 2 ^ r.depth) = some pgn ∧ IsChain ovf1 pgn.ovflow cn ∧
      (∀ j, j ∈ cn ↔ r.ovflow.length ≤ j ∧ j < ovf1.length) ∧
      (bucketTuples data1 ovf1 cn (r.sp + 2 ^ r.depth)).Perm
        ((bucketTuples r.data r.ovflow (ch r.sp) r.sp).filter
          (fun u => !staysOld hash_any r u)) := by
  have hs := hinv.store
  have hnp : r.sp + 2 ^ r.depth = r.npages := by rw [hinv.npages_eq]; omega
  have hsplt : r.sp < r.npages := by
    have : 0 < 2 ^ r.depth := Nat.pow_pos (by omega)
    omega
  have hne : r.sp ≠ r.npages := by omega
  obtain ⟨_, h1 | h1 | h1⟩ := addToRelation_cases hash_any B h
  · rw [h1.1] at hsplit
    cases hsplit
  · obtain ⟨_, d, o, hr, _, _⟩ := h1
    exact absurd (redistribute_spec hash_any B hinv hr).1 (by decide)
  · obtain ⟨_, data1, ovf1, hr, hi⟩ := h1
    obtain ⟨_, ch1, hs1, hch1, hpold, hpnew, _, _, _, hfresh⟩ :=
      redistribute_spec hash_any B hinv hr
    have halloc := redistribute_alloc hash_any B hinv hr ch1 hs1
    obtain ⟨pg, hg⟩ := getPage_isSome (f := r.data) (i := r.sp)
      (by rw [hs.data_len]; exact hsplt)
    obtain ⟨pg1, hg1⟩ := getPage_isSome (f := data1) (i := r.sp)
      (by rw [hs1.data_len]; omega)
    obtain ⟨pgn, hgn⟩ := getPage_isSome (f := data1) (i := r.npages)
      (by rw [hs1.data_len]; omega)
    have hc := hs.chain r.sp pg hg
    have hc1 := hs1.chain r.sp pg1 hg1
    rw [hch1 r.sp hne] at hc1
    have hlink : pg1.ovflow = pg.ovflow := by
      cases hcs : ch r.sp with
      | nil =>
        rw [hcs, isChain_nil_iff] at hc hc1
        rw [hc, hc1]
      | cons i rest =>
        rw [hcs, isChain_cons_iff] at hc hc1
        rw [hc.1, hc1.1]
    refine ⟨data1, ovf1, pg, pg1, pgn, ch1 r.npages, hr, hi, hg, hc, hg1, hlink, ?_, hc1,
      fun j hj => isChain_lt hc j hj, hpold, ?_, by rw [hnp]; exact hgn,
      hs1.chain r.npages pgn hgn, ?_, by rw [hnp]; exact hpnew⟩
    · intro u hu
      have hmem : u ∈ bucketTuples data1 ovf1 (ch r.sp) r.sp := by
        rw [bucketTuples_eq _ _ _ _ pg1 hg1]
        exact List.mem_append_left _ hu
      have := hpold.mem_iff.mp hmem
      rw [List.mem_filter] at this
      exact ⟨this.2, this.1⟩
    · unfold getPage
      exact List.getElem?_eq_none (by rw [hnp, hs.data_len])
    · intro j
      constructor
      · intro hj
        exact ⟨hfresh j hj, store_chain_lt B hs1 (Nat.lt_succ_self _) j hj⟩
      · intro hj
        exact halloc j hj.1 hj.2

set_option maxRecDepth 100000 in
theorem split_reuses_old_chain_witness :
    ∃ r1 res ch data1 ovf1 pg pg1 pgn cn,
      Inv sampleHash 40 chainedReln ch ∧ splitDue chainedReln = true ∧
      addToRelation sampleHash 40 8 chainedReln
        (wideTuple (Char.ofNat 102) (Char.ofNat 97) 15) = some (r1, res) ∧
      (redistribute sampleHash 40 8 chainedReln = some (data1, ovf1, true) ∧
        insertTuple sampleHash 40 8 (advance chainedReln data1 ovf1)
          (wideTuple (Char.ofNat 102) (Char.ofNat 97) 15) = some (r1, res) ∧
        getPage chainedReln.data chainedReln.sp = some pg ∧
        IsChain chainedReln.ovflow pg.ovflow (ch chainedReln.sp) ∧
        getPage data1 chainedReln.sp = some pg1 ∧ pg1.ovflow = pg.ovflow ∧
        (∀ u ∈ pageTuples pg1, staysOld sampleHash chainedReln u = true ∧
          u ∈ bucketTuples chainedReln.data chainedReln.ovflow (ch chainedReln.sp)
            chainedReln.sp) ∧
        IsChain ovf1 pg1.ovflow (ch chainedReln.sp) ∧
        (∀ j ∈ ch chainedReln.sp, j < chainedReln.ovflow.length) ∧
        (bucketTuples data1 ovf1 (ch chainedReln.sp) chainedReln.sp).Perm
          ((bucketTuples chainedReln.data chainedReln.ovflow (ch chainedReln.sp)
            chainedReln.sp).filter (staysOld sampleHash chainedReln)) ∧
        getPage chainedReln.data (chainedReln.sp + 2 ^ chainedReln.depth) = none ∧
        getPage data1 (chainedReln.sp + 2 ^ chainedReln.depth) = some pgn ∧
        IsChain ovf1 pgn.ovflow cn ∧
        (∀ j, j ∈ cn ↔ chainedReln.ovflow.length ≤ j ∧ j < ovf1.length) ∧
        (bucketTuples data1 ovf1 cn (chainedReln.sp + 2 ^ chainedReln.depth)).Perm
          ((bucketTuples chainedReln.data chainedReln.ovflow (ch chainedReln.sp)
            chainedReln.sp).filter (fun u => !staysOld sampleHash chainedReln u))) ∧
      ch chainedReln.sp = [0, 2] ∧ cn = [3] ∧
      bucketTuples chainedReln.data chainedReln.ovflow (ch chainedReln.sp) chainedReln.sp =
        [wideTuple (Char.ofNat 97) (Char.ofNat 97) 15,
         wideTuple (Char.ofNat 99) (Char.ofNat 99) 15,
         wideTuple (Char.ofNat 101) (Char.ofNat 99) 15] ∧
      data1 =
        [⟨wideTuple (Char.ofNat 97) (Char.ofNat 97) 15 ++ [NUL], some 0⟩,
         ⟨wideTuple (Char.ofNat 98) (Char.ofNat 98) 15 ++ [NUL], some 1⟩,
         ⟨wideTuple (Char.ofNat 99) (Char.ofNat 99) 15 ++ [NUL], some 3⟩] ∧
      ovf1 =
        [⟨[], some 2⟩, ⟨wideTuple (Char.ofNat 100) (Char.ofNat 98) 15 ++ [NUL], none⟩,
         ⟨[], none⟩, ⟨wideTuple (Char.ofNat 101) (Char.ofNat 99) 15 ++ [NUL], none⟩] ∧
      res = some 0 ∧
      getPage r1.ovflow 0 =
        some ⟨wideTuple (Char.ofNat 102) (Char.ofNat 97) 15 ++ [NUL], some 2⟩ := by
  obtain ⟨⟨r1, res⟩, h, hP⟩ := eval_some
    (addToRelation sampleHash 40 8 chainedReln (wideTuple (Char.ofNat 102) (Char.ofNat 97) 15))
    (fun x => decide (x.2 = some 0) &&
      decide (getPage x.1.ovflow 0 =
        some ⟨wideTuple (Char.ofNat 102) (Char.ofNat 97) 15 ++ [NUL], some 2⟩))
    (by decide)
  simp only [Bool.and_eq_true, decide_eq_true_eq] at hP
  obtain ⟨ch, hinv⟩ := inv_of_reachable sampleHash 40 reachable_chainedReln
  have hsplit : splitDue chainedReln = true := by decide
  have hthm := split_reuses_old_chain sampleHash 40 hinv hsplit h
  obtain ⟨data1, ovf1, pg, pg1, pgn, cn, hr, hi, hg, hc, hg1, hl, hst, hc1, hlt, hperm, hgn0,
    hgn, hcn, hfresh, hpermn⟩ := hthm
  have hred : redistribute sampleHash 40 8 chainedReln = some
      ([⟨wideTuple (Char.ofNat 97) (Char.ofNat 97) 15 ++ [NUL], some 0⟩,
        ⟨wideTuple (Char.ofNat 98) (Char.ofNat 98) 15 ++ [NUL], some 1⟩,
        ⟨wideTuple (Char.ofNat 99) (Char.ofNat 99) 15 ++ [NUL], some 3⟩],
       [⟨[], some 2⟩, ⟨wideTuple (Char.ofNat 100) (Char.ofNat 98) 15 ++ [NUL], none⟩,
        ⟨[], none⟩, ⟨wideTuple (Char.ofNat 101) (Char.ofNat 99) 15 ++ [NUL], none⟩], true) := by
    decide
  rw [hr] at hred
  simp only [Option.some.injEq, Prod.mk.injEq] at hred
  obtain ⟨hd1, ho1, _⟩ := hred
  have hpg : pg = ⟨wideTuple (Char.ofNat 97) (Char.ofNat 97) 15 ++ [NUL], some 0⟩ := by
    have : getPage chainedReln.data chainedReln.sp =
        some ⟨wideTuple (Char.ofNat 97) (Char.ofNat 97) 15 ++ [NUL], some 0⟩ := by decide
    rw [hg] at this
    exact Option.some.inj this
  have hch : ch chainedReln.sp = [0, 2] := by
    refine isChain_unique _ _ _ hc ?_
    rw [hpg]
    simp [IsChain, getPage, chainedReln]
  have hcn2 : cn = [3] := by
    refine isChain_unique _ _ _ hcn ?_
    have hpgn : pgn = ⟨wideTuple (Char.ofNat 99) (Char.ofNat 99) 15 ++ [NUL], some 3⟩ := by
      rw [hd1] at hgn
      have : getPage [(⟨wideTuple (Char.ofNat 97) (Char.ofNat 97) 15 ++ [NUL], some 0⟩ : Page),
          ⟨wideTuple (Char.ofNat 98) (Char.ofNat 98) 15 ++ [NUL], some 1⟩,
          ⟨wideTuple (Char.ofNat 99) (Char.ofNat 99) 15 ++ [NUL], some 3⟩]
          (chainedReln.sp + 2 ^ chainedReln.depth) =
          some ⟨wideTuple (Char.ofNat 99) (Char.ofNat 99) 15 ++ [NUL], some 3⟩ := by decide
      rw [hgn] at this
      exact Option.some.inj this
    rw [hpgn, ho1]
    simp [IsChain, getPage]
  have hbt : bucketTuples chainedReln.data chainedReln.ovflow (ch chainedReln.sp)
      chainedReln.sp =
        [wideTuple (Char.ofNat 97) (Char.ofNat 97) 15,
         wideTuple (Char.ofNat 99) (Char.ofNat 99) 15,
         wideTuple (Char.ofNat 101) (Char.ofNat 99) 15] := by
    rw [hch]
    decide
  exact ⟨r1, res, ch, data1, ovf1, pg, pg1, pgn, cn, hinv, hsplit, h,
    ⟨hr, hi, hg, hc, hg1, hl, hst, hc1, hlt, hperm, hgn0, hgn, hcn, hfresh, hpermn⟩,
    hch, hcn2, hbt, hd1, ho1, hP.1, hP.2⟩

/-! ## Completeness of the candidate list -/

set_option maxRecDepth 100000 in
/-- C22: at depth 2 with split pointer 3 (7 pages, `npages = 2^d + sp`, `sp <
2^d`), for the query `?,?`, every bucket is a candidate (bucket 6 is: the
combined hash 6 is addressed to it), but `startQuery` builds no list: after
the passes `j < depth` the block holds the four bases 0, 2, 1, 3, and the pass
`j == depth` writes `pages2[page_record + 1]` at the indexes 5, 6 and then 7,
which is outside the block of `npages = 7` entries. -/
theorem startQuery_leaves_array_with_candidates_unlisted :
    (sampleReln 2 3).npages = 2 ^ (sampleReln 2 3).depth + (sampleReln 2 3).sp ∧
    (sampleReln 2 3).sp < 2 ^ (sampleReln 2 3).depth ∧
    isCandidate sampleHash (sampleReln 2 3) (wideQuery QMARK 1) 6 ∧
    (forRange (baseStep (knownBits sampleHash (sampleReln 2 3) (wideQuery QMARK 1))
        (unknownBits (sampleReln 2 3) (wideQuery QMARK 1)) 2) 2 0
      ([0, 0, 0, 0, 0, 0, 0], 1)).map (fun s => s.1.take s.2) = some [0, 2, 1, 3] ∧
    startQuery sampleHash (sampleReln 2 3) (wideQuery QMARK 1) = none := by
  refine ⟨by decide, by decide, ⟨by decide, 6, ?_, by decide⟩, by decide, by decide⟩
  intro i hi hu
  have hall : ∀ k, k < MAXBITS →
      (unknownBits (sampleReln 2 3) (wideQuery QMARK 1)).getD k 0 = 1 := by decide
  rw [hall i hi] at hu
  cases hu

/-! ## The candidate list as a set -/

theorem bitIsSet_double_zero (x b : Nat) (hb : b ≤ 1) : bitIsSet (2 * x + b) 0 = b := by
  unfold bitIsSet
  rw [pow_zero, Nat.div_one]
  omega

theorem bitIsSet_double_succ (x b i : Nat) (hb : b ≤ 1) :
    bitIsSet (2 * x + b) (i + 1) = bitIsSet x i := by
  unfold bitIsSet
  rw [pow_succ, Nat.mul_comm (2 ^ i) 2, ← Nat.div_div_eq_div_mul]
  have : (2 * x + b) / 2 = x := by omega
  rw [this]

/-- Two numbers below `2^d` with the same low `d` bits are equal. -/
theorem eq_of_bitIsSet : ∀ (d x y : Nat), x < 2 ^ d → y < 2 ^ d →
    (∀ i, i < d → bitIsSet x i = bitIsSet y i) → x = y := by
  intro d
  induction d with
  | zero =>
    intro x y hx hy _
    simp only [pow_zero] at hx hy
    omega
  | succ d ih =>
    intro x y hx hy hb
    have hx2 : x = 2 * (x / 2) + x % 2 := by omega
    have hy2 : y = 2 * (y / 2) + y % 2 := by omega
    have h0 := hb 0 (by omega)
    rw [hx2, hy2, bitIsSet_double_zero _ _ (by omega), bitIsSet_double_zero _ _ (by omega)] at h0
    have hrec : x / 2 = y / 2 := by
      apply ih
      · rw [pow_succ] at hx; omega
      · rw [pow_succ] at hy; omega
      · intro i hi
        have := hb (i + 1) (by omega)
        rw [hx2, hy2, bitIsSet_double_succ _ _ _ (by omega),
          bitIsSet_double_succ _ _ _ (by omega)] at this
        exact this
    omega

theorem mem_stepList {kn un : Nat} {l : List Nat} (hkn : kn ≤ 1) (hex : un = 1 → kn ≠ 1)
    (y : Nat) :
    y ∈ stepList kn un l ↔
      ∃ x ∈ l, ∃ b, b ≤ 1 ∧ y = 2 * x + b ∧ (un ≠ 1 → b = kn) := by
  have e0 : l.map (· <<< 1) = l.map (fun x => 2 * x + 0) := by
    apply List.map_congr_left
    intro x _
    simp [shl_one]
  have e1 : (l.map (· <<< 1)).map (· ||| 1) = l.map (fun x => 2 * x + 1) := by
    rw [List.map_map]
    apply List.map_congr_left
    intro x _
    simp [shl_or_one]
  unfold stepList
  by_cases hu : un = 1
  · have hk0 : kn = 0 := by have := hex hu; omega
    rw [if_pos hu, if_neg (hex hu), e1, e0]
    simp only [List.mem_append, List.mem_map]
    constructor
    · rintro (⟨x, hx, rfl⟩ | ⟨x, hx, rfl⟩)
      · exact ⟨x, hx, 0, by omega, rfl, fun h => absurd hu h⟩
      · exact ⟨x, hx, 1, by omega, rfl, fun h => absurd hu h⟩
    · rintro ⟨x, hx, b, hb, rfl, _⟩
      rcases Nat.le_one_iff_eq_zero_or_eq_one.mp hb with rfl | rfl
      · exact Or.inl ⟨x, hx, rfl⟩
      · exact Or.inr ⟨x, hx, rfl⟩
  · rw [if_neg hu]
    rcases Nat.le_one_iff_eq_zero_or_eq_one.mp hkn with hk | hk
    · rw [if_neg (by omega), e0]
      simp only [List.mem_map]
      constructor
      · rintro ⟨x, hx, rfl⟩
        exact ⟨x, hx, 0, by omega, rfl, fun _ => hk.symm⟩
      · rintro ⟨x, hx, b, hb, rfl, hbk⟩
        exact ⟨x, hx, by rw [hbk hu, hk]⟩
    · rw [if_pos hk, e1]
      simp only [List.mem_map]
      constructor
      · rintro ⟨x, hx, rfl⟩
        exact ⟨x, hx, 1, by omega, rfl, fun _ => hk.symm⟩
      · rintro ⟨x, hx, b, hb, rfl, hbk⟩
        exact ⟨x, hx, by rw [hbk hu, hk]⟩

/-- The entries after `j` passes: the numbers of `j` bits whose bit `i` is the
known value of choice-vector bit `depth - j + i` wherever that bit is not
unknown. -/
theorem mem_baseList {known unknown : List Nat} {d : Nat}
    (hk : ∀ i, i < d → known.getD i 0 ≤ 1)
    (hex : ∀ i, i < d → unknown.getD i 0 = 1 → known.getD i 0 ≠ 1) :
    ∀ j, j ≤ d → ∀ y, y ∈ baseList known unknown d j ↔
      y < 2 ^ j ∧ ∀ i, i < j → unknown.getD (d - j + i) 0 ≠ 1 →
        bitIsSet y i = known.getD (d - j + i) 0 := by
  intro j
  induction j with
  | zero =>
    intro _ y
    simp only [baseList, List.mem_singleton, pow_zero, Nat.lt_one_iff]
    constructor
    · intro h; exact ⟨h, fun i hi => absurd hi (by omega)⟩
    · intro h; exact h.1
  | succ j ih =>
    intro hj y
    have e0 : d - (j + 1) + 0 = d - j - 1 := by omega
    have es : ∀ i, d - (j + 1) + (i + 1) = d - j + i := by intro i; omega
    rw [baseList, mem_stepList (hk _ (by omega)) (hex _ (by omega))]
    constructor
    · rintro ⟨x, hx, b, hb, rfl, hbk⟩
      obtain ⟨hxlt, hxb⟩ := (ih (by omega) x).mp hx
      refine ⟨by rw [pow_succ]; omega, ?_⟩
      intro i hi hu
      cases i with
      | zero =>
        rw [e0] at hu ⊢
        rw [bitIsSet_double_zero _ _ hb]
        exact hbk hu
      | succ i =>
        rw [es] at hu ⊢
        rw [bitIsSet_double_succ _ _ _ hb]
        exact hxb i (by omega) hu
    · rintro ⟨hy, hyb⟩
      have hy2 : y = 2 * (y / 2) + y % 2 := by omega
      refine ⟨y / 2, (ih (by omega) (y / 2)).mpr ⟨by rw [pow_succ] at hy; omega, ?_⟩,
        y % 2, by omega, hy2, ?_⟩
      · intro i hi hu
        have := hyb (i + 1) (by omega) (by rw [es]; exact hu)
        rw [es, hy2, bitIsSet_double_succ _ _ _ (by omega)] at this
        exact this
      · intro hu
        have := hyb 0 (by omega) (by rw [e0]; exact hu)
        rw [e0, hy2, bitIsSet_double_zero _ _ (by omega)] at this
        exact this
theorem stepList_length (kn un : Nat) (l : List Nat) :
    (stepList kn un l).length = if un = 1 then 2 * l.length else l.length := by
  unfold stepList
  by_cases hu : un = 1
  · rw [if_pos hu, if_pos hu]
    by_cases hk : kn = 1
    · simp only [if_pos hk, List.length_append, List.length_map]; omega
    · simp only [if_neg hk, List.length_append, List.length_map]; omega
  · rw [if_neg hu, if_neg hu]
    by_cases hk : kn = 1
    · simp only [if_pos hk, List.length_map]
    · simp only [if_neg hk, List.length_map]

/-- The number of entries after `j` passes: every pass over an unknown bit
doubles it. -/
theorem baseList_length_pow (known unknown : List Nat) (d : Nat) :
    ∀ j, (baseList known unknown d j).length =
      2 ^ ((List.range j).filter (fun i => decide (unknown.getD (d - i - 1) 0 = 1))).length := by
  intro j
  induction j with
  | zero => simp [baseList]
  | succ j ih =>
    rw [baseList, stepList_length, ih, List.range_succ, List.filter_append]
    by_cases hu : unknown.getD (d - j - 1) 0 = 1
    · rw [if_pos hu]
      simp only [List.filter_cons, List.filter_nil, hu, decide_True, if_true,
        List.length_append, List.length_singleton, pow_succ]
      omega
    · rw [if_neg hu]
      simp only [List.filter_cons, List.filter_nil, hu, decide_False, Bool.false_eq_true,
        if_false, List.append_nil]

/-- Counting over the passes is counting over the bits. -/
theorem filter_range_reflect (P : Nat → Bool) :
    ∀ d, ((List.range d).filter (fun i => P (d - i - 1))).length =
      ((List.range d).filter P).length := by
  intro d
  induction d with
  | zero => rfl
  | succ d ih =>
    conv_lhs => rw [List.range_succ_eq_map]
    conv_rhs => rw [List.range_succ]
    rw [List.filter_append, List.filter_cons, List.filter_map]
    have e : ((fun i => P (d + 1 - i - 1)) ∘ Nat.succ) = (fun i => P (d - i - 1)) := by
      funext i
      simp only [Function.comp]
      congr 1
      omega
    rw [e]
    by_cases hp : P d
    · simp only [Nat.sub_zero, Nat.add_sub_cancel, hp, if_true, List.length_cons,
        List.length_map, ih, List.filter_cons, List.filter_nil, List.length_append,
        List.length_singleton, List.length_nil]
    · simp only [Nat.sub_zero, Nat.add_sub_cancel, hp, Bool.false_eq_true, if_false,
        List.length_map, ih, List.filter_cons, List.filter_nil, List.length_append,
        List.length_nil, Nat.add_zero]

theorem knownBits_le_one (r : Reln) (q : Tuple) (i : Nat) :
    (knownBits hash_any r q).getD i 0 ≤ 1 := by
  unfold knownBits
  rw [List.getD_eq_getElem?_getD, List.getElem?_map]
  cases h : (List.range MAXBITS)[i]? with
  | none => simp
  | some k =>
    simp only [Option.map_some', Option.getD_some]
    split
    · omega
    · exact bitIsSet_le_one _ _

theorem unknownBits_le_one (r : Reln) (q : Tuple) (i : Nat) :
    (unknownBits r q).getD i 0 ≤ 1 := by
  unfold unknownBits
  rw [List.getD_eq_getElem?_getD, List.getElem?_map]
  cases h : (List.range MAXBITS)[i]? with
  | none => simp
  | some k =>
    simp only [Option.map_some', Option.getD_some]
    split <;> omega
theorem markNew_sp_zero (kn d x : Nat) : markNew kn d 0 x = x := by
  unfold markNew
  rw [if_neg (by omega)]

/-- C21: for a relation with `npages = 2^depth + sp` and `depth < MAXBITS` and
a query for which the split pointer is 0 or bit `depth` of the choice vector is
known, `startQuery` returns, with `page_num` the length of its candidate list;
the list has no duplicates and its members are exactly the buckets of the
candidate set of the specification (the buckets below `npages` to which
`bucket_of` sends some combined hash that agrees with the known bits).  When
the split pointer is 0 the list has `2^u` entries, `u` being the number of
unknown bits among the bits below `depth`, and its members are exactly the
addresses below `2^depth` whose bit `i` is the known value of bit `i` for every
known bit `i < depth`. -/
theorem startQuery_lists_exactly_the_candidates (r : Reln) (q : Tuple)
    (hn : r.npages = 2 ^ r.depth + r.sp) (hd : r.depth < MAXBITS)
    (h : r.sp = 0 ∨ (tupleVals q).getD (chvecItem r.cv r.depth).att [] ≠ [QMARK]) :
    ∃ qr, startQuery hash_any r q = some qr ∧
      (candidateList qr).length = qr.page_num ∧
      (candidateList qr).Nodup ∧
      (∀ p, p ∈ candidateList qr ↔ isCandidate hash_any r q p) ∧
      (r.sp = 0 →
        (candidateList qr).length =
          2 ^ ((List.range r.depth).filter
            (fun i => decide ((unknownBits r q).getD i 0 = 1))).length ∧
        ∀ p, p ∈ candidateList qr ↔
          p < 2 ^ r.depth ∧ ∀ i, i < r.depth → (unknownBits r q).getD i 0 = 0 →
            bitIsSet p i = (knownBits hash_any r q).getD i 0) := by
  have hun : r.sp = 0 ∨ (unknownBits r q).getD r.depth 0 ≠ 1 := by
    refine h.imp id (fun hne => ?_)
    rw [unknownBits_getD r q _ hd, if_neg hne]
    decide
  have hu01 : ∀ i, (unknownBits r q).getD i 0 ≠ 1 ↔ (unknownBits r q).getD i 0 = 0 := by
    intro i
    have := unknownBits_le_one r q i
    omega
  have hc := candidates_known hash_any r q hd (by omega) hun
  have hl := baseList_length (knownBits hash_any r q) (unknownBits r q) r.depth r.depth
  have hlp := baseList_length_pow (knownBits hash_any r q) (unknownBits r q) r.depth r.depth
  rw [filter_range_reflect (fun i => decide ((unknownBits r q).getD i 0 = 1))] at hlp
  have hp := @baseList_pairwise (knownBits hash_any r q) (unknownBits r q) r.depth
    (fun i hi hu => known_zero_of_unknown hash_any r q i (by omega) hu) r.depth (le_refl _)
  have hlt := baseList_lt (knownBits hash_any r q) (unknownBits r q) r.depth r.depth
  have hmem := @mem_baseList (knownBits hash_any r q) (unknownBits r q) r.depth
    (fun i _ => knownBits_le_one hash_any r q i)
    (fun i hi hu => known_zero_of_unknown hash_any r q i (by omega) hu) r.depth (le_refl _)
  simp only [Nat.sub_self, Nat.zero_add] at hmem
  generalize baseList (knownBits hash_any r q) (unknownBits r q) r.depth r.depth = l
    at hc hl hlp hp hlt hmem
  have hcl : candidateList ⟨r, 0, none, 0, q,
      l.map (markNew ((knownBits hash_any r q).getD r.depth 0) r.depth r.sp) ++
        List.replicate (r.npages - l.length) 0, l.length⟩ =
      l.map (markNew ((knownBits hash_any r q).getD r.depth 0) r.depth r.sp) := by
    unfold candidateList
    simp only []
    rw [List.take_left' (by simp)]
  refine ⟨⟨r, 0, none, 0, q, _, _⟩, by unfold startQuery; rw [hc], ?_, ?_, ?_, ?_⟩
  · rw [hcl, List.length_map]
  · rw [hcl, List.Nodup, List.pairwise_map]
    refine hp.imp_of_mem ?_
    intro x y hx hy hxy hcon
    have := congrArg (revBits r.depth) hcon
    rw [revBits_markNew (hlt x hx), revBits_markNew (hlt y hy)] at this
    omega
  · intro p
    rw [hcl, List.mem_map]
    constructor
    · rintro ⟨x, hx, rfl⟩
      obtain ⟨hxlt, hxb⟩ := (hmem x).mp hx
      obtain ⟨_, hbit⟩ := foldl_bits
        (fun i => if i < r.depth then bitIsSet x i else (knownBits hash_any r q).getD i 0)
        (fun i => by
          show (if i < r.depth then bitIsSet x i else (knownBits hash_any r q).getD i 0) ≤ 1
          split
          · exact bitIsSet_le_one _ _
          · exact knownBits_le_one hash_any r q i) MAXBITS
      generalize (List.range MAXBITS).foldl (fun acc i => acc + 2 ^ i *
        (if i < r.depth then bitIsSet x i else (knownBits hash_any r q).getD i 0)) 0 = c
        at hbit
      have hlow : getLower c r.depth = x := by
        apply eq_of_bitIsSet r.depth (getLower c r.depth) x
          (by unfold getLower; exact Nat.mod_lt _ (Nat.pow_pos (by decide))) hxlt
        intro i hi
        rw [bitIsSet_getLower c hi, hbit i (by omega)]
        simp only [if_pos hi]
      have hbd : bitIsSet c r.depth = (knownBits hash_any r q).getD r.depth 0 := by
        rw [hbit r.depth hd]
        simp only [if_neg (Nat.lt_irrefl _)]
      have hb : bucket_of c r.depth r.sp =
          markNew ((knownBits hash_any r q).getD r.depth 0) r.depth r.sp x := by
        rw [← markNew_eq_bucket_of, hlow, hbd]
      refine ⟨by rw [← hb, hn]; exact bucket_of_lt _ _ _, c, ?_, hb⟩
      intro i hi hu
      rw [hbit i hi]
      by_cases hid : i < r.depth
      · simp only [if_pos hid]
        exact hxb i hid ((hu01 i).mpr hu)
      · simp only [if_neg hid]
    · rintro ⟨_, c, hag, hb⟩
      have hx : getLower c r.depth ∈ l := by
        refine (hmem (getLower c r.depth)).mpr
          ⟨by unfold getLower; exact Nat.mod_lt _ (Nat.pow_pos (by decide)), ?_⟩
        intro i hi hu
        rw [bitIsSet_getLower c hi]
        exact hag i (by omega) ((hu01 i).mp hu)
      refine ⟨getLower c r.depth, hx, ?_⟩
      rw [← hb]
      rcases hun with h0 | h1
      · rw [h0, markNew_sp_zero]
        unfold bucket_of
        rw [if_neg (by omega)]
      · rw [← hag r.depth hd ((hu01 _).mp h1)]
        exact markNew_eq_bucket_of c r.depth r.sp
  · intro h0
    rw [hcl, List.length_map]
    refine ⟨hlp, ?_⟩
    intro p
    rw [h0]
    have hid : l.map (markNew ((knownBits hash_any r q).getD r.depth 0) r.depth 0) = l := by
      conv_rhs => rw [← List.map_id l]
      apply List.map_congr_left
      intro x _
      exact markNew_sp_zero _ _ _
    rw [hid, hmem p]
    constructor
    · rintro ⟨h1, h2⟩
      exact ⟨h1, fun i hi hu => h2 i hi ((hu01 i).mpr hu)⟩
    · rintro ⟨h1, h2⟩
      exact ⟨h1, fun i hi hu => h2 i hi ((hu01 i).mp hu)⟩

set_option maxRecDepth 100000 in
theorem startQuery_lists_exactly_the_candidates_witness :
    ∃ qr, startQuery sampleHash (sampleReln 2 0) (wideQuery (Char.ofNat 97) 1) = some qr ∧
      candidateList qr = [0, 2] ∧
      (knownBits sampleHash (sampleReln 2 0) (wideQuery (Char.ofNat 97) 1)).take 2 = [0, 0] ∧
      (unknownBits (sampleReln 2 0) (wideQuery (Char.ofNat 97) 1)).take 2 = [0, 1] ∧
      (candidateList qr).length = qr.page_num ∧
      (candidateList qr).Nodup ∧
      (∀ p, p ∈ candidateList qr ↔
        isCandidate sampleHash (sampleReln 2 0) (wideQuery (Char.ofNat 97) 1) p) ∧
      ((sampleReln 2 0).sp = 0 →
        (candidateList qr).length =
          2 ^ ((List.range (sampleReln 2 0).depth).filter
            (fun i => decide ((unknownBits (sampleReln 2 0)
              (wideQuery (Char.ofNat 97) 1)).getD i 0 = 1))).length ∧
        ∀ p, p ∈ candidateList qr ↔
          p < 2 ^ (sampleReln 2 0).depth ∧ ∀ i, i < (sampleReln 2 0).depth →
            (unknownBits (sampleReln 2 0) (wideQuery (Char.ofNat 97) 1)).getD i 0 = 0 →
            bitIsSet p i =
              (knownBits sampleHash (sampleReln 2 0) (wideQuery (Char.ofNat 97) 1)).getD i 0) := by
  obtain ⟨qr, hq, hrest⟩ := startQuery_lists_exactly_the_candidates sampleHash
    (sampleReln 2 0) (wideQuery (Char.ofNat 97) 1) (by decide) (by decide)
    (Or.inl (by decide))
  have hev : (startQuery sampleHash (sampleReln 2 0) (wideQuery (Char.ofNat 97) 1)).map
      candidateList = some [0, 2] := by decide
  rw [hq] at hev
  simp only [Option.map_some', Option.some.injEq] at hev
  exact ⟨qr, hq, hev, by decide, by decide, hrest⟩

/-! ## The sequence of tuples returned by a scan -/

theorem cstrings_eq_allStrings : ∀ (k : Nat) (d : List Char),
    cstrings (d.length + k) d = allStrings d := by
  intro k d
  induction k with
  | zero => rfl
  | succ k ih => rw [← Nat.add_assoc, cstrings_fuel _ _ (by omega), ih]

theorem cstrings_of_le {n : Nat} {d : List Char} (h : d.length ≤ n) :
    cstrings n d = allStrings d := by
  obtain ⟨k, rfl⟩ : ∃ k, n = d.length + k := ⟨n - d.length, by omega⟩
  exact cstrings_eq_allStrings k d

theorem allStrings_nil_of_strlen {d : List Char} (h : strlen d = 0) : allStrings d = [] := by
  have := cstrings_of_le (Nat.le_succ d.length)
  rw [← this, cstrings, if_pos h]

theorem allStrings_cons_of_strlen {d : List Char} (h : strlen d ≠ 0) :
    allStrings d = cstr d :: allStrings (d.drop (strlen d + 1)) := by
  have := cstrings_of_le (Nat.le_succ d.length)
  rw [← this, cstrings, if_neg h, cstrings_of_le (by rw [List.length_drop]; omega)]

/-- The loop over the strings of a page, exactly: it returns the first
matching string from the start offset on, with the offset after it, and
`NULL` when no string from there on matches. -/
theorem scanData_exact (qs : Tuple) :
    ∀ (n : Nat) (d : List Char) (c : Nat), d.length < n →
      (scanData qs n d c = none ∧
        (allStrings d).filter (fun t => tupleMatch t qs) = []) ∨
      (∃ t k, scanData qs n d c = some (t, c + k) ∧
        (allStrings d).filter (fun t => tupleMatch t qs) =
          t :: (allStrings (d.drop k)).filter (fun t => tupleMatch t qs)) := by
  intro n
  induction n with
  | zero => intro d c h; omega
  | succ n ih =>
    intro d c h
    rw [scanData]
    by_cases h0 : strlen d = 0
    · rw [if_pos h0, allStrings_nil_of_strlen h0]
      exact Or.inl ⟨rfl, rfl⟩
    · rw [if_neg h0, allStrings_cons_of_strlen h0]
      have hne : d ≠ [] := by
        intro hcon
        rw [hcon] at h0
        exact h0 rfl
      have hpos : 0 < d.length := List.length_pos.mpr hne
      by_cases hm : tupleMatch (cstr d) qs = true
      · rw [if_pos hm]
        refine Or.inr ⟨cstr d, strlen d + 1, by rw [Nat.add_assoc], ?_⟩
        rw [List.filter_cons, if_pos hm]
      · rw [if_neg hm, List.filter_cons, if_neg hm]
        rcases ih (d.drop (strlen d + 1)) (c + strlen d + 1)
          (by rw [List.length_drop]; omega) with ⟨h1, h2⟩ | ⟨t, k, h1, h2⟩
        · exact Or.inl ⟨h1, h2⟩
        · refine Or.inr ⟨t, strlen d + 1 + k, ?_, ?_⟩
          · rw [h1]
            congr 2
            omega
          · rw [h2, List.drop_drop]
/-- The walk along an overflow chain, exactly: from the page `ov` at the
offset `curtup`, with `post` the pages after `ov` on the chain, it returns the
first matching string of the rest of page `ov` and of the pages `post`, and
leaves the cursor after it; when there is none it moves the cursor to the next
candidate. -/
theorem scanOvflow_exact (i : Nat) :
    ∀ (post : List Nat) (fuel : Nat) (q : QueryRep) (ov : Nat) (op : Page),
      getPage q.rel.ovflow ov = some op → IsChain q.rel.ovflow op.ovflow post →
      post.length < fuel →
      ((allStrings (op.data.drop q.curtup) ++ chainTuples q.rel.ovflow post).filter
          (fun t => tupleMatch t q.querystring) = [] ∧
        scanOvflow i fuel q ov =
          some ({ q with curtup := 0, is_ovflow := none, curpage := i + 1 }, none)) ∨
      (∃ t rest q1,
        (allStrings (op.data.drop q.curtup) ++ chainTuples q.rel.ovflow post).filter
          (fun t => tupleMatch t q.querystring) = t :: rest ∧
        scanOvflow i fuel q ov = some (q1, some t) ∧
        q1.rel = q.rel ∧ q1.querystring = q.querystring ∧ q1.pages = q.pages ∧
        q1.page_num = q.page_num ∧ q1.curpage = q.curpage ∧
        ∃ ov1 op1 post1, q1.is_ovflow = some ov1 ∧ getPage q.rel.ovflow ov1 = some op1 ∧
          IsChain q.rel.ovflow op1.ovflow post1 ∧ post1.length < fuel ∧
          rest = (allStrings (op1.data.drop q1.curtup) ++ chainTuples q.rel.ovflow post1).filter
            (fun t => tupleMatch t q.querystring)) := by
  intro post
  induction post with
  | nil =>
    intro fuel q ov op hg hc hf
    obtain ⟨f, rfl⟩ : ∃ f, fuel = f + 1 := ⟨fuel - 1, by omega⟩
    rw [isChain_nil_iff] at hc
    rw [scanOvflow, hg]
    simp only [pageData, pageOvflow, chainTuples_nil, List.append_nil]
    rcases scanData_exact q.querystring (op.data.length + 1) (op.data.drop q.curtup) q.curtup
      (by rw [List.length_drop]; omega) with ⟨h1, h2⟩ | ⟨t, k, h1, h2⟩
    · rw [h1, hc]
      exact Or.inl ⟨h2, rfl⟩
    · rw [h1]
      refine Or.inr ⟨t, _, _, h2, rfl, rfl, rfl, rfl, rfl, rfl, ov, op, [], rfl, hg, ?_, hf, ?_⟩
      · rw [isChain_nil_iff]; exact hc
      · simp only [chainTuples_nil, List.append_nil, List.drop_drop]
  | cons nxt post ih =>
    intro fuel q ov op hg hc hf
    obtain ⟨f, rfl⟩ : ∃ f, fuel = f + 1 := ⟨fuel - 1, by omega⟩
    simp only [List.length_cons] at hf
    have hc0 := hc
    rw [isChain_cons_iff] at hc
    obtain ⟨hlink, opn, hgn, hrest⟩ := hc
    rw [scanOvflow, hg]
    simp only [pageData, pageOvflow]
    rcases scanData_exact q.querystring (op.data.length + 1) (op.data.drop q.curtup) q.curtup
      (by rw [List.length_drop]; omega) with ⟨h1, h2⟩ | ⟨t, k, h1, h2⟩
    · rw [h1, hlink]
      simp only []
      have hct : chainTuples q.rel.ovflow (nxt :: post) =
          allStrings (opn.data.drop 0) ++ chainTuples q.rel.ovflow post := by
        rw [chainTuples_cons, hgn]
        rfl
      rw [List.filter_append, h2, List.nil_append, hct]
      rcases ih f { q with curtup := 0, is_ovflow := some nxt } nxt opn hgn hrest (by omega)
        with ⟨e1, e2⟩ | ⟨t, rest, q1, e1, e2, e3, e4, e5, e6, e7, ov1, op1, post1, e8, e9, e10,
          e11, e12⟩
      · exact Or.inl ⟨e1, e2⟩
      · exact Or.inr ⟨t, rest, q1, e1, e2, e3, e4, e5, e6, e7, ov1, op1, post1, e8, e9, e10,
          by omega, e12⟩
    · rw [h1]
      refine Or.inr ⟨t, _, _, ?_, rfl, rfl, rfl, rfl, rfl, rfl, ov, op, nxt :: post, rfl, hg,
        hc0, by simp only [List.length_cons]; omega, rfl⟩
      rw [List.filter_append, h2, List.cons_append, ← List.filter_append, List.drop_drop]
theorem pendingBucket_none {fuel : Nat} {q : QueryRep} {pid : Nat} {ts : List Tuple}
    (h : q.is_ovflow = none) :
    PendingBucket fuel q pid ts ↔ ∃ pg, getPage q.rel.data pid = some pg ∧
      ∃ cs, IsChain q.rel.ovflow pg.ovflow cs ∧ cs.length ≤ fuel ∧
        ts = (allStrings (pg.data.drop q.curtup) ++ chainTuples q.rel.ovflow cs).filter
          (fun t => tupleMatch t q.querystring) := by
  unfold PendingBucket
  rw [h]

theorem pendingBucket_some {fuel : Nat} {q : QueryRep} {pid ov : Nat} {ts : List Tuple}
    (h : q.is_ovflow = some ov) :
    PendingBucket fuel q pid ts ↔ ∃ pg, getPage q.rel.data pid = some pg ∧
      ∃ op post, getPage q.rel.ovflow ov = some op ∧ IsChain q.rel.ovflow op.ovflow post ∧
        post.length < fuel ∧
        ts = (allStrings (op.data.drop q.curtup) ++ chainTuples q.rel.ovflow post).filter
          (fun t => tupleMatch t q.querystring) := by
  unfold PendingBucket
  rw [h]

/-- A cursor at the start of candidate `j` has the whole of the candidates
from `j` on still to return. -/
theorem pending_fresh {fuel : Nat} {r : Reln} {qs : Tuple} {ch : Nat → List Nat}
    {cands : List Nat}
    (Hc : ∀ b ∈ cands, ∃ pg, getPage r.data b = some pg ∧
      IsChain r.ovflow pg.ovflow (ch b) ∧ (ch b).length ≤ fuel)
    {q : QueryRep} (h1 : q.rel = r) (h2 : q.querystring = qs) (h3 : q.page_num = cands.length)
    (h4 : q.pages.take q.page_num = cands) (h5 : q.curpage ≤ q.page_num)
    (h6 : q.is_ovflow = none) (h7 : q.curtup = 0) :
    Pending fuel r qs ch cands q (expectedScan r qs ch (cands.drop q.curpage)) := by
  refine ⟨h1, h2, h3, h4, h5, ?_, ?_⟩
  · intro e
    rw [e, h3, List.drop_length]
    rfl
  · intro hlt
    have hj : q.curpage < cands.length := by omega
    refine ⟨cands[q.curpage],
      (bucketTuples r.data r.ovflow (ch cands[q.curpage]) cands[q.curpage]).filter
        (fun t => tupleMatch t qs),
      by rw [List.get?_eq_getElem?, List.getElem?_eq_getElem hj], ?_, ?_⟩
    · obtain ⟨pg, hg, hc, hf⟩ := Hc _ (List.getElem_mem hj)
      rw [pendingBucket_none h6, h1, h2, h7]
      refine ⟨pg, hg, ch cands[q.curpage], hc, hf, ?_⟩
      rw [bucketTuples_eq _ _ _ _ pg hg]
      rfl
    · rw [List.drop_eq_getElem_cons hj]
      simp only [expectedScan, List.flatMap_cons]
/-- The loop of `getNextTuple` over the candidates from index `i` on, exactly:
it returns the first of the tuples that the scan has still to return and
leaves a scan that has the others to return; when there is none it returns
`NULL` and leaves the cursor at the end of the list. -/
theorem scanFrom_exact (fuel : Nat) (r : Reln) (qs : Tuple) (ch : Nat → List Nat)
    (cands : List Nat)
    (Hc : ∀ b ∈ cands, ∃ pg, getPage r.data b = some pg ∧
      IsChain r.ovflow pg.ovflow (ch b) ∧ (ch b).length ≤ fuel) :
    ∀ (n i : Nat) (q : QueryRep) (ts : List Tuple), q.curpage = i → i + n = q.page_num →
      Pending fuel r qs ch cands q ts →
      (ts = [] ∧ ∃ q1, scanFrom fuel n i q = some (q1, none) ∧
        Pending fuel r qs ch cands q1 []) ∨
      (∃ t rest q1, ts = t :: rest ∧ scanFrom fuel n i q = some (q1, some t) ∧
        Pending fuel r qs ch cands q1 rest) := by
  intro n
  induction n with
  | zero =>
    intro i q ts hi hn hp
    have hts := hp.2.2.2.2.2.1 (by omega)
    exact Or.inl ⟨hts, q, rfl, by rw [← hts]; exact hp⟩
  | succ n ih =>
    intro i q ts hi hn hp
    obtain ⟨h1, h2, h3, h4, h5, _, h7⟩ := hp
    have hlt : q.curpage < q.page_num := by omega
    obtain ⟨pid, ts1, hpid, hpb, hts⟩ := h7 hlt
    have hpid2 : q.pages.get? i = some pid := by
      rw [← hi]
      rw [← h4, List.get?_eq_getElem?, List.getElem?_take_of_lt hlt] at hpid
      rw [List.get?_eq_getElem?]
      exact hpid
    -- the scan that starts afresh at candidate `i + 1`
    have hnext : ∀ q2 : QueryRep, q2.rel = r → q2.querystring = qs →
        q2.page_num = q.page_num → q2.pages = q.pages → q2.curpage = i + 1 →
        q2.is_ovflow = none → q2.curtup = 0 → ts1 = [] →
        (ts = [] ∧ ∃ q1, scanFrom fuel n (i + 1) q2 = some (q1, none) ∧
          Pending fuel r qs ch cands q1 []) ∨
        (∃ t rest q1, ts = t :: rest ∧ scanFrom fuel n (i + 1) q2 = some (q1, some t) ∧
          Pending fuel r qs ch cands q1 rest) := by
      intro q2 e1 e2 e3 e4 e5 e6 e7 e8
      have hfresh := @pending_fresh fuel r qs ch cands Hc q2 e1 e2 (by rw [e3, h3])
        (by rw [e3, e4]; exact h4) (by rw [e3, e5]; omega) e6 e7
      rw [e5] at hfresh
      rw [hts, e8, List.nil_append, hi]
      exact ih (i + 1) q2 _ e5 (by rw [e3]; omega) hfresh
    -- the scan left after a tuple found in bucket `i`
    have hfound : ∀ (q1 : QueryRep) (rest1 : List Tuple), q1.rel = q.rel →
        q1.querystring = q.querystring → q1.pages = q.pages → q1.page_num = q.page_num →
        q1.curpage = q.curpage → PendingBucket fuel q1 pid rest1 →
        Pending fuel r qs ch cands q1
          (rest1 ++ expectedScan r qs ch (cands.drop (q.curpage + 1))) := by
      intro q1 rest1 e1 e2 e3 e4 e5 e6
      refine ⟨by rw [e1, h1], by rw [e2, h2], by rw [e4, h3], by rw [e4, e3]; exact h4,
        by rw [e4, e5]; exact h5, fun e => absurd e (by rw [e4, e5]; omega), ?_⟩
      intro _
      exact ⟨pid, rest1, by rw [e5]; exact hpid, e6, by rw [e5]⟩
    rw [scanFrom, hpid2]
    simp only []
    cases hov : q.is_ovflow with
    | some ov =>
      obtain ⟨pg, hg, op, post, hgo, hc, hf, hts1⟩ := (pendingBucket_some hov).mp hpb
      rw [hg]
      simp only []
      rcases scanOvflow_exact i post fuel q ov op hgo hc hf with ⟨e1, e2⟩ |
        ⟨t, rest1, q1, e1, e2, e3, e4, e5, e6, e7, ov1, op1, post1, e8, e9, e10, e11, e12⟩
      · rw [e2]
        simp only []
        exact hnext _ h1 h2 rfl rfl rfl rfl rfl (by rw [hts1]; exact e1)
      · rw [e2]
        simp only []
        refine Or.inr ⟨t, rest1 ++ expectedScan r qs ch (cands.drop (q.curpage + 1)), q1,
          by rw [hts, hts1, e1]; rfl, rfl, hfound q1 rest1 e3 e4 e5 e6 e7 ?_⟩
        rw [pendingBucket_some e8, e3, e4]
        exact ⟨pg, hg, op1, post1, e9, e10, e11, e12⟩
    | none =>
      obtain ⟨pg, hg, cs, hc, hf, hts1⟩ := (pendingBucket_none hov).mp hpb
      rw [hg]
      simp only [pageData, pageOvflow]
      rcases scanData_exact q.querystring (pg.data.length + 1) (pg.data.drop q.curtup) q.curtup
        (by rw [List.length_drop]; omega) with ⟨e1, e2⟩ | ⟨t, k, e1, e2⟩
      · rw [e1]
        simp only []
        cases hlink : pg.ovflow with
        | none =>
          simp only []
          rw [hlink] at hc
          have hcs : cs = [] := by
            cases cs with
            | nil => rfl
            | cons a l => simp [IsChain] at hc
          refine hnext _ h1 h2 rfl rfl rfl rfl rfl ?_
          rw [hts1, hcs, chainTuples_nil, List.append_nil]
          exact e2
        | some ov =>
          simp only []
          rw [hlink] at hc
          cases cs with
          | nil => simp [IsChain] at hc
          | cons a post =>
            rw [isChain_cons_iff] at hc
            obtain ⟨ha, op, hgo, hrest⟩ := hc
            simp only [Option.some.injEq] at ha
            subst ha
            simp only [List.length_cons] at hf
            have hct : chainTuples q.rel.ovflow (ov :: post) =
                allStrings (op.data.drop 0) ++ chainTuples q.rel.ovflow post := by
              rw [chainTuples_cons, hgo]
              rfl
            rw [List.filter_append, e2, List.nil_append, hct] at hts1
            rcases scanOvflow_exact i post fuel { q with curtup := 0, is_ovflow := some ov }
                ov op hgo hrest (by omega) with ⟨f1, f2⟩ |
              ⟨t, rest1, q1, f1, f2, f3, f4, f5, f6, f7, ov1, op1, post1, f8, f9, f10, f11,
                f12⟩
            · rw [f2]
              simp only []
              exact hnext _ h1 h2 rfl rfl rfl rfl rfl (by rw [hts1]; exact f1)
            · rw [f2]
              simp only []
              refine Or.inr ⟨t, rest1 ++ expectedScan r qs ch (cands.drop (q.curpage + 1)), q1,
                by rw [hts, hts1]; exact congrArg (· ++ _) f1, rfl,
                hfound q1 rest1 f3 f4 f5 f6 f7 ?_⟩
              rw [pendingBucket_some f8, f3, f4]
              exact ⟨pg, hg, op1, post1, f9, f10, f11, f12⟩
      · rw [e1]
        simp only []
        refine Or.inr ⟨t, _, _, ?_, rfl,
          hfound _ ((allStrings (pg.data.drop (q.curtup + k)) ++
              chainTuples q.rel.ovflow cs).filter (fun t => tupleMatch t q.querystring))
            rfl rfl rfl rfl hi.symm ?_⟩
        · rw [hts, hts1, List.filter_append, e2, List.drop_drop, List.filter_append]
          rfl
        · rw [pendingBucket_none rfl]
          exact ⟨pg, hg, cs, hc, hf, rfl⟩
theorem take_append_replicate_succ {α : Type} (l : List α) (x : α) (k : Nat) :
    (l ++ List.replicate (k + 1) x).take k = (l ++ List.replicate k x).take k := by
  rw [List.take_append_eq_append_take, List.take_append_eq_append_take, List.take_replicate,
    List.take_replicate]
  congr 2
  omega

/-- The results of `k` successive calls, exactly: the tuples that the scan has
still to return, in order, and then `NULL` at every call. -/
theorem nextTuples_exact (fuel : Nat) (r : Reln) (qs : Tuple) (ch : Nat → List Nat)
    (cands : List Nat)
    (Hc : ∀ b ∈ cands, ∃ pg, getPage r.data b = some pg ∧
      IsChain r.ovflow pg.ovflow (ch b) ∧ (ch b).length ≤ fuel) :
    ∀ (k : Nat) (q : QueryRep) (ts : List Tuple), Pending fuel r qs ch cands q ts →
      nextTuples fuel k q = some ((ts.map some ++ List.replicate k none).take k) := by
  intro k
  induction k with
  | zero => intro q ts _; rfl
  | succ k ih =>
    intro q ts hp
    have hle : q.curpage + (q.page_num - q.curpage) = q.page_num := by
      have := hp.2.2.2.2.1
      omega
    rw [nextTuples, getNextTuple]
    rcases scanFrom_exact fuel r qs ch cands Hc _ _ q ts rfl hle hp with
      ⟨e1, q1, e2, e3⟩ | ⟨t, rest, q1, e1, e2, e3⟩
    · rw [e2]
      simp only []
      rw [ih q1 [] e3, e1]
      simp only [List.map_nil, List.nil_append, List.take_replicate, Nat.min_self]
      rfl
    · rw [e2]
      simp only []
      rw [ih q1 rest e3, e1]
      simp only [List.map_cons, List.cons_append, List.take_succ_cons,
        take_append_replicate_succ]

/-- C23: for a query on which `startQuery` returns a scan with `page_num`
within its block, when every bucket `b` of the candidate list has its primary
page in the data file and a chain `ch b` of overflow pages that ends at
`NO_PAGE`, of at most `fuel` pages: the results of any number `k` of
successive `getNextTuple` calls are, in this order, the tuples of
`expectedScan` (for each bucket of the candidate list in list order, the
strings of its primary page and then of each overflow page in chain order,
each page read up to the first empty string, restricted to the strings that
pass `tupleMatch`), and after the last of them `NULL` at every call. -/
theorem getNextTuple_returns_scan_sequence (fuel : Nat) (r : Reln) (qs : Tuple)
    (ch : Nat → List Nat) (q : QueryRep) (hq : startQuery hash_any r qs = some q)
    (hpn : q.page_num ≤ q.pages.length)
    (Hc : ∀ b ∈ candidateList q, ∃ pg, getPage r.data b = some pg ∧
      IsChain r.ovflow pg.ovflow (ch b) ∧ (ch b).length ≤ fuel) :
    ∀ k, nextTuples fuel k q =
      some (((expectedScan r qs ch (candidateList q)).map some ++
        List.replicate k none).take k) := by
  intro k
  have hfields : q.rel = r ∧ q.querystring = qs ∧ q.curpage = 0 ∧ q.is_ovflow = none ∧
      q.curtup = 0 := by
    unfold startQuery at hq
    cases hc : candidates hash_any r qs with
    | none => rw [hc] at hq; cases hq
    | some s =>
      rw [hc] at hq
      cases hq
      exact ⟨rfl, rfl, rfl, rfl, rfl⟩
  obtain ⟨h1, h2, h3, h4, h5⟩ := hfields
  have hp := @pending_fresh fuel r qs ch (candidateList q) Hc q h1 h2
    (by unfold candidateList; rw [List.length_take]; omega) rfl (by omega) h4 h5
  rw [h3, List.drop_zero] at hp
  exact nextTuples_exact fuel r qs ch (candidateList q) Hc k q _ hp

set_option maxRecDepth 100000 in
theorem getNextTuple_returns_scan_sequence_witness :
    ∃ q, startQuery sampleHash fullReln (wideQuery QMARK 1) = some q ∧
      candidateList q = [0, 1] ∧
      expectedScan fullReln (wideQuery QMARK 1) (fun b => if b = 1 then [0] else []) [0, 1]
        = [wideTuple (Char.ofNat 98) (Char.ofNat 98) 0,
           wideTuple (Char.ofNat 98) (Char.ofNat 98) 0] ∧
      (∀ k, nextTuples 2 k q =
        some (((expectedScan fullReln (wideQuery QMARK 1)
          (fun b => if b = 1 then [0] else []) (candidateList q)).map some ++
          List.replicate k none).take k)) ∧
      nextTuples 2 4 q = some [some (wideTuple (Char.ofNat 98) (Char.ofNat 98) 0),
        some (wideTuple (Char.ofNat 98) (Char.ofNat 98) 0), none, none] := by
  obtain ⟨q, hq, hP⟩ := eval_some (startQuery sampleHash fullReln (wideQuery QMARK 1))
    (fun x => decide (x.page_num ≤ x.pages.length) && decide (candidateList x = [0, 1]))
    (by decide)
  simp only [Bool.and_eq_true, decide_eq_true_eq] at hP
  obtain ⟨hpn, hcl⟩ := hP
  have hall := getNextTuple_returns_scan_sequence sampleHash 2 fullReln (wideQuery QMARK 1)
    (fun b => if b = 1 then [0] else []) q hq hpn (by
      intro b hb
      rw [hcl] at hb
      simp only [List.mem_cons, List.mem_singleton, List.not_mem_nil, or_false] at hb
      rcases hb with rfl | rfl
      · exact ⟨newPage, rfl, by simp [IsChain, newPage], by simp⟩
      · exact ⟨⟨wideTuple (Char.ofNat 98) (Char.ofNat 98) 0 ++ [NUL], some 0⟩, rfl,
          ⟨rfl, ⟨wideTuple (Char.ofNat 98) (Char.ofNat 98) 0 ++ [NUL], none⟩, rfl, trivial⟩,
          by simp⟩)
  have hexp : expectedScan fullReln (wideQuery QMARK 1) (fun b => if b = 1 then [0] else [])
      [0, 1] = [wideTuple (Char.ofNat 98) (Char.ofNat 98) 0,
        wideTuple (Char.ofNat 98) (Char.ofNat 98) 0] := by decide
  refine ⟨q, hq, hcl, hexp, hall, ?_⟩
  rw [hall 4, hcl, hexp]
  rfl

/-! ## The pass `j == depth` when bit `depth` is unknown -/

/-- One iteration of the pass `j == depth` on an entry that is not below the
split pointer: nothing is done. -/
theorem lastStep_skip {known unknown : List Nat} {depth sp : Nat} {f i pr x : Nat}
    {a : List Nat} (hi : i < pr) (hx : a.get? i = some x) (hsp : ¬ x < sp) :
    lastStep known unknown depth sp (f + 1) i a pr =
      lastStep known unknown depth sp f (i + 1) a pr := by
  rw [lastStep, if_pos hi, hx]
  simp only []
  rw [if_neg hsp]

/-- One iteration of the pass `j == depth` on an entry below the split pointer,
bit `depth` being unknown: `pages2[page_record + 1]` is written and
`page_record` grows by one. -/
theorem lastStep_spawn {known unknown : List Nat} {depth sp kn : Nat} {f i pr x : Nat}
    {a : List Nat} (hk : known.get? depth = some kn) (hu : unknown.get? depth = some 1)
    (hkn : kn ≠ 1) (hi : i < pr) (hx : a.get? i = some x) (hsp : x < sp) :
    lastStep known unknown depth sp (f + 1) i a pr =
      match arrSet a (pr + 1) (x ||| (1 <<< depth)) with
      | none => none
      | some a2 => lastStep known unknown depth sp f (i + 1) a2 (pr + 1) := by
  rw [lastStep, if_pos hi, hx]
  simp only []
  rw [if_pos hsp, hk, hu]
  simp only []
  rw [if_neg hkn]
  simp only [if_true, hx]

/-- The pass `j == depth` over entries that are not below the split pointer. -/
theorem lastStep_skip_all {known unknown : List Nat} {depth sp : Nat} (tail : List Nat)
    (pr : Nat) :
    ∀ (todo done : List Nat) (fuel : Nat), (∀ y ∈ todo, sp ≤ y) →
      done.length + todo.length ≤ pr →
      lastStep known unknown depth sp (fuel + todo.length) done.length
          (done ++ todo ++ tail) pr =
        lastStep known unknown depth sp fuel (done.length + todo.length)
          (done ++ todo ++ tail) pr := by
  intro todo
  induction todo with
  | nil => intro done fuel _ _; rfl
  | cons x todo ih =>
    intro done fuel hy hpr
    simp only [List.length_cons] at hpr
    have hget : (done ++ x :: todo ++ tail).get? done.length = some x := by
      rw [List.append_assoc]; exact get?_at_length done _ x
    rw [show fuel + (x :: todo).length = (fuel + todo.length) + 1 by
      simp only [List.length_cons]; omega]
    rw [lastStep_skip (by omega) hget (by have := hy x (by simp); omega)]
    have := ih (done ++ [x]) fuel (fun y h => hy y (by simp [h]))
      (by simp only [List.length_append, List.length_singleton]; omega)
    simp only [List.length_append, List.length_singleton, List.append_assoc,
      List.singleton_append] at this
    simp only [List.length_cons, List.append_assoc, List.cons_append]
    rw [show done.length + (todo.length + 1) = done.length + 1 + todo.length by omega]
    exact this
/-- The pass `j == depth` over the entries `todo`, bit `depth` being unknown:
behind the skipped slot `pages2[page_record]`, which stays 0, one new entry
`x + 2^depth` is written for every `x` below the split pointer, as long as the
block has room. -/
theorem lastStep_bases {known unknown : List Nat} {depth sp kn : Nat}
    (hk : known.get? depth = some kn) (hu : unknown.get? depth = some 1) (hkn : kn ≠ 1) :
    ∀ (todo done news zs : List Nat) (fuel : Nat), (∀ x ∈ todo, x < 2 ^ depth) →
      lastStep known unknown depth sp (fuel + todo.length) done.length
          (done ++ todo ++ 0 :: news ++ zs) (done.length + todo.length + news.length) =
        if (todo.filter (fun x => decide (x < sp))).length ≤ zs.length then
          lastStep known unknown depth sp fuel (done.length + todo.length)
            (done ++ todo ++
              0 :: (news ++ (todo.filter (fun x => decide (x < sp))).map (fun x => x + 2 ^ depth))
              ++ zs.drop (todo.filter (fun x => decide (x < sp))).length)
            (done.length + todo.length + news.length +
              (todo.filter (fun x => decide (x < sp))).length)
        else none := by
  intro todo
  induction todo with
  | nil =>
    intro done news zs fuel _
    simp
  | cons x todo ih =>
    intro done news zs fuel hlt
    have hxlt : x < 2 ^ depth := hlt x (by simp)
    have hlt2 : ∀ y ∈ todo, y < 2 ^ depth := fun y h => hlt y (by simp [h])
    have hget : (done ++ x :: todo ++ 0 :: news ++ zs).get? done.length = some x := by
      rw [List.append_assoc, List.append_assoc]; exact get?_at_length done _ x
    rw [show fuel + (x :: todo).length = (fuel + todo.length) + 1 by
      simp only [List.length_cons]; omega]
    by_cases hx : x < sp
    · rw [lastStep_spawn hk hu hkn (by simp only [List.length_cons]; omega) hget hx,
        or_two_pow hxlt]
      have hpos : (done ++ x :: todo ++ 0 :: news).length =
          done.length + (x :: todo).length + news.length + 1 := by
        simp only [List.length_append, List.length_cons]
        omega
      cases zs with
      | nil =>
        have hnone : arrSet (done ++ x :: todo ++ 0 :: news ++ [])
            (done.length + (x :: todo).length + news.length + 1) (x + 2 ^ depth) = none := by
          unfold arrSet
          rw [if_neg]
          rw [List.append_nil, hpos]
          omega
        rw [hnone]
        simp only [List.filter_cons, hx, decide_True, if_true, List.length_cons,
          List.length_nil]
        rw [if_neg (by omega)]
      | cons z zs =>
        have hset : arrSet (done ++ x :: todo ++ 0 :: news ++ z :: zs)
            (done.length + (x :: todo).length + news.length + 1) (x + 2 ^ depth) =
            some (done ++ x :: todo ++ 0 :: news ++ (x + 2 ^ depth) :: zs) := by
          rw [← hpos]
          exact arrSet_at_length _ _ _ _
        rw [hset]
        simp only []
        have := ih (done ++ [x]) (news ++ [x + 2 ^ depth]) zs fuel hlt2
        simp only [List.length_append, List.length_singleton, List.append_assoc,
          List.singleton_append, List.cons_append, List.nil_append] at this
        simp only [List.length_cons, List.append_assoc, List.cons_append, List.filter_cons, hx,
          decide_True, if_true, List.map_cons, List.drop_succ_cons, Nat.add_le_add_iff_right]
        rw [show done.length + (todo.length + 1) + news.length + 1 =
          done.length + 1 + todo.length + (news.length + 1) by omega]
        rw [this]
        split
        · congr 1 <;> omega
        · rfl
    · rw [lastStep_skip (by simp only [List.length_cons]; omega) hget hx]
      have := ih (done ++ [x]) news zs fuel hlt2
      simp only [List.length_append, List.length_singleton, List.append_assoc,
        List.singleton_append, List.cons_append, List.nil_append] at this
      simp only [List.length_cons, List.append_assoc, List.cons_append, List.filter_cons, hx,
        decide_False, Bool.false_eq_true, if_false]
      rw [show done.length + (todo.length + 1) + news.length =
        done.length + 1 + todo.length + news.length by omega]
      rw [this]
      split
      · congr 1
        omega
      · rfl
/-- The end of the pass `j == depth`, bit `depth` being unknown: when entries
`news` were written, the skipped slot, which holds 0, is read as an entry below
the split pointer and one more entry is written, at index `page_record + 1`;
the entries `news` are not below the split pointer. -/
theorem lastStep_tail {known unknown : List Nat} {depth sp kn : Nat}
    (hk : known.get? depth = some kn) (hu : unknown.get? depth = some 1) (hkn : kn ≠ 1)
    (bases news zs : List Nat) (fuel : Nat)
    (hnews : ∀ y ∈ news, sp ≤ y) (h0 : news ≠ [] → 0 < sp) :
    lastStep known unknown depth sp (fuel + news.length + 2) bases.length
        (bases ++ 0 :: news ++ zs) (bases.length + news.length) =
      if news = [] then some (bases ++ 0 :: news ++ zs, bases.length + news.length)
      else
        match zs with
        | [] => none
        | _ :: zs1 =>
          some (bases ++ 0 :: news ++ 2 ^ depth :: zs1, bases.length + news.length + 1) := by
  by_cases hn : news = []
  · subst hn
    rw [if_pos rfl, lastStep, if_neg (by simp)]
  · rw [if_neg hn]
    have hpos : 0 < news.length := List.length_pos.mpr hn
    have hget : (bases ++ 0 :: news ++ zs).get? bases.length = some 0 := by
      rw [List.append_assoc]; exact get?_at_length bases _ 0
    rw [show fuel + news.length + 2 = (fuel + 1 + news.length) + 1 by omega,
      lastStep_spawn hk hu hkn (by omega) hget (h0 hn),
      or_two_pow (Nat.pow_pos (by decide)), Nat.zero_add]
    have hlen : (bases ++ 0 :: news).length = bases.length + news.length + 1 := by
      simp only [List.length_append, List.length_cons]
      omega
    cases zs with
    | nil =>
      have hnone : arrSet (bases ++ 0 :: news ++ []) (bases.length + news.length + 1)
          (2 ^ depth) = none := by
        unfold arrSet
        rw [if_neg]
        rw [List.append_nil, hlen]
        omega
      rw [hnone]
    | cons z zs1 =>
      have hset : arrSet (bases ++ 0 :: news ++ z :: zs1) (bases.length + news.length + 1)
          (2 ^ depth) = some (bases ++ 0 :: news ++ 2 ^ depth :: zs1) := by
        rw [← hlen]
        exact arrSet_at_length _ _ _ _
      rw [hset]
      simp only []
      have hskip := @lastStep_skip_all known unknown depth sp (2 ^ depth :: zs1)
        (bases.length + news.length + 1) news (bases ++ [0]) (fuel + 1) hnews
        (by simp only [List.length_append, List.length_singleton]; omega)
      simp only [List.length_append, List.length_singleton, List.append_assoc,
        List.singleton_append, List.cons_append, List.nil_append] at hskip
      simp only [List.append_assoc, List.cons_append]
      rw [hskip, lastStep, if_neg (by omega)]

/-- The pass `j == depth` of `startQuery` when bit `depth` is unknown, on the
block that holds the entries `bases` and then zeros: with `w` the entries
`x + 2^depth` for the `x` of `bases` below the split pointer, the block is left
as `bases`, 0, `w`, `2^depth` with `page_record` counting `bases`, the 0 and
`w`, if there is room for all of them; otherwise the pass leaves the block. -/
theorem lastStep_unknown {known unknown : List Nat} {depth sp kn : Nat}
    (hk : known.get? depth = some kn) (hu : unknown.get? depth = some 1) (hkn : kn ≠ 1)
    (hsp : sp ≤ 2 ^ depth) (bases zs : List Nat) (hb : ∀ x ∈ bases, x < 2 ^ depth) :
    lastStep known unknown depth sp (bases.length + zs.length + 2) 0 (bases ++ 0 :: zs)
        bases.length =
      if (bases.filter (fun x => decide (x < sp))) = [] then
        some (bases ++ 0 :: zs, bases.length)
      else
        match zs.drop (bases.filter (fun x => decide (x < sp))).length with
        | [] => none
        | _ :: zs1 =>
          some (bases ++ 0 :: (bases.filter (fun x => decide (x < sp))).map
              (fun x => x + 2 ^ depth) ++ 2 ^ depth :: zs1,
            bases.length + (bases.filter (fun x => decide (x < sp))).length + 1) := by
  have h1 := @lastStep_bases known unknown depth sp kn hk hu hkn bases [] [] zs
    (zs.length + 2) hb
  simp only [List.nil_append, List.length_nil, Nat.zero_add, Nat.add_zero, List.append_assoc,
    List.cons_append, List.singleton_append] at h1
  simp only [List.append_assoc, List.cons_append]
  rw [show bases.length + zs.length + 2 = zs.length + 2 + bases.length by omega, h1]
  generalize hw : bases.filter (fun x => decide (x < sp)) = w
  have hwmem : ∀ x ∈ w, x ∈ bases ∧ x < sp := by
    intro x hx
    rw [← hw, List.mem_filter] at hx
    exact ⟨hx.1, of_decide_eq_true hx.2⟩
  by_cases hle : w.length ≤ zs.length
  · rw [if_pos hle]
    have h2 := lastStep_tail hk hu hkn bases (w.map (fun x => x + 2 ^ depth))
      (zs.drop w.length) (zs.length - w.length)
      (by
        intro y hy
        obtain ⟨x, _, rfl⟩ := List.mem_map.mp hy
        show sp ≤ x + 2 ^ depth
        omega)
      (by
        intro hne
        cases w with
        | nil => exact absurd rfl hne
        | cons x _ => have := (hwmem x (by simp)).2; omega)
    simp only [List.length_map, List.append_assoc, List.cons_append] at h2
    rw [show zs.length + 2 = zs.length - w.length + w.length + 2 by omega, h2]
    by_cases hnil : w = []
    · subst hnil
      simp
    · rw [if_neg hnil, if_neg (by simpa using hnil)]
  · rw [if_neg hle, if_neg (by intro hcon; rw [hcon] at hle; simp at hle)]
    rw [List.drop_eq_nil_of_le (by omega)]
/-- The candidate block of `startQuery` when bit `depth` is unknown and the
split pointer is not 0: the bases, the skipped slot (0), one entry `x + 2^depth`
for every base `x` below the split pointer, and one more entry written at index
`page_num`; `startQuery` leaves the block when there is no room for them. -/
theorem candidates_unknown (r : Reln) (q : Tuple) (hd : r.depth < MAXBITS)
    (hn : r.npages = 2 ^ r.depth + r.sp) (hsp0 : 0 < r.sp) (hsp : r.sp ≤ 2 ^ r.depth)
    (hu : (unknownBits r q).getD r.depth 0 = 1) :
    candidates hash_any r q =
      if (baseList (knownBits hash_any r q) (unknownBits r q) r.depth r.depth).filter
          (fun x => decide (x < r.sp)) = [] then
        some (baseList (knownBits hash_any r q) (unknownBits r q) r.depth r.depth ++
            0 :: List.replicate (r.npages -
              (baseList (knownBits hash_any r q) (unknownBits r q) r.depth r.depth).length - 1) 0,
          (baseList (knownBits hash_any r q) (unknownBits r q) r.depth r.depth).length)
      else
        match (List.replicate (r.npages -
            (baseList (knownBits hash_any r q) (unknownBits r q) r.depth r.depth).length - 1)
            0).drop ((baseList (knownBits hash_any r q) (unknownBits r q) r.depth
              r.depth).filter (fun x => decide (x < r.sp))).length with
        | [] => none
        | _ :: zs1 =>
          some (baseList (knownBits hash_any r q) (unknownBits r q) r.depth r.depth ++
              0 :: ((baseList (knownBits hash_any r q) (unknownBits r q) r.depth
                r.depth).filter (fun x => decide (x < r.sp))).map (fun x => x + 2 ^ r.depth) ++
              2 ^ r.depth :: zs1,
            (baseList (knownBits hash_any r q) (unknownBits r q) r.depth r.depth).length +
              ((baseList (knownBits hash_any r q) (unknownBits r q) r.depth r.depth).filter
                (fun x => decide (x < r.sp))).length + 1) := by
  have hN1 : 1 ≤ r.npages := by omega
  have hl := baseList_length (knownBits hash_any r q) (unknownBits r q) r.depth r.depth
  have hlt := baseList_lt (knownBits hash_any r q) (unknownBits r q) r.depth r.depth
  have h0 : arrSet (List.replicate r.npages 0) 0 0 = some (List.replicate r.npages 0) := by
    unfold arrSet
    rw [if_pos (by simpa using hN1)]
    congr 1
    obtain ⟨m, hm⟩ : ∃ m, r.npages = m + 1 := ⟨r.npages - 1, by omega⟩
    rw [hm]
    rfl
  unfold candidates
  rw [h0]
  simp only []
  rw [base_passes (knownBits_length hash_any r q) (unknownBits_length r q) (le_of_lt hd)
    (by omega) r.depth (le_refl _)]
  simp only []
  generalize baseList (knownBits hash_any r q) (unknownBits r q) r.depth r.depth = l
    at hl hlt ⊢
  have hrep : List.replicate (r.npages - l.length) 0 =
      0 :: List.replicate (r.npages - l.length - 1) 0 := by
    obtain ⟨m, hm⟩ : ∃ m, r.npages - l.length = m + 1 := ⟨r.npages - l.length - 1, by omega⟩
    rw [hm]
    rfl
  have hfuel : r.npages + 1 =
      l.length + (List.replicate (r.npages - l.length - 1) 0).length + 2 := by
    rw [List.length_replicate]
    omega
  rw [hrep, hfuel]
  exact lastStep_unknown
    (get?_eq_getD (by rw [knownBits_length]; exact hd))
    (by rw [get?_eq_getD (by rw [unknownBits_length]; exact hd), hu])
    (known_zero_of_unknown hash_any r q r.depth hd hu) hsp l _ hlt

/-- A candidate bucket is the address of a combined hash whose low `depth`
bits are one of the bases of `startQuery`. -/
theorem candidate_base (r : Reln) (q : Tuple) (hd : r.depth < MAXBITS) {p : Nat}
    (h : isCandidate hash_any r q p) :
    ∃ c, getLower c r.depth ∈
        baseList (knownBits hash_any r q) (unknownBits r q) r.depth r.depth ∧
      bucket_of c r.depth r.sp = p ∧
      ((unknownBits r q).getD r.depth 0 = 0 →
        bitIsSet c r.depth = (knownBits hash_any r q).getD r.depth 0) := by
  obtain ⟨_, c, hag, hb⟩ := h
  refine ⟨c, ?_, hb, fun hu => hag r.depth hd hu⟩
  have hmem := @mem_baseList (knownBits hash_any r q) (unknownBits r q) r.depth
    (fun i _ => knownBits_le_one hash_any r q i)
    (fun i hi hu => known_zero_of_unknown hash_any r q i (by omega) hu) r.depth (le_refl _)
  simp only [Nat.sub_self, Nat.zero_add] at hmem
  refine (hmem (getLower c r.depth)).mpr
    ⟨by unfold getLower; exact Nat.mod_lt _ (Nat.pow_pos (by decide)), ?_⟩
  intro i hi hu
  rw [bitIsSet_getLower c hi]
  have := unknownBits_le_one r q i
  exact hag i (by omega) (by omega)

/-- Whenever `startQuery` stays within its block, its candidate list holds
every bucket of the candidate set of the specification. -/
theorem candidates_complete (r : Reln) (q : Tuple) (hn : r.npages = 2 ^ r.depth + r.sp)
    (hsp : r.sp < 2 ^ r.depth) (hd : r.depth < MAXBITS) {a : List Nat} {n1 : Nat}
    (h : candidates hash_any r q = some (a, n1)) :
    ∀ p, isCandidate hash_any r q p → p ∈ a.take n1 := by
  intro p hp
  obtain ⟨c, hc, hb, hbit⟩ := candidate_base hash_any r q hd hp
  have hu01 := unknownBits_le_one r q r.depth
  have hclt : getLower c r.depth < 2 ^ r.depth := by
    unfold getLower; exact Nat.mod_lt _ (Nat.pow_pos (by decide))
  by_cases hcase : r.sp = 0 ∨ (unknownBits r q).getD r.depth 0 ≠ 1
  · rw [candidates_known hash_any r q hd (by omega) hcase] at h
    simp only [Option.some.injEq, Prod.mk.injEq] at h
    obtain ⟨rfl, rfl⟩ := h
    rw [List.take_left' (by simp), List.mem_map]
    refine ⟨getLower c r.depth, hc, ?_⟩
    rw [← hb]
    rcases hcase with h0 | h1
    · rw [h0, markNew_sp_zero]
      unfold bucket_of
      rw [if_neg (by omega)]
    · rw [← hbit (by omega)]
      exact markNew_eq_bucket_of c r.depth r.sp
  · push_neg at hcase
    obtain ⟨hsp0, hu⟩ := hcase
    rw [candidates_unknown hash_any r q hd hn (by omega) (by omega) hu] at h
    generalize baseList (knownBits hash_any r q) (unknownBits r q) r.depth r.depth = l
      at h hc
    have hsucc : getLower c (r.depth + 1) =
        getLower c r.depth + 2 ^ r.depth * bitIsSet c r.depth := by
      unfold getLower bitIsSet
      exact Nat.mod_pow_succ
    have hb01 := bitIsSet_le_one c r.depth
    -- the bucket is the base, or the base plus `2^depth` for a base below `sp`
    have hp2 : p = getLower c r.depth ∨
        (getLower c r.depth < r.sp ∧ p = getLower c r.depth + 2 ^ r.depth) := by
      rw [← hb]
      unfold bucket_of
      by_cases hx : getLower c r.depth < r.sp
      · rw [if_pos hx, hsucc]
        rcases Nat.le_one_iff_eq_zero_or_eq_one.mp hb01 with e | e
        · rw [e]; exact Or.inl (by omega)
        · rw [e]; exact Or.inr ⟨hx, by omega⟩
      · rw [if_neg hx]; exact Or.inl rfl
    by_cases hw : l.filter (fun x => decide (x < r.sp)) = []
    · rw [if_pos hw] at h
      simp only [Option.some.injEq, Prod.mk.injEq] at h
      obtain ⟨rfl, rfl⟩ := h
      rw [List.take_left' rfl]
      rcases hp2 with e | ⟨hx, _⟩
      · rw [e]; exact hc
      · have : getLower c r.depth ∈ l.filter (fun x => decide (x < r.sp)) :=
          List.mem_filter.mpr ⟨hc, decide_eq_true hx⟩
        rw [hw] at this
        cases this
    · rw [if_neg hw] at h
      split at h
      · cases h
      · rename_i z zs1 _
        simp only [Option.some.injEq, Prod.mk.injEq] at h
        obtain ⟨rfl, rfl⟩ := h
        have e : l ++ 0 :: (l.filter (fun x => decide (x < r.sp))).map
            (fun x => x + 2 ^ r.depth) ++ 2 ^ r.depth :: zs1 =
            (l ++ 0 :: (l.filter (fun x => decide (x < r.sp))).map
              (fun x => x + 2 ^ r.depth)) ++ 2 ^ r.depth :: zs1 := by
          simp only [List.append_assoc, List.cons_append]
        rw [e, List.take_left' (by
          simp only [List.length_append, List.length_cons, List.length_map]; omega)]
        rcases hp2 with e1 | ⟨hx, e1⟩
        · rw [e1]
          exact List.mem_append_left _ hc
        · rw [e1]
          refine List.mem_append_right _ (List.mem_cons_of_mem _ ?_)
          exact List.mem_map.mpr ⟨getLower c r.depth,
            List.mem_filter.mpr ⟨hc, decide_eq_true hx⟩, rfl⟩

/-! ## C33: the divisors of the split trigger -/

set_option maxRecDepth 100000 in
/-- C33, as stated, fails where the product of line 129 wraps: for 429496730
attributes the product `10 * nattrs` is 4 in the 32-bit `Count`, so the
capacity is 256, which is at least 1 although `nattrs ≥ 103`; neither the
division of line 129 nor the modulus of line 132 has a zero divisor, and the
call of `addToRelation` with the tuple `a,b` returns page 1. -/
theorem capacity_positive_beyond_range_counterexample :
    103 ≤ (newRelation 429496730 (2 ^ 1) 1 cvAttr1).nattrs ∧
    (10 * (newRelation 429496730 (2 ^ 1) 1 cvAttr1).nattrs) % 2 ^ COUNT_BITS = 4 ∧
    capacity (newRelation 429496730 (2 ^ 1) 1 cvAttr1) = 256 ∧
    ¬ (1 ≤ capacity (newRelation 429496730 (2 ^ 1) 1 cvAttr1) ↔
      1 ≤ (newRelation 429496730 (2 ^ 1) 1 cvAttr1).nattrs ∧
        (newRelation 429496730 (2 ^ 1) 1 cvAttr1).nattrs ≤ 102) ∧
    (addToRelation sampleHash 1012 4 (newRelation 429496730 (2 ^ 1) 1 cvAttr1)
      (wideTuple (Char.ofNat 97) (Char.ofNat 98) 0)).map (fun x => x.2) = some (some 1) := by
  decide

/-- C33, amended: for a relation whose product `10 * nattrs` does not wrap in
the 32-bit `Count`, the capacity of line 129 is at least 1 exactly when
`1 ≤ nattrs ≤ 102`.  For such a relation neither the divisor of line 129 nor
the divisor `capacity` of the test `(ntups + 1) % capacity` of line 132 is
zero; for `nattrs = 0` the divisor of line 129 is zero, and for `nattrs ≥ 103`
the capacity, the divisor of line 132, is zero, so that every call of
`addToRelation` ends at one of the two divisions. -/
theorem capacity_positive_iff_nattrs_in_range (r : Reln)
    (hr : 10 * r.nattrs < 2 ^ COUNT_BITS) :
    (1 ≤ capacity r ↔ 1 ≤ r.nattrs ∧ r.nattrs ≤ 102) ∧
    (1 ≤ r.nattrs ∧ r.nattrs ≤ 102 →
      (10 * r.nattrs) % 2 ^ COUNT_BITS ≠ 0 ∧ capacity r ≠ 0) ∧
    (r.nattrs = 0 → (10 * r.nattrs) % 2 ^ COUNT_BITS = 0) ∧
    (103 ≤ r.nattrs → (10 * r.nattrs) % 2 ^ COUNT_BITS ≠ 0 ∧ capacity r = 0) ∧
    (r.nattrs = 0 ∨ 103 ≤ r.nattrs →
      ∀ (fuel : Nat) (t : Tuple), addToRelation hash_any B fuel r t = none) := by
  have hmod : (10 * r.nattrs) % 2 ^ COUNT_BITS = 10 * r.nattrs := Nat.mod_eq_of_lt hr
  have hiff : 1 ≤ capacity r ↔ 1 ≤ r.nattrs ∧ r.nattrs ≤ 102 := by
    rw [capacity_of_no_wrap r hr]
    constructor
    · intro h
      have hpos : 0 < 10 * r.nattrs := by
        by_contra hc
        have h0 : 10 * r.nattrs = 0 := by omega
        rw [h0] at h
        simp at h
      have := (Nat.le_div_iff_mul_le hpos).mp h
      omega
    · intro h
      exact (Nat.le_div_iff_mul_le (by omega)).mpr (by omega)
  have hzero : r.nattrs = 0 ∨ 103 ≤ r.nattrs → capacity r = 0 := by
    intro h
    by_contra hne
    have := hiff.mp (by omega)
    omega
  rw [hmod]
  refine ⟨hiff, ?_, ?_, ?_, ?_⟩
  · intro h
    have := hiff.mpr h
    omega
  · intro h
    omega
  · intro h
    exact ⟨by omega, hzero (Or.inr h)⟩
  · intro h fuel t
    unfold addToRelation
    rw [if_pos (Or.inr (hzero h))]

theorem capacity_positive_iff_nattrs_in_range_witness :
    (10 * (newRelation 52 (2 ^ 1) 1 cvAttr1).nattrs < 2 ^ COUNT_BITS ∧
      (1 ≤ capacity (newRelation 52 (2 ^ 1) 1 cvAttr1) ↔
        1 ≤ (newRelation 52 (2 ^ 1) 1 cvAttr1).nattrs ∧
          (newRelation 52 (2 ^ 1) 1 cvAttr1).nattrs ≤ 102) ∧
      (1 ≤ (newRelation 52 (2 ^ 1) 1 cvAttr1).nattrs ∧
          (newRelation 52 (2 ^ 1) 1 cvAttr1).nattrs ≤ 102 →
        (10 * (newRelation 52 (2 ^ 1) 1 cvAttr1).nattrs) % 2 ^ COUNT_BITS ≠ 0 ∧
          capacity (newRelation 52 (2 ^ 1) 1 cvAttr1) ≠ 0) ∧
      ((newRelation 52 (2 ^ 1) 1 cvAttr1).nattrs = 0 →
        (10 * (newRelation 52 (2 ^ 1) 1 cvAttr1).nattrs) % 2 ^ COUNT_BITS = 0) ∧
      (103 ≤ (newRelation 52 (2 ^ 1) 1 cvAttr1).nattrs →
        (10 * (newRelation 52 (2 ^ 1) 1 cvAttr1).nattrs) % 2 ^ COUNT_BITS ≠ 0 ∧
          capacity (newRelation 52 (2 ^ 1) 1 cvAttr1) = 0) ∧
      ((newRelation 52 (2 ^ 1) 1 cvAttr1).nattrs = 0 ∨
          103 ≤ (newRelation 52 (2 ^ 1) 1 cvAttr1).nattrs →
        ∀ (fuel : Nat) (t : Tuple),
          addToRelation sampleHash 1012 fuel (newRelation 52 (2 ^ 1) 1 cvAttr1) t = none)) ∧
    (10 * (newRelation 103 (2 ^ 1) 1 cvAttr1).nattrs < 2 ^ COUNT_BITS ∧
      (1 ≤ capacity (newRelation 103 (2 ^ 1) 1 cvAttr1) ↔
        1 ≤ (newRelation 103 (2 ^ 1) 1 cvAttr1).nattrs ∧
          (newRelation 103 (2 ^ 1) 1 cvAttr1).nattrs ≤ 102) ∧
      (1 ≤ (newRelation 103 (2 ^ 1) 1 cvAttr1).nattrs ∧
          (newRelation 103 (2 ^ 1) 1 cvAttr1).nattrs ≤ 102 →
        (10 * (newRelation 103 (2 ^ 1) 1 cvAttr1).nattrs) % 2 ^ COUNT_BITS ≠ 0 ∧
          capacity (newRelation 103 (2 ^ 1) 1 cvAttr1) ≠ 0) ∧
      ((newRelation 103 (2 ^ 1) 1 cvAttr1).nattrs = 0 →
        (10 * (newRelation 103 (2 ^ 1) 1 cvAttr1).nattrs) % 2 ^ COUNT_BITS = 0) ∧
      (103 ≤ (newRelation 103 (2 ^ 1) 1 cvAttr1).nattrs →
        (10 * (newRelation 103 (2 ^ 1) 1 cvAttr1).nattrs) % 2 ^ COUNT_BITS ≠ 0 ∧
          capacity (newRelation 103 (2 ^ 1) 1 cvAttr1) = 0) ∧
      ((newRelation 103 (2 ^ 1) 1 cvAttr1).nattrs = 0 ∨
          103 ≤ (newRelation 103 (2 ^ 1) 1 cvAttr1).nattrs →
        ∀ (fuel : Nat) (t : Tuple),
          addToRelation sampleHash 1012 fuel (newRelation 103 (2 ^ 1) 1 cvAttr1) t = none)) :=
  ⟨⟨by decide, capacity_positive_iff_nattrs_in_range sampleHash 1012 _ (by decide)⟩,
    ⟨by decide, capacity_positive_iff_nattrs_in_range sampleHash 1012 _ (by decide)⟩⟩

/-! ## C31: the buckets that a split leaves alone -/

/-- C31: on a store that satisfies the invariants, in a call of
`addToRelation` that splits, the redistribution leaves the files `data1`,
`ovf1` in which every bucket `b` other than `oldp = sp` and `newp = sp +
2^depth` is as before: its primary page is the same page, byte for byte, with
the same overflow link, its chain is the same sequence `ch b` of overflow
pages, every one of them the same page as before, and so the bucket holds the
same tuples in the same order. -/
theorem split_leaves_other_buckets {fuel : Nat} {r r1 : Reln} {t : Tuple}
    {res : Option Nat} {ch : Nat → List Nat} (hinv : Inv hash_any B r ch)
    (hsplit : splitDue r = true)
    (h : addToRelation hash_any B fuel r t = some (r1, res)) :
    ∃ data1 ovf1,
      redistribute hash_any B fuel r = some (data1, ovf1, true) ∧
      insertTuple hash_any B fuel (advance r data1 ovf1) t = some (r1, res) ∧
      ∀ b, b < r.npages → b ≠ r.sp → b ≠ r.sp + 2 ^ r.depth →
        ∃ pg, getPage r.data b = some pg ∧ getPage data1 b = some pg ∧
          IsChain r.ovflow pg.ovflow (ch b) ∧ IsChain ovf1 pg.ovflow (ch b) ∧
          (∀ j ∈ ch b, ∃ q, getPage r.ovflow j = some q ∧ getPage ovf1 j = some q) ∧
          bucketTuples data1 ovf1 (ch b) b = bucketTuples r.data r.ovflow (ch b) b := by
  have hs := hinv.store
  have hnp : r.sp + 2 ^ r.depth = r.npages := by rw [hinv.npages_eq]; omega
  have hsplt : r.sp < r.npages := by
    have : 0 < 2 ^ r.depth := Nat.pow_pos (by omega)
    omega
  obtain ⟨_, h1 | h1 | h1⟩ := addToRelation_cases hash_any B h
  · rw [h1.1] at hsplit
    cases hsplit
  · obtain ⟨_, d, o, hr, _, _⟩ := h1
    exact absurd (redistribute_spec hash_any B hinv hr).1 (by decide)
  · obtain ⟨_, data1, ovf1, hr, hi⟩ := h1
    obtain ⟨_, ch1, hs1, hch1, _, _, hfd, hfo, _, _⟩ := redistribute_spec hash_any B hinv hr
    refine ⟨data1, ovf1, hr, hi, ?_⟩
    intro b hb hb1 hb2
    rw [hnp] at hb2
    obtain ⟨pg, hg⟩ := getPage_isSome (f := r.data) (i := b) (by rw [hs.data_len]; exact hb)
    have hg1 : getPage data1 b = some pg := by rw [hfd b hb1 hb2]; exact hg
    have hsame : ∀ j ∈ ch b, getPage ovf1 j = getPage r.ovflow j := by
      intro j hj
      exact hfo j (store_chain_lt B hs hb j hj)
        (fun hcon => hs.disj b r.sp hb hsplt hb1 j hj hcon)
    have hc := hs.chain b pg hg
    refine ⟨pg, hg, hg1, hc, isChain_congr (ch b) pg.ovflow hsame hc, ?_,
      bucketTuples_congr (ch b) b (by rw [hg1, hg]) hsame⟩
    intro j hj
    obtain ⟨q, hq⟩ := getPage_isSome (f := r.ovflow) (i := j) (store_chain_lt B hs hb j hj)
    exact ⟨q, hq, by rw [hsame j hj]; exact hq⟩

set_option maxRecDepth 100000 in
theorem split_leaves_other_buckets_witness :
    ∃ r1 res ch data1 ovf1,
      Inv sampleHash 40 chainedReln ch ∧ splitDue chainedReln = true ∧
      addToRelation sampleHash 40 8 chainedReln
        (wideTuple (Char.ofNat 102) (Char.ofNat 97) 15) = some (r1, res) ∧
      (redistribute sampleHash 40 8 chainedReln = some (data1, ovf1, true) ∧
        insertTuple sampleHash 40 8 (advance chainedReln data1 ovf1)
          (wideTuple (Char.ofNat 102) (Char.ofNat 97) 15) = some (r1, res) ∧
        ∀ b, b < chainedReln.npages → b ≠ chainedReln.sp →
          b ≠ chainedReln.sp + 2 ^ chainedReln.depth →
          ∃ pg, getPage chainedReln.data b = some pg ∧ getPage data1 b = some pg ∧
            IsChain chainedReln.ovflow pg.ovflow (ch b) ∧ IsChain ovf1 pg.ovflow (ch b) ∧
            (∀ j ∈ ch b, ∃ q, getPage chainedReln.ovflow j = some q ∧
              getPage ovf1 j = some q) ∧
            bucketTuples data1 ovf1 (ch b) b =
              bucketTuples chainedReln.data chainedReln.ovflow (ch b) b) ∧
      (1 < chainedReln.npages ∧ 1 ≠ chainedReln.sp ∧
        1 ≠ chainedReln.sp + 2 ^ chainedReln.depth) ∧
      ch 1 = [1] ∧
      getPage data1 1 =
        some ⟨wideTuple (Char.ofNat 98) (Char.ofNat 98) 15 ++ [NUL], some 1⟩ ∧
      getPage ovf1 1 =
        some ⟨wideTuple (Char.ofNat 100) (Char.ofNat 98) 15 ++ [NUL], none⟩ ∧
      bucketTuples data1 ovf1 (ch 1) 1 =
        [wideTuple (Char.ofNat 98) (Char.ofNat 98) 15,
         wideTuple (Char.ofNat 100) (Char.ofNat 98) 15] ∧
      data1 ≠ chainedReln.data ∧ ovf1 ≠ chainedReln.ovflow := by
  obtain ⟨⟨r1, res⟩, h, _⟩ := eval_some
    (addToRelation sampleHash 40 8 chainedReln (wideTuple (Char.ofNat 102) (Char.ofNat 97) 15))
    (fun _ => true) (by decide)
  obtain ⟨ch, hinv⟩ := inv_of_reachable sampleHash 40 reachable_chainedReln
  have hsplit : splitDue chainedReln = true := by decide
  have hthm := split_leaves_other_buckets sampleHash 40 hinv hsplit h
  obtain ⟨data1, ovf1, hr, hi, hrest⟩ := hthm
  have hb : 1 < chainedReln.npages ∧ 1 ≠ chainedReln.sp ∧
      1 ≠ chainedReln.sp + 2 ^ chainedReln.depth := by decide
  obtain ⟨pg, hg, hg1, hc, hc1, hsame, hbt⟩ := hrest 1 hb.1 hb.2.1 hb.2.2
  have hpg : pg = ⟨wideTuple (Char.ofNat 98) (Char.ofNat 98) 15 ++ [NUL], some 1⟩ := by
    have : getPage chainedReln.data 1 =
        some ⟨wideTuple (Char.ofNat 98) (Char.ofNat 98) 15 ++ [NUL], some 1⟩ := by decide
    rw [hg] at this
    exact Option.some.inj this
  have hch : ch 1 = [1] := by
    refine isChain_unique _ _ _ hc ?_
    rw [hpg]
    simp [IsChain, getPage, chainedReln]
  have hq : getPage ovf1 1 =
      some ⟨wideTuple (Char.ofNat 100) (Char.ofNat 98) 15 ++ [NUL], none⟩ := by
    obtain ⟨q, hq0, hq1⟩ := hsame 1 (by rw [hch]; simp)
    have : getPage chainedReln.ovflow 1 =
        some ⟨wideTuple (Char.ofNat 100) (Char.ofNat 98) 15 ++ [NUL], none⟩ := by decide
    rw [hq1, ← hq0, this]
  have hval : bucketTuples data1 ovf1 (ch 1) 1 =
      [wideTuple (Char.ofNat 98) (Char.ofNat 98) 15,
       wideTuple (Char.ofNat 100) (Char.ofNat 98) 15] := by
    rw [hbt, hch]
    decide
  have hred : (redistribute sampleHash 40 8 chainedReln).map
      (fun x => decide (x.1 ≠ chainedReln.data) && decide (x.2.1 ≠ chainedReln.ovflow))
      = some true := by
    decide
  rw [hr] at hred
  simp only [Option.map_some', Option.some.injEq, Bool.and_eq_true, decide_eq_true_eq] at hred
  rw [hpg] at hg1
  exact ⟨r1, res, ch, data1, ovf1, hinv, hsplit, h, ⟨hr, hi, hrest⟩, hb, hch, hg1, hq, hval,
    hred.1, hred.2⟩

/-! ## C34: the first redistribution loop stays on the two primary pages -/

theorem putPage_length_ge (f : List Page) (i : Nat) (p : Page) :
    f.length ≤ (putPage f i p).length := by
  unfold putPage
  split
  · rw [List.length_set]
  · simp only [List.length_append, List.length_replicate, List.length_singleton]
    omega

/-- The overflow path of the first redistribution loop, when it returns, has
appended a page to the overflow file. -/
theorem loop1Overflow_length {fuel : Nat} {s s2 : Loop1} {p : Nat} {t : Tuple} {ok : Bool}
    (h : loop1Overflow B fuel s p t = some (s2, ok)) :
    s.ovflow.length < s2.ovflow.length := by
  have hfresh : ∀ (f : List Page), f.length < (f ++ [newPage]).length := by
    intro f
    simp
  unfold loop1Overflow at h
  simp only [freshOvflow_eq] at h
  cases ho : pageOvflow s.np1 with
  | none =>
    rw [ho] at h
    simp only [] at h
    cases hn : addToPage B newPage t with
    | none =>
      rw [hn] at h
      simp only [Option.some.injEq, Prod.mk.injEq] at h
      rw [← h.1]
      exact hfresh _
    | some n1 =>
      rw [hn] at h
      simp only [Option.some.injEq, Prod.mk.injEq] at h
      rw [← h.1]
      exact lt_of_lt_of_le (hfresh _) (putPage_length_ge _ _ _)
  | some ovp0 =>
    rw [ho] at h
    simp only [] at h
    cases hs : scanChain B t s.ovflow fuel ovp0 none with
    | none => rw [hs] at h; simp at h
    | some out =>
      rw [hs] at h
      cases out with
      | found ovp ovpg1 prev =>
        cases prev with
        | none => simp at h
        | some pp =>
          obtain ⟨prevp, prevpg⟩ := pp
          simp only [] at h
          cases hn : addToPage B newPage t with
          | none =>
            rw [hn] at h
            simp only [Option.some.injEq, Prod.mk.injEq] at h
            rw [← h.1]
            exact lt_of_le_of_lt (putPage_length_ge _ _ _) (hfresh _)
          | some n1 =>
            rw [hn] at h
            simp only [Option.some.injEq, Prod.mk.injEq] at h
            rw [← h.1]
            exact lt_of_le_of_lt (putPage_length_ge _ _ _)
              (lt_of_lt_of_le (hfresh _)
                (le_trans (putPage_length_ge _ _ _) (putPage_length_ge _ _ _)))
      | exhausted prevp prevpg =>
        simp only [] at h
        cases hn : addToPage B newPage t with
        | none =>
          rw [hn] at h
          simp only [Option.some.injEq, Prod.mk.injEq] at h
          rw [← h.1]
          exact hfresh _
        | some n1 =>
          rw [hn] at h
          simp only [Option.some.injEq, Prod.mk.injEq] at h
          rw [← h.1]
          exact lt_of_lt_of_le (hfresh _)
            (le_trans (putPage_length_ge _ _ _) (putPage_length_ge _ _ _))

/-- One iteration of the first redistribution loop never shortens the overflow
file, and when it does not lengthen it, `addToPage` on the buffer of the
primary page succeeded and the overflow file is untouched. -/
theorem loop1Step_primary {fuel : Nat} {r : Reln} {s s2 : Loop1} {t : Tuple} {ok : Bool}
    (h : loop1Step hash_any B fuel r s t = some (s2, ok)) :
    s.ovflow.length ≤ s2.ovflow.length ∧
    (s2.ovflow.length ≤ s.ovflow.length →
      s2.ovflow = s.ovflow ∧ ok = true ∧
      ∃ pg1, addToPage B
        (if getLower (tupleHash hash_any r t) (r.depth + 1) = r.sp then s.np1 else s.np2) t
          = some pg1) := by
  unfold loop1Step at h
  by_cases hp : getLower (tupleHash hash_any r t) (r.depth + 1) = r.sp
  · rw [if_pos hp] at h
    rw [if_pos hp]
    cases ha : addToPage B s.np1 t with
    | none =>
      rw [ha] at h
      simp only [] at h
      have := loop1Overflow_length B h
      exact ⟨by omega, fun hle => absurd hle (by omega)⟩
    | some pg1 =>
      rw [ha] at h
      simp only [] at h
      split at h
      · cases h
      · simp only [Option.some.injEq, Prod.mk.injEq] at h
        obtain ⟨rfl, rfl⟩ := h
        exact ⟨le_refl _, fun _ => ⟨rfl, rfl, pg1, rfl⟩⟩
  · rw [if_neg hp] at h
    rw [if_neg hp]
    cases ha : addToPage B s.np2 t with
    | none =>
      rw [ha] at h
      simp only [] at h
      have := loop1Overflow_length B h
      exact ⟨by omega, fun hle => absurd hle (by omega)⟩
    | some pg1 =>
      rw [ha] at h
      simp only [] at h
      split at h
      · cases h
      · simp only [Option.some.injEq, Prod.mk.injEq] at h
        obtain ⟨rfl, rfl⟩ := h
        exact ⟨le_refl _, fun _ => ⟨rfl, rfl, pg1, rfl⟩⟩

theorem loop1_ovflow_le (fuel : Nat) (r : Reln) :
    ∀ (ts : List Tuple) (s s1 : Loop1) (ok : Bool),
      loop1 hash_any B fuel r ts s = some (s1, ok) →
      s.ovflow.length ≤ s1.ovflow.length ∧
      (s1.ovflow.length ≤ s.ovflow.length → s1.ovflow = s.ovflow) := by
  intro ts
  induction ts with
  | nil =>
    intro s s1 ok h
    simp only [loop1, Option.some.injEq, Prod.mk.injEq] at h
    rw [← h.1]
    exact ⟨le_refl _, fun _ => rfl⟩
  | cons t ts ih =>
    intro s s1 ok h
    rw [loop1] at h
    cases hst : loop1Step hash_any B fuel r s t with
    | none => rw [hst] at h; simp at h
    | some x =>
      obtain ⟨s2, ok2⟩ := x
      rw [hst] at h
      obtain ⟨hle, heq⟩ := loop1Step_primary hash_any B hst
      cases ok2 with
      | false =>
        simp only [Option.some.injEq, Prod.mk.injEq] at h
        rw [← h.1]
        exact ⟨hle, fun h2 => (heq h2).1⟩
      | true =>
        simp only [] at h
        obtain ⟨hle2, heq2⟩ := ih s2 s1 ok h
        refine ⟨by omega, fun h2 => ?_⟩
        rw [heq2 (by omega), (heq (by omega)).1]

/-- The run of the first redistribution loop over `pre ++ t :: post` passes
through the state left by the run over `pre`, in which the iteration for `t`
starts. -/
theorem loop1_split (fuel : Nat) (r : Reln) (t : Tuple) (post : List Tuple) :
    ∀ (pre : List Tuple) (s s1 : Loop1),
      loop1 hash_any B fuel r (pre ++ t :: post) s = some (s1, true) →
      ∃ s0, loop1 hash_any B fuel r pre s = some (s0, true) ∧
        loop1 hash_any B fuel r (t :: post) s0 = some (s1, true) := by
  intro pre
  induction pre with
  | nil =>
    intro s s1 h
    exact ⟨s, rfl, h⟩
  | cons u pre ih =>
    intro s s1 h
    rw [List.cons_append, loop1] at h
    rw [loop1]
    cases hst : loop1Step hash_any B fuel r s u with
    | none => rw [hst] at h; simp at h
    | some x =>
      obtain ⟨s2, ok2⟩ := x
      rw [hst] at h
      cases ok2 with
      | false => simp at h
      | true =>
        simp only [] at h ⊢
        exact ih s2 s1 h
/-- The first redistribution loop of a split, from a state that satisfies the
store invariant: started on the two emptied primary pages it runs to its end
and leaves the overflow file as it was; the second loop starts from there. -/
theorem redistribute_first_loop (fuel : Nat) {r : Reln} {ch : Nat → List Nat}
    (hinv : Inv hash_any B r ch) :
    ∃ (pg : Page) (s1 : Loop1), getPage r.data r.sp = some pg ∧
      loop1 hash_any B fuel r (pageTuples pg)
        ⟨putPage (putPage r.data r.sp ⟨[], pg.ovflow⟩) (r.sp + 2 ^ r.depth) ⟨[], none⟩,
          r.ovflow, ⟨[], pg.ovflow⟩, ⟨[], none⟩⟩ = some (s1, true) ∧
      s1.ovflow = r.ovflow ∧
      redistribute hash_any B fuel r =
        loop2 hash_any B fuel r fuel pg.ovflow s1.data s1.ovflow := by
  have hs := hinv.store
  have hnp : r.sp + 2 ^ r.depth = r.npages := by rw [hinv.npages_eq]; omega
  have hpos : 0 < 2 ^ r.depth := Nat.pow_pos (by omega)
  have hspn : r.sp < r.npages := by omega
  have hne : r.npages ≠ r.sp := by omega
  obtain ⟨pg, hg⟩ := getPage_isSome (f := r.data) (i := r.sp) (by rw [hs.data_len]; exact hspn)
  have hpgok := hs.data_ok r.sp pg hg
  have hspl : r.sp < r.data.length := getPage_lt hg
  have hbt : bucketTuples r.data r.ovflow (ch r.sp) r.sp =
      pageTuples pg ++ chainTuples r.ovflow (ch r.sp) := bucketTuples_eq _ _ _ _ pg hg
  have hcls : ∀ t ∈ bucketTuples r.data r.ovflow (ch r.sp) r.sp,
      getLower (tupleHash hash_any r t) (r.depth + 1) = r.sp ∨
        getLower (tupleHash hash_any r t) (r.depth + 1) = r.npages := by
    intro t ht
    have := split_address hinv.sp_lt (hinv.hash r.sp hspn t ht)
    rw [hnp] at this
    exact this
  have hl : (putPage r.data r.sp ⟨[], pg.ovflow⟩).length = r.npages := by
    rw [length_putPage_lt r.data r.sp _ hspl, hs.data_len]
  have e1 : putPage (putPage r.data r.sp ⟨[], pg.ovflow⟩) r.npages ⟨[], none⟩ =
      putPage r.data r.sp ⟨[], pg.ovflow⟩ ++ [newPage] := by
    rw [← hl]; exact putPage_length_self _ _
  have hgb_sp : getPage (putPage r.data r.sp ⟨[], pg.ovflow⟩ ++ [newPage]) r.sp =
      some ⟨[], pg.ovflow⟩ := by
    rw [getPage_append_left _ _ _ (by rw [hl]; exact hspn)]
    exact getPage_putPage_same _ _ _
  have hgb_n : getPage (putPage r.data r.sp ⟨[], pg.ovflow⟩ ++ [newPage]) r.npages =
      some newPage := by
    rw [← hl]; exact getPage_append_length _ _
  have hBold : (encode ((pageTuples pg).filter (staysOld hash_any r))).length ≤ B := by
    have := encode_filter_le (pageTuples pg) (staysOld hash_any r)
    have h2 := hpgok.1
    rw [hpgok.2.2] at h2
    omega
  have hBnew : (encode ((pageTuples pg).filter (fun t => !staysOld hash_any r t))).length
      ≤ B := by
    have := encode_filter_le (pageTuples pg) (fun t => !staysOld hash_any r t)
    have h2 := hpgok.1
    rw [hpgok.2.2] at h2
    omega
  obtain ⟨s1, hl1, hov1, _, _, _, _⟩ :=
    loop1_spec hash_any B fuel r r.npages pg.ovflow none hne (pageTuples pg)
      ⟨putPage r.data r.sp ⟨[], pg.ovflow⟩ ++ [newPage], r.ovflow, ⟨[], pg.ovflow⟩, ⟨[], none⟩⟩
      [] []
      (fun t ht => hcls t (by rw [hbt]; simp [ht]))
      hgb_sp hgb_n rfl rfl (by simpa using hBold) (by simpa using hBnew)
  simp only at hov1
  refine ⟨pg, s1, hg, by rw [hnp, e1]; exact hl1, hov1, ?_⟩
  unfold redistribute
  rw [hg]
  simp only [pageSetOvflow, pageOvflow, newPage]
  rw [getPage_putPage_same]
  simp only [hnp]
  rw [e1, hgb_n]
  simp only [newPage]
  simp only [newPage] at hl1
  rw [hl1]

/-- C34: on a store that satisfies the invariants, the first redistribution
loop of a split (lines 155-273), started on the two emptied primary pages with
the tuples of the old primary page `pg`, runs to its end without `return
NO_PAGE` and leaves the overflow file as it was; and for every tuple `t` of the
page, in the state `s` in which its iteration starts (the state left by the
iterations for the tuples `pre` before it), the overflow file is still as it
was and `addToPage` succeeds on the buffer of the primary page that `t` is sent
to (`NewPage1` when its low `depth + 1` hash bits are the split pointer,
`NewPage2` otherwise), so that the branch with the allocation of an overflow
page, the scan of a chain, the `assert` and `return NO_PAGE` is not
entered. -/
theorem split_first_loop_stays_on_primary_pages (fuel : Nat) {r : Reln}
    {ch : Nat → List Nat} (hinv : Inv hash_any B r ch) :
    ∃ (pg : Page) (s1 : Loop1), getPage r.data r.sp = some pg ∧
      loop1 hash_any B fuel r (pageTuples pg)
        ⟨putPage (putPage r.data r.sp ⟨[], pg.ovflow⟩) (r.sp + 2 ^ r.depth) ⟨[], none⟩,
          r.ovflow, ⟨[], pg.ovflow⟩, ⟨[], none⟩⟩ = some (s1, true) ∧
      s1.ovflow = r.ovflow ∧
      redistribute hash_any B fuel r =
        loop2 hash_any B fuel r fuel pg.ovflow s1.data s1.ovflow ∧
      ∀ (pre : List Tuple) (t : Tuple) (post : List Tuple),
        pageTuples pg = pre ++ t :: post →
        ∃ (s s2 : Loop1) (pg1 : Page),
          loop1 hash_any B fuel r pre
            ⟨putPage (putPage r.data r.sp ⟨[], pg.ovflow⟩) (r.sp + 2 ^ r.depth) ⟨[], none⟩,
              r.ovflow, ⟨[], pg.ovflow⟩, ⟨[], none⟩⟩ = some (s, true) ∧
          s.ovflow = r.ovflow ∧
          addToPage B
            (if getLower (tupleHash hash_any r t) (r.depth + 1) = r.sp then s.np1 else s.np2) t
              = some pg1 ∧
          loop1Step hash_any B fuel r s t = some (s2, true) ∧ s2.ovflow = r.ovflow ∧
          loop1 hash_any B fuel r post s2 = some (s1, true) := by
  obtain ⟨pg, s1, hg, hl1, hov1, hred⟩ := redistribute_first_loop hash_any B fuel hinv
  refine ⟨pg, s1, hg, hl1, hov1, hred, ?_⟩
  intro pre t post hsplit
  rw [hsplit] at hl1
  obtain ⟨s, hpre, hrest⟩ := loop1_split hash_any B fuel r t post pre _ s1 hl1
  obtain ⟨hle1, heq1⟩ := loop1_ovflow_le hash_any B fuel r pre _ s true hpre
  simp only at hle1 heq1
  rw [loop1] at hrest
  cases hst : loop1Step hash_any B fuel r s t with
  | none => rw [hst] at hrest; simp at hrest
  | some x =>
    obtain ⟨s2, ok2⟩ := x
    rw [hst] at hrest
    cases ok2 with
    | false => simp at hrest
    | true =>
      simp only [] at hrest
      obtain ⟨hle2, heq2⟩ := loop1Step_primary hash_any B hst
      obtain ⟨hle3, _⟩ := loop1_ovflow_le hash_any B fuel r post s2 s1 true hrest
      have hlen : s1.ovflow.length = r.ovflow.length := by rw [hov1]
      have hs : s.ovflow = r.ovflow := heq1 (by omega)
      obtain ⟨h2, _, pg1, hadd⟩ := heq2 (by omega)
      exact ⟨s, s2, pg1, hpre, hs, hadd, hst, by rw [h2, hs], hrest⟩
set_option maxRecDepth 100000 in
theorem split_first_loop_stays_on_primary_pages_witness :
    ∃ (r : Reln) (ch : Nat → List Nat) (pg : Page) (s1 : Loop1),
      insertAll sampleHash 1012 4 (newRelation 40 (2 ^ 1) 1 cvAttr1)
        [wideTuple (Char.ofNat 97) (Char.ofNat 99) 38] = some r ∧
      Inv sampleHash 1012 r ch ∧ splitDue r = true ∧
      pageTuples pg = [wideTuple (Char.ofNat 97) (Char.ofNat 99) 38] ∧
      getPage r.data r.sp = some pg ∧
      loop1 sampleHash 1012 4 r (pageTuples pg)
        ⟨putPage (putPage r.data r.sp ⟨[], pg.ovflow⟩) (r.sp + 2 ^ r.depth) ⟨[], none⟩,
          r.ovflow, ⟨[], pg.ovflow⟩, ⟨[], none⟩⟩ = some (s1, true) ∧
      s1.ovflow = r.ovflow ∧
      redistribute sampleHash 1012 4 r =
        loop2 sampleHash 1012 4 r 4 pg.ovflow s1.data s1.ovflow ∧
      ∀ (pre : List Tuple) (t : Tuple) (post : List Tuple),
        pageTuples pg = pre ++ t :: post →
        ∃ (s s2 : Loop1) (pg1 : Page),
          loop1 sampleHash 1012 4 r pre
            ⟨putPage (putPage r.data r.sp ⟨[], pg.ovflow⟩) (r.sp + 2 ^ r.depth) ⟨[], none⟩,
              r.ovflow, ⟨[], pg.ovflow⟩, ⟨[], none⟩⟩ = some (s, true) ∧
          s.ovflow = r.ovflow ∧
          addToPage 1012
            (if getLower (tupleHash sampleHash r t) (r.depth + 1) = r.sp then s.np1
              else s.np2) t = some pg1 ∧
          loop1Step sampleHash 1012 4 r s t = some (s2, true) ∧ s2.ovflow = r.ovflow ∧
          loop1 sampleHash 1012 4 r post s2 = some (s1, true) := by
  obtain ⟨r, h, hP⟩ := eval_some
    (insertAll sampleHash 1012 4 (newRelation 40 (2 ^ 1) 1 cvAttr1)
      [wideTuple (Char.ofNat 97) (Char.ofNat 99) 38])
    (fun x => splitDue x && decide (x.sp = 0) &&
      decide ((getPage x.data 0).map pageTuples =
        some [wideTuple (Char.ofNat 97) (Char.ofNat 99) 38]))
    (by decide)
  simp only [Bool.and_eq_true, decide_eq_true_eq] at hP
  obtain ⟨⟨hsd, hsp⟩, hdata⟩ := hP
  have hreach : Reachable sampleHash 1012 r :=
    reachable_insertAll sampleHash 1012 _ (Reachable.fresh 40 1 cvAttr1)
      (by intro t ht; simp only [List.mem_singleton] at ht; subst ht; unfold validTuple; decide) h
  obtain ⟨ch, hinv⟩ := inv_of_reachable sampleHash 1012 hreach
  obtain ⟨pg, s1, hg, hrest⟩ :=
    split_first_loop_stays_on_primary_pages sampleHash 1012 4 hinv
  have hpt : pageTuples pg = [wideTuple (Char.ofNat 97) (Char.ofNat 99) 38] := by
    rw [hsp] at hg
    rw [hg] at hdata
    simpa using hdata
  exact ⟨r, ch, pg, s1, h, hinv, hsd, hpt, hg, hrest⟩

/-! ## C32: the bounds of the candidate block -/

/-- When bit `depth` is unknown and the split pointer is not 0, `startQuery`
stays within its block of `npages` entries exactly when no base is below the
split pointer or the block has two entries more than the bases and the
entries written for the bases below the split pointer. -/
theorem startQuery_in_block_iff (r : Reln) (q : Tuple) (hd : r.depth < MAXBITS)
    (hn : r.npages = 2 ^ r.depth + r.sp) (hsp0 : 0 < r.sp) (hsp : r.sp ≤ 2 ^ r.depth)
    (hu : (unknownBits r q).getD r.depth 0 = 1) :
    startQuery hash_any r q ≠ none ↔
      ((baseList (knownBits hash_any r q) (unknownBits r q) r.depth r.depth).filter
          (fun x => decide (x < r.sp)) = [] ∨
        (baseList (knownBits hash_any r q) (unknownBits r q) r.depth r.depth).length +
          ((baseList (knownBits hash_any r q) (unknownBits r q) r.depth r.depth).filter
            (fun x => decide (x < r.sp))).length + 2 ≤ r.npages) := by
  have hc := candidates_unknown hash_any r q hd hn hsp0 hsp hu
  have hl := baseList_length (knownBits hash_any r q) (unknownBits r q) r.depth r.depth
  generalize baseList (knownBits hash_any r q) (unknownBits r q) r.depth r.depth = l
    at hc hl
  unfold startQuery
  rw [hc]
  by_cases hw : l.filter (fun x => decide (x < r.sp)) = []
  · rw [if_pos hw]
    simp [hw]
  · rw [if_neg hw]
    by_cases hroom : l.length + (l.filter (fun x => decide (x < r.sp))).length + 2 ≤ r.npages
    · obtain ⟨k, hk⟩ : ∃ k, r.npages - l.length - 1 =
          (l.filter (fun x => decide (x < r.sp))).length + (k + 1) :=
        ⟨r.npages - l.length - 1 - (l.filter (fun x => decide (x < r.sp))).length - 1,
          by omega⟩
      rw [hk, List.replicate_add, List.drop_left' (by simp)]
      simp [List.replicate_succ, hroom]
    · rw [List.drop_eq_nil_of_le (by rw [List.length_replicate]; omega)]
      simp [hw, hroom]

set_option maxRecDepth 100000 in
/-- C32: at depth 2 with split pointer 1 (5 pages, `npages = 2^d + sp`, `sp <
2^d`), for the query `?,?`, the passes `j < depth` leave the block `0, 2, 1, 3,
0` with `page_record = 4`; the pass `j == depth` reads `pages2[0] = 0`, which is
below the split pointer, and writes `pages2[page_record + 1]`, that is
`pages2[5]`, outside the block of `npages = 5` entries: `startQuery` does not
stay within the array. -/
theorem startQuery_writes_past_candidate_array :
    (sampleReln 2 1).npages = 2 ^ (sampleReln 2 1).depth + (sampleReln 2 1).sp ∧
    (sampleReln 2 1).sp < 2 ^ (sampleReln 2 1).depth ∧
    (sampleReln 2 1).npages = 5 ∧
    forRange (baseStep (knownBits sampleHash (sampleReln 2 1) (wideQuery QMARK 1))
        (unknownBits (sampleReln 2 1) (wideQuery QMARK 1)) 2) 2 0
      ([0, 0, 0, 0, 0], 1) = some ([0, 2, 1, 3, 0], 4) ∧
    (unknownBits (sampleReln 2 1) (wideQuery QMARK 1)).get? 2 = some 1 ∧
    arrSet [0, 2, 1, 3, 0] (4 + 1) (0 ||| (1 <<< 2)) = none ∧
    lastStep (knownBits sampleHash (sampleReln 2 1) (wideQuery QMARK 1))
      (unknownBits (sampleReln 2 1) (wideQuery QMARK 1)) 2 1 6 0 [0, 2, 1, 3, 0] 4 = none ∧
    startQuery sampleHash (sampleReln 2 1) (wideQuery QMARK 1) = none := by
  decide
/-- A query whose attributes are all `?` makes `startQuery` leave its block
whenever the split pointer is not 0: every address below `2^depth` is a base,
so the pass `j == depth` needs `2^depth + sp + 2` entries. -/
theorem startQuery_wildcard_leaves_block (r : Reln) (q : Tuple) (hd : r.depth < MAXBITS)
    (hn : r.npages = 2 ^ r.depth + r.sp) (hsp0 : 0 < r.sp) (hsp : r.sp < 2 ^ r.depth)
    (hq : ∀ i, i < MAXBITS → (tupleVals q).getD (chvecItem r.cv i).att [] = [QMARK]) :
    startQuery hash_any r q = none := by
  have hu : ∀ i, i < MAXBITS → (unknownBits r q).getD i 0 = 1 := by
    intro i hi
    rw [unknownBits_getD r q i hi, if_pos (hq i hi)]
  have hiff := startQuery_in_block_iff hash_any r q hd hn hsp0 (le_of_lt hsp) (hu r.depth hd)
  have hmem := @mem_baseList (knownBits hash_any r q) (unknownBits r q) r.depth
    (fun i _ => knownBits_le_one hash_any r q i)
    (fun i hi h1 => known_zero_of_unknown hash_any r q i (by omega) h1) r.depth (le_refl _)
  simp only [Nat.sub_self, Nat.zero_add] at hmem
  have hl := baseList_length (knownBits hash_any r q) (unknownBits r q) r.depth r.depth
  have hlp := baseList_length_pow (knownBits hash_any r q) (unknownBits r q) r.depth r.depth
  have hall : (List.range r.depth).filter
      (fun i => decide ((unknownBits r q).getD (r.depth - i - 1) 0 = 1)) = List.range r.depth := by
    rw [List.filter_eq_self]
    intro i hi
    rw [List.mem_range] at hi
    exact decide_eq_true (hu _ (by omega))
  rw [hall, List.length_range] at hlp
  generalize baseList (knownBits hash_any r q) (unknownBits r q) r.depth r.depth = l
    at hiff hmem hl hlp
  have hsub : List.range r.sp ⊆ l.filter (fun x => decide (x < r.sp)) := by
    intro x hx
    rw [List.mem_range] at hx
    refine List.mem_filter.mpr ⟨(hmem x).mpr ⟨by omega, ?_⟩, decide_eq_true hx⟩
    intro i hi hne
    exact absurd (hu i (by omega)) hne
  have hlen := (List.subperm_of_subset (List.nodup_range r.sp) hsub).length_le
  rw [List.length_range] at hlen
  by_contra hcon
  rcases hiff.mp hcon with h1 | h1
  · rw [h1] at hlen
    simp only [List.length_nil] at hlen
    omega
  · omega

end Properties

end MALH
